import Mathlib

/-!
# Preflow-push maximum flow: the sequential reference and the Phase-Barrier program

Shallow embedding of `lab2/c/sequential.c` (the sequential reference) and of
`lab3/preflow.c` (the Phase-Barrier program, as a sequence of rounds).

* Nodes are the indices `0 .. n-1` of the array `g->v`; the node fields
  `h`, `e`, `next` are functions of the index.
* Edges are the indices `0 .. m-1` of the array `g->e`; the constant fields
  `u`, `v`, `c` live in the graph, the mutable field `f` in the state.
* The intrusive lists (`g->excess` / `node->next`, `g->active[i]`) are kept as
  pointers: a head `Option Nat` and a `next : Nat → Option Nat` field.
* C `int` comes in two readings. The definitions named after the source
  compute in exact integers (`Int`): they are the programs as long as no `int`
  computation overflows. The definitions with the suffix `32` store the result
  of every arithmetic operation in 32 bits (`int32`, a reduction modulo `2^32`);
  the two readings are proved to agree on inputs whose sizes fit (`FitsInt`).
* Loops that follow pointers or wait for a condition take a step budget
  (`fuel`); running out of budget is the result `timeout`, never a value.
-/

namespace Preflow

/-! # Part I: definitions -/

/-! ## Graph store -/

/-- One input triple `(u, v, c)`: the constant fields of an `edge_t`. -/
structure Edge where
  u : Nat
  v : Nat
  c : Int
deriving DecidableEq, Repr

/-- The graph as delivered to `new_graph`: node count and the edge triples
in input order (`m` is the length of the list). -/
structure Graph where
  n : Nat
  edges : List Edge
deriving DecidableEq, Repr

namespace Graph

/-- Number of edges `g->m`. -/
def m (g : Graph) : Nat := g.edges.length

/-- Field `g->e[i].u`. -/
def eu (g : Graph) (i : Nat) : Nat := (g.edges.getD i ⟨0, 0, 0⟩).u

/-- Field `g->e[i].v`. -/
def ev (g : Graph) (i : Nat) : Nat := (g.edges.getD i ⟨0, 0, 0⟩).v

/-- Field `g->e[i].c`. -/
def cap (g : Graph) (i : Nat) : Int := (g.edges.getD i ⟨0, 0, 0⟩).c

/-- Source `g->s = &g->v[0]`. -/
def s (_g : Graph) : Nat := 0

/-- Sink `g->t = &g->v[n - 1]`. For `n = 0` the C expression points before the
array; here it is node `0` then, and no claim depends on that case. -/
def t (g : Graph) : Nat := g.n - 1

end Graph

/-- `add_edge(u, e)`: put edge index `i` first in the adjacency list of `u`. -/
def add_edge (adj : Nat → List Nat) (u : Nat) (i : Nat) : Nat → List Nat :=
  Function.update adj u (i :: adj u)

/-- `connect(u, v, c, e)`: the shared edge object goes into both adjacency
lists, first into that of `u`, then into that of `v`. -/
def connect (adj : Nat → List Nat) (u v : Nat) (i : Nat) : Nat → List Nat :=
  add_edge (add_edge adj u i) v i

/-- The loop of `new_graph` over the input triples, from edge index `i` on. -/
def new_graph_loop : List Edge → Nat → (Nat → List Nat) → (Nat → List Nat)
  | [], _, adj => adj
  | e :: es, i, adj => new_graph_loop es (i + 1) (connect adj e.u e.v i)

/-- Adjacency lists `g->v[x].edge` as built by `new_graph`. -/
def Graph.adj (g : Graph) : Nat → List Nat :=
  new_graph_loop g.edges 0 (fun _ => [])

/-- The macro `MIN(a, b)`. -/
def MIN (a b : Int) : Int := if a ≤ b then a else b

/-- `other(u, e)`. -/
def other (g : Graph) (u : Nat) (i : Nat) : Nat :=
  if u = g.eu i then g.ev i else g.eu i

/-- `direction(u, e)` of lab2/preflow.c and lab3/preflow.c. -/
def direction (g : Graph) (u : Nat) (i : Nat) : Int :=
  if u = g.eu i then 1 else -1

/-- `available(e, dir)` of lab2/preflow.c and lab3/preflow.c, on a flow `f`, in
exact arithmetic (`available32` is the 32-bit reading). -/
def available (g : Graph) (f : Nat → Int) (i : Nat) (dir : Int) : Int :=
  g.cap i - dir * f i

/-! ## sequential.c -/

/-- Mutable part of the graph of sequential.c. -/
structure State where
  h : Nat → Int
  e : Nat → Int
  f : Nat → Int
  next : Nat → Option Nat
  excess : Option Nat

/-- Result of running a loop with a step budget. -/
inductive Outcome (α : Type) where
  | returned (a : α)
  | aborted
  | timeout
deriving DecidableEq, Repr

/-- State right after `new_graph`: `xcalloc` zeroes every field. -/
def initState : State :=
  { h := fun _ => 0, e := fun _ => 0, f := fun _ => 0, next := fun _ => none, excess := none }

/-- `enter_excess(g, v)`. -/
def enter_excess (g : Graph) (st : State) (v : Nat) : State :=
  if v ≠ g.t ∧ v ≠ g.s then
    { st with next := Function.update st.next v st.excess, excess := some v }
  else st

/-- `leave_excess(g)`: the node returned (if any) and the new state. -/
def leave_excess (st : State) : Option Nat × State :=
  match st.excess with
  | none => (none, st)
  | some v => (some v, { st with excess := st.next v })

/-- The amount `d` computed at the start of `push(g, u, v, e)`, in exact
arithmetic (`push_d32` is the 32-bit reading). -/
def push_d (g : Graph) (st : State) (u : Nat) (i : Nat) : Int :=
  if u = g.eu i then MIN (st.e u) (g.cap i - st.f i) else MIN (st.e u) (g.cap i + st.f i)

/-- The state of `push(g, u, v, e)` at its three assertions, in exact
arithmetic (`push_update32` is the 32-bit reading). -/
def push_update (g : Graph) (st : State) (u v : Nat) (i : Nat) : State :=
  let d := push_d g st u i
  let st1 : State :=
    if u = g.eu i then { st with f := Function.update st.f i (st.f i + d) }
    else { st with f := Function.update st.f i (st.f i - d) }
  let st2 : State := { st1 with e := Function.update st1.e u (st1.e u - d) }
  { st2 with e := Function.update st2.e v (st2.e v + d) }

/-- The three assertions of `push`. -/
def push_asserts (g : Graph) (st : State) (u v : Nat) (i : Nat) : Prop :=
  push_d g st u i ≥ 0 ∧ (push_update g st u v i).e u ≥ 0 ∧
    |(push_update g st u v i).f i| ≤ g.cap i

instance (g : Graph) (st : State) (u v i : Nat) : Decidable (push_asserts g st u v i) := by
  unfold push_asserts; infer_instance

/-- `push(g, u, v, e)`; `none` when one of its assertions fails. -/
def push (g : Graph) (st : State) (u v : Nat) (i : Nat) : Option State :=
  let d := push_d g st u i
  let st3 := push_update g st u v i
  if push_asserts g st u v i then
    let st4 := if st3.e u > 0 then enter_excess g st3 u else st3
    let st5 := if st4.e v = d then enter_excess g st4 v else st4
    some st5
  else none

/-- `relabel(g, u)`. -/
def relabel (g : Graph) (st : State) (u : Nat) : State :=
  enter_excess g { st with h := Function.update st.h u (st.h u + 1) } u

/-- The first loop of `preflow`: push from the source along the rest `p` of
its adjacency list. -/
def seed (g : Graph) : List Nat → State → Option State
  | [], st => some st
  | i :: p, st =>
    let st1 : State := { st with e := Function.update st.e g.s (st.e g.s + g.cap i) }
    match push g st1 g.s (other g g.s i) i with
    | none => none
    | some st2 => seed g p st2

/-- The inner scan of `preflow` over the rest `p` of the adjacency list of
`u`: the neighbour and edge at which it breaks, if any. -/
def scan (g : Graph) (st : State) (u : Nat) : List Nat → Option (Nat × Nat)
  | [] => none
  | i :: p =>
    let v := if u = g.eu i then g.ev i else g.eu i
    let b : Int := if u = g.eu i then 1 else -1
    if st.h u > st.h v ∧ b * st.f i < g.cap i then some (v, i) else scan g st u p

/-- What one test of the main loop condition and one pass of its body do. -/
inductive Step where
  | halt (st : State)
  | cont (st : State)
  | abort

/-- One iteration of the main loop of `preflow`. -/
def iter (g : Graph) (st : State) : Step :=
  match leave_excess st with
  | (none, st1) => Step.halt st1
  | (some u, st1) =>
    match scan g st1 u (g.adj u) with
    | some (v, i) =>
      match push g st1 u v i with
      | none => Step.abort
      | some st2 => Step.cont st2
    | none => Step.cont (relabel g st1 u)

/-- The main loop of `preflow` with a bound on the number of iterations. -/
def loop (g : Graph) : Nat → State → Outcome State
  | 0, _ => Outcome.timeout
  | k + 1, st =>
    match iter g st with
    | Step.halt st1 => Outcome.returned st1
    | Step.cont st1 => loop g k st1
    | Step.abort => Outcome.aborted

/-- State when the seeding loop of `preflow` starts: `s->h = g->n`. -/
def seedStart (g : Graph) (st : State) : State :=
  { st with h := Function.update st.h g.s (g.n : Int) }

/-- `preflow(g)` up to its final state, with at most `fuel` iterations of
the main loop. -/
def preflow_state (g : Graph) (st : State) (fuel : Nat) : Outcome State :=
  match seed g (g.adj g.s) (seedStart g st) with
  | none => Outcome.aborted
  | some st1 => loop g fuel st1

/-- `preflow(g)`: the value `g->t->e` it returns. -/
def preflow (g : Graph) (st : State) (fuel : Nat) : Outcome Int :=
  match preflow_state g st fuel with
  | Outcome.returned st1 => Outcome.returned (st1.e g.t)
  | Outcome.aborted => Outcome.aborted
  | Outcome.timeout => Outcome.timeout

/-- The scenario graph of the specification: four nodes, four edges. -/
def g4 : Graph := ⟨4, [⟨0, 1, 3⟩, ⟨1, 3, 2⟩, ⟨0, 2, 2⟩, ⟨2, 3, 3⟩]⟩

/-! ## Well-formed inputs and the adjacency lists -/

/-- Every endpoint is a node index. -/
def InRange (g : Graph) : Prop := ∀ e ∈ g.edges, e.u < g.n ∧ e.v < g.n

/-- No edge joins a node to itself. -/
def NoSelfLoops (g : Graph) : Prop := ∀ e ∈ g.edges, e.u ≠ e.v

/-- Every capacity is at least `0`. -/
def NonnegCaps (g : Graph) : Prop := ∀ e ∈ g.edges, 0 ≤ e.c

/-- Every capacity is at least `1`. -/
def PositiveCaps (g : Graph) : Prop := ∀ e ∈ g.edges, 0 < e.c

/-- No two edges join the same pair of nodes (in either orientation). -/
def NoParallel (g : Graph) : Prop :=
  g.edges.Pairwise (fun a b => ¬ ((a.u = b.u ∧ a.v = b.v) ∨ (a.u = b.v ∧ a.v = b.u)))

instance (g : Graph) : Decidable (InRange g) := by unfold InRange; infer_instance

instance (g : Graph) : Decidable (NoSelfLoops g) := by unfold NoSelfLoops; infer_instance

instance (g : Graph) : Decidable (NonnegCaps g) := by unfold NonnegCaps; infer_instance

instance (g : Graph) : Decidable (PositiveCaps g) := by unfold PositiveCaps; infer_instance

instance (g : Graph) : Decidable (NoParallel g) := by unfold NoParallel; infer_instance

/-! ## Invariants of the data model, on the fields `h`, `e`, `f` -/

/-- Net inflow of node `x` under the flow `f`: the sum of `f` over the edges
with `e->v = x` minus the sum of `f` over the edges with `e->u = x`. -/
def netIn (g : Graph) (f : Nat → Int) (x : Nat) : Int :=
  (∑ j ∈ Finset.range g.m, if g.ev j = x then f j else 0) -
    (∑ j ∈ Finset.range g.m, if g.eu j = x then f j else 0)

/-- Invariant 1, capacity: `|f| ≤ c` on every edge. -/
def CapInv (g : Graph) (f : Nat → Int) : Prop := ∀ j, j < g.m → |f j| ≤ g.cap j

/-- Invariant 2, conservation: the excess of every node but the source is its
net inflow. -/
def ConsInv (g : Graph) (e f : Nat → Int) : Prop := ∀ x, x ≠ g.s → e x = netIn g f x

/-- No node has negative excess. -/
def NonNeg (e : Nat → Int) : Prop := ∀ x, 0 ≤ e x

/-- Invariant 3, height validity: along every edge direction with positive
residual capacity the height drops by at most one. -/
def Valid (g : Graph) (h f : Nat → Int) : Prop :=
  ∀ j, j < g.m → ∀ u, u = g.eu j ∨ u = g.ev j →
    0 < available g f j (direction g u j) → h u ≤ h (other g u j) + 1

/-- Sign with which edge `j` enters the net inflow of node `x`. -/
def coef (g : Graph) (j x : Nat) : Int :=
  (if g.ev j = x then 1 else 0) - (if g.eu j = x then 1 else 0)

/-- The excess fields after moving `d` from `u` to `v` (`u->e -= d; v->e += d`). -/
def pushE (e : Nat → Int) (u v : Nat) (d : Int) : Nat → Int :=
  Function.update (Function.update e u (e u - d)) v (Function.update e u (e u - d) v + d)

/-- The flow fields after `edg->f += dir * d`. -/
def pushF (g : Graph) (f : Nat → Int) (u j : Nat) (d : Int) : Nat → Int :=
  Function.update f j (f j + direction g u j * d)

/-! ## The intrusive list of nodes with excess -/

/-- The pointers `next` starting at `hd` spell out the list `l` and end in `NULL`. -/
def IsList (next : Nat → Option Nat) : Option Nat → List Nat → Prop
  | hd, [] => hd = none
  | hd, x :: l => hd = some x ∧ IsList next (next x) l

/-- Node `x` counts as active: not source, not sink, positive excess. -/
def Active (g : Graph) (e : Nat → Int) (x : Nat) : Prop := x ≠ g.s ∧ x ≠ g.t ∧ 0 < e x

/-- The list `g->excess` is acyclic, duplicate-free, and holds exactly the
active nodes except possibly the node `skip` that is being processed. -/
def ExcessInv (g : Graph) (st : State) (skip : Option Nat) : Prop :=
  ∃ l, IsList st.next st.excess l ∧ l.Nodup ∧
    ∀ x, x ∈ l ↔ (Active g st.e x ∧ some x ≠ skip)

/-! ## sequential.c: capacity, conservation and the assertions of `push` -/

/-- Invariants 1 and 2 of the data model on a state of sequential.c. -/
structure CoreInv (g : Graph) (st : State) : Prop where
  cap : CapInv g st.f
  cons : ConsInv g st.e st.f
  nonneg : NonNeg st.e

/-- The state in which the seeding loop calls `push` for edge `i`: `s->e += e->c`. -/
def seedPre (g : Graph) (st : State) (i : Nat) : State :=
  { st with e := Function.update st.e g.s (st.e g.s + g.cap i) }

/-- States at the head of the seeding loop, with the rest of the source's
adjacency list still to be processed. -/
inductive SeedReach (g : Graph) (st0 : State) : List Nat → State → Prop
  | start : SeedReach g st0 (g.adj g.s) (seedStart g st0)
  | push {i : Nat} {p : List Nat} {st st2 : State} :
      SeedReach g st0 (i :: p) st →
      push g (seedPre g st i) g.s (other g g.s i) i = some st2 → SeedReach g st0 p st2

/-- States at the head of the main loop. -/
inductive LoopReach (g : Graph) (st0 : State) : State → Prop
  | seeded {st : State} : seed g (g.adj g.s) (seedStart g st0) = some st → LoopReach g st0 st
  | step {st st2 : State} : LoopReach g st0 st → iter g st = Step.cont st2 → LoopReach g st0 st2

/-- The states of a run of `preflow` after seeding started: after each push of
the seeding loop and after each push or relabel of the main loop. -/
def Reachable (g : Graph) (st : State) : Prop :=
  (∃ p, SeedReach g initState p st) ∨ LoopReach g initState st

/-- The calls `push(g, u, v, e)` made in a run of `preflow`, with the state
in which they are made. -/
inductive PushCall (g : Graph) : State → Nat → Nat → Nat → Prop
  | seeding {i : Nat} {p : List Nat} {st : State} :
      SeedReach g initState (i :: p) st →
      PushCall g (seedPre g st i) g.s (other g g.s i) i
  | main {st : State} {u v i : Nat} :
      LoopReach g initState st → st.excess = some u →
      scan g { st with excess := st.next u } u (g.adj u) = some (v, i) →
      PushCall g { st with excess := st.next u } u v i

/-- Valid inputs of sequential.c for the safety claims: endpoints in range, no
self-loops, capacities at least `0`. -/
structure SeqWF (g : Graph) : Prop where
  inRange : InRange g
  noLoops : NoSelfLoops g
  caps : NonnegCaps g

/-! ## Cuts and level gaps -/

/-- Weight of edge `j` in the net inflow of the node set `T`. -/
def cutW (g : Graph) (T : Finset Nat) (j : Nat) : Int :=
  (if g.ev j ∈ T then 1 else 0) - (if g.eu j ∈ T then 1 else 0)

/-! ## sequential.c: the full invariant for positive capacities -/

/-- Valid inputs for the functional claims: at least two nodes, endpoints in
range, no self-loops, capacities at least `1`. -/
structure PosWF (g : Graph) : Prop where
  n2 : 2 ≤ g.n
  inRange : InRange g
  noLoops : NoSelfLoops g
  caps : PositiveCaps g

instance (g : Graph) : Decidable (PosWF g) :=
  decidable_of_iff (2 ≤ g.n ∧ InRange g ∧ NoSelfLoops g ∧ PositiveCaps g)
    ⟨fun ⟨a, b, c, d⟩ => ⟨a, b, c, d⟩, fun ⟨a, b, c, d⟩ => ⟨a, b, c, d⟩⟩

instance (g : Graph) : Decidable (SeqWF g) :=
  decidable_of_iff (InRange g ∧ NoSelfLoops g ∧ NonnegCaps g)
    ⟨fun ⟨a, b, c⟩ => ⟨a, b, c⟩, fun ⟨a, b, c⟩ => ⟨a, b, c⟩⟩

/-- Invariants 1 to 3, the fixed heights of source and sink, the height
bound, and the shape of the excess list, at the head of the main loop. -/
structure FullInv (g : Graph) (st : State) : Prop where
  core : CoreInv g st
  valid : Valid g st.h st.f
  hs : st.h g.s = g.n
  ht : st.h g.t = 0
  hlow : ∀ x, 0 ≤ st.h x
  hbound : ∀ x, st.h x ≤ 2 * (g.n : Int) - 1
  list : ExcessInv g st none

/-- First component of the termination measure: the room left for relabels. -/
def potH (g : Graph) (h : Nat → Int) : Nat :=
  ∑ x ∈ Finset.range g.n, (2 * (g.n : Int) - 1 - h x).toNat

/-- Second component of the termination measure: excess weighted by height. -/
def potE (g : Graph) (h e : Nat → Int) : Nat :=
  (∑ x ∈ Finset.range g.n, e x * h x).toNat

/-! ## sequential.c: seeding -/

/-- State of the seeding loop with the rest `p` of the source's adjacency
list still to be processed. -/
structure SeedInv (g : Graph) (st : State) (p : List Nat) : Prop where
  core : CoreInv g st
  h_eq : st.h = Function.update (fun _ => 0) g.s (g.n : Int)
  es : st.e g.s = 0
  list : ExcessInv g st none
  done : ∀ j, j < g.m → (g.s = g.eu j ∨ g.s = g.ev j) → j ∉ p →
    available g st.f j (direction g g.s j) = 0
  todo : ∀ j, j ∈ p → st.f j = 0

/-! ## Maximum flow -/

/-- A flow of the network: every edge `(u, v, c)` carries a signed flow `φ`
with `|φ| ≤ c`, and every node other than source and sink has net inflow `0`. -/
def FeasibleFlow (g : Graph) (φ : Nat → Int) : Prop :=
  CapInv g φ ∧ ∀ x, x < g.n → x ≠ g.s → x ≠ g.t → netIn g φ x = 0

/-- Value of a flow: the net inflow of the sink. -/
def flowValue (g : Graph) (φ : Nat → Int) : Int := netIn g φ g.t

/-- The number `val` is the value of a maximum flow from node `0` to node `n - 1`. -/
def IsMaxFlowValue (g : Graph) (val : Int) : Prop :=
  (∃ φ, FeasibleFlow g φ ∧ flowValue g φ = val) ∧ ∀ φ, FeasibleFlow g φ → flowValue g φ ≤ val

/-! ## sequential.c: connectivity -/

/-- Some edge joins `a` and `b`, in either orientation. -/
def Adj (g : Graph) (a b : Nat) : Prop :=
  ∃ e ∈ g.edges, (e.u = a ∧ e.v = b) ∨ (e.u = b ∧ e.v = a)

/-- Some edge is stated from `a` to `b` (`e->u = a`, `e->v = b`). -/
def DirAdj (g : Graph) (a b : Nat) : Prop := ∃ e ∈ g.edges, e.u = a ∧ e.v = b

/-- Node `b` can be reached from `a` along edges in either orientation. -/
def Conn (g : Graph) : Nat → Nat → Prop := Relation.ReflTransGen (Adj g)

/-- Node `b` can be reached from `a` along edges in their stated direction. -/
def DirReach (g : Graph) : Nat → Nat → Prop := Relation.ReflTransGen (DirAdj g)

/-- Only nodes connected to the source carry excess. -/
def ConnInv (g : Graph) (e : Nat → Int) : Prop := ∀ x, e x ≠ 0 → Conn g g.s x

/-! ## lab3/preflow.c: the Phase-Barrier program, as rounds -/

/-- A deferred mutation `action_t`. The fields `flo`, `dir`, `edge` of a
relabel action are never read; they are `0` here. -/
structure Action where
  node : Nat
  relabel : Bool
  flo : Int
  dir : Int
  edge : Nat
deriving DecidableEq, Repr

/-- Mutable part of the graph of lab3/preflow.c: the node and edge fields, one
active list `g->active[i]` and one action queue `g->action[i]` per worker, and
the completion flag `g->fin`. The action queues hold freshly allocated
records, so each is a plain list. -/
structure PState where
  h : Nat → Int
  e : Nat → Int
  f : Nat → Int
  next : Nat → Option Nat
  active : Nat → Option Nat
  action : Nat → List Action
  fin : Bool

/-- State right after `new_graph` of lab3: every field zeroed. -/
def initPState : PState :=
  { h := fun _ => 0, e := fun _ => 0, f := fun _ => 0, next := fun _ => none,
    active := fun _ => none, action := fun _ => [], fin := false }

/-- `add_active(g, node, thr)`. -/
def add_active (g : Graph) (st : PState) (node : Nat) (i : Nat) : PState :=
  if node ≠ g.t ∧ node ≠ g.s then
    { st with next := Function.update st.next node (st.active i),
              active := Function.update st.active i (some node) }
  else st

/-- `pop_active(g, thr)`. -/
def pop_active (st : PState) (i : Nat) : Option Nat × PState :=
  match st.active i with
  | none => (none, st)
  | some a => (some a, { st with active := Function.update st.active i (st.next a) })

/-- `queue_action(g, action, thr)`. -/
def queue_action (st : PState) (a : Action) (i : Nat) : PState :=
  { st with action := Function.update st.action i (a :: st.action i) }

/-- The edge scan of `work` for the active node `u` of worker `i`, over the
rest of the adjacency list: `while (adj != NULL && active->e > 0)`. -/
def work_scan (g : Graph) (i u : Nat) : List Nat → PState → PState
  | [], st => st
  | j :: adj, st =>
    if st.e u > 0 then
      let nei := other g u j
      let dir := direction g u j
      let ava := available g st.f j dir
      if st.h u > st.h nei ∧ ava > 0 then
        let flo := MIN (st.e u) ava
        let st1 : PState := { st with e := Function.update st.e u (st.e u - flo) }
        work_scan g i u adj (queue_action st1 ⟨nei, false, flo, dir, j⟩ i)
      else work_scan g i u adj st
    else st

/-- What `work` does with one active node `u`: the edge scan, then the
relabel action if excess is left. -/
def work_node (g : Graph) (i u : Nat) (st : PState) : PState :=
  let st1 := work_scan g i u (g.adj u) st
  if st1.e u > 0 then queue_action st1 ⟨u, true, 0, 0, 0⟩ i else st1

/-- The compute phase of worker `i`: `while (active != NULL)`, popping from
its own partition, with a bound on the number of nodes popped. -/
def work_compute (g : Graph) (i : Nat) : Nat → PState → Option PState
  | 0, _ => none
  | k + 1, st =>
    match pop_active st i with
    | (none, st1) => some st1
    | (some u, st1) => work_compute g i k (work_node g i u st1)

/-- The compute phases of the workers in the list, one after the other. -/
def compute_workers (g : Graph) (fuel : Nat) : List Nat → PState → Option PState
  | [], st => some st
  | i :: is, st =>
    match work_compute g i fuel st with
    | none => none
    | some st1 => compute_workers g fuel is st1

/-- What the coordinator does with one action popped from queue `i`, in exact
arithmetic (`apply_action_32` is the 32-bit reading). -/
def apply_action (g : Graph) (i : Nat) (a : Action) (st : PState) : PState :=
  if a.relabel then
    add_active g { st with h := Function.update st.h a.node (st.h a.node + 1) } a.node i
  else
    let st1 : PState := { st with e := Function.update st.e a.node (st.e a.node + a.flo) }
    let st2 : PState := { st1 with f := Function.update st1.f a.edge (st1.f a.edge + a.flo * a.dir) }
    if st2.e a.node = a.flo then add_active g st2 a.node i else st2

/-- The coordinator's loop `while (action != NULL)` over queue `i`; each
`pop_action` leaves the rest of the list in `g->action[i]`. -/
def apply_queue (g : Graph) (i : Nat) : List Action → PState → PState
  | [], st => st
  | a :: rest, st =>
    apply_queue g i rest (apply_action g i a { st with action := Function.update st.action i rest })

/-- The coordinator's `for` loop over the workers in the list, counting in `d`
the partitions found empty after their queue is drained. -/
def apply_workers (g : Graph) : List Nat → PState × Nat → PState × Nat
  | [], r => r
  | i :: is, (st, d) =>
    let st1 := apply_queue g i (st.action i) st
    apply_workers g is (st1, if st1.active i = none then d + 1 else d)

/-- The apply phase of one round: drain every queue, then set `fin` if every
partition is empty. -/
def apply_phase (g : Graph) (thr : Nat) (st : PState) : PState :=
  let r := apply_workers g (List.range thr) (st, 0)
  if r.2 = thr then { r.1 with fin := true } else r.1

/-- The rounds of the Phase-Barrier program: while `fin` is not set, every
worker computes on its own partition, then the coordinator applies. `fuel`
bounds the number of rounds and the number of nodes a worker pops in a round. -/
def rounds (g : Graph) (thr fuel : Nat) : Nat → PState → Outcome PState
  | 0, _ => Outcome.timeout
  | k + 1, st =>
    if st.fin then Outcome.returned st
    else
      match compute_workers g fuel (List.range thr) st with
      | none => Outcome.timeout
      | some st1 => rounds g thr fuel k (apply_phase g thr st1)

/-- The loop `Initial push from source` of lab3's `preflow`, over the rest of
the source's adjacency list, with the round-robin counter `i`. -/
def seed3 (g : Graph) (thr : Nat) : List Nat → Nat → PState → PState
  | [], _, st => st
  | j :: adj, i, st =>
    let nei := other g g.s j
    let dir := direction g g.s j
    let st1 : PState := { st with f := Function.update st.f j (st.f j + dir * g.cap j) }
    let st2 : PState := { st1 with e := Function.update st1.e nei (st1.e nei + g.cap j) }
    let st3 := add_active g st2 nei i
    seed3 g thr adj (if (i : Int) = (thr : Int) - 1 then 0 else i + 1) st3

/-- State of lab3's `preflow` after seeding. -/
def seeded3 (g : Graph) (thr : Nat) (st : PState) : PState :=
  seed3 g thr (g.adj g.s) 0 { st with h := Function.update st.h g.s (g.n : Int) }

/-- `preflow(g)` of lab3 up to its final state, with `thr` workers. -/
def preflow3_state (g : Graph) (thr : Nat) (st : PState) (fuel : Nat) : Outcome PState :=
  rounds g thr fuel fuel (seeded3 g thr st)

/-- `preflow(g)` of lab3: the value `g->t->e` it returns. -/
def preflow3 (g : Graph) (thr : Nat) (st : PState) (fuel : Nat) : Outcome Int :=
  match preflow3_state g thr st fuel with
  | Outcome.returned st1 => Outcome.returned (st1.e g.t)
  | Outcome.aborted => Outcome.aborted
  | Outcome.timeout => Outcome.timeout

/-- The scenario graph with two nodes and the single edge `(0, 1, c)`. -/
def gSingle (c : Int) : Graph := ⟨2, [⟨0, 1, c⟩]⟩

/-- Sum of `F` over the actions in the queues of the workers `0 .. thr-1`. -/
def qsum (F : Action → Int) (q : Nat → List Action) (thr : Nat) : Int :=
  ∑ i ∈ Finset.range thr, ((q i).map F).sum

/-- The action relabels node `x`. -/
def relInd (x : Nat) (a : Action) : Int := if a.relabel = true ∧ a.node = x then 1 else 0

/-- What the action adds to the excess of node `x`. -/
def inInd (x : Nat) (a : Action) : Int := if a.relabel = false ∧ a.node = x then a.flo else 0

/-- What the action adds to the flow of edge `j`. -/
def edgeInd (j : Nat) (a : Action) : Int :=
  if a.relabel = false ∧ a.edge = j then a.flo * a.dir else 0

/-- Height of `x` once every queued action is applied. -/
def vh (st : PState) (thr : Nat) (x : Nat) : Int := st.h x + qsum (relInd x) st.action thr

/-- Excess of `x` once every queued action is applied. -/
def ve (st : PState) (thr : Nat) (x : Nat) : Int := st.e x + qsum (inInd x) st.action thr

/-- Flow of edge `j` once every queued action is applied. -/
def vf (st : PState) (thr : Nat) (j : Nat) : Int := st.f j + qsum (edgeInd j) st.action thr

/-- The state in which the coordinator applies the action `a` popped from
queue `i`, whose rest is `rest`. -/
def popped (st : PState) (i : Nat) (rest : List Action) : PState :=
  { st with action := Function.update st.action i rest }

/-! ## lab3: the partitions of the active nodes -/

/-- The lists `g->active[0 .. thr-1]` are acyclic, duplicate-free and pairwise
disjoint, and together hold exactly the nodes `x` with `mem x`. -/
def PartsInv (thr : Nat) (next : Nat → Option Nat) (active : Nat → Option Nat)
    (mem : Nat → Prop) : Prop :=
  ∃ L : Nat → List Nat, (∀ i, i < thr → IsList next (active i) (L i) ∧ (L i).Nodup) ∧
    (∀ i j x, i < thr → j < thr → x ∈ L i → x ∈ L j → i = j) ∧
    (∀ x, (∃ i, i < thr ∧ x ∈ L i) ↔ mem x)

/-- The number of relabel actions queued for node `x`. -/
def rcAll (st : PState) (thr : Nat) (x : Nat) : Int := qsum (relInd x) st.action thr

/-- State of the apply phase, between two actions. -/
structure ApplyInv (g : Graph) (thr : Nat) (st : PState) : Prop where
  parts : PartsInv thr st.next st.active (fun x => Active g st.e x ∧ rcAll st thr x = 0)
  rc01 : ∀ x, rcAll st thr x = 0 ∨ rcAll st thr x = 1
  rcAct : ∀ x, rcAll st thr x = 1 → Active g st.e x
  nonneg : NonNeg st.e
  flo : ∀ i, i < thr → ∀ a ∈ st.action i, a.relabel = false → 0 < a.flo

/-- The state after `action->node->h += 1`. -/
def bumped (st : PState) (x : Nat) : PState :=
  { st with h := Function.update st.h x (st.h x + 1) }

/-- The state after `action->node->e += action->flo` and
`action->edge->f += action->flo * action->dir`. -/
def received (st : PState) (a : Action) : PState :=
  { st with e := Function.update st.e a.node (st.e a.node + a.flo),
            f := Function.update st.f a.edge (st.f a.edge + a.flo * a.dir) }

/-! ## lab3: the apply phase -/

/-- The invariants of the data model on plain fields, with the fixed heights
of source and sink and the height bound. -/
structure VirtInv (g : Graph) (h e f : Nat → Int) : Prop where
  cap : CapInv g f
  cons : ConsInv g e f
  nonneg : NonNeg e
  valid : Valid g h f
  hs : h g.s = g.n
  ht : h g.t = 0
  hlow : ∀ x, 0 ≤ h x
  hbound : ∀ x, h x ≤ 2 * (g.n : Int) - 1

/-- State of lab3 at a round boundary: the invariants of the data model hold,
the partitions hold exactly the active nodes, every queue is empty. -/
structure RoundInv (g : Graph) (thr : Nat) (st : PState) : Prop where
  virt : VirtInv g st.h st.e st.f
  parts : PartsInv thr st.next st.active (Active g st.e)
  queues : ∀ i, i < thr → st.action i = []

/-! ## lab3: the compute phase -/

/-- Weighted excess of the state that the queued actions lead to, with the
heights of the round start `R` as weights. -/
def potV (g : Graph) (thr : Nat) (R st : PState) : Int :=
  ∑ x ∈ Finset.range g.n, ve st thr x * R.h x

/-- Part of the compute-phase invariant that does not depend on which nodes
have been processed. `R` is the state at the start of the round. -/
structure CompBase (g : Graph) (thr : Nat) (R st : PState) : Prop where
  h_eq : st.h = R.h
  f_eq : st.f = R.f
  next_eq : st.next = R.next
  fin_eq : st.fin = R.fin
  nonneg : NonNeg st.e
  cap : CapInv g (vf st thr)
  cons : ConsInv g (ve st thr) (vf st thr)
  valid : Valid g (vh st thr) (vf st thr)
  flo : ∀ i, i < thr → ∀ a ∈ st.action i, a.relabel = false → 0 < a.flo
  hbound : ∀ x, vh st thr x ≤ 2 * (g.n : Int) - 1
  rc01 : ∀ x, rcAll st thr x = 0 ∨ rcAll st thr x = 1
  pot : potV g thr R st ≤ potV g thr R R

/-- Compute-phase invariant between two nodes: `Proc` holds of the nodes
already processed in this round. -/
structure CompInv (g : Graph) (thr : Nat) (R st : PState) (Proc : Nat → Prop) : Prop where
  base : CompBase g thr R st
  e_un : ∀ x, ¬ Proc x → st.e x = R.e x
  rc1 : ∀ x, Proc x → 0 < st.e x → rcAll st thr x = 1
  rc0 : ∀ x, (¬ Proc x ∨ st.e x ≤ 0) → rcAll st thr x = 0
  np : ∀ x j, ¬ Proc x → j ∈ g.adj x → R.h (other g x j) < R.h x →
    qsum (edgeInd j) st.action thr = 0
  prog : (∃ x, Proc x) → ((∃ x, rcAll st thr x = 1) ∨ potV g thr R st < potV g thr R R)
  procAct : ∀ x, Proc x → Active g R.e x

/-- Compute-phase invariant while the edges of node `u` are scanned, `rest`
being the part of its adjacency list still to be scanned. -/
structure ScanInv (g : Graph) (thr : Nat) (R st : PState) (Proc : Nat → Prop) (u : Nat)
    (rest : List Nat) : Prop where
  base : CompBase g thr R st
  e_un : ∀ x, ¬ Proc x → x ≠ u → st.e x = R.e x
  eu_le : st.e u ≤ R.e u
  rc1 : ∀ x, Proc x → 0 < st.e x → rcAll st thr x = 1
  rc0 : ∀ x, (¬ Proc x ∨ st.e x ≤ 0) → rcAll st thr x = 0
  np : ∀ x j, ¬ Proc x → x ≠ u → j ∈ g.adj x → R.h (other g x j) < R.h x →
    qsum (edgeInd j) st.action thr = 0
  np_u : ∀ j, j ∈ rest → R.h (other g u j) < R.h u → qsum (edgeInd j) st.action thr = 0
  scanned : ∀ j, j ∈ g.adj u → j ∉ rest → R.h (other g u j) < R.h u → 0 < st.e u →
    available g (vf st thr) j (direction g u j) ≤ 0
  prog : (∃ x, Proc x) → ((∃ x, rcAll st thr x = 1) ∨ potV g thr R st < potV g thr R R)
  prog_u : st.e u < R.e u → potV g thr R st < potV g thr R R
  procAct : ∀ x, Proc x → Active g R.e x
  uAct : Active g R.e u
  uNot : ¬ Proc u

/-- The state of the edge scan right after a push action is queued. -/
def scanPush (g : Graph) (st : PState) (i u j : Nat) : PState :=
  let flo := MIN (st.e u) (available g st.f j (direction g u j))
  queue_action { st with e := Function.update st.e u (st.e u - flo) }
    ⟨other g u j, false, flo, direction g u j, j⟩ i

/-- The relabel action that `work` queues for node `u`. -/
def relabelAction (u : Nat) : Action := ⟨u, true, 0, 0, 0⟩

/-! ## lab3: seeding -/

/-- State of lab3's seeding loop with the rest `rest` of the source's
adjacency list still to be processed. -/
structure Seed3Inv (g : Graph) (thr : Nat) (st : PState) (rest : List Nat) : Prop where
  h_eq : st.h = Function.update (fun _ => 0) g.s (g.n : Int)
  cap : CapInv g st.f
  cons : ConsInv g st.e st.f
  nonneg : NonNeg st.e
  parts : PartsInv thr st.next st.active (Active g st.e)
  queues : ∀ i, st.action i = []
  fin : st.fin = false
  done : ∀ j, j < g.m → (g.s = g.eu j ∨ g.s = g.ev j) → j ∉ rest →
    available g st.f j (direction g g.s j) = 0
  todo : ∀ j, j ∈ rest → st.f j = 0
  fresh : ∀ j, j ∈ rest → st.e (other g g.s j) = 0

/-- One pass of lab3's seeding loop, for edge `j` and round-robin counter `i`. -/
def seed3_step (g : Graph) (st : PState) (j i : Nat) : PState :=
  add_active g
    { st with f := Function.update st.f j (st.f j + direction g g.s j * g.cap j),
              e := Function.update st.e (other g g.s j) (st.e (other g g.s j) + g.cap j) }
    (other g g.s j) i

/-! ## sequential.c: members of the excess list -/

/-- Node `x` is met when the pointers `next` are followed from `hd`. -/
inductive ListMem (next : Nat → Option Nat) : Option Nat → Nat → Prop
  | head {x : Nat} : ListMem next (some x) x
  | tail {y x : Nat} : ListMem next (next y) x → ListMem next (some y) x

/-- No pointer of the excess list points at the source or at the sink. -/
def NoTerminal (g : Graph) (st : State) : Prop :=
  (st.excess ≠ some g.s ∧ st.excess ≠ some g.t) ∧
    ∀ y, st.next y ≠ some g.s ∧ st.next y ≠ some g.t

/-! ## lab3: the states of a run -/

/-- States of lab3 at round boundaries: after seeding, and after each apply
phase. `fuel` bounds the nodes a worker pops in one compute phase. -/
inductive RoundReach (g : Graph) (thr fuel : Nat) : PState → Prop
  | seeded : RoundReach g thr fuel (seeded3 g thr initPState)
  | round {st st1 : PState} : RoundReach g thr fuel st → st.fin = false →
      compute_workers g fuel (List.range thr) st = some st1 →
      RoundReach g thr fuel (apply_phase g thr st1)

/-- Nothing to do: every partition and every queue is empty, no node has excess. -/
def Idle3 (st : PState) : Prop :=
  (∀ i, st.active i = none) ∧ (∀ i, st.action i = []) ∧ (∀ x, st.e x = 0)

/-! ## lab3: the seeding loop, capacities of any sign -/

/-- Each partition `i < thr` is a list without repetition whose members are
the nodes `x` with `M i x`. -/
def PartsAt (thr : Nat) (next : Nat → Option Nat) (active : Nat → Option Nat)
    (M : Nat → Nat → Prop) : Prop :=
  ∀ i, i < thr → ∃ l, IsList next (active i) l ∧ l.Nodup ∧ ∀ x, x ∈ l ↔ M i x

/-- Members of partition `p` after the first `c` edges of the source's
adjacency list were processed by the seeding loop. -/
def SeedAt (g : Graph) (thr c : Nat) (p x : Nat) : Prop :=
  ∃ k j, k < c ∧ (g.adj g.s)[k]? = some j ∧ k % thr = p ∧ x = other g g.s j ∧
    x ≠ g.t ∧ x ≠ g.s

/-! ## lab3: what one compute phase changes -/

/-- The push actions `P` queued for node `u` over an adjacency list, against
the heights `h` and flows `f` of the state in which the scan began. -/
def ScanActs (g : Graph) (h f : Nat → Int) (u : Nat) (adj : List Nat) (P : List Action) : Prop :=
  ∀ a, a ∈ P → a.relabel = false ∧ 0 < a.flo ∧ a.flo ≤ available g f a.edge a.dir ∧
    a.edge ∈ adj ∧ a.node = other g u a.edge ∧ a.dir = direction g u a.edge ∧
    h a.node < h u

/-- Fields that no compute phase touches, and the parts of the other fields
that worker `i` leaves alone while it processes nodes of the list `l`. -/
structure ComputeFrame (i : Nat) (l : List Nat) (st st2 : PState) : Prop where
  h_eq : st2.h = st.h
  f_eq : st2.f = st.f
  next_eq : st2.next = st.next
  fin_eq : st2.fin = st.fin
  e_other : ∀ x, x ∉ l → st2.e x = st.e x
  active_other : ∀ j, j ≠ i → st2.active j = st.active j
  action_other : ∀ j, j ≠ i → st2.action j = st.action j

/-! ## lab3: the capacity bound between two actions of the apply phase -/

/-- The action is a push on edge `j`. -/
def cntInd (j : Nat) (a : Action) : Int := if a.relabel = false ∧ a.edge = j then 1 else 0

/-- The flow part of the state of the apply phase between two actions: every
edge is within its capacity, every push still queued fits the residual
capacity of its edge, and no edge has two pushes queued. -/
structure ApplyCap (g : Graph) (thr : Nat) (st : PState) : Prop where
  cap : CapInv g st.f
  pend : ∀ i, i < thr → ∀ a ∈ st.action i, a.relabel = false →
    a.edge < g.m ∧ (a.dir = 1 ∨ a.dir = -1) ∧ 0 < a.flo ∧
      a.flo ≤ available g st.f a.edge a.dir
  once : ∀ j, qsum (cntInd j) st.action thr ≤ 1

/-! ## lab3: the compute phase, capacities of any sign -/

/-- What holds of the queues and the excess during a compute phase, whatever
the capacities: `R` is the state at the start of the round, `Proc` holds of
the nodes already processed in this round. -/
structure SafeComp (g : Graph) (thr : Nat) (R st : PState) (Proc : Nat → Prop) : Prop where
  h_eq : st.h = R.h
  f_eq : st.f = R.f
  next_eq : st.next = R.next
  fin_eq : st.fin = R.fin
  nonneg : NonNeg st.e
  pend : ∀ i, i < thr → ∀ a ∈ st.action i, a.relabel = false →
    a.edge < g.m ∧ (a.dir = 1 ∨ a.dir = -1) ∧ 0 < a.flo ∧
      a.flo ≤ available g R.f a.edge a.dir
  once : ∀ j, qsum (cntInd j) st.action thr ≤ 1
  rc01 : ∀ x, rcAll st thr x = 0 ∨ rcAll st thr x = 1
  e_un : ∀ x, ¬ Proc x → st.e x = R.e x
  rc1 : ∀ x, Proc x → 0 < st.e x → rcAll st thr x = 1
  rc0 : ∀ x, (¬ Proc x ∨ st.e x ≤ 0) → rcAll st thr x = 0
  np : ∀ x j, ¬ Proc x → j ∈ g.adj x → R.h (other g x j) < R.h x →
    qsum (cntInd j) st.action thr = 0

/-- The same while the edges of node `u` are scanned, `rest` being the part
of its adjacency list still to be scanned. -/
structure SafeScan (g : Graph) (thr : Nat) (R st : PState) (Proc : Nat → Prop) (u : Nat)
    (rest : List Nat) : Prop where
  h_eq : st.h = R.h
  f_eq : st.f = R.f
  next_eq : st.next = R.next
  fin_eq : st.fin = R.fin
  nonneg : NonNeg st.e
  pend : ∀ i, i < thr → ∀ a ∈ st.action i, a.relabel = false →
    a.edge < g.m ∧ (a.dir = 1 ∨ a.dir = -1) ∧ 0 < a.flo ∧
      a.flo ≤ available g R.f a.edge a.dir
  once : ∀ j, qsum (cntInd j) st.action thr ≤ 1
  rc01 : ∀ x, rcAll st thr x = 0 ∨ rcAll st thr x = 1
  e_un : ∀ x, ¬ Proc x → x ≠ u → st.e x = R.e x
  rc1 : ∀ x, Proc x → 0 < st.e x → rcAll st thr x = 1
  rc0 : ∀ x, (¬ Proc x ∨ st.e x ≤ 0) → rcAll st thr x = 0
  np : ∀ x j, ¬ Proc x → x ≠ u → j ∈ g.adj x → R.h (other g x j) < R.h x →
    qsum (cntInd j) st.action thr = 0
  np_u : ∀ j, j ∈ rest → R.h (other g u j) < R.h u → qsum (cntInd j) st.action thr = 0
  uNot : ¬ Proc u

/-! ## lab3: rounds on graphs with capacities `≥ 0` -/

/-- State of lab3 at a round boundary, whatever the capacities: the flows are
within the capacities, no excess is negative, the partitions are disjoint
lists without repetition of nodes other than source and sink that hold at
least every active node, and every queue is empty. -/
structure SafeRound (g : Graph) (thr : Nat) (st : PState) : Prop where
  cap : CapInv g st.f
  nonneg : NonNeg st.e
  parts : ∃ mem : Nat → Prop, PartsInv thr st.next st.active mem ∧
    (∀ x, Active g st.e x → mem x) ∧ (∀ x, mem x → x ≠ g.s ∧ x ≠ g.t)
  queues : ∀ i, i < thr → st.action i = []

/-- State of lab3 between two actions of the apply phase. -/
def SafeApply (g : Graph) (thr : Nat) (st : PState) : Prop :=
  ApplyInv g thr st ∧ ApplyCap g thr st

/-! ## lab2/c/preflow.c with one worker -/

/-- Mutable part of the graph of lab2/c/preflow.c as one worker sees it: the
node and edge fields and the list `g->excess`, of the same shape as in
sequential.c, and the node mutexes the worker holds. The graph mutex is
taken and released inside `enter_excess` and `leave_excess`, around the list
operations of sequential.c. -/
structure LState where
  st : State
  held : List Nat

/-- `pthread_mutex_lock(&x->mutex)` by the worker; `none` when the worker
holds the mutex already (it would wait for itself). -/
def pthread_mutex_lock (w : LState) (x : Nat) : Option LState :=
  if x ∈ w.held then none else some { w with held := x :: w.held }

/-- `pthread_mutex_unlock(&x->mutex)` by the worker; `none` when the worker
does not hold the mutex. -/
def pthread_mutex_unlock (w : LState) (x : Nat) : Option LState :=
  if x ∈ w.held then some { w with held := w.held.erase x } else none

/-- `lock_in_order(u, v)`: the node at the lower address first. -/
def lock_in_order (w : LState) (u v : Nat) : Option LState :=
  if u < v then
    match pthread_mutex_lock w u with
    | none => none
    | some w1 => pthread_mutex_lock w1 v
  else
    match pthread_mutex_lock w v with
    | none => none
    | some w1 => pthread_mutex_lock w1 u

/-- The locals `nei`, `edg`, `dir`, `ava` of `work` when its inner loop is
left by `break`. -/
structure Found where
  nei : Nat
  edg : Nat
  dir : Int
  ava : Int
deriving DecidableEq, Repr

/-- The inner loop of `work` for the node `u` in `excess`, over the rest of
its adjacency list: `some (some r, w)` when it is left by `break`, both
mutexes held; `some (none, w)` when the list ends, `nei` being `NULL`;
`none` when a mutex operation fails. -/
def work_scan2 (g : Graph) (u : Nat) : List Nat → LState → Option (Option Found × LState)
  | [], w => some (none, w)
  | j :: adj, w =>
    let nei := other g u j
    let dir := direction g u j
    match lock_in_order w u nei with
    | none => none
    | some w1 =>
      let ava := available g w1.st.f j dir
      if w1.st.h u > w1.st.h nei ∧ ava > 0 then some (some ⟨nei, j, dir, ava⟩, w1)
      else
        match pthread_mutex_unlock w1 u with
        | none => none
        | some w2 =>
          match pthread_mutex_unlock w2 nei with
          | none => none
          | some w3 => work_scan2 g u adj w3

/-- The push branch of `work` up to `enter_excess(g, nei)`, in exact arithmetic
(`work_push_32` is the 32-bit reading). -/
def work_push (g : Graph) (u : Nat) (r : Found) (st : State) : State :=
  let flo := MIN (st.e u) r.ava
  let st1 : State := { st with e := Function.update st.e u (st.e u - flo) }
  let st2 : State := { st1 with e := Function.update st1.e r.nei (st1.e r.nei + flo) }
  let st3 : State := { st2 with f := Function.update st2.f r.edg (st2.f r.edg + r.dir * flo) }
  if st3.e r.nei = flo then enter_excess g st3 r.nei else st3

/-- The relabel branch of `work`: `pthread_mutex_lock(&excess->mutex)` and
`excess->h += 1`. -/
def work_relabel (u : Nat) (w : LState) : Option LState :=
  match pthread_mutex_lock w u with
  | none => none
  | some w1 =>
    some { w1 with st := { w1.st with h := Function.update w1.st.h u (w1.st.h u + 1) } }

/-- The end of the body of the outer loop of `work`: unlock `excess`, and
take the next node from the list if `excess->e == 0`. The first component is
the new value of the local `excess`. -/
def work_tail (u : Nat) (w : LState) : Option (Option Nat × LState) :=
  match pthread_mutex_unlock w u with
  | none => none
  | some w1 =>
    if w1.st.e u = 0 then
      some ((leave_excess w1.st).1, { w1 with st := (leave_excess w1.st).2 })
    else some (some u, w1)

/-- One pass of the body of the outer loop of `work` with `excess = u`;
`none` when a mutex operation fails, or when the adjacency list of `u` is
empty, in which case the body reads `nei` without having set it in this
pass. -/
def work_step (g : Graph) (u : Nat) (w : LState) : Option (Option Nat × LState) :=
  if g.adj u = [] then none
  else
    match work_scan2 g u (g.adj u) w with
    | none => none
    | some (some r, w1) =>
      match pthread_mutex_unlock { w1 with st := work_push g u r w1.st } r.nei with
      | none => none
      | some w2 => work_tail u w2
    | some (none, w1) =>
      match work_relabel u w1 with
      | none => none
      | some w2 => work_tail u w2

/-- The outer loop `while (excess != NULL)` of `work`, with a bound on the
number of passes. -/
def work2 (g : Graph) : Nat → Option Nat → LState → Outcome LState
  | 0, _, _ => Outcome.timeout
  | _ + 1, none, w => Outcome.returned w
  | k + 1, some u, w =>
    match work_step g u w with
    | none => Outcome.aborted
    | some (cur, w1) => work2 g k cur w1

/-- The loop `Initial push from source` of lab2's `preflow`, over the rest of
the source's adjacency list. -/
def seed2 (g : Graph) : List Nat → State → State
  | [], st => st
  | j :: adj, st =>
    let nei := other g g.s j
    let dir := direction g g.s j
    let st1 : State := { st with f := Function.update st.f j (st.f j + dir * g.cap j) }
    let st2 : State := { st1 with e := Function.update st1.e nei (st1.e nei + g.cap j) }
    seed2 g adj (enter_excess g st2 nei)

/-- State of lab2's `preflow` after seeding. -/
def seeded2 (g : Graph) (st : State) : State :=
  seed2 g (g.adj g.s) (seedStart g st)

/-- `preflow(g, 1)` of lab2 up to its final state: seeding, then the one
worker runs `work` (it is created and joined), starting with its first
`leave_excess`, holding no mutex. -/
def preflow2_state (g : Graph) (st : State) (fuel : Nat) : Outcome LState :=
  work2 g fuel (leave_excess (seeded2 g st)).1 ⟨(leave_excess (seeded2 g st)).2, []⟩

/-- `preflow(g, 1)` of lab2: the value `g->t->e` it returns. -/
def preflow2 (g : Graph) (st : State) (fuel : Nat) : Outcome Int :=
  match preflow2_state g st fuel with
  | Outcome.returned w => Outcome.returned (w.st.e g.t)
  | Outcome.aborted => Outcome.aborted
  | Outcome.timeout => Outcome.timeout

/-! ## lab2: seeding, through the seeding loop of lab3 with one partition -/

/-- The state of lab3 with one partition read as a state with one list. -/
def toState (p : PState) : State := ⟨p.h, p.e, p.f, p.next, p.active 0⟩

/-! ## lab2: one worker keeps the invariants of the data model -/

/-- State of lab2's one worker at the head of the outer loop of `work`, with
`cur` the value of its local `excess`: it holds no mutex, the invariants of
the data model hold, the list holds exactly the active nodes other than
`cur`, which is active itself, and the list is empty when `cur` is `NULL`. -/
structure WInv (g : Graph) (cur : Option Nat) (w : LState) : Prop where
  held : w.held = []
  virt : VirtInv g w.st.h w.st.e w.st.f
  list : ExcessInv g w.st cur
  act : ∀ u, cur = some u → Active g w.st.e u
  fin : cur = none → w.st.excess = none

/-- The state with node `u` put at the head of the list. -/
def withHead (st : State) (u : Nat) : State :=
  { st with next := Function.update st.next u st.excess, excess := some u }

/-! ## lab2: results for one worker -/

/-- The states of lab2's one worker at the head of the outer loop of `work`,
with the value of its local `excess`. -/
inductive WorkReach (g : Graph) : Option Nat → LState → Prop
  | start : WorkReach g (leave_excess (seeded2 g initState)).1
      ⟨(leave_excess (seeded2 g initState)).2, []⟩
  | step {u : Nat} {cur : Option Nat} {w w2 : LState} :
      WorkReach g (some u) w → work_step g u w = some (cur, w2) → WorkReach g cur w2

/-! ## lab2: the mutexes held by the one worker during a run -/

/-- Every node the list points at has an edge: the head `g->excess` and
every `next` pointer. -/
def HasEdge (g : Graph) (st : State) : Prop :=
  (∀ x, st.excess = some x → g.adj x ≠ []) ∧ ∀ y x, st.next y = some x → g.adj x ≠ []

/-- State of lab2's one worker at the head of the outer loop of `work`, as
far as the mutexes go: it holds none, and the node in its local `excess` and
every node the list points at have an edge. -/
structure LockInv (g : Graph) (cur : Option Nat) (w : LState) : Prop where
  held : w.held = []
  edges : HasEdge g w.st
  cur_edge : ∀ u, cur = some u → g.adj u ≠ []

/-! ## C `int` in 32 bits: sequential.c -/

/-- The value a 32-bit two's-complement `int` holds when the exact result `x`
of an arithmetic operation is stored in it: `x` reduced modulo `2^32` into
`INT_MIN .. INT_MAX`. (C leaves signed overflow undefined; this is what the
usual two's-complement machine arithmetic computes.) -/
def int32 (x : Int) : Int := (x + 2147483648) % 4294967296 - 2147483648

/-- Sum of the capacities of all input edges. -/
def capSum (g : Graph) : Int := (g.edges.map Edge.c).sum

/-- Twice the sum of all capacities is at most `INT_MAX`. -/
def CapsFit (g : Graph) : Prop := 2 * capSum g ≤ 2147483647

/-- Twice the number of nodes and twice the sum of all capacities are at most
`INT_MAX`. -/
def FitsInt (g : Graph) : Prop := 2 * (g.n : Int) ≤ 2147483647 ∧ CapsFit g

instance (g : Graph) : Decidable (CapsFit g) := by unfold CapsFit; infer_instance

instance (g : Graph) : Decidable (FitsInt g) := by unfold FitsInt; infer_instance

/-- The amount `d` computed at the start of `push(g, u, v, e)`, in 32-bit
arithmetic. -/
def push_d32 (g : Graph) (st : State) (u : Nat) (i : Nat) : Int :=
  if u = g.eu i then MIN (st.e u) (int32 (g.cap i - st.f i))
  else MIN (st.e u) (int32 (g.cap i + st.f i))

/-- The state of `push(g, u, v, e)` at its three assertions, in 32-bit
arithmetic. -/
def push_update32 (g : Graph) (st : State) (u v : Nat) (i : Nat) : State :=
  let d := push_d32 g st u i
  let st1 : State :=
    if u = g.eu i then { st with f := Function.update st.f i (int32 (st.f i + d)) }
    else { st with f := Function.update st.f i (int32 (st.f i - d)) }
  let st2 : State := { st1 with e := Function.update st1.e u (int32 (st1.e u - d)) }
  { st2 with e := Function.update st2.e v (int32 (st2.e v + d)) }

/-- The three assertions of `push`, in 32-bit arithmetic. -/
def push_asserts32 (g : Graph) (st : State) (u v : Nat) (i : Nat) : Prop :=
  push_d32 g st u i ≥ 0 ∧ (push_update32 g st u v i).e u ≥ 0 ∧
    int32 |(push_update32 g st u v i).f i| ≤ g.cap i

instance (g : Graph) (st : State) (u v i : Nat) : Decidable (push_asserts32 g st u v i) := by
  unfold push_asserts32; infer_instance

/-- `push(g, u, v, e)` in 32-bit arithmetic; `none` when one of its
assertions fails. -/
def push32 (g : Graph) (st : State) (u v : Nat) (i : Nat) : Option State :=
  let d := push_d32 g st u i
  let st3 := push_update32 g st u v i
  if push_asserts32 g st u v i then
    let st4 := if st3.e u > 0 then enter_excess g st3 u else st3
    let st5 := if st4.e v = d then enter_excess g st4 v else st4
    some st5
  else none

/-- `relabel(g, u)` in 32-bit arithmetic. -/
def relabel32 (g : Graph) (st : State) (u : Nat) : State :=
  enter_excess g { st with h := Function.update st.h u (int32 (st.h u + 1)) } u

/-- The state in which the seeding loop calls `push` for edge `i`, in 32-bit
arithmetic: `s->e += e->c`. -/
def seedPre32 (g : Graph) (st : State) (i : Nat) : State :=
  { st with e := Function.update st.e g.s (int32 (st.e g.s + g.cap i)) }

/-- The first loop of `preflow` in 32-bit arithmetic. -/
def seed32 (g : Graph) : List Nat → State → Option State
  | [], st => some st
  | i :: p, st =>
    match push32 g (seedPre32 g st i) g.s (other g g.s i) i with
    | none => none
    | some st2 => seed32 g p st2

/-- The inner scan of `preflow` in 32-bit arithmetic. -/
def scan32 (g : Graph) (st : State) (u : Nat) : List Nat → Option (Nat × Nat)
  | [] => none
  | i :: p =>
    let v := if u = g.eu i then g.ev i else g.eu i
    let b : Int := if u = g.eu i then 1 else -1
    if st.h u > st.h v ∧ int32 (b * st.f i) < g.cap i then some (v, i) else scan32 g st u p

/-- One iteration of the main loop of `preflow` in 32-bit arithmetic. -/
def iter32 (g : Graph) (st : State) : Step :=
  match leave_excess st with
  | (none, st1) => Step.halt st1
  | (some u, st1) =>
    match scan32 g st1 u (g.adj u) with
    | some (v, i) =>
      match push32 g st1 u v i with
      | none => Step.abort
      | some st2 => Step.cont st2
    | none => Step.cont (relabel32 g st1 u)

/-- The main loop of `preflow` in 32-bit arithmetic, with a bound on the
number of iterations. -/
def loop32 (g : Graph) : Nat → State → Outcome State
  | 0, _ => Outcome.timeout
  | k + 1, st =>
    match iter32 g st with
    | Step.halt st1 => Outcome.returned st1
    | Step.cont st1 => loop32 g k st1
    | Step.abort => Outcome.aborted

/-- `preflow(g)` of sequential.c in 32-bit arithmetic up to its final state. -/
def preflow32_state (g : Graph) (st : State) (fuel : Nat) : Outcome State :=
  match seed32 g (g.adj g.s) (seedStart g st) with
  | none => Outcome.aborted
  | some st1 => loop32 g fuel st1

/-- `preflow(g)` of sequential.c in 32-bit arithmetic: the value `g->t->e`. -/
def preflow32 (g : Graph) (st : State) (fuel : Nat) : Outcome Int :=
  match preflow32_state g st fuel with
  | Outcome.returned st1 => Outcome.returned (st1.e g.t)
  | Outcome.aborted => Outcome.aborted
  | Outcome.timeout => Outcome.timeout

/-- States at the head of the seeding loop in 32-bit arithmetic. -/
inductive SeedReach32 (g : Graph) (st0 : State) : List Nat → State → Prop
  | start : SeedReach32 g st0 (g.adj g.s) (seedStart g st0)
  | push {i : Nat} {p : List Nat} {st st2 : State} :
      SeedReach32 g st0 (i :: p) st →
      push32 g (seedPre32 g st i) g.s (other g g.s i) i = some st2 → SeedReach32 g st0 p st2

/-- States at the head of the main loop in 32-bit arithmetic. -/
inductive LoopReach32 (g : Graph) (st0 : State) : State → Prop
  | seeded {st : State} :
      seed32 g (g.adj g.s) (seedStart g st0) = some st → LoopReach32 g st0 st
  | step {st st2 : State} :
      LoopReach32 g st0 st → iter32 g st = Step.cont st2 → LoopReach32 g st0 st2

/-- The states of a run of `preflow` in 32-bit arithmetic after seeding
started: after each push of the seeding loop and after each push or relabel
of the main loop. -/
def Reachable32 (g : Graph) (st : State) : Prop :=
  (∃ p, SeedReach32 g initState p st) ∨ LoopReach32 g initState st

/-- The first `k` iterations of the main loop in 32-bit arithmetic, when each
of them ends in a push or a relabel. -/
def iters32 (g : Graph) : Nat → State → Option State
  | 0, st => some st
  | k + 1, st =>
    match iter32 g st with
    | Step.cont st1 => iters32 g k st1
    | _ => none

/-- Three nodes in a line; the capacity of the first edge is more than half
of `INT_MAX`. -/
def gOv : Graph := ⟨3, [⟨0, 1, 2000000000⟩, ⟨1, 2, 1⟩]⟩

/-- Three nodes and one edge of capacity more than half of `INT_MAX`; the
sink is isolated. -/
def gBig : Graph := ⟨3, [⟨0, 1, 2000000000⟩]⟩

/-- Five nodes: two paths from the source meet in node `3`, every capacity
more than half of `INT_MAX`; the sink is isolated. -/
def gWide : Graph :=
  ⟨5, [⟨0, 1, 2000000000⟩, ⟨0, 2, 2000000000⟩, ⟨1, 3, 2000000000⟩, ⟨2, 3, 2000000000⟩]⟩

/-! ## The total excess -/

/-- The excess of all nodes adds up to at most `B`, and there is none outside
the node array. -/
structure TotInv (g : Graph) (e : Nat → Int) (B : Int) : Prop where
  sum : ∑ x ∈ Finset.range g.n, e x ≤ B
  out : ∀ x, g.n ≤ x → e x = 0

/-! ## sequential.c: 32-bit arithmetic agrees with exact arithmetic on small states -/

/-- The fields `e` and `f` of a state are within the bounds that exclude
overflow in `push`. -/
structure Small (g : Graph) (st : State) : Prop where
  cap : CapInv g st.f
  nonneg : NonNeg st.e
  le : ∀ x, st.e x ≤ capSum g

/-! ## C `int` in 32 bits: lab2/c/preflow.c with one worker -/

/-- `available(e, dir)` of lab2/preflow.c and lab3/preflow.c in 32-bit
arithmetic: the product and the difference are each stored in an `int`. -/
def available32 (g : Graph) (f : Nat → Int) (i : Nat) (dir : Int) : Int :=
  int32 (g.cap i - int32 (dir * f i))

/-- The inner loop of `work` of lab2 in 32-bit arithmetic. -/
def work_scan2_32 (g : Graph) (u : Nat) : List Nat → LState → Option (Option Found × LState)
  | [], w => some (none, w)
  | j :: adj, w =>
    let nei := other g u j
    let dir := direction g u j
    match lock_in_order w u nei with
    | none => none
    | some w1 =>
      let ava := available32 g w1.st.f j dir
      if w1.st.h u > w1.st.h nei ∧ ava > 0 then some (some ⟨nei, j, dir, ava⟩, w1)
      else
        match pthread_mutex_unlock w1 u with
        | none => none
        | some w2 =>
          match pthread_mutex_unlock w2 nei with
          | none => none
          | some w3 => work_scan2_32 g u adj w3

/-- The push branch of `work` of lab2 up to `enter_excess(g, nei)`, in 32-bit
arithmetic. -/
def work_push_32 (g : Graph) (u : Nat) (r : Found) (st : State) : State :=
  let flo := MIN (st.e u) r.ava
  let st1 : State := { st with e := Function.update st.e u (int32 (st.e u - flo)) }
  let st2 : State := { st1 with e := Function.update st1.e r.nei (int32 (st1.e r.nei + flo)) }
  let st3 : State :=
    { st2 with f := Function.update st2.f r.edg (int32 (st2.f r.edg + int32 (r.dir * flo))) }
  if st3.e r.nei = flo then enter_excess g st3 r.nei else st3

/-- The relabel branch of `work` of lab2 in 32-bit arithmetic. -/
def work_relabel_32 (u : Nat) (w : LState) : Option LState :=
  match pthread_mutex_lock w u with
  | none => none
  | some w1 =>
    some { w1 with st := { w1.st with h := Function.update w1.st.h u (int32 (w1.st.h u + 1)) } }

/-- One pass of the body of the outer loop of `work` of lab2 in 32-bit
arithmetic. -/
def work_step_32 (g : Graph) (u : Nat) (w : LState) : Option (Option Nat × LState) :=
  if g.adj u = [] then none
  else
    match work_scan2_32 g u (g.adj u) w with
    | none => none
    | some (some r, w1) =>
      match pthread_mutex_unlock { w1 with st := work_push_32 g u r w1.st } r.nei with
      | none => none
      | some w2 => work_tail u w2
    | some (none, w1) =>
      match work_relabel_32 u w1 with
      | none => none
      | some w2 => work_tail u w2

/-- The outer loop of `work` of lab2 in 32-bit arithmetic, with a bound on
the number of passes. -/
def work2_32 (g : Graph) : Nat → Option Nat → LState → Outcome LState
  | 0, _, _ => Outcome.timeout
  | _ + 1, none, w => Outcome.returned w
  | k + 1, some u, w =>
    match work_step_32 g u w with
    | none => Outcome.aborted
    | some (cur, w1) => work2_32 g k cur w1

/-- The loop `Initial push from source` of lab2's `preflow` in 32-bit
arithmetic. -/
def seed2_32 (g : Graph) : List Nat → State → State
  | [], st => st
  | j :: adj, st =>
    let nei := other g g.s j
    let dir := direction g g.s j
    let st1 : State :=
      { st with f := Function.update st.f j (int32 (st.f j + int32 (dir * g.cap j))) }
    let st2 : State :=
      { st1 with e := Function.update st1.e nei (int32 (st1.e nei + g.cap j)) }
    seed2_32 g adj (enter_excess g st2 nei)

/-- State of lab2's `preflow` after seeding, in 32-bit arithmetic. -/
def seeded2_32 (g : Graph) (st : State) : State :=
  seed2_32 g (g.adj g.s) (seedStart g st)

/-- `preflow(g, 1)` of lab2 in 32-bit arithmetic up to its final state. -/
def preflow2_state_32 (g : Graph) (st : State) (fuel : Nat) : Outcome LState :=
  work2_32 g fuel (leave_excess (seeded2_32 g st)).1 ⟨(leave_excess (seeded2_32 g st)).2, []⟩

/-- `preflow(g, 1)` of lab2 in 32-bit arithmetic: the value `g->t->e`. -/
def preflow2_32 (g : Graph) (st : State) (fuel : Nat) : Outcome Int :=
  match preflow2_state_32 g st fuel with
  | Outcome.returned w => Outcome.returned (w.st.e g.t)
  | Outcome.aborted => Outcome.aborted
  | Outcome.timeout => Outcome.timeout

/-! ## C `int` in 32 bits: lab3/preflow.c -/

/-- The edge scan of `work` of lab3 in 32-bit arithmetic. -/
def work_scan_32 (g : Graph) (i u : Nat) : List Nat → PState → PState
  | [], st => st
  | j :: adj, st =>
    if st.e u > 0 then
      let nei := other g u j
      let dir := direction g u j
      let ava := available32 g st.f j dir
      if st.h u > st.h nei ∧ ava > 0 then
        let flo := MIN (st.e u) ava
        let st1 : PState := { st with e := Function.update st.e u (int32 (st.e u - flo)) }
        work_scan_32 g i u adj (queue_action st1 ⟨nei, false, flo, dir, j⟩ i)
      else work_scan_32 g i u adj st
    else st

/-- What `work` of lab3 does with one active node, in 32-bit arithmetic. -/
def work_node_32 (g : Graph) (i u : Nat) (st : PState) : PState :=
  let st1 := work_scan_32 g i u (g.adj u) st
  if st1.e u > 0 then queue_action st1 ⟨u, true, 0, 0, 0⟩ i else st1

/-- The compute phase of worker `i` in 32-bit arithmetic. -/
def work_compute_32 (g : Graph) (i : Nat) : Nat → PState → Option PState
  | 0, _ => none
  | k + 1, st =>
    match pop_active st i with
    | (none, st1) => some st1
    | (some u, st1) => work_compute_32 g i k (work_node_32 g i u st1)

/-- The compute phases of the workers in the list, in 32-bit arithmetic. -/
def compute_workers_32 (g : Graph) (fuel : Nat) : List Nat → PState → Option PState
  | [], st => some st
  | i :: is, st =>
    match work_compute_32 g i fuel st with
    | none => none
    | some st1 => compute_workers_32 g fuel is st1

/-- What the coordinator does with one action popped from queue `i`, in
32-bit arithmetic. -/
def apply_action_32 (g : Graph) (i : Nat) (a : Action) (st : PState) : PState :=
  if a.relabel then
    add_active g { st with h := Function.update st.h a.node (int32 (st.h a.node + 1)) } a.node i
  else
    let st1 : PState :=
      { st with e := Function.update st.e a.node (int32 (st.e a.node + a.flo)) }
    let st2 : PState :=
      { st1 with f := Function.update st1.f a.edge (int32 (st1.f a.edge + int32 (a.flo * a.dir))) }
    if st2.e a.node = a.flo then add_active g st2 a.node i else st2

/-- The coordinator's loop over queue `i` in 32-bit arithmetic. -/
def apply_queue_32 (g : Graph) (i : Nat) : List Action → PState → PState
  | [], st => st
  | a :: rest, st =>
    apply_queue_32 g i rest
      (apply_action_32 g i a { st with action := Function.update st.action i rest })

/-- The coordinator's `for` loop over the workers in 32-bit arithmetic. -/
def apply_workers_32 (g : Graph) : List Nat → PState × Nat → PState × Nat
  | [], r => r
  | i :: is, (st, d) =>
    let st1 := apply_queue_32 g i (st.action i) st
    apply_workers_32 g is (st1, if st1.active i = none then d + 1 else d)

/-- The apply phase of one round in 32-bit arithmetic. -/
def apply_phase_32 (g : Graph) (thr : Nat) (st : PState) : PState :=
  let r := apply_workers_32 g (List.range thr) (st, 0)
  if r.2 = thr then { r.1 with fin := true } else r.1

/-- The rounds of the Phase-Barrier program in 32-bit arithmetic. -/
def rounds_32 (g : Graph) (thr fuel : Nat) : Nat → PState → Outcome PState
  | 0, _ => Outcome.timeout
  | k + 1, st =>
    if st.fin then Outcome.returned st
    else
      match compute_workers_32 g fuel (List.range thr) st with
      | none => Outcome.timeout
      | some st1 => rounds_32 g thr fuel k (apply_phase_32 g thr st1)

/-- The loop `Initial push from source` of lab3's `preflow` in 32-bit
arithmetic. -/
def seed3_32 (g : Graph) (thr : Nat) : List Nat → Nat → PState → PState
  | [], _, st => st
  | j :: adj, i, st =>
    let nei := other g g.s j
    let dir := direction g g.s j
    let st1 : PState :=
      { st with f := Function.update st.f j (int32 (st.f j + int32 (dir * g.cap j))) }
    let st2 : PState :=
      { st1 with e := Function.update st1.e nei (int32 (st1.e nei + g.cap j)) }
    let st3 := add_active g st2 nei i
    seed3_32 g thr adj (if (i : Int) = (thr : Int) - 1 then 0 else i + 1) st3

/-- State of lab3's `preflow` after seeding, in 32-bit arithmetic. -/
def seeded3_32 (g : Graph) (thr : Nat) (st : PState) : PState :=
  seed3_32 g thr (g.adj g.s) 0 { st with h := Function.update st.h g.s (g.n : Int) }

/-- `preflow(g)` of lab3 in 32-bit arithmetic up to its final state. -/
def preflow3_state_32 (g : Graph) (thr : Nat) (st : PState) (fuel : Nat) : Outcome PState :=
  rounds_32 g thr fuel fuel (seeded3_32 g thr st)

/-- `preflow(g)` of lab3 in 32-bit arithmetic: the value `g->t->e`. -/
def preflow3_32 (g : Graph) (thr : Nat) (st : PState) (fuel : Nat) : Outcome Int :=
  match preflow3_state_32 g thr st fuel with
  | Outcome.returned st1 => Outcome.returned (st1.e g.t)
  | Outcome.aborted => Outcome.aborted
  | Outcome.timeout => Outcome.timeout

/-- States of lab3 at round boundaries in 32-bit arithmetic: after seeding,
and after each apply phase. -/
inductive RoundReach_32 (g : Graph) (thr fuel : Nat) : PState → Prop
  | seeded : RoundReach_32 g thr fuel (seeded3_32 g thr initPState)
  | round {st st1 : PState} : RoundReach_32 g thr fuel st → st.fin = false →
      compute_workers_32 g fuel (List.range thr) st = some st1 →
      RoundReach_32 g thr fuel (apply_phase_32 g thr st1)

/-! ## Seeding of lab2 and lab3 in 32-bit arithmetic -/

/-- State of the seeding loop of lab2 and lab3 on the fields `e` and `f`,
with the rest of the source's adjacency list still to be processed. -/
structure SeedOk (g : Graph) (e f : Nat → Int) (rest : List Nat) : Prop where
  cap : CapInv g f
  todo : ∀ j ∈ rest, f j = 0
  nonneg : NonNeg e
  tot : TotInv g e (capSum g - (rest.map g.cap).sum)

/-! ## lab3 in 32-bit arithmetic: the compute phase -/

/-- During a compute phase the fields are within the bounds that exclude
overflow: the flows within the capacities, the excess between `0` and the sum
of the capacities, and so the total excess that the queued pushes lead to. -/
structure CompOk (g : Graph) (thr : Nat) (st : PState) : Prop where
  cap : CapInv g st.f
  nonneg : NonNeg st.e
  le : ∀ x, st.e x ≤ capSum g
  tot : TotInv g (ve st thr) (capSum g)

/-! ## lab3 in 32-bit arithmetic: the apply phase -/

/-- Between two actions of the apply phase the fields are within the bounds
that exclude overflow. -/
structure ApplyOk (g : Graph) (thr : Nat) (st : PState) : Prop where
  safe : SafeApply g thr st
  tot : TotInv g (ve st thr) (capSum g)
  hlow : ∀ x, 0 ≤ vh st thr x
  hbound : ∀ x, vh st thr x ≤ 2 * (g.n : Int) - 1

/-! ## lab3 in 32-bit arithmetic: rounds on inputs that fit -/

/-- What is used of a round boundary: the invariants of the data model with
the bound on the total excess, or a graph without edges on which nothing is
left to do. -/
def RoundOk (g : Graph) (thr : Nat) (st : PState) : Prop :=
  (PosWF g ∧ RoundInv g thr st ∧ TotInv g st.e (capSum g)) ∨ (g.edges = [] ∧ Idle3 st)

/-! ## Runs in 32-bit arithmetic, round by round -/

/-- The first `k` rounds of lab3 in 32-bit arithmetic, when `fin` is not set
before any of them and every compute phase returns. -/
def roundsN_32 (g : Graph) (thr fuel : Nat) : Nat → PState → Option PState
  | 0, st => some st
  | k + 1, st =>
    if st.fin then none
    else
      match compute_workers_32 g fuel (List.range thr) st with
      | none => none
      | some st1 => roundsN_32 g thr fuel k (apply_phase_32 g thr st1)

/-! ## lab3 on `gOv` in 32-bit arithmetic: the rounds never end -/

/-- States of lab3 on `gOv` with one worker at a round boundary, in 32-bit
arithmetic, once the source edge is saturated: node `1` is alone in
partition `0` and holds what it can no longer pass on. -/
structure OvStuck (R : PState) : Prop where
  act : R.active 0 = some 1
  nxt : R.next 1 = none
  que : R.action 0 = []
  fin : R.fin = false
  f0 : R.f 0 = 2000000000
  cases : (R.f 1 = 0 ∧ R.e 1 = 2000000000) ∨ (R.f 1 = 1 ∧ R.e 1 = 1999999999)

/-! ## lab2 on `gOv` in 32-bit arithmetic: the worker never leaves its loop -/

/-- States of lab2 on `gOv` with one worker at the top of the outer loop of
`work`, in 32-bit arithmetic, once the source edge is saturated: node `1`
holds what it can no longer pass on. -/
structure OvStuck2 (st : State) : Prop where
  f0 : st.f 0 = 2000000000
  cases : (st.f 1 = 0 ∧ st.e 1 = 2000000000) ∨ (st.f 1 = 1 ∧ st.e 1 = 1999999999)

/-! ## Claims about sequential.c -/

/-- Three nodes and one edge of capacity `0` from the source to a node that
is not the sink. -/
def gZeroCap : Graph := ⟨3, [⟨0, 1, 0⟩]⟩

/-- The states of the run on `gZeroCap` at the head of the main loop: node `1`
alone in the list, no excess and no flow anywhere. -/
def ZeroCapLoop (st : State) : Prop :=
  st.excess = some 1 ∧ st.next 1 = none ∧ st.f 0 = 0

/-! ## Claims about lab3/preflow.c -/

/-- Two nodes and one edge of capacity `5` stated from the sink to the source. -/
def gRev : Graph := ⟨2, [⟨1, 0, 5⟩]⟩

/-- Four nodes in two components: the sink is not connected to the source. -/
def gSplit : Graph := ⟨4, [⟨0, 1, 3⟩, ⟨2, 3, 2⟩]⟩

/-- The run on `gWide` in 32-bit arithmetic: the state when the seeding loop
is left. -/
def wideSeeded : State :=
  (seed32 gWide (gWide.adj gWide.s) (seedStart gWide initState)).getD initState

/-- The run on `gWide` in 32-bit arithmetic: the state at the head of the main
loop after four iterations (relabel of node `1`, push from `1` to `3`,
relabel of node `3`, push from `3` to `2`). -/
def wideLoop4 : State := (iters32 gWide 4 wideSeeded).getD initState

/-! ## Claims about lab2 and lab3 in 32-bit arithmetic -/

/-- The run of lab3 on `gWide` with one worker in 32-bit arithmetic: the state
after the second round. -/
def wideRound2 : PState :=
  (roundsN_32 gWide 1 10 2 (seeded3_32 gWide 1 initPState)).getD initPState

/-- The run of lab3 on `gWide` with one worker in 32-bit arithmetic: the state
after the third round. -/
def wideRound3 : PState :=
  (roundsN_32 gWide 1 10 3 (seeded3_32 gWide 1 initPState)).getD initPState

/-! # Part II: theorems -/

/-! ## Well-formed inputs and the adjacency lists -/

theorem getD_mem_edges (g : Graph) {i : Nat} (hi : i < g.m) :
    g.edges.getD i ⟨0, 0, 0⟩ ∈ g.edges := by
  unfold Graph.m at hi
  rw [List.getD_eq_getElem _ _ hi]
  exact List.getElem_mem hi

theorem eu_lt {g : Graph} (hr : InRange g) {i : Nat} (hi : i < g.m) : g.eu i < g.n :=
  (hr _ (getD_mem_edges g hi)).1

theorem ev_lt {g : Graph} (hr : InRange g) {i : Nat} (hi : i < g.m) : g.ev i < g.n :=
  (hr _ (getD_mem_edges g hi)).2

theorem eu_ne_ev {g : Graph} (hl : NoSelfLoops g) {i : Nat} (hi : i < g.m) : g.eu i ≠ g.ev i :=
  hl _ (getD_mem_edges g hi)

theorem cap_nonneg {g : Graph} (hc : NonnegCaps g) {i : Nat} (hi : i < g.m) : 0 ≤ g.cap i :=
  hc _ (getD_mem_edges g hi)

theorem cap_pos {g : Graph} (hc : PositiveCaps g) {i : Nat} (hi : i < g.m) : 0 < g.cap i :=
  hc _ (getD_mem_edges g hi)

theorem PositiveCaps.nonneg {g : Graph} (hc : PositiveCaps g) : NonnegCaps g :=
  fun e he => le_of_lt (hc e he)

theorem mem_connect (adj : Nat → List Nat) (u v k x i : Nat) :
    i ∈ connect adj u v k x ↔ i ∈ adj x ∨ (i = k ∧ (u = x ∨ v = x)) := by
  unfold connect add_edge
  rcases eq_or_ne x v with rfl | h1 <;> rcases eq_or_ne x u with rfl | h2
  · simp [Function.update_apply]; tauto
  · simp [Function.update_apply, h2, Ne.symm h2]; tauto
  · simp [Function.update_apply, h1, Ne.symm h1]; tauto
  · simp [Function.update_apply, h1, h2, Ne.symm h1, Ne.symm h2]

theorem mem_new_graph_loop (es : List Edge) (k : Nat) (adj : Nat → List Nat) (x i : Nat) :
    i ∈ new_graph_loop es k adj x ↔
      i ∈ adj x ∨ (k ≤ i ∧ i < k + es.length ∧
        ((es.getD (i - k) ⟨0, 0, 0⟩).u = x ∨ (es.getD (i - k) ⟨0, 0, 0⟩).v = x)) := by
  induction es generalizing k adj with
  | nil =>
    simp only [new_graph_loop, List.length_nil, Nat.add_zero]
    constructor
    · exact Or.inl
    · rintro (h | ⟨h1, h2, _⟩)
      · exact h
      · omega
  | cons e es ih =>
    rw [new_graph_loop, ih, mem_connect]
    constructor
    · rintro ((h | ⟨rfl, h⟩) | ⟨h1, h2, h3⟩)
      · exact Or.inl h
      · right
        refine ⟨le_refl _, by simp, ?_⟩
        simpa using h
      · right
        refine ⟨by omega, by simp; omega, ?_⟩
        have : i - k = (i - (k + 1)) + 1 := by omega
        rw [this, List.getD_cons_succ]
        exact h3
    · rintro (h | ⟨h1, h2, h3⟩)
      · exact Or.inl (Or.inl h)
      · rcases Nat.eq_or_lt_of_le h1 with h | h
        · subst h
          left; right
          refine ⟨rfl, ?_⟩
          simpa using h3
        · right
          refine ⟨by omega, by simp at h2; omega, ?_⟩
          have : i - k = (i - (k + 1)) + 1 := by omega
          rw [this, List.getD_cons_succ] at h3
          exact h3

/-- An edge index is in the adjacency list of `x` iff `x` is one of its endpoints. -/
theorem mem_adj (g : Graph) (x i : Nat) :
    i ∈ g.adj x ↔ i < g.m ∧ (g.eu i = x ∨ g.ev i = x) := by
  unfold Graph.adj Graph.m Graph.eu Graph.ev
  rw [mem_new_graph_loop]
  simp

theorem nodup_connect (adj : Nat → List Nat) (u v k x : Nat) (huv : u ≠ v)
    (hn : (adj x).Nodup) (hk : k ∉ adj x) : (connect adj u v k x).Nodup := by
  unfold connect add_edge
  by_cases h1 : x = v <;> by_cases h2 : x = u
  · exact absurd (h2.symm.trans h1) huv
  · subst h1
    simp [Function.update_apply, huv.symm, hn, hk]
  · subst h2
    simp [Function.update_apply, huv, hn, hk]
  · simp [Function.update_apply, h1, h2, hn]

theorem nodup_new_graph_loop (es : List Edge) (k : Nat) (adj : Nat → List Nat) (x : Nat)
    (hl : ∀ e ∈ es, e.u ≠ e.v) (hn : (adj x).Nodup) (hk : ∀ i ∈ adj x, i < k) :
    (new_graph_loop es k adj x).Nodup := by
  induction es generalizing k adj with
  | nil => simpa [new_graph_loop] using hn
  | cons e es ih =>
    rw [new_graph_loop]
    apply ih
    · exact fun e1 he1 => hl e1 (List.mem_cons_of_mem _ he1)
    · apply nodup_connect _ _ _ _ _ (hl e (List.mem_cons_self _ _)) hn
      intro hmem
      exact absurd (hk k hmem) (lt_irrefl _)
    · intro i hi
      rw [mem_connect] at hi
      rcases hi with hi | ⟨rfl, _⟩
      · exact Nat.lt_succ_of_lt (hk i hi)
      · exact Nat.lt_succ_self _

/-- Without self-loops no adjacency list holds an edge twice. -/
theorem nodup_adj {g : Graph} (hl : NoSelfLoops g) (x : Nat) : (g.adj x).Nodup := by
  unfold Graph.adj
  exact nodup_new_graph_loop _ _ _ _ hl (by simp) (by simp)

theorem other_eq_of_eu {g : Graph} {u i : Nat} (h : g.eu i = u) : other g u i = g.ev i := by
  simp [other, h]

theorem other_eq_of_ev {g : Graph} {u i : Nat} (h : g.ev i = u) (hne : g.eu i ≠ g.ev i) :
    other g u i = g.eu i := by
  have : u ≠ g.eu i := by rw [← h]; exact hne.symm
  simp [other, this]

/-! ## Invariants of the data model, on the fields `h`, `e`, `f` -/

theorem netIn_eq_sum_coef (g : Graph) (f : Nat → Int) (x : Nat) :
    netIn g f x = ∑ j ∈ Finset.range g.m, f j * coef g j x := by
  unfold netIn coef
  rw [← Finset.sum_sub_distrib]
  apply Finset.sum_congr rfl
  intro j _
  by_cases h1 : g.ev j = x <;> by_cases h2 : g.eu j = x <;> simp [h1, h2]

theorem update_add_eq (f : Nat → Int) (j : Nat) (δ : Int) :
    Function.update f j (f j + δ) = fun i => f i + if i = j then δ else 0 := by
  funext i
  by_cases h : i = j
  · subst h; simp
  · simp [Function.update_apply, h]

theorem netIn_update (g : Graph) (f : Nat → Int) (j : Nat) (hj : j < g.m) (δ : Int) (x : Nat) :
    netIn g (Function.update f j (f j + δ)) x = netIn g f x + δ * coef g j x := by
  rw [netIn_eq_sum_coef, netIn_eq_sum_coef, update_add_eq]
  simp only [add_mul, Finset.sum_add_distrib, ite_mul, zero_mul]
  rw [Finset.sum_ite_eq']
  simp [hj]

theorem direction_eu (g : Graph) (j : Nat) : direction g (g.eu j) j = 1 := by
  simp [direction]

theorem direction_ev {g : Graph} {j : Nat} (h : g.eu j ≠ g.ev j) :
    direction g (g.ev j) j = -1 := by
  simp [direction, h.symm]

theorem other_eu (g : Graph) (j : Nat) : other g (g.eu j) j = g.ev j := by
  simp [other]

theorem other_ev {g : Graph} {j : Nat} (h : g.eu j ≠ g.ev j) : other g (g.ev j) j = g.eu j := by
  simp [other, h.symm]

theorem direction_sq (g : Graph) (u j : Nat) : direction g u j * direction g u j = 1 := by
  unfold direction; split <;> simp

theorem coef_self {g : Graph} {j u : Nat} (hne : g.eu j ≠ g.ev j) (hu : u = g.eu j ∨ u = g.ev j) :
    coef g j u = - direction g u j := by
  rcases hu with rfl | rfl
  · simp [coef, direction, hne.symm]
  · simp [coef, direction, hne.symm, hne]

theorem coef_other {g : Graph} {j u : Nat} (hne : g.eu j ≠ g.ev j)
    (hu : u = g.eu j ∨ u = g.ev j) : coef g j (other g u j) = direction g u j := by
  rcases hu with rfl | rfl
  · simp [coef, direction, other, hne]
  · simp [coef, direction, other, hne.symm, hne]

theorem coef_of_not_endpoint {g : Graph} {j x : Nat} (h1 : x ≠ g.eu j) (h2 : x ≠ g.ev j) :
    coef g j x = 0 := by
  simp [coef, h1.symm, h2.symm]

theorem other_ne_self {g : Graph} {j u : Nat} (hne : g.eu j ≠ g.ev j)
    (hu : u = g.eu j ∨ u = g.ev j) : other g u j ≠ u := by
  rcases hu with rfl | rfl
  · simp [other, hne.symm]
  · simp [other, hne.symm, hne]

theorem other_endpoint (g : Graph) (j u : Nat) :
    other g u j = g.eu j ∨ other g u j = g.ev j := by
  unfold other; split <;> simp

theorem pushE_apply {e : Nat → Int} {u v : Nat} (huv : u ≠ v) (d : Int) (x : Nat) :
    pushE e u v d x = if x = v then e v + d else if x = u then e u - d else e x := by
  unfold pushE
  by_cases h1 : x = v
  · subst h1; simp [Function.update_apply, huv.symm]
  · by_cases h2 : x = u
    · subst h2; simp [Function.update_apply, h1]
    · simp [Function.update_apply, h1, h2]

theorem capInv_pushF {g : Graph} {f : Nat → Int} {u j : Nat} {d : Int}
    (hc : CapInv g f) (hj : j < g.m) (hd0 : 0 ≤ d)
    (hd : d ≤ available g f j (direction g u j)) : CapInv g (pushF g f u j d) := by
  intro i hi
  unfold pushF
  by_cases h : i = j
  · subst h
    have h0 := hc i hi
    rw [abs_le] at h0 ⊢
    simp only [Function.update_same]
    unfold available at hd
    unfold direction at hd ⊢
    by_cases hue : u = g.eu i
    · simp only [hue, if_true] at hd ⊢
      constructor <;> linarith [h0.1, h0.2]
    · simp only [hue, if_false] at hd ⊢
      constructor <;> linarith [h0.1, h0.2]
  · simp only [Function.update_apply, h, if_false]
    exact hc i hi

theorem consInv_push {g : Graph} {e f : Nat → Int} {u j : Nat} {d : Int}
    (hne : g.eu j ≠ g.ev j) (hj : j < g.m) (hu : u = g.eu j ∨ u = g.ev j)
    (hcons : ∀ x, x ≠ g.s → x ≠ u → e x = netIn g f x)
    (hsrc : u ≠ g.s → e u = netIn g f u) :
    ConsInv g (pushE e u (other g u j) d) (pushF g f u j d) := by
  intro x hx
  unfold pushF
  rw [netIn_update g f j hj, pushE_apply (other_ne_self hne hu).symm]
  by_cases h1 : x = other g u j
  · subst h1
    rw [if_pos rfl, coef_other hne hu, hcons _ hx (other_ne_self hne hu)]
    have := direction_sq g u j
    linear_combination (-d) * this
  · rw [if_neg h1]
    by_cases h2 : x = u
    · subst h2
      rw [if_pos rfl, coef_self hne hu, hsrc hx]
      have := direction_sq g x j
      linear_combination d * this
    · rw [if_neg h2, hcons x hx h2]
      have : coef g j x = 0 := by
        apply coef_of_not_endpoint
        · rcases hu with rfl | rfl
          · exact h2
          · intro h; apply h1; rw [h, other_ev hne]
        · rcases hu with rfl | rfl
          · intro h; apply h1; rw [h, other_eu]
          · exact h2
      rw [this]; ring

theorem nonNeg_pushE {e : Nat → Int} {u v : Nat} {d : Int} (huv : u ≠ v)
    (hn : ∀ x, x ≠ u → 0 ≤ e x) (hd0 : 0 ≤ d) (hd : d ≤ e u) : NonNeg (pushE e u v d) := by
  intro x
  rw [pushE_apply huv]
  split
  · have := hn v huv.symm; linarith
  · split
    · linarith
    · rename_i h; exact hn x h

theorem available_pushF_self (g : Graph) (f : Nat → Int) (u j : Nat) (d : Int) :
    available g (pushF g f u j d) j (direction g u j) =
      available g f j (direction g u j) - d := by
  unfold available pushF
  simp only [Function.update_same]
  have := direction_sq g u j
  linear_combination (-d) * this

theorem available_pushF_other {g : Graph} (f : Nat → Int) {u j : Nat} (d : Int)
    (hne : g.eu j ≠ g.ev j) (hu : u = g.eu j ∨ u = g.ev j) :
    available g (pushF g f u j d) j (direction g (other g u j) j) =
      available g f j (direction g (other g u j) j) + d := by
  unfold available pushF
  simp only [Function.update_same]
  rcases hu with rfl | rfl
  · rw [other_eu, direction_eu, direction_ev hne]; ring
  · rw [other_ev hne, direction_eu, direction_ev hne]; ring

theorem available_pushF_ne (g : Graph) (f : Nat → Int) {u j i : Nat} (d dir : Int)
    (h : i ≠ j) : available g (pushF g f u j d) i dir = available g f i dir := by
  unfold available pushF
  simp [Function.update_apply, h]

theorem valid_pushF {g : Graph} {h f : Nat → Int} {u j : Nat} {d : Int}
    (hv : Valid g h f) (hne : g.eu j ≠ g.ev j) (hu : u = g.eu j ∨ u = g.ev j)
    (hd0 : 0 ≤ d) (hh : h (other g u j) ≤ h u + 1) : Valid g h (pushF g f u j d) := by
  intro i hi x hx hav
  by_cases hij : i = j
  · subst hij
    have hxu : x = u ∨ x = other g u i := by
      rcases hu with rfl | rfl <;> rcases hx with rfl | rfl
      · exact Or.inl rfl
      · right; rw [other_eu]
      · right; rw [other_ev hne]
      · exact Or.inl rfl
    rcases hxu with rfl | rfl
    · rw [available_pushF_self] at hav
      exact hv i hi x hx (by linarith)
    · have : other g (other g u i) i = u := by
        rcases hu with rfl | rfl
        · rw [other_eu, other_ev hne]
        · rw [other_ev hne, other_eu]
      rw [this]; exact hh
  · rw [available_pushF_ne g f d _ hij] at hav
    exact hv i hi x hx hav

theorem valid_relabel {g : Graph} {h f : Nat → Int} {u : Nat}
    (hv : Valid g h f) (hl : NoSelfLoops g)
    (hno : ∀ j, j < g.m → (u = g.eu j ∨ u = g.ev j) →
      0 < available g f j (direction g u j) → h u ≤ h (other g u j)) :
    Valid g (Function.update h u (h u + 1)) f := by
  intro i hi x hx hav
  have hne := eu_ne_ev hl hi
  have hox : other g x i ≠ x := other_ne_self hne hx
  by_cases h1 : x = u
  · subst h1
    rw [Function.update_same, Function.update_noteq hox]
    have := hno i hi hx hav
    linarith
  · rw [Function.update_noteq h1]
    have := hv i hi x hx hav
    by_cases h2 : other g x i = u
    · rw [h2, Function.update_same]; rw [h2] at this; linarith
    · rw [Function.update_noteq h2]; exact this

/-! ## The intrusive list of nodes with excess -/

theorem isList_update {next : Nat → Option Nat} {hd : Option Nat} {l : List Nat} {x : Nat}
    (y : Option Nat) (hx : x ∉ l) (hl : IsList next hd l) :
    IsList (Function.update next x y) hd l := by
  induction l generalizing hd with
  | nil => exact hl
  | cons a l ih =>
    obtain ⟨h1, h2⟩ := hl
    have hax : a ≠ x := fun h => hx (h ▸ List.mem_cons_self _ _)
    refine ⟨h1, ?_⟩
    rw [Function.update_noteq hax]
    exact ih (fun h => hx (List.mem_cons_of_mem _ h)) h2

theorem isList_unique {next : Nat → Option Nat} {hd : Option Nat} {l1 l2 : List Nat}
    (h1 : IsList next hd l1) (h2 : IsList next hd l2) : l1 = l2 := by
  induction l1 generalizing hd l2 with
  | nil =>
    cases l2 with
    | nil => rfl
    | cons b l2 => exact absurd (h1.symm.trans h2.1) (by simp)
  | cons a l1 ih =>
    cases l2 with
    | nil => exact absurd (h2.symm.trans h1.1) (by simp)
    | cons b l2 =>
      have hab : a = b := Option.some.inj (h1.1.symm.trans h2.1)
      subst hab
      rw [ih h1.2 h2.2]

theorem enter_excess_h (g : Graph) (st : State) (v : Nat) : (enter_excess g st v).h = st.h := by
  unfold enter_excess; split <;> rfl

theorem enter_excess_e (g : Graph) (st : State) (v : Nat) : (enter_excess g st v).e = st.e := by
  unfold enter_excess; split <;> rfl

theorem enter_excess_f (g : Graph) (st : State) (v : Nat) : (enter_excess g st v).f = st.f := by
  unfold enter_excess; split <;> rfl

theorem enter_excess_isList {g : Graph} {st : State} {v : Nat} {l : List Nat}
    (hl : IsList st.next st.excess l) (hv : v ∉ l) :
    IsList (enter_excess g st v).next (enter_excess g st v).excess
      (if v ≠ g.t ∧ v ≠ g.s then v :: l else l) := by
  unfold enter_excess
  split
  · exact ⟨rfl, by simpa using isList_update _ hv hl⟩
  · exact hl

theorem MIN_le_left (a b : Int) : MIN a b ≤ a := by unfold MIN; split <;> omega

theorem MIN_le_right (a b : Int) : MIN a b ≤ b := by unfold MIN; split <;> omega

theorem le_MIN {a b c : Int} (h1 : c ≤ a) (h2 : c ≤ b) : c ≤ MIN a b := by
  unfold MIN; split <;> omega

theorem push_d_eq (g : Graph) (st : State) (u i : Nat) :
    push_d g st u i = MIN (st.e u) (available g st.f i (direction g u i)) := by
  unfold push_d available direction
  split <;> simp [sub_eq_add_neg]

theorem push_update_h (g : Graph) (st : State) (u v i : Nat) :
    (push_update g st u v i).h = st.h := by
  unfold push_update; split <;> rfl

theorem push_update_next (g : Graph) (st : State) (u v i : Nat) :
    (push_update g st u v i).next = st.next := by
  unfold push_update; split <;> rfl

theorem push_update_excess (g : Graph) (st : State) (u v i : Nat) :
    (push_update g st u v i).excess = st.excess := by
  unfold push_update; split <;> rfl

theorem push_update_f (g : Graph) (st : State) (u v i : Nat) :
    (push_update g st u v i).f = pushF g st.f u i (push_d g st u i) := by
  unfold push_update pushF direction
  split <;> simp [sub_eq_add_neg]

theorem push_update_e (g : Graph) (st : State) (u v i : Nat) :
    (push_update g st u v i).e = pushE st.e u v (push_d g st u i) := by
  unfold push_update pushE
  split <;> rfl

/-- Result of `push` when its assertions hold: the fields `h`, `e`, `f`. -/
theorem push_fields {g : Graph} {st st2 : State} {u v i : Nat} (hp : push g st u v i = some st2) :
    st2.h = st.h ∧ st2.e = pushE st.e u v (push_d g st u i) ∧
      st2.f = pushF g st.f u i (push_d g st u i) := by
  unfold push at hp
  simp only at hp
  split at hp
  · have hp := Option.some.inj hp
    subst hp
    refine ⟨?_, ?_, ?_⟩
    · split <;> split <;> simp [enter_excess_h, push_update_h]
    · split <;> split <;> simp [enter_excess_e, push_update_e]
    · split <;> split <;> simp [enter_excess_f, push_update_f]
  · exact absurd hp (by simp)

/-- The assertions of `push` hold when the pushing node has nonnegative excess,
the residual capacity is nonnegative and the capacity invariant holds. -/
theorem push_asserts_of {g : Graph} {st : State} {u v i : Nat} (huv : u ≠ v)
    (hc : CapInv g st.f) (hi : i < g.m) (he : 0 ≤ st.e u)
    (hav : 0 ≤ available g st.f i (direction g u i)) : push_asserts g st u v i := by
  have hd0 : 0 ≤ push_d g st u i := by rw [push_d_eq]; exact le_MIN he hav
  refine ⟨hd0, ?_, ?_⟩
  · rw [push_update_e, pushE_apply huv, if_neg huv, if_pos rfl]
    have := MIN_le_left (st.e u) (available g st.f i (direction g u i))
    rw [← push_d_eq] at this
    linarith
  · rw [push_update_f]
    apply capInv_pushF hc hi hd0 _ i hi
    rw [push_d_eq]; exact MIN_le_right _ _

theorem push_isSome {g : Graph} {st : State} {u v i : Nat} (ha : push_asserts g st u v i) :
    ∃ st2, push g st u v i = some st2 := by
  unfold push
  simp only [ha, if_true]
  exact ⟨_, rfl⟩

theorem scan_cons (g : Graph) (st : State) (u a : Nat) (p : List Nat) :
    scan g st u (a :: p) =
      if st.h (other g u a) < st.h u ∧ 0 < available g st.f a (direction g u a) then
        some (other g u a, a)
      else scan g st u p := by
  have hiff : (st.h u > st.h (other g u a) ∧ direction g u a * st.f a < g.cap a) ↔
      (st.h (other g u a) < st.h u ∧ 0 < available g st.f a (direction g u a)) := by
    unfold available
    constructor <;> rintro ⟨h1, h2⟩ <;> exact ⟨h1, by linarith⟩
  rw [← if_congr hiff rfl rfl]
  rfl

theorem scan_some {g : Graph} {st : State} {u : Nat} {p : List Nat} {v i : Nat}
    (h : scan g st u p = some (v, i)) :
    i ∈ p ∧ v = other g u i ∧ st.h v < st.h u ∧ 0 < available g st.f i (direction g u i) := by
  induction p with
  | nil => simp [scan] at h
  | cons a p ih =>
    rw [scan_cons] at h
    split at h
    · rename_i hc
      simp only [Option.some.injEq, Prod.mk.injEq] at h
      obtain ⟨h1, h2⟩ := h
      subst h2
      subst h1
      exact ⟨List.mem_cons_self _ _, rfl, hc.1, hc.2⟩
    · obtain ⟨h1, h2⟩ := ih h
      exact ⟨List.mem_cons_of_mem _ h1, h2⟩

theorem scan_none {g : Graph} {st : State} {u : Nat} {p : List Nat}
    (h : scan g st u p = none) :
    ∀ i ∈ p, 0 < available g st.f i (direction g u i) → st.h u ≤ st.h (other g u i) := by
  induction p with
  | nil => simp
  | cons a p ih =>
    rw [scan_cons] at h
    split at h
    · simp at h
    · rename_i hc
      intro i hi hav
      rcases List.mem_cons.mp hi with rfl | hi
      · by_contra hlt
        exact hc ⟨lt_of_not_le hlt, hav⟩
      · exact ih h i hi hav

theorem enter_excess_list {g : Graph} {st : State} {v : Nat} {l : List Nat}
    (hl : IsList st.next st.excess l) (hn : l.Nodup) (hv : v ∉ l) :
    ∃ l2, IsList (enter_excess g st v).next (enter_excess g st v).excess l2 ∧ l2.Nodup ∧
      ∀ x, x ∈ l2 ↔ (x ∈ l ∨ (x = v ∧ v ≠ g.t ∧ v ≠ g.s)) := by
  refine ⟨_, enter_excess_isList hl hv, ?_, ?_⟩
  · split
    · exact List.nodup_cons.mpr ⟨hv, hn⟩
    · exact hn
  · intro x
    split
    · rename_i h
      simp only [List.mem_cons]
      constructor
      · rintro (rfl | h1)
        · exact Or.inr ⟨rfl, h⟩
        · exact Or.inl h1
      · rintro (h1 | ⟨rfl, _⟩)
        · exact Or.inr h1
        · exact Or.inl rfl
    · rename_i h
      constructor
      · exact Or.inl
      · rintro (h1 | ⟨_, h2⟩)
        · exact h1
        · exact absurd h2 h

/-- List part of `push`: if the list holds the active nodes except the pushing
node `u`, and a positive amount is pushed, the list afterwards holds exactly
the active nodes. -/
theorem push_excessInv {g : Graph} {st st2 : State} {u v i : Nat}
    (hp : push g st u v i = some st2) (huv : u ≠ v) (hd : 0 < push_d g st u i)
    (hv : 0 ≤ st.e v) (hinv : ExcessInv g st (some u)) : ExcessInv g st2 none := by
  obtain ⟨l, hl, hn, hmem⟩ := hinv
  have hul : u ∉ l := fun h => ((hmem u).mp h).2 rfl
  unfold push at hp
  simp only at hp
  split at hp
  swap
  · exact absurd hp (by simp)
  have hp := Option.some.inj hp
  set d := push_d g st u i with hdd
  set st3 := push_update g st u v i with hst3
  have hl3 : IsList st3.next st3.excess l := by
    rw [hst3, push_update_next, push_update_excess]; exact hl
  have he3 : ∀ x, st3.e x = if x = v then st.e v + d else if x = u then st.e u - d else st.e x := by
    intro x; rw [hst3, push_update_e, pushE_apply huv]
  -- first conditional: enter u
  have h4 : ∃ st4 l4, (if st3.e u > 0 then enter_excess g st3 u else st3) = st4 ∧
      st4.e = st3.e ∧ IsList st4.next st4.excess l4 ∧ l4.Nodup ∧
      ∀ x, x ∈ l4 ↔ (x ∈ l ∨ (x = u ∧ 0 < st3.e u ∧ u ≠ g.t ∧ u ≠ g.s)) := by
    by_cases hc : st3.e u > 0
    · obtain ⟨l4, h1, h2, h3⟩ := enter_excess_list (g := g) hl3 hn hul
      refine ⟨_, l4, if_pos hc, enter_excess_e _ _ _, h1, h2, ?_⟩
      intro x; rw [h3]
      constructor
      · rintro (h | ⟨h, h'⟩)
        · exact Or.inl h
        · exact Or.inr ⟨h, hc, h'⟩
      · rintro (h | ⟨h, _, h'⟩)
        · exact Or.inl h
        · exact Or.inr ⟨h, h'⟩
    · refine ⟨_, l, if_neg hc, rfl, hl3, hn, ?_⟩
      intro x
      constructor
      · exact Or.inl
      · rintro (h | ⟨_, h, _⟩)
        · exact h
        · exact absurd h hc
  obtain ⟨st4, l4, hst4, he4, hl4, hn4, hmem4⟩ := h4
  rw [hst4] at hp
  have hmem1 : ∀ x, x ∈ l ↔ (Active g st.e x ∧ x ≠ u) := by
    intro x; rw [hmem]; simp
  have hfinal : ∀ l5 : List Nat,
      (∀ x, x ∈ l5 ↔ (x ∈ l4 ∨ (x = v ∧ st.e v = 0 ∧ v ≠ g.t ∧ v ≠ g.s))) →
      ∀ x, x ∈ l5 ↔ (Active g st3.e x ∧ some x ≠ none) := by
    intro l5 h5 x
    have hsn : some x ≠ (none : Option Nat) := by simp
    have hev := he3 u
    rw [if_neg huv, if_pos rfl] at hev
    have hevv := he3 v
    rw [if_pos rfl] at hevv
    rw [h5, hmem4]
    by_cases hxv : x = v
    · subst hxv
      have hxu : x ≠ u := huv.symm
      constructor
      · rintro ((h | ⟨h, _⟩) | ⟨_, h1, h2, h3⟩)
        · obtain ⟨⟨h1, h2, h3⟩, _⟩ := (hmem1 x).mp h
          exact ⟨⟨h1, h2, by rw [hevv]; linarith⟩, hsn⟩
        · exact absurd h hxu
        · exact ⟨⟨h3, h2, by rw [hevv]; linarith⟩, hsn⟩
      · rintro ⟨⟨h1, h2, _⟩, _⟩
        rcases eq_or_lt_of_le hv with h0 | h0
        · exact Or.inr ⟨rfl, h0.symm, h2, h1⟩
        · exact Or.inl (Or.inl ((hmem1 x).mpr ⟨⟨h1, h2, h0⟩, hxu⟩))
    · by_cases hxu : x = u
      · subst hxu
        constructor
        · rintro ((h | ⟨_, h1, h2, h3⟩) | ⟨h, _⟩)
          · exact absurd rfl ((hmem1 x).mp h).2
          · exact ⟨⟨h3, h2, h1⟩, hsn⟩
          · exact absurd h hxv
        · rintro ⟨⟨h1, h2, h3⟩, _⟩
          exact Or.inl (Or.inr ⟨rfl, h3, h2, h1⟩)
      · have hex : st3.e x = st.e x := by rw [he3, if_neg hxv, if_neg hxu]
        constructor
        · rintro ((h | ⟨h, _⟩) | ⟨h, _⟩)
          · obtain ⟨⟨h1, h2, h3⟩, _⟩ := (hmem1 x).mp h
            exact ⟨⟨h1, h2, by rw [hex]; exact h3⟩, hsn⟩
          · exact absurd h hxu
          · exact absurd h hxv
        · rintro ⟨⟨h1, h2, h3⟩, _⟩
          rw [hex] at h3
          exact Or.inl (Or.inl ((hmem1 x).mpr ⟨⟨h1, h2, h3⟩, hxu⟩))
  by_cases hc : st4.e v = d
  · rw [if_pos hc] at hp
    have hv0 : st.e v = 0 := by
      rw [he4, he3, if_pos rfl] at hc; linarith
    have hvl4 : v ∉ l4 := by
      rw [hmem4, hmem1]
      rintro (⟨⟨_, _, h⟩, _⟩ | ⟨h, _⟩)
      · rw [hv0] at h; exact lt_irrefl _ h
      · exact huv h.symm
    obtain ⟨l5, h1, h2, h3⟩ := enter_excess_list (g := g) hl4 hn4 hvl4
    subst hp
    refine ⟨l5, h1, h2, ?_⟩
    rw [enter_excess_e, he4]
    apply hfinal
    intro x; rw [h3]
    constructor
    · rintro (h | ⟨h, h'⟩)
      · exact Or.inl h
      · exact Or.inr ⟨h, hv0, h'⟩
    · rintro (h | ⟨h, _, h'⟩)
      · exact Or.inl h
      · exact Or.inr ⟨h, h'⟩
  · rw [if_neg hc] at hp
    have hv0 : st.e v ≠ 0 := by
      intro h0; apply hc; rw [he4, he3, if_pos rfl, h0]; ring
    subst hp
    refine ⟨l4, hl4, hn4, ?_⟩
    rw [he4]
    apply hfinal
    intro x
    constructor
    · exact Or.inl
    · rintro (h | ⟨_, h, _⟩)
      · exact h
      · exact absurd h hv0

theorem relabel_h (g : Graph) (st : State) (u : Nat) :
    (relabel g st u).h = Function.update st.h u (st.h u + 1) := by
  unfold relabel; rw [enter_excess_h]

theorem relabel_e (g : Graph) (st : State) (u : Nat) : (relabel g st u).e = st.e := by
  unfold relabel; rw [enter_excess_e]

theorem relabel_f (g : Graph) (st : State) (u : Nat) : (relabel g st u).f = st.f := by
  unfold relabel; rw [enter_excess_f]

/-- List part of `relabel`: the relabelled active node goes back into the list. -/
theorem relabel_excessInv {g : Graph} {st : State} {u : Nat}
    (hact : Active g st.e u) (hinv : ExcessInv g st (some u)) :
    ExcessInv g (relabel g st u) none := by
  obtain ⟨l, hl, hn, hmem⟩ := hinv
  have hul : u ∉ l := fun h => ((hmem u).mp h).2 rfl
  have hl1 : IsList ({ st with h := Function.update st.h u (st.h u + 1) } : State).next
      ({ st with h := Function.update st.h u (st.h u + 1) } : State).excess l := hl
  obtain ⟨l2, h1, h2, h3⟩ := enter_excess_list (g := g) hl1 hn hul
  refine ⟨l2, h1, h2, ?_⟩
  intro x
  rw [relabel_e, h3, hmem]
  constructor
  · rintro (⟨h, _⟩ | ⟨rfl, _⟩)
    · exact ⟨h, by simp⟩
    · exact ⟨hact, by simp⟩
  · rintro ⟨h, _⟩
    by_cases hxu : x = u
    · exact Or.inr ⟨hxu, hact.2.1, hact.1⟩
    · exact Or.inl ⟨h, by simpa using hxu⟩

/-! ## sequential.c: capacity, conservation and the assertions of `push` -/

theorem available_nonneg {g : Graph} {f : Nat → Int} (hc : CapInv g f) {i : Nat} (hi : i < g.m)
    (u : Nat) : 0 ≤ available g f i (direction g u i) := by
  have := abs_le.mp (hc i hi)
  unfold available direction
  split <;> linarith [this.1, this.2]

theorem push_d_bounds {g : Graph} {st : State} {u i : Nat} (hc : CapInv g st.f) (hi : i < g.m)
    (he : 0 ≤ st.e u) :
    0 ≤ push_d g st u i ∧ push_d g st u i ≤ st.e u ∧
      push_d g st u i ≤ available g st.f i (direction g u i) := by
  rw [push_d_eq]
  exact ⟨le_MIN he (available_nonneg hc hi u), MIN_le_left _ _, MIN_le_right _ _⟩

/-- A push along edge `i` out of its endpoint `u` passes its assertions and
keeps capacity, conservation and nonnegative excess. -/
theorem push_core {g : Graph} {st : State} {u i : Nat} (hI : CoreInv g st) (hi : i < g.m)
    (hne : g.eu i ≠ g.ev i) (hu : u = g.eu i ∨ u = g.ev i) :
    push_asserts g st u (other g u i) i ∧
      ∃ st2, push g st u (other g u i) i = some st2 ∧ CoreInv g st2 := by
  have huv : u ≠ other g u i := (other_ne_self hne hu).symm
  have ha : push_asserts g st u (other g u i) i :=
    push_asserts_of huv hI.cap hi (hI.nonneg u) (available_nonneg hI.cap hi u)
  obtain ⟨st2, hp⟩ := push_isSome ha
  obtain ⟨hd0, hdu, hda⟩ := push_d_bounds hI.cap hi (hI.nonneg u) (u := u)
  obtain ⟨_, h2, h3⟩ := push_fields hp
  refine ⟨ha, st2, hp, ?_, ?_, ?_⟩
  · rw [h3]; exact capInv_pushF hI.cap hi hd0 hda
  · rw [h2, h3]
    exact consInv_push hne hi hu (fun x hx _ => hI.cons x hx) (hI.cons u)
  · rw [h2]; exact nonNeg_pushE huv (fun x _ => hI.nonneg x) hd0 hdu

theorem netIn_zero (g : Graph) (x : Nat) : netIn g (fun _ => 0) x = 0 := by
  simp [netIn]

theorem coreInv_seedStart {g : Graph} (hc : NonnegCaps g) : CoreInv g (seedStart g initState) := by
  refine ⟨?_, ?_, ?_⟩
  · intro j hj
    simpa [seedStart, initState] using cap_nonneg hc hj
  · intro x _
    simp [seedStart, initState, netIn]
  · intro x
    simp [seedStart, initState]

theorem coreInv_seedPre {g : Graph} {st : State} {i : Nat} (hI : CoreInv g st)
    (hc : 0 ≤ g.cap i) : CoreInv g (seedPre g st i) := by
  refine ⟨hI.cap, ?_, ?_⟩
  · intro x hx
    simp only [seedPre, Function.update_noteq hx]
    exact hI.cons x hx
  · intro x
    simp only [seedPre]
    by_cases h : x = g.s
    · subst h; rw [Function.update_same]; have := hI.nonneg g.s; linarith
    · rw [Function.update_noteq h]; exact hI.nonneg x

theorem seedReach_sub {g : Graph} {st0 : State} {p : List Nat} {st : State}
    (h : SeedReach g st0 p st) : ∀ i ∈ p, i ∈ g.adj g.s := by
  induction h with
  | start => exact fun i hi => hi
  | push _ _ ih => exact fun i hi => ih i (List.mem_cons_of_mem _ hi)

theorem seed_step_core {g : Graph} (hw : SeqWF g) {st : State} {i : Nat}
    (hi : i ∈ g.adj g.s) (hI : CoreInv g st) :
    push_asserts g (seedPre g st i) g.s (other g g.s i) i ∧
      ∃ st2, push g (seedPre g st i) g.s (other g g.s i) i = some st2 ∧ CoreInv g st2 := by
  obtain ⟨him, hend⟩ := (mem_adj g g.s i).mp hi
  have hend2 : g.s = g.eu i ∨ g.s = g.ev i := by
    rcases hend with h | h
    · exact Or.inl h.symm
    · exact Or.inr h.symm
  exact push_core (coreInv_seedPre hI (cap_nonneg hw.caps him)) him (eu_ne_ev hw.noLoops him) hend2

theorem seedReach_core {g : Graph} (hw : SeqWF g) {p : List Nat} {st : State}
    (h : SeedReach g initState p st) : CoreInv g st := by
  induction h with
  | start => exact coreInv_seedStart hw.caps
  | push hr hp ih =>
    obtain ⟨_, st3, h3, hI⟩ := seed_step_core hw (seedReach_sub hr _ (List.mem_cons_self _ _)) ih
    rw [hp] at h3
    exact (Option.some.inj h3) ▸ hI

theorem seed_core {g : Graph} (hw : SeqWF g) (p : List Nat) (hp : ∀ i ∈ p, i ∈ g.adj g.s)
    {st : State} (hI : CoreInv g st) : ∃ st2, seed g p st = some st2 ∧ CoreInv g st2 := by
  induction p generalizing st with
  | nil => exact ⟨st, rfl, hI⟩
  | cons i p ih =>
    obtain ⟨_, st3, h3, hI3⟩ := seed_step_core hw (hp i (List.mem_cons_self _ _)) hI
    obtain ⟨st4, h4, hI4⟩ := ih (fun j hj => hp j (List.mem_cons_of_mem _ hj)) hI3
    refine ⟨st4, ?_, hI4⟩
    unfold seed
    simp only
    change (match push g (seedPre g st i) g.s (other g g.s i) i with
      | none => none
      | some st2 => seed g p st2) = some st4
    rw [h3]
    exact h4

theorem iter_core {g : Graph} (hw : SeqWF g) {st : State} (hI : CoreInv g st) :
    iter g st ≠ Step.abort ∧ (∀ st2, iter g st = Step.cont st2 → CoreInv g st2) ∧
      (∀ u v i, st.excess = some u →
        scan g { st with excess := st.next u } u (g.adj u) = some (v, i) →
        push_asserts g { st with excess := st.next u } u v i) := by
  unfold iter leave_excess
  cases hex : st.excess with
  | none => simp
  | some u =>
    simp only
    have hI1 : CoreInv g { st with excess := st.next u } := ⟨hI.cap, hI.cons, hI.nonneg⟩
    cases hsc : scan g { st with excess := st.next u } u (g.adj u) with
    | none =>
      simp only
      refine ⟨by simp, ?_, ?_⟩
      · intro st2 h2
        simp only [Step.cont.injEq] at h2
        subst h2
        exact ⟨by rw [relabel_f]; exact hI.cap, by rw [relabel_f, relabel_e]; exact hI.cons,
          by rw [relabel_e]; exact hI.nonneg⟩
      · intro u2 v2 i2 hu2 hs2
        simp only [Option.some.injEq] at hu2
        subst hu2
        rw [hsc] at hs2
        exact absurd hs2 (by simp)
    | some vi =>
      obtain ⟨v, i⟩ := vi
      obtain ⟨h1, h2, _, _⟩ := scan_some hsc
      obtain ⟨him, hend⟩ := (mem_adj g u i).mp h1
      have hend2 : u = g.eu i ∨ u = g.ev i := by
        rcases hend with h | h
        · exact Or.inl h.symm
        · exact Or.inr h.symm
      obtain ⟨ha, st3, h3, hI3⟩ := push_core hI1 him (eu_ne_ev hw.noLoops him) hend2
      subst h2
      simp only [h3]
      refine ⟨by simp, ?_, ?_⟩
      · intro st2 h2
        simp only [Step.cont.injEq] at h2
        subst h2
        exact hI3
      · intro u2 v2 i2 hu2 hs2
        simp only [Option.some.injEq] at hu2
        subst hu2
        rw [hsc] at hs2
        simp only [Option.some.injEq, Prod.mk.injEq] at hs2
        obtain ⟨rfl, rfl⟩ := hs2
        exact ha

theorem loopReach_core {g : Graph} (hw : SeqWF g) {st : State}
    (h : LoopReach g initState st) : CoreInv g st := by
  induction h with
  | seeded hs =>
    obtain ⟨st2, h2, hI⟩ := seed_core hw (g.adj g.s) (fun i hi => hi) (coreInv_seedStart hw.caps)
    rw [hs] at h2
    exact (Option.some.inj h2) ▸ hI
  | step _ hit ih => exact (iter_core hw ih).2.1 _ hit

theorem loop_not_aborted {g : Graph} (hw : SeqWF g) (fuel : Nat) {st : State}
    (hI : CoreInv g st) : loop g fuel st ≠ Outcome.aborted := by
  induction fuel generalizing st with
  | zero => simp [loop]
  | succ k ih =>
    unfold loop
    obtain ⟨h1, h2, _⟩ := iter_core hw hI
    cases hit : iter g st with
    | halt st1 => simp
    | cont st1 => exact ih (h2 st1 hit)
    | abort => exact absurd hit h1

theorem preflow_not_aborted {g : Graph} (hw : SeqWF g) (fuel : Nat) :
    preflow g initState fuel ≠ Outcome.aborted := by
  unfold preflow preflow_state
  obtain ⟨st2, h2, hI⟩ := seed_core hw (g.adj g.s) (fun i hi => hi) (coreInv_seedStart hw.caps)
  rw [h2]
  simp only
  have := loop_not_aborted hw fuel hI
  cases hl : loop g fuel st2 with
  | returned a => simp
  | aborted => exact absurd hl this
  | timeout => simp

/-! ## Cuts and level gaps -/

theorem sum_coef (g : Graph) (T : Finset Nat) (j : Nat) :
    ∑ x ∈ T, coef g j x = cutW g T j := by
  unfold coef cutW
  rw [Finset.sum_sub_distrib, Finset.sum_ite_eq, Finset.sum_ite_eq]

theorem sum_netIn (g : Graph) (f : Nat → Int) (T : Finset Nat) :
    ∑ x ∈ T, netIn g f x = ∑ j ∈ Finset.range g.m, f j * cutW g T j := by
  simp only [netIn_eq_sum_coef]
  rw [Finset.sum_comm]
  apply Finset.sum_congr rfl
  intro j _
  rw [← Finset.mul_sum, sum_coef]

/-- If the flow `f` saturates every edge that enters `T` (in the entering
direction), no flow within the capacities carries more into `T` than `f`. -/
theorem cut_compare {g : Graph} {f φ : Nat → Int} (T : Finset Nat) (hφ : CapInv g φ)
    (hsat : ∀ j, j < g.m →
      (g.eu j ∉ T → g.ev j ∈ T → f j = g.cap j) ∧ (g.ev j ∉ T → g.eu j ∈ T → f j = - g.cap j)) :
    ∑ x ∈ T, netIn g φ x ≤ ∑ x ∈ T, netIn g f x := by
  rw [sum_netIn, sum_netIn]
  apply Finset.sum_le_sum
  intro j hj
  have hj := Finset.mem_range.mp hj
  have hb := abs_le.mp (hφ j hj)
  obtain ⟨h1, h2⟩ := hsat j hj
  unfold cutW
  by_cases hv : g.ev j ∈ T <;> by_cases hu : g.eu j ∈ T
  · simp [hv, hu]
  · simp only [hv, hu, if_true, if_false, sub_zero, mul_one]
    rw [h1 hu hv]; exact hb.2
  · simp only [hv, hu, if_true, if_false, zero_sub, mul_neg, mul_one]
    rw [h2 hv hu]; linarith [hb.1]
  · simp [hv, hu]

/-- If the flow `f` saturates every edge that leaves `R` (in the leaving
direction), no flow within the capacities carries less into `R` than `f`. -/
theorem cut_compare_out {g : Graph} {f φ : Nat → Int} (R : Finset Nat) (hφ : CapInv g φ)
    (hsat : ∀ j, j < g.m →
      (g.eu j ∈ R → g.ev j ∉ R → f j = g.cap j) ∧ (g.ev j ∈ R → g.eu j ∉ R → f j = - g.cap j)) :
    ∑ x ∈ R, netIn g f x ≤ ∑ x ∈ R, netIn g φ x := by
  rw [sum_netIn, sum_netIn]
  apply Finset.sum_le_sum
  intro j hj
  have hj := Finset.mem_range.mp hj
  have hb := abs_le.mp (hφ j hj)
  obtain ⟨h1, h2⟩ := hsat j hj
  unfold cutW
  by_cases hv : g.ev j ∈ R <;> by_cases hu : g.eu j ∈ R
  · simp [hv, hu]
  · simp only [hv, hu, if_true, if_false, sub_zero, mul_one]
    rw [h2 hv hu]; exact hb.1
  · simp only [hv, hu, if_true, if_false, zero_sub, mul_neg, mul_one]
    rw [h1 hu hv]; linarith [hb.2]
  · simp [hv, hu]

/-- Among more levels than free nodes one level carries no node. -/
theorem exists_empty_level (n : Nat) (h : Nat → Int) (a b : Int) (p q : Nat)
    (hp : p < n) (hq : q < n) (hpq : p ≠ q)
    (hpl : ¬ (a ≤ h p ∧ h p ≤ b)) (hql : ¬ (a ≤ h q ∧ h q ≤ b))
    (hcard : (n : Int) - 1 ≤ b + 1 - a) :
    ∃ k, a ≤ k ∧ k ≤ b ∧ ∀ x, x < n → h x ≠ k := by
  by_contra hcon
  push_neg at hcon
  have hsub : Finset.Icc a b ⊆ Finset.image h (((Finset.range n).erase p).erase q) := by
    intro k hk
    obtain ⟨ha, hb⟩ := Finset.mem_Icc.mp hk
    obtain ⟨x, hx, hxk⟩ := hcon k ha hb
    rw [Finset.mem_image]
    refine ⟨x, ?_, hxk⟩
    rw [Finset.mem_erase, Finset.mem_erase, Finset.mem_range]
    refine ⟨?_, ?_, hx⟩
    · rintro rfl; exact hql (hxk ▸ ⟨ha, hb⟩)
    · rintro rfl; exact hpl (hxk ▸ ⟨ha, hb⟩)
  have h1 := Finset.card_le_card hsub
  have h2 : (Finset.image h (((Finset.range n).erase p).erase q)).card ≤ n - 2 := by
    refine le_trans Finset.card_image_le ?_
    rw [Finset.card_erase_of_mem, Finset.card_erase_of_mem, Finset.card_range]
    · omega
    · exact Finset.mem_range.mpr hp
    · rw [Finset.mem_erase]; exact ⟨hpq.symm, Finset.mem_range.mpr hq⟩
  rw [Int.card_Icc] at h1
  have hn2 : 2 ≤ n := by omega
  omega

theorem netIn_out_of_range {g : Graph} (hr : InRange g) (f : Nat → Int) {x : Nat}
    (hx : g.n ≤ x) : netIn g f x = 0 := by
  unfold netIn
  rw [Finset.sum_eq_zero, Finset.sum_eq_zero]
  · simp
  · intro j hj
    have := eu_lt hr (Finset.mem_range.mp hj)
    rw [if_neg (by omega)]
  · intro j hj
    have := ev_lt hr (Finset.mem_range.mp hj)
    rw [if_neg (by omega)]

/-- A residual edge direction with level drop of at least two is impossible
under height validity: such an edge direction is saturated. -/
theorem saturated_of_drop {g : Graph} {h f : Nat → Int} (hv : Valid g h f) (hc : CapInv g f)
    {j : Nat} (hj : j < g.m) (hne : g.eu j ≠ g.ev j) :
    (h (g.ev j) + 1 < h (g.eu j) → f j = g.cap j) ∧
      (h (g.eu j) + 1 < h (g.ev j) → f j = - g.cap j) := by
  have hb := abs_le.mp (hc j hj)
  constructor
  · intro hd
    have := hv j hj (g.eu j) (Or.inl rfl)
    rw [direction_eu, other_eu] at this
    unfold available at this
    by_contra hne2
    have : 0 < g.cap j - 1 * f j := by
      rcases lt_or_eq_of_le hb.2 with h | h
      · linarith
      · exact absurd h hne2
    linarith [this, ‹0 < g.cap j - 1 * f j → h (g.eu j) ≤ h (g.ev j) + 1› this]
  · intro hd
    have := hv j hj (g.ev j) (Or.inr rfl)
    rw [direction_ev hne, other_ev hne] at this
    unfold available at this
    by_contra hne2
    have h3 : 0 < g.cap j - (-1) * f j := by
      rcases lt_or_eq_of_le hb.1 with h | h
      · linarith
      · exact absurd (by linarith) hne2
    linarith [this h3]

/-- Height bound: under capacity, conservation and height validity a node
with positive excess lies at height at most `2n - 1`. -/
theorem height_bound {g : Graph} (hr : InRange g) (hl : NoSelfLoops g) (hnc : NonnegCaps g)
    {h e f : Nat → Int} (hc : CapInv g f) (hcons : ConsInv g e f) (hnn : NonNeg e)
    (hv : Valid g h f) (hs : h g.s = g.n) {u : Nat} (hu : u < g.n) (hus : u ≠ g.s)
    (heu : 0 < e u) : h u ≤ 2 * (g.n : Int) - 1 := by
  by_contra hcon
  push_neg at hcon
  have hs0 : g.s < g.n := by unfold Graph.s; omega
  obtain ⟨k, hk1, hk2, hk3⟩ := exists_empty_level g.n h ((g.n : Int) + 1) (2 * (g.n : Int) - 1)
    g.s u hs0 hu hus.symm (by rw [hs]; omega) (by omega) (by omega)
  set R := (Finset.range g.n).filter (fun x => k < h x) with hR
  have hmemR : ∀ x, x < g.n → (x ∈ R ↔ k < h x) := by
    intro x hx; rw [hR, Finset.mem_filter, Finset.mem_range]; exact ⟨fun h => h.2, fun h => ⟨hx, h⟩⟩
  have hsR : g.s ∉ R := by rw [hmemR _ hs0, hs]; omega
  have huR : u ∈ R := by rw [hmemR _ hu]; omega
  have h1 : ∑ x ∈ R, netIn g f x ≤ ∑ x ∈ R, netIn g (fun _ => 0) x := by
    apply cut_compare_out R
    · intro j hj; simpa using cap_nonneg hnc hj
    · intro j hj
      have hne := eu_ne_ev hl hj
      have hju := eu_lt hr hj
      have hjv := ev_lt hr hj
      obtain ⟨s1, s2⟩ := saturated_of_drop hv hc hj hne
      constructor
      · intro h1 h2
        rw [hmemR _ hju] at h1
        rw [hmemR _ hjv] at h2
        have := hk3 _ hjv
        apply s1; omega
      · intro h1 h2
        rw [hmemR _ hjv] at h1
        rw [hmemR _ hju] at h2
        have := hk3 _ hju
        apply s2; omega
  have h2 : ∑ x ∈ R, netIn g (fun _ => 0) x = 0 := by
    apply Finset.sum_eq_zero; intro x _; exact netIn_zero g x
  have h3 : ∑ x ∈ R, netIn g f x = ∑ x ∈ R, e x := by
    apply Finset.sum_congr rfl
    intro x hx
    exact (hcons x (fun h => hsR (h ▸ hx))).symm
  have h4 : e u ≤ ∑ x ∈ R, e x :=
    Finset.single_le_sum (fun x _ => hnn x) huR
  linarith

/-! ## sequential.c: the full invariant for positive capacities -/

theorem PosWF.seqWF {g : Graph} (hw : PosWF g) : SeqWF g :=
  ⟨hw.inRange, hw.noLoops, hw.caps.nonneg⟩

theorem PosWF.s_lt {g : Graph} (hw : PosWF g) : g.s < g.n := by
  have := hw.n2; unfold Graph.s; omega

theorem PosWF.t_lt {g : Graph} (hw : PosWF g) : g.t < g.n := by
  have := hw.n2; unfold Graph.t; omega

theorem PosWF.s_ne_t {g : Graph} (hw : PosWF g) : g.s ≠ g.t := by
  have := hw.n2; unfold Graph.s Graph.t; omega

theorem pushE_eq_add {e : Nat → Int} {u v : Nat} (huv : u ≠ v) (d : Int) (x : Nat) :
    pushE e u v d x = e x + (if x = v then d else 0) - (if x = u then d else 0) := by
  rw [pushE_apply huv]
  by_cases h1 : x = v
  · subst h1; simp [huv.symm]
  · by_cases h2 : x = u
    · subst h2; simp [h1]
    · simp [h1, h2]

theorem sum_pushE (n : Nat) (h e : Nat → Int) {u v : Nat} (huv : u ≠ v) (hu : u < n)
    (hv : v < n) (d : Int) :
    ∑ x ∈ Finset.range n, pushE e u v d x * h x =
      (∑ x ∈ Finset.range n, e x * h x) - d * (h u - h v) := by
  simp only [pushE_eq_add huv, add_mul, sub_mul, ite_mul, zero_mul, Finset.sum_add_distrib,
    Finset.sum_sub_distrib]
  rw [Finset.sum_ite_eq', Finset.sum_ite_eq']
  simp only [Finset.mem_range, hu, hv, if_true]
  ring

theorem potE_push_lt (g : Graph) {h e : Nat → Int} {u v : Nat} (huv : u ≠ v) (hu : u < g.n)
    (hv : v < g.n) {d : Int} (hd : 0 < d) (hh : h v < h u) (hd2 : d ≤ e u)
    (hnn : NonNeg e) (hlow : ∀ x, 0 ≤ h x) :
    potE g h (pushE e u v d) < potE g h e := by
  unfold potE
  rw [sum_pushE g.n h e huv hu hv]
  have h0 : 0 ≤ ∑ x ∈ Finset.range g.n, pushE e u v d x * h x := by
    apply Finset.sum_nonneg
    intro x _
    exact mul_nonneg (nonNeg_pushE huv (fun y _ => hnn y) (le_of_lt hd) hd2 x) (hlow x)
  rw [sum_pushE g.n h e huv hu hv] at h0
  have h1 : 0 < d * (h u - h v) := mul_pos hd (by linarith)
  omega

theorem potH_relabel_lt (g : Graph) {h : Nat → Int} {u : Nat} (hu : u < g.n)
    (hb : h u + 1 ≤ 2 * (g.n : Int) - 1) :
    potH g (Function.update h u (h u + 1)) < potH g h := by
  unfold potH
  apply Finset.sum_lt_sum
  · intro x _
    by_cases hx : x = u
    · subst hx; rw [Function.update_same]; omega
    · rw [Function.update_noteq hx]
  · refine ⟨u, Finset.mem_range.mpr hu, ?_⟩
    rw [Function.update_same]; omega

theorem active_lt {g : Graph} (hr : InRange g) {e f : Nat → Int} (hcons : ConsInv g e f)
    {x : Nat} (ha : Active g e x) : x < g.n := by
  by_contra hx
  have := netIn_out_of_range hr f (not_lt.mp hx)
  rw [← hcons x ha.1] at this
  have := ha.2.2
  omega

theorem excessInv_pop {g : Graph} {st : State} {u : Nat} (hex : st.excess = some u)
    (hinv : ExcessInv g st none) :
    Active g st.e u ∧ ExcessInv g { st with excess := st.next u } (some u) := by
  obtain ⟨l, hl, hn, hmem⟩ := hinv
  cases l with
  | nil => exact absurd (hex.symm.trans hl) (by simp)
  | cons a l =>
    obtain ⟨h1, h2⟩ := hl
    have hau : a = u := Option.some.inj (h1.symm.trans hex)
    subst hau
    refine ⟨((hmem a).mp (List.mem_cons_self _ _)).1, l, h2, (List.nodup_cons.mp hn).2, ?_⟩
    intro x
    constructor
    · intro hx
      refine ⟨((hmem x).mp (List.mem_cons_of_mem _ hx)).1, ?_⟩
      intro hxa
      have : x = a := Option.some.inj hxa
      subst this
      exact (List.nodup_cons.mp hn).1 hx
    · rintro ⟨h3, h4⟩
      have := (hmem x).mpr ⟨h3, by simp⟩
      rcases List.mem_cons.mp this with h | h
      · exact absurd (congrArg some h) h4
      · exact h

theorem excessInv_empty {g : Graph} {st : State} (hex : st.excess = none)
    (hinv : ExcessInv g st none) : ∀ x, ¬ Active g st.e x := by
  obtain ⟨l, hl, _, hmem⟩ := hinv
  cases l with
  | nil =>
    intro x hx
    have := (hmem x).mpr ⟨hx, by simp⟩
    simp at this
  | cons a l => exact absurd (hl.1.symm.trans hex) (by simp)

/-- One iteration of the main loop from a state with the full invariant:
either the list is empty and the loop ends with no active node left, or the
iteration keeps the invariant and decreases the measure lexicographically. -/
theorem iter_full {g : Graph} (hw : PosWF g) {st : State} (hI : FullInv g st) :
    (st.excess = none ∧ iter g st = Step.halt st ∧ ∀ x, ¬ Active g st.e x) ∨
    (∃ st2, iter g st = Step.cont st2 ∧ FullInv g st2 ∧
      (potH g st2.h < potH g st.h ∨
        (potH g st2.h = potH g st.h ∧ potE g st2.h st2.e < potE g st.h st.e))) := by
  cases hex : st.excess with
  | none =>
    left
    refine ⟨rfl, ?_, excessInv_empty hex hI.list⟩
    unfold iter leave_excess
    rw [hex]
  | some u =>
    right
    obtain ⟨hact, hlist⟩ := excessInv_pop hex hI.list
    have hun : u < g.n := active_lt hw.inRange hI.core.cons hact
    have hI1 : CoreInv g { st with excess := st.next u } := ⟨hI.core.cap, hI.core.cons, hI.core.nonneg⟩
    unfold iter leave_excess
    rw [hex]
    simp only
    cases hsc : scan g { st with excess := st.next u } u (g.adj u) with
    | none =>
      simp only
      have hv2 : Valid g (Function.update st.h u (st.h u + 1)) st.f := by
        apply valid_relabel hI.valid hw.noLoops
        intro j hj hend hav
        have hmem : j ∈ g.adj u := by
          rw [mem_adj]
          refine ⟨hj, ?_⟩
          rcases hend with h | h
          · exact Or.inl h.symm
          · exact Or.inr h.symm
        exact scan_none hsc j hmem hav
      have hs2 : Function.update st.h u (st.h u + 1) g.s = g.n := by
        rw [Function.update_noteq (Ne.symm hact.1)]; exact hI.hs
      have hb : st.h u + 1 ≤ 2 * (g.n : Int) - 1 := by
        have := height_bound hw.inRange hw.noLoops hw.caps.nonneg hI.core.cap hI.core.cons
          hI.core.nonneg hv2 hs2 hun hact.1 hact.2.2
        rwa [Function.update_same] at this
      refine ⟨_, rfl, ⟨?_, ?_, ?_, ?_, ?_, ?_, ?_⟩, ?_⟩
      · exact ⟨by rw [relabel_f]; exact hI.core.cap, by rw [relabel_f, relabel_e]; exact hI.core.cons,
          by rw [relabel_e]; exact hI.core.nonneg⟩
      · rw [relabel_h, relabel_f]; exact hv2
      · rw [relabel_h]; exact hs2
      · rw [relabel_h, Function.update_noteq (Ne.symm hact.2.1)]; exact hI.ht
      · intro x
        rw [relabel_h]
        by_cases hx : x = u
        · subst hx; rw [Function.update_same]; have := hI.hlow x; linarith
        · rw [Function.update_noteq hx]; exact hI.hlow x
      · intro x
        rw [relabel_h]
        by_cases hx : x = u
        · subst hx; rw [Function.update_same]; exact hb
        · rw [Function.update_noteq hx]; exact hI.hbound x
      · exact relabel_excessInv hact hlist
      · left
        rw [relabel_h]
        exact potH_relabel_lt g hun hb
    | some vi =>
      obtain ⟨v, i⟩ := vi
      obtain ⟨h1, h2, h3, h4⟩ := scan_some hsc
      obtain ⟨him, hend⟩ := (mem_adj g u i).mp h1
      have hne := eu_ne_ev hw.noLoops him
      have hend2 : u = g.eu i ∨ u = g.ev i := by
        rcases hend with h | h
        · exact Or.inl h.symm
        · exact Or.inr h.symm
      obtain ⟨ha, st3, hp3, hI3⟩ := push_core hI1 him hne hend2
      have huv : u ≠ v := by rw [h2]; exact (other_ne_self hne hend2).symm
      have hvn : v < g.n := by
        rw [h2]
        rcases other_endpoint g i u with h | h
        · rw [h]; exact eu_lt hw.inRange him
        · rw [h]; exact ev_lt hw.inRange him
      subst h2
      simp only [hp3]
      obtain ⟨f1, f2, f3⟩ := push_fields hp3
      have hd : 0 < push_d g { st with excess := st.next u } u i := by
        rw [push_d_eq]
        exact lt_of_lt_of_le (lt_min hact.2.2 h4) (by unfold MIN; split <;> simp [*])
      obtain ⟨_, hdu, _⟩ := push_d_bounds hI1.cap him (hI1.nonneg u) (u := u)
      refine ⟨_, rfl, ⟨hI3, ?_, ?_, ?_, ?_, ?_, ?_⟩, ?_⟩
      · rw [f1, f3]
        exact valid_pushF hI.valid hne hend2 (le_of_lt hd) (by linarith)
      · rw [f1]; exact hI.hs
      · rw [f1]; exact hI.ht
      · rw [f1]; exact hI.hlow
      · rw [f1]; exact hI.hbound
      · exact push_excessInv hp3 huv hd (hI.core.nonneg _) hlist
      · right
        rw [f1, f2]
        exact ⟨rfl, potE_push_lt g huv hun hvn hd h3 hdu hI.core.nonneg hI.hlow⟩

/-! ## sequential.c: seeding -/

theorem seedInv_start {g : Graph} (hw : PosWF g) :
    SeedInv g (seedStart g initState) (g.adj g.s) := by
  refine ⟨coreInv_seedStart hw.caps.nonneg, rfl, rfl, ?_, ?_, ?_⟩
  · refine ⟨[], rfl, List.nodup_nil, ?_⟩
    intro x
    simp [Active, seedStart, initState]
  · intro j hj hend hnot
    exfalso; apply hnot
    rw [mem_adj]
    refine ⟨hj, ?_⟩
    rcases hend with h | h
    · exact Or.inl h.symm
    · exact Or.inr h.symm
  · intro j _; rfl

theorem seedInv_step {g : Graph} (hw : PosWF g) {st : State} {i : Nat} {p : List Nat}
    (hi : i ∈ g.adj g.s) (hip : i ∉ p) (hI : SeedInv g st (i :: p)) :
    ∃ st2, push g (seedPre g st i) g.s (other g g.s i) i = some st2 ∧ SeedInv g st2 p := by
  obtain ⟨him, hend⟩ := (mem_adj g g.s i).mp hi
  have hend2 : g.s = g.eu i ∨ g.s = g.ev i := by
    rcases hend with h | h
    · exact Or.inl h.symm
    · exact Or.inr h.symm
  have hne := eu_ne_ev hw.noLoops him
  have hcp := cap_pos hw.caps him
  obtain ⟨_, st2, hp, hI2⟩ := seed_step_core hw.seqWF hi hI.core
  obtain ⟨f1, f2, f3⟩ := push_fields hp
  have hfi : st.f i = 0 := hI.todo i (List.mem_cons_self _ _)
  have hav : available g (seedPre g st i).f i (direction g g.s i) = g.cap i := by
    unfold available seedPre; simp [hfi]
  have hes : (seedPre g st i).e g.s = g.cap i := by
    unfold seedPre; simp [hI.es]
  have hd : push_d g (seedPre g st i) g.s i = g.cap i := by
    rw [push_d_eq, hav, hes]; unfold MIN; simp
  have huv : g.s ≠ other g g.s i := (other_ne_self hne hend2).symm
  refine ⟨st2, hp, hI2, ?_, ?_, ?_, ?_, ?_⟩
  · rw [f1]; exact hI.h_eq
  · rw [f2, pushE_apply huv, if_neg huv, if_pos rfl, hd, hes]; ring
  · apply push_excessInv hp huv (by rw [hd]; exact hcp)
    · have := hI.core.nonneg (other g g.s i)
      unfold seedPre
      simp only [Function.update_noteq huv.symm]
      exact this
    · obtain ⟨l, h1, h2, h3⟩ := hI.list
      refine ⟨l, h1, h2, ?_⟩
      intro x
      rw [h3]
      constructor
      · rintro ⟨⟨a, b, c⟩, _⟩
        refine ⟨⟨a, b, ?_⟩, ?_⟩
        · unfold seedPre; simp only [Function.update_noteq a]; exact c
        · intro hx; exact a (Option.some.inj hx)
      · rintro ⟨⟨a, b, c⟩, _⟩
        refine ⟨⟨a, b, ?_⟩, by simp⟩
        unfold seedPre at c; simp only [Function.update_noteq a] at c; exact c
  · intro j hj hendj hjp
    rw [f3]
    by_cases hji : j = i
    · subst hji
      rw [available_pushF_self, hd, hav]; ring
    · rw [available_pushF_ne _ _ _ _ hji]
      apply hI.done j hj hendj
      intro h
      rcases List.mem_cons.mp h with h | h
      · exact hji h
      · exact hjp h
  · intro j hj
    rw [f3]
    have hji : j ≠ i := fun h => hip (h ▸ hj)
    unfold pushF
    rw [Function.update_noteq hji]
    exact hI.todo j (List.mem_cons_of_mem _ hj)

theorem seed_inv {g : Graph} (hw : PosWF g) (p : List Nat) (hp : ∀ i ∈ p, i ∈ g.adj g.s)
    (hn : p.Nodup) {st : State} (hI : SeedInv g st p) :
    ∃ st2, seed g p st = some st2 ∧ SeedInv g st2 [] := by
  induction p generalizing st with
  | nil => exact ⟨st, rfl, hI⟩
  | cons i p ih =>
    obtain ⟨hip, hn2⟩ := List.nodup_cons.mp hn
    obtain ⟨st3, h3, hI3⟩ := seedInv_step hw (hp i (List.mem_cons_self _ _)) hip hI
    obtain ⟨st4, h4, hI4⟩ := ih (fun j hj => hp j (List.mem_cons_of_mem _ hj)) hn2 hI3
    refine ⟨st4, ?_, hI4⟩
    change (match push g (seedPre g st i) g.s (other g g.s i) i with
      | none => none
      | some st2 => seed g p st2) = some st4
    rw [h3]
    exact h4

theorem fullInv_of_seedInv {g : Graph} (hw : PosWF g) {st : State} (hI : SeedInv g st []) :
    FullInv g st := by
  have hn : (0 : Int) ≤ g.n := Int.natCast_nonneg _
  have hh : ∀ x, st.h x = if x = g.s then (g.n : Int) else 0 := by
    intro x; rw [hI.h_eq]; simp [Function.update_apply]
  refine ⟨hI.core, ?_, ?_, ?_, ?_, ?_, hI.list⟩
  · intro j hj x hx hav
    have hne := eu_ne_ev hw.noLoops hj
    rw [hh x, hh (other g x j)]
    by_cases hxs : x = g.s
    · subst hxs
      rw [hI.done j hj hx (by simp)] at hav
      exact absurd hav (lt_irrefl _)
    · rw [if_neg hxs]
      split <;> omega
  · rw [hh]; simp
  · rw [hh, if_neg hw.s_ne_t.symm]
  · intro x; rw [hh]; split <;> omega
  · intro x; rw [hh]; have := hw.n2; split <;> omega

/-- After the seeding loop the full invariant holds. -/
theorem seed_full {g : Graph} (hw : PosWF g) :
    ∃ st, seed g (g.adj g.s) (seedStart g initState) = some st ∧ FullInv g st := by
  obtain ⟨st, h1, h2⟩ := seed_inv hw (g.adj g.s) (fun i hi => hi) (nodup_adj hw.noLoops _)
    (seedInv_start hw)
  exact ⟨st, h1, fullInv_of_seedInv hw h2⟩

/-! ## sequential.c: termination -/

theorem loop_mono {g : Graph} {k : Nat} {st st2 : State}
    (h : loop g k st = Outcome.returned st2) : loop g (k + 1) st = Outcome.returned st2 := by
  induction k generalizing st with
  | zero => simp [loop] at h
  | succ k ih =>
    rw [loop] at h
    rw [loop]
    cases hit : iter g st with
    | halt st1 => rw [hit] at h; exact h
    | cont st1 => rw [hit] at h; exact ih h
    | abort => rw [hit] at h; exact absurd h (by simp)

/-- The main loop ends from every state with the full invariant, in a state
with the full invariant and without active nodes. -/
theorem loop_terminates {g : Graph} (hw : PosWF g) (a b : Nat) :
    ∀ st, FullInv g st → potH g st.h = a → potE g st.h st.e = b →
      ∃ fuel st2, loop g fuel st = Outcome.returned st2 ∧ FullInv g st2 ∧
        ∀ x, ¬ Active g st2.e x := by
  induction a using Nat.strong_induction_on generalizing b with
  | _ a iha =>
    induction b using Nat.strong_induction_on with
    | _ b ihb =>
      intro st hI ha hb
      rcases iter_full hw hI with ⟨_, hit, hno⟩ | ⟨st2, hit, hI2, hdec⟩
      · refine ⟨1, st, ?_, hI, hno⟩
        rw [loop, hit]
      · have hrec : ∃ fuel st3, loop g fuel st2 = Outcome.returned st3 ∧ FullInv g st3 ∧
            ∀ x, ¬ Active g st3.e x := by
          rcases hdec with hlt | ⟨heq, hlt⟩
          · exact iha _ (ha ▸ hlt) _ st2 hI2 rfl rfl
          · exact ihb _ (hb ▸ hlt) st2 hI2 (heq.trans ha) rfl
        obtain ⟨fuel, st3, h3, hI3, hno⟩ := hrec
        refine ⟨fuel + 1, st3, ?_, hI3, hno⟩
        rw [loop, hit]
        exact h3

/-- Two runs of the main loop that both return agree. -/
theorem loop_det {g : Graph} {k1 k2 : Nat} {st s1 s2 : State}
    (h1 : loop g k1 st = Outcome.returned s1) (h2 : loop g k2 st = Outcome.returned s2) :
    s1 = s2 := by
  induction k1 generalizing st k2 with
  | zero => simp [loop] at h1
  | succ k ih =>
    cases k2 with
    | zero => simp [loop] at h2
    | succ k2 =>
      rw [loop] at h1 h2
      cases hit : iter g st with
      | halt st1 =>
        rw [hit] at h1 h2
        simp only [Outcome.returned.injEq] at h1 h2
        rw [← h1, ← h2]
      | cont st1 =>
        rw [hit] at h1 h2
        exact ih h1 h2
      | abort => rw [hit] at h1; exact absurd h1 (by simp)

/-! ## Maximum flow -/

theorem isMaxFlowValue_unique {g : Graph} {a b : Int} (ha : IsMaxFlowValue g a)
    (hb : IsMaxFlowValue g b) : a = b := by
  obtain ⟨⟨φ, h1, h2⟩, h3⟩ := ha
  obtain ⟨⟨ψ, k1, k2⟩, k3⟩ := hb
  have := h3 ψ k1
  have := k3 φ h1
  omega

theorem sum_netIn_eq_sink {g : Graph} {φ : Nat → Int} {T : Finset Nat}
    (hT : ∀ x ∈ T, x < g.n) (hs : g.s ∉ T) (ht : g.t ∈ T)
    (hcons : ∀ x, x < g.n → x ≠ g.s → x ≠ g.t → netIn g φ x = 0) :
    ∑ x ∈ T, netIn g φ x = netIn g φ g.t := by
  apply Finset.sum_eq_single_of_mem g.t ht
  intro x hx hxt
  exact hcons x (hT x hx) (fun h => hs (h ▸ hx)) hxt

/-- When no node other than source and sink has positive excess, the excess
of the sink is the value of a maximum flow (invariant 4 of the data model). -/
theorem maxflow_of_final {g : Graph} (hw : PosWF g) {h e f : Nat → Int}
    (hc : CapInv g f) (hcons : ConsInv g e f) (hnn : NonNeg e) (hv : Valid g h f)
    (hs : h g.s = g.n) (ht : h g.t = 0) (hno : ∀ x, ¬ Active g e x) :
    IsMaxFlowValue g (e g.t) := by
  have hfeas : FeasibleFlow g f := by
    refine ⟨hc, ?_⟩
    intro x _ hxs hxt
    rw [← hcons x hxs]
    have h1 := hnn x
    have h2 : ¬ 0 < e x := fun h => hno x ⟨hxs, hxt, h⟩
    omega
  have hval : flowValue g f = e g.t := (hcons g.t hw.s_ne_t.symm).symm
  refine ⟨⟨f, hfeas, hval⟩, ?_⟩
  intro φ hφ
  have hn2 := hw.n2
  obtain ⟨k, hk1, hk2, hk3⟩ := exists_empty_level g.n h 1 ((g.n : Int) - 1) g.s g.t
    hw.s_lt hw.t_lt hw.s_ne_t (by rw [hs]; omega) (by rw [ht]; omega) (by omega)
  set T := (Finset.range g.n).filter (fun x => h x < k) with hT
  have hmemT : ∀ x, x < g.n → (x ∈ T ↔ h x < k) := by
    intro x hx; rw [hT, Finset.mem_filter, Finset.mem_range]; exact ⟨fun h => h.2, fun h => ⟨hx, h⟩⟩
  have hTn : ∀ x ∈ T, x < g.n := by
    intro x hx; rw [hT, Finset.mem_filter, Finset.mem_range] at hx; exact hx.1
  have hsT : g.s ∉ T := by rw [hmemT _ hw.s_lt, hs]; omega
  have htT : g.t ∈ T := by rw [hmemT _ hw.t_lt, ht]; omega
  have hcmp : ∑ x ∈ T, netIn g φ x ≤ ∑ x ∈ T, netIn g f x := by
    apply cut_compare T hφ.1
    intro j hj
    have hne := eu_ne_ev hw.noLoops hj
    have hju := eu_lt hw.inRange hj
    have hjv := ev_lt hw.inRange hj
    obtain ⟨s1, s2⟩ := saturated_of_drop hv hc hj hne
    constructor
    · intro h1 h2
      rw [hmemT _ hju] at h1
      rw [hmemT _ hjv] at h2
      have := hk3 _ hju
      apply s1; omega
    · intro h1 h2
      rw [hmemT _ hjv] at h1
      rw [hmemT _ hju] at h2
      have := hk3 _ hjv
      apply s2; omega
  rw [sum_netIn_eq_sink hTn hsT htT hφ.2, sum_netIn_eq_sink hTn hsT htT hfeas.2] at hcmp
  unfold flowValue at hval ⊢
  rw [← hval]
  exact hcmp

/-! ## sequential.c: reachable states and results -/

theorem iter_halt_eq {g : Graph} {st st1 : State} (h : iter g st = Step.halt st1) :
    st1 = st ∧ st.excess = none := by
  unfold iter leave_excess at h
  cases hex : st.excess with
  | none =>
    rw [hex] at h
    simp only [Step.halt.injEq] at h
    exact ⟨h.symm, rfl⟩
  | some u =>
    rw [hex] at h
    simp only at h
    cases hsc : scan g { st with excess := st.next u } u (g.adj u) with
    | none => rw [hsc] at h; exact absurd h (by simp)
    | some vi =>
      rw [hsc] at h
      simp only at h
      split at h <;> exact absurd h (by simp)

/-- The state in which the main loop ends is a state at the head of the loop. -/
theorem loop_returned_reach {g : Graph} {st0 : State} {k : Nat} {st st2 : State}
    (h : loop g k st = Outcome.returned st2) (hr : LoopReach g st0 st) :
    LoopReach g st0 st2 ∧ st2.excess = none := by
  induction k generalizing st with
  | zero => simp [loop] at h
  | succ k ih =>
    rw [loop] at h
    cases hit : iter g st with
    | halt st1 =>
      rw [hit] at h
      simp only [Outcome.returned.injEq] at h
      obtain ⟨h1, h2⟩ := iter_halt_eq hit
      rw [← h, h1]
      exact ⟨hr, h2⟩
    | cont st1 =>
      rw [hit] at h
      exact ih h (LoopReach.step hr hit)
    | abort => rw [hit] at h; exact absurd h (by simp)

theorem loopReach_full {g : Graph} (hw : PosWF g) {st : State}
    (h : LoopReach g initState st) : FullInv g st := by
  induction h with
  | seeded hs =>
    obtain ⟨st2, h2, hI⟩ := seed_full hw
    rw [hs] at h2
    exact (Option.some.inj h2) ▸ hI
  | step _ hit ih =>
    rcases iter_full hw ih with ⟨_, h1, _⟩ | ⟨st3, h1, hI, _⟩
    · rw [hit] at h1; exact absurd h1 (by simp)
    · rw [hit] at h1
      simp only [Step.cont.injEq] at h1
      exact h1 ▸ hI

theorem seedReach_inv {g : Graph} (hw : PosWF g) {p : List Nat} {st : State}
    (h : SeedReach g initState p st) : SeedInv g st p ∧ p.Nodup := by
  induction h with
  | start => exact ⟨seedInv_start hw, nodup_adj hw.noLoops _⟩
  | push hr hp ih =>
    obtain ⟨hI, hn⟩ := ih
    obtain ⟨hip, hn2⟩ := List.nodup_cons.mp hn
    obtain ⟨st3, h3, hI3⟩ := seedInv_step hw (seedReach_sub hr _ (List.mem_cons_self _ _)) hip hI
    rw [hp] at h3
    exact ⟨(Option.some.inj h3) ▸ hI3, hn2⟩

/-- For valid inputs with positive capacities `preflow` returns, and the
state it ends in has the full invariant and no active node. -/
theorem preflow_state_returns {g : Graph} (hw : PosWF g) :
    ∃ fuel st, preflow_state g initState fuel = Outcome.returned st ∧ FullInv g st ∧
      ∀ x, ¬ Active g st.e x := by
  obtain ⟨st1, h1, hI1⟩ := seed_full hw
  obtain ⟨fuel, st2, h2, hI2, hno⟩ := loop_terminates hw _ _ st1 hI1 rfl rfl
  refine ⟨fuel, st2, ?_, hI2, hno⟩
  unfold preflow_state
  rw [h1]
  exact h2

theorem preflow_state_final {g : Graph} (hw : PosWF g) {fuel : Nat} {st : State}
    (h : preflow_state g initState fuel = Outcome.returned st) :
    FullInv g st ∧ ∀ x, ¬ Active g st.e x := by
  unfold preflow_state at h
  obtain ⟨st1, h1, _⟩ := seed_full hw
  rw [h1] at h
  simp only at h
  obtain ⟨hr, hex⟩ := loop_returned_reach h (LoopReach.seeded h1)
  have hI := loopReach_full hw hr
  exact ⟨hI, excessInv_empty hex hI.list⟩

theorem preflow_returned_iff {g : Graph} {st0 : State} {fuel : Nat} {val : Int} :
    preflow g st0 fuel = Outcome.returned val ↔
      ∃ st, preflow_state g st0 fuel = Outcome.returned st ∧ st.e g.t = val := by
  unfold preflow
  cases h : preflow_state g st0 fuel with
  | returned st => simp
  | aborted => simp
  | timeout => simp

theorem preflow_maxflow {g : Graph} (hw : PosWF g) {fuel : Nat} {val : Int}
    (h : preflow g initState fuel = Outcome.returned val) : IsMaxFlowValue g val := by
  obtain ⟨st, h1, h2⟩ := preflow_returned_iff.mp h
  obtain ⟨hI, hno⟩ := preflow_state_final hw h1
  rw [← h2]
  exact maxflow_of_final hw hI.core.cap hI.core.cons hI.core.nonneg hI.valid hI.hs hI.ht hno

theorem preflow_returns {g : Graph} (hw : PosWF g) :
    ∃ fuel val, preflow g initState fuel = Outcome.returned val := by
  obtain ⟨fuel, st, h, _⟩ := preflow_state_returns hw
  exact ⟨fuel, st.e g.t, preflow_returned_iff.mpr ⟨st, h, rfl⟩⟩

/-! ## sequential.c: connectivity -/

theorem adj_other {g : Graph} {j u : Nat} (hj : j < g.m) (hu : u = g.eu j ∨ u = g.ev j) :
    Adj g u (other g u j) := by
  refine ⟨_, getD_mem_edges g hj, ?_⟩
  rcases hu with rfl | rfl
  · left; exact ⟨rfl, (other_eu g j).symm⟩
  · by_cases hne : g.eu j = g.ev j
    · left
      refine ⟨hne, ?_⟩
      show g.ev j = other g (g.ev j) j
      unfold other; rw [if_pos hne.symm]
    · right
      refine ⟨?_, rfl⟩
      rw [other_ev hne]; rfl

theorem connInv_pushE {g : Graph} {e : Nat → Int} {u v : Nat} {d : Int} (huv : u ≠ v)
    (h : ConnInv g e) (hu : d ≠ 0 → Conn g g.s u) (hadj : Adj g u v) :
    ConnInv g (pushE e u v d) := by
  intro x hx
  rw [pushE_apply huv] at hx
  by_cases h1 : x = v
  · subst h1
    rw [if_pos rfl] at hx
    by_cases hd : d = 0
    · apply h; rw [hd] at hx; simpa using hx
    · exact Relation.ReflTransGen.tail (hu hd) hadj
  · rw [if_neg h1] at hx
    by_cases h2 : x = u
    · subst h2
      rw [if_pos rfl] at hx
      by_cases hd : d = 0
      · apply h; rw [hd] at hx; simpa using hx
      · exact hu hd
    · rw [if_neg h2] at hx
      exact h x hx

theorem iter_cont_cases {g : Graph} {st st2 : State} (h : iter g st = Step.cont st2) :
    ∃ u, st.excess = some u ∧
      ((∃ v i, scan g { st with excess := st.next u } u (g.adj u) = some (v, i) ∧
          push g { st with excess := st.next u } u v i = some st2) ∨
        (scan g { st with excess := st.next u } u (g.adj u) = none ∧
          st2 = relabel g { st with excess := st.next u } u)) := by
  unfold iter leave_excess at h
  cases hex : st.excess with
  | none => rw [hex] at h; exact absurd h (by simp)
  | some u =>
    rw [hex] at h
    simp only at h
    refine ⟨u, rfl, ?_⟩
    cases hsc : scan g { st with excess := st.next u } u (g.adj u) with
    | none =>
      rw [hsc] at h
      simp only [Step.cont.injEq] at h
      exact Or.inr ⟨rfl, h.symm⟩
    | some vi =>
      obtain ⟨v, i⟩ := vi
      rw [hsc] at h
      simp only at h
      left
      refine ⟨v, i, rfl, ?_⟩
      cases hp : push g { st with excess := st.next u } u v i with
      | none => rw [hp] at h; exact absurd h (by simp)
      | some st3 =>
        rw [hp] at h
        simp only [Step.cont.injEq] at h
        rw [h]

theorem seedReach_conn {g : Graph} (hw : SeqWF g) {p : List Nat} {st : State}
    (h : SeedReach g initState p st) : ConnInv g st.e := by
  induction h with
  | start => intro x hx; simp [seedStart, initState] at hx
  | @push i p st st2 hr hp ih =>
    have hi := seedReach_sub hr i (List.mem_cons_self _ _)
    obtain ⟨him, hend⟩ := (mem_adj g g.s i).mp hi
    have hend2 : g.s = g.eu i ∨ g.s = g.ev i := by
      rcases hend with h | h
      · exact Or.inl h.symm
      · exact Or.inr h.symm
    have hne := eu_ne_ev hw.noLoops him
    obtain ⟨_, f2, _⟩ := push_fields hp
    rw [f2]
    apply connInv_pushE (other_ne_self hne hend2).symm _ (fun _ => Relation.ReflTransGen.refl)
      (adj_other him hend2)
    intro x hx
    unfold seedPre at hx
    by_cases hxs : x = g.s
    · subst hxs; exact Relation.ReflTransGen.refl
    · simp only [Function.update_noteq hxs] at hx
      exact ih x hx

theorem seed_conn {g : Graph} {st0 : State} {p : List Nat} {st st2 : State}
    (hr : SeedReach g st0 p st) (hs : seed g p st = some st2) : SeedReach g st0 [] st2 := by
  induction p generalizing st with
  | nil =>
    simp only [seed, Option.some.injEq] at hs
    exact hs ▸ hr
  | cons i p ih =>
    have hs2 : (match push g (seedPre g st i) g.s (other g g.s i) i with
      | none => none
      | some st2 => seed g p st2) = some st2 := hs
    cases hp : push g (seedPre g st i) g.s (other g g.s i) i with
    | none => rw [hp] at hs2; exact absurd hs2 (by simp)
    | some st3 =>
      rw [hp] at hs2
      exact ih (SeedReach.push hr hp) hs2

theorem loopReach_conn {g : Graph} (hw : SeqWF g) {st : State}
    (h : LoopReach g initState st) : ConnInv g st.e := by
  induction h with
  | seeded hs => exact seedReach_conn hw (seed_conn SeedReach.start hs)
  | @step st st2 hr hit ih =>
    have hI := loopReach_core hw hr
    obtain ⟨u, hex, hcase⟩ := iter_cont_cases hit
    rcases hcase with ⟨v, i, hsc, hp⟩ | ⟨_, h2⟩
    · obtain ⟨h1, h2, _, _⟩ := scan_some hsc
      obtain ⟨him, hend⟩ := (mem_adj g u i).mp h1
      have hend2 : u = g.eu i ∨ u = g.ev i := by
        rcases hend with h | h
        · exact Or.inl h.symm
        · exact Or.inr h.symm
      have hne := eu_ne_ev hw.noLoops him
      subst h2
      obtain ⟨_, f2, _⟩ := push_fields hp
      rw [f2]
      apply connInv_pushE (other_ne_self hne hend2).symm ih _ (adj_other him hend2)
      intro hd
      apply ih
      have hI1 : CoreInv g { st with excess := st.next u } := ⟨hI.cap, hI.cons, hI.nonneg⟩
      obtain ⟨hd0, hdu, _⟩ := push_d_bounds hI1.cap him (hI1.nonneg u) (u := u)
      intro h0
      apply hd
      have : ({ st with excess := st.next u } : State).e u = st.e u := rfl
      rw [this, h0] at hdu
      omega
    · rw [h2, relabel_e]; exact ih

/-! ## lab3: runs in which no node is active after seeding -/

theorem work_compute_idle (g : Graph) (i k : Nat) {st : PState} (h : st.active i = none) :
    work_compute g i (k + 1) st = some st := by
  unfold work_compute pop_active
  rw [h]

theorem compute_workers_idle (g : Graph) (k : Nat) (is : List Nat) {st : PState}
    (h : ∀ i, st.active i = none) : compute_workers g (k + 1) is st = some st := by
  induction is with
  | nil => rfl
  | cons i is ih =>
    unfold compute_workers
    rw [work_compute_idle g i k (h i)]
    exact ih

theorem apply_workers_idle (g : Graph) (is : List Nat) {st : PState} (d : Nat)
    (h : ∀ i, st.active i = none) (hq : ∀ i, st.action i = []) :
    apply_workers g is (st, d) = (st, d + is.length) := by
  induction is generalizing d with
  | nil => rfl
  | cons i is ih =>
    unfold apply_workers
    simp only [hq i, apply_queue, h i, if_true]
    rw [ih]
    simp only [List.length_cons]
    congr 1
    omega

theorem apply_phase_idle (g : Graph) (thr : Nat) {st : PState}
    (h : ∀ i, st.active i = none) (hq : ∀ i, st.action i = []) :
    apply_phase g thr st = { st with fin := true } := by
  unfold apply_phase
  rw [apply_workers_idle g _ 0 h hq]
  simp

/-- A run that starts with every partition and every queue empty: the
workers queue nothing, and the coordinator sets `fin` in its first apply phase. -/
theorem rounds_idle (g : Graph) (thr fuel k : Nat) {st : PState} (hf : st.fin = false)
    (h : ∀ i, st.active i = none) (hq : ∀ i, st.action i = []) :
    rounds g thr (fuel + 1) (k + 2) st = Outcome.returned { st with fin := true } := by
  rw [rounds, if_neg (by simp [hf]), compute_workers_idle g fuel _ h]
  simp only
  rw [apply_phase_idle g thr h hq, rounds, if_pos rfl]

theorem gSingle_adj (c : Int) : (gSingle c).adj (gSingle c).s = [0] := by
  unfold Graph.adj gSingle Graph.s
  simp [new_graph_loop, connect, add_edge, Function.update_apply]

theorem gSingle_seeded (c : Int) (thr : Nat) :
    (∀ i, (seeded3 (gSingle c) thr initPState).active i = none) ∧
      (∀ i, (seeded3 (gSingle c) thr initPState).action i = []) ∧
      (seeded3 (gSingle c) thr initPState).fin = false ∧
      (seeded3 (gSingle c) thr initPState).e (gSingle c).t = c := by
  unfold seeded3
  rw [gSingle_adj]
  have ho : other (gSingle c) (gSingle c).s 0 = (gSingle c).t := rfl
  have hcap : (gSingle c).cap 0 = c := rfl
  simp only [seed3, ho, add_active, ne_eq, not_true_eq_false, false_and, if_false, hcap]
  refine ⟨fun _ => rfl, fun _ => rfl, rfl, ?_⟩
  simp [initPState]

/-! ## lab3: queued actions and the state they lead to -/

theorem qsum_cons (F : Action → Int) (q : Nat → List Action) {thr i : Nat} (hi : i < thr)
    (a : Action) : qsum F (Function.update q i (a :: q i)) thr = F a + qsum F q thr := by
  unfold qsum
  rw [← Finset.add_sum_erase _ _ (Finset.mem_range.mpr hi),
    ← Finset.add_sum_erase (Finset.range thr) (fun i => ((q i).map F).sum) (Finset.mem_range.mpr hi)]
  rw [Function.update_same, List.map_cons, List.sum_cons, add_assoc]
  congr 2
  apply Finset.sum_congr rfl
  intro j hj
  rw [Function.update_noteq (Finset.ne_of_mem_erase hj)]

theorem qsum_pop (F : Action → Int) (q : Nat → List Action) {thr i : Nat} (hi : i < thr)
    {a : Action} {rest : List Action} (hq : q i = a :: rest) :
    qsum F q thr = F a + qsum F (Function.update q i rest) thr := by
  have := qsum_cons F (Function.update q i rest) hi a
  rw [Function.update_same, Function.update_idem] at this
  rw [← this, ← hq, Function.update_eq_self]

theorem qsum_empty (F : Action → Int) (q : Nat → List Action) (thr : Nat)
    (h : ∀ i, i < thr → q i = []) : qsum F q thr = 0 := by
  unfold qsum
  apply Finset.sum_eq_zero
  intro i hi
  rw [h i (Finset.mem_range.mp hi)]
  rfl

theorem qsum_nonneg (F : Action → Int) (q : Nat → List Action) (thr : Nat)
    (h : ∀ i, i < thr → ∀ a ∈ q i, 0 ≤ F a) : 0 ≤ qsum F q thr := by
  unfold qsum
  apply Finset.sum_nonneg
  intro i hi
  apply List.sum_nonneg
  intro y hy
  obtain ⟨a, ha, rfl⟩ := List.mem_map.mp hy
  exact h i (Finset.mem_range.mp hi) a ha

theorem qsum_eq_zero (F : Action → Int) (q : Nat → List Action) (thr : Nat)
    (h : ∀ i, i < thr → ∀ a ∈ q i, F a = 0) : qsum F q thr = 0 := by
  unfold qsum
  apply Finset.sum_eq_zero
  intro i hi
  have : (q i).map F = (q i).map (fun _ => (0 : Int)) :=
    List.map_congr_left (h i (Finset.mem_range.mp hi))
  rw [this]
  simp

theorem add_active_h (g : Graph) (st : PState) (x i : Nat) : (add_active g st x i).h = st.h := by
  unfold add_active; split <;> rfl

theorem add_active_e (g : Graph) (st : PState) (x i : Nat) : (add_active g st x i).e = st.e := by
  unfold add_active; split <;> rfl

theorem add_active_f (g : Graph) (st : PState) (x i : Nat) : (add_active g st x i).f = st.f := by
  unfold add_active; split <;> rfl

theorem add_active_action (g : Graph) (st : PState) (x i : Nat) :
    (add_active g st x i).action = st.action := by
  unfold add_active; split <;> rfl

theorem add_active_fin (g : Graph) (st : PState) (x i : Nat) :
    (add_active g st x i).fin = st.fin := by
  unfold add_active; split <;> rfl

theorem add_active_active_ne (g : Graph) (st : PState) (x : Nat) {i j : Nat} (h : j ≠ i) :
    (add_active g st x i).active j = st.active j := by
  unfold add_active
  split
  · simp [Function.update_noteq h]
  · rfl

theorem apply_action_h (g : Graph) (i : Nat) (a : Action) (st : PState) :
    (apply_action g i a st).h = fun x => st.h x + relInd x a := by
  unfold apply_action relInd
  funext x
  by_cases hr : a.relabel = true
  · rw [if_pos hr, add_active_h]
    by_cases hx : a.node = x
    · subst hx; simp [hr]
    · simp [hr, hx, Function.update_noteq (Ne.symm hx)]
  · rw [if_neg hr]
    have hr2 : a.relabel = false := by simpa using hr
    simp only [hr2]
    split
    · rw [add_active_h]; simp
    · simp

theorem apply_action_e (g : Graph) (i : Nat) (a : Action) (st : PState) :
    (apply_action g i a st).e = fun x => st.e x + inInd x a := by
  unfold apply_action inInd
  funext x
  by_cases hr : a.relabel = true
  · rw [if_pos hr, add_active_e]
    simp [hr]
  · rw [if_neg hr]
    have hr2 : a.relabel = false := by simpa using hr
    have : (if (Function.update st.e a.node (st.e a.node + a.flo)) a.node = a.flo then
        add_active g { st with e := Function.update st.e a.node (st.e a.node + a.flo),
                               f := Function.update st.f a.edge (st.f a.edge + a.flo * a.dir) } a.node i
        else { st with e := Function.update st.e a.node (st.e a.node + a.flo),
                       f := Function.update st.f a.edge (st.f a.edge + a.flo * a.dir) }).e =
        Function.update st.e a.node (st.e a.node + a.flo) := by
      split
      · rw [add_active_e]
      · rfl
    rw [this]
    by_cases hx : a.node = x
    · subst hx; simp [hr2]
    · simp [hr2, hx, Function.update_noteq (Ne.symm hx)]

theorem apply_action_f (g : Graph) (i : Nat) (a : Action) (st : PState) :
    (apply_action g i a st).f = fun j => st.f j + edgeInd j a := by
  unfold apply_action edgeInd
  funext j
  by_cases hr : a.relabel = true
  · rw [if_pos hr, add_active_f]
    simp [hr]
  · rw [if_neg hr]
    have hr2 : a.relabel = false := by simpa using hr
    have : (if (Function.update st.e a.node (st.e a.node + a.flo)) a.node = a.flo then
        add_active g { st with e := Function.update st.e a.node (st.e a.node + a.flo),
                               f := Function.update st.f a.edge (st.f a.edge + a.flo * a.dir) } a.node i
        else { st with e := Function.update st.e a.node (st.e a.node + a.flo),
                       f := Function.update st.f a.edge (st.f a.edge + a.flo * a.dir) }).f =
        Function.update st.f a.edge (st.f a.edge + a.flo * a.dir) := by
      split
      · rw [add_active_f]
      · rfl
    rw [this]
    by_cases hx : a.edge = j
    · subst hx; simp [hr2]
    · simp [hr2, hx, Function.update_noteq (Ne.symm hx)]

theorem apply_action_action (g : Graph) (i : Nat) (a : Action) (st : PState) :
    (apply_action g i a st).action = st.action := by
  unfold apply_action
  split
  · rw [add_active_action]
  · simp only
    split
    · rw [add_active_action]
    · rfl

theorem apply_action_fin (g : Graph) (i : Nat) (a : Action) (st : PState) :
    (apply_action g i a st).fin = st.fin := by
  unfold apply_action
  split
  · rw [add_active_fin]
  · simp only
    split
    · rw [add_active_fin]
    · rfl

theorem apply_action_active_ne (g : Graph) (a : Action) (st : PState) {i j : Nat} (h : j ≠ i) :
    (apply_action g i a st).active j = st.active j := by
  unfold apply_action
  split
  · rw [add_active_active_ne _ _ _ h]
  · simp only
    split
    · rw [add_active_active_ne _ _ _ h]
    · rfl

/-- Applying one popped action moves its effect from the queue into the
fields: the state that the queued actions lead to stays the same. -/
theorem apply_action_virtual (g : Graph) {thr i : Nat} (hi : i < thr) {a : Action}
    {rest : List Action} {st : PState} (hq : st.action i = a :: rest) :
    vh (apply_action g i a (popped st i rest)) thr = vh st thr ∧
      ve (apply_action g i a (popped st i rest)) thr = ve st thr ∧
      vf (apply_action g i a (popped st i rest)) thr = vf st thr := by
  refine ⟨?_, ?_, ?_⟩
  · funext x
    unfold vh
    rw [apply_action_h, apply_action_action, qsum_pop (relInd x) st.action hi hq]
    simp only [popped]; ring
  · funext x
    unfold ve
    rw [apply_action_e, apply_action_action, qsum_pop (inInd x) st.action hi hq]
    simp only [popped]; ring
  · funext x
    unfold vf
    rw [apply_action_f, apply_action_action, qsum_pop (edgeInd x) st.action hi hq]
    simp only [popped]; ring

/-! ## lab3: the partitions of the active nodes -/

theorem partsInv_congr {thr : Nat} {next : Nat → Option Nat} {active : Nat → Option Nat}
    {mem mem2 : Nat → Prop} (h : PartsInv thr next active mem) (hiff : ∀ x, mem x ↔ mem2 x) :
    PartsInv thr next active mem2 := by
  obtain ⟨L, h1, h2, h3⟩ := h
  exact ⟨L, h1, h2, fun x => (h3 x).trans (hiff x)⟩

theorem partsInv_add (g : Graph) {thr : Nat} {st : PState} {mem : Nat → Prop} {x i : Nat}
    (h : PartsInv thr st.next st.active mem) (hx : ¬ mem x) (hi : i < thr) :
    PartsInv thr (add_active g st x i).next (add_active g st x i).active
      (fun y => mem y ∨ (y = x ∧ x ≠ g.t ∧ x ≠ g.s)) := by
  obtain ⟨L, h1, h2, h3⟩ := h
  have hxL : ∀ j, j < thr → x ∉ L j := fun j hj hm => hx ((h3 x).mp ⟨j, hj, hm⟩)
  unfold add_active
  split
  · rename_i hc
    refine ⟨Function.update L i (x :: L i), ?_, ?_, ?_⟩
    · intro j hj
      by_cases hji : j = i
      · subst hji
        simp only [Function.update_same]
        refine ⟨⟨rfl, ?_⟩, List.nodup_cons.mpr ⟨hxL j hj, (h1 j hj).2⟩⟩
        have := isList_update (st.active j) (hxL j hj) (h1 j hj).1
        rw [Function.update_same]
        exact this
      · simp only [Function.update_noteq hji]
        exact ⟨isList_update _ (hxL j hj) (h1 j hj).1, (h1 j hj).2⟩
    · intro j k y hj hk hyj hyk
      by_cases hji : j = i <;> by_cases hki : k = i
      · rw [hji, hki]
      · rw [hji, Function.update_same] at hyj
        rw [Function.update_noteq hki] at hyk
        rcases List.mem_cons.mp hyj with rfl | hyj
        · exact absurd hyk (hxL k hk)
        · rw [hji]; exact h2 i k y hi hk hyj hyk
      · rw [hki, Function.update_same] at hyk
        rw [Function.update_noteq hji] at hyj
        rcases List.mem_cons.mp hyk with rfl | hyk
        · exact absurd hyj (hxL j hj)
        · rw [hki]; exact h2 j i y hj hi hyj hyk
      · rw [Function.update_noteq hji] at hyj
        rw [Function.update_noteq hki] at hyk
        exact h2 j k y hj hk hyj hyk
    · intro y
      constructor
      · rintro ⟨j, hj, hyj⟩
        by_cases hji : j = i
        · rw [hji, Function.update_same] at hyj
          rcases List.mem_cons.mp hyj with rfl | hyj
          · exact Or.inr ⟨rfl, hc⟩
          · exact Or.inl ((h3 y).mp ⟨i, hi, hyj⟩)
        · rw [Function.update_noteq hji] at hyj
          exact Or.inl ((h3 y).mp ⟨j, hj, hyj⟩)
      · rintro (hm | ⟨rfl, _⟩)
        · obtain ⟨j, hj, hyj⟩ := (h3 y).mpr hm
          refine ⟨j, hj, ?_⟩
          by_cases hji : j = i
          · rw [hji, Function.update_same]; rw [hji] at hyj
            exact List.mem_cons_of_mem _ hyj
          · rw [Function.update_noteq hji]; exact hyj
        · exact ⟨i, hi, by rw [Function.update_same]; exact List.mem_cons_self _ _⟩
  · rename_i hc
    refine ⟨L, h1, h2, ?_⟩
    intro y
    rw [h3]
    constructor
    · exact Or.inl
    · rintro (hm | ⟨_, hc2⟩)
      · exact hm
      · exact absurd hc2 hc

theorem apply_action_next_relabel (g : Graph) (i : Nat) {a : Action} (st : PState)
    (hr : a.relabel = true) :
    apply_action g i a st = add_active g (bumped st a.node) a.node i := by
  unfold apply_action bumped
  rw [if_pos hr]

theorem apply_action_push (g : Graph) (i : Nat) {a : Action} (st : PState)
    (hr : a.relabel = false) :
    apply_action g i a st =
      if st.e a.node + a.flo = a.flo then add_active g (received st a) a.node i
      else received st a := by
  unfold apply_action received
  rw [if_neg (by simp [hr])]
  simp only [Function.update_same]

/-- One action popped and applied keeps the state of the apply phase. -/
theorem applyInv_step {g : Graph} {thr i : Nat} (hi : i < thr) {a : Action}
    {rest : List Action} {st : PState} (hq : st.action i = a :: rest)
    (hI : ApplyInv g thr st) : ApplyInv g thr (apply_action g i a (popped st i rest)) := by
  have hrc : ∀ x, rcAll (apply_action g i a (popped st i rest)) thr x =
      rcAll st thr x - relInd x a := by
    intro x
    unfold rcAll
    rw [apply_action_action, qsum_pop (relInd x) st.action hi hq]
    simp only [popped]; ring
  have hflo : ∀ k, k < thr → ∀ b ∈ (apply_action g i a (popped st i rest)).action k,
      b.relabel = false → 0 < b.flo := by
    intro k hk b hb hbr
    rw [apply_action_action] at hb
    simp only [popped] at hb
    by_cases hki : k = i
    · subst hki
      rw [Function.update_same] at hb
      exact hI.flo k hk b (hq ▸ List.mem_cons_of_mem _ hb) hbr
    · rw [Function.update_noteq hki] at hb
      exact hI.flo k hk b hb hbr
  by_cases hr : a.relabel = true
  · -- relabel of node a.node
    have hind : ∀ x, relInd x a = if a.node = x then 1 else 0 := by
      intro x; unfold relInd; simp [hr]
    have hrc1 : rcAll st thr a.node = 1 := by
      have h1 := hrc a.node
      rw [hind, if_pos rfl] at h1
      have h2 : 0 ≤ rcAll (apply_action g i a (popped st i rest)) thr a.node := by
        unfold rcAll
        apply qsum_nonneg
        intro k _ b _
        unfold relInd; split <;> simp
      rcases hI.rc01 a.node with h | h
      · rw [h] at h1; omega
      · exact h
    have hact := hI.rcAct _ hrc1
    have he : (apply_action g i a (popped st i rest)).e = st.e := by
      rw [apply_action_e]; funext x; unfold inInd; simp [hr, popped]
    refine ⟨?_, ?_, ?_, ?_, hflo⟩
    · rw [apply_action_next_relabel g i _ hr]
      have hp : PartsInv thr
          (bumped (popped st i rest) a.node).next
          (bumped (popped st i rest) a.node).active
          (fun x => Active g st.e x ∧ rcAll st thr x = 0) := hI.parts
      have hx : ¬ (Active g st.e a.node ∧ rcAll st thr a.node = 0) := by
        rintro ⟨_, h0⟩; rw [h0] at hrc1; exact absurd hrc1 (by decide)
      refine partsInv_congr (partsInv_add g hp hx hi) ?_
      intro y
      rw [← apply_action_next_relabel g i _ hr, he, hrc y, hind y]
      by_cases hy : a.node = y
      · subst hy
        rw [if_pos rfl, hrc1]
        constructor
        · intro _; exact ⟨hact, by ring⟩
        · intro _; exact Or.inr ⟨rfl, hact.2.1, hact.1⟩
      · rw [if_neg hy]
        constructor
        · rintro (⟨h1, h2⟩ | ⟨h1, _⟩)
          · exact ⟨h1, by rw [h2]; ring⟩
          · exact absurd h1.symm hy
        · rintro ⟨h1, h2⟩
          exact Or.inl ⟨h1, by linarith⟩
    · intro x
      rw [hrc x, hind x]
      by_cases hy : a.node = x
      · subst hy; rw [if_pos rfl, hrc1]; left; ring
      · rw [if_neg hy]; simpa using hI.rc01 x
    · intro x hx
      rw [he]
      rw [hrc x, hind x] at hx
      by_cases hy : a.node = x
      · subst hy; exact hact
      · rw [if_neg hy] at hx; exact hI.rcAct x (by linarith)
    · rw [he]; exact hI.nonneg
  · -- push onto a.node
    have hr2 : a.relabel = false := by simpa using hr
    have hind : ∀ x, relInd x a = 0 := by
      intro x; unfold relInd; simp [hr2]
    have hrc2 : ∀ x, rcAll (apply_action g i a (popped st i rest)) thr x = rcAll st thr x := by
      intro x; rw [hrc, hind]; ring
    have hfl : 0 < a.flo := hI.flo i hi a (hq ▸ List.mem_cons_self _ _) hr2
    have he : ∀ x, (apply_action g i a (popped st i rest)).e x =
        st.e x + if a.node = x then a.flo else 0 := by
      intro x; rw [apply_action_e]; unfold inInd; simp [hr2, popped]
    have hact_mono : ∀ x, Active g st.e x → Active g (apply_action g i a (popped st i rest)).e x := by
      rintro x ⟨h1, h2, h3⟩
      refine ⟨h1, h2, ?_⟩
      rw [he]; split <;> linarith
    refine ⟨?_, ?_, ?_, ?_, hflo⟩
    · rw [apply_action_push g i _ hr2]
      have hpe : (popped st i rest).e a.node = st.e a.node := rfl
      by_cases h0 : st.e a.node = 0
      · rw [hpe, if_pos (by rw [h0]; ring)]
        have hp : PartsInv thr
            (received (popped st i rest) a).next
            (received (popped st i rest) a).active
            (fun x => Active g st.e x ∧ rcAll st thr x = 0) := hI.parts
        have hx : ¬ (Active g st.e a.node ∧ rcAll st thr a.node = 0) := by
          rintro ⟨⟨_, _, h⟩, _⟩; rw [h0] at h; exact lt_irrefl _ h
        have hrc0 : rcAll st thr a.node = 0 := by
          rcases hI.rc01 a.node with h | h
          · exact h
          · have := (hI.rcAct _ h).2.2; rw [h0] at this; exact absurd this (lt_irrefl _)
        refine partsInv_congr (partsInv_add g hp hx hi) ?_
        intro y
        have hey : (add_active g (received (popped st i rest) a) a.node i).e y =
            st.e y + if a.node = y then a.flo else 0 := by
          rw [add_active_e]
          by_cases hy : a.node = y
          · subst hy; simp [popped, received]
          · simp [popped, received, hy, Function.update_noteq (Ne.symm hy)]
        have hrcy : rcAll (add_active g (received (popped st i rest) a) a.node i) thr y =
            rcAll st thr y := by
          have := hrc2 y
          rw [apply_action_push g i _ hr2, hpe, if_pos (by rw [h0]; ring)] at this
          exact this
        rw [hrcy]
        unfold Active
        rw [hey]
        by_cases hy : a.node = y
        · subst hy
          rw [if_pos rfl, h0, hrc0]
          constructor
          · rintro (⟨⟨_, _, h⟩, _⟩ | ⟨_, h1, h2⟩)
            · exact absurd h (lt_irrefl _)
            · exact ⟨⟨h2, h1, by linarith⟩, rfl⟩
          · rintro ⟨⟨h1, h2, _⟩, _⟩
            exact Or.inr ⟨rfl, h2, h1⟩
        · rw [if_neg hy, add_zero]
          constructor
          · rintro (h | ⟨h, _⟩)
            · exact h
            · exact absurd h.symm hy
          · exact Or.inl
      · rw [hpe, if_neg (by intro h; apply h0; linarith)]
        refine partsInv_congr hI.parts ?_
        intro y
        have hpos : 0 < st.e a.node := lt_of_le_of_ne (hI.nonneg _) (Ne.symm h0)
        have hey : (received (popped st i rest) a).e y =
            st.e y + if a.node = y then a.flo else 0 := by
          by_cases hy : a.node = y
          · subst hy; simp [popped, received]
          · simp [popped, received, hy, Function.update_noteq (Ne.symm hy)]
        have hrcy : rcAll (received (popped st i rest) a) thr y =
            rcAll st thr y := by
          have := hrc2 y
          rw [apply_action_push g i _ hr2, hpe, if_neg (by intro h; apply h0; linarith)] at this
          exact this
        rw [hrcy]
        unfold Active
        rw [hey]
        by_cases hy : a.node = y
        · subst hy
          rw [if_pos rfl]
          constructor
          · rintro ⟨⟨h1, h2, _⟩, h3⟩
            exact ⟨⟨h1, h2, by linarith⟩, h3⟩
          · rintro ⟨⟨h1, h2, _⟩, h3⟩
            exact ⟨⟨h1, h2, hpos⟩, h3⟩
        · rw [if_neg hy, add_zero]
    · intro x; rw [hrc2]; exact hI.rc01 x
    · intro x hx
      rw [hrc2] at hx
      exact hact_mono x (hI.rcAct x hx)
    · intro x
      rw [he]
      have := hI.nonneg x
      split <;> linarith

/-! ## lab3: the apply phase -/

theorem apply_queue_spec {g : Graph} {i : Nat} (P : PState → Prop)
    (hstep : ∀ st a rest, P st → st.action i = a :: rest →
      P (apply_action g i a (popped st i rest)))
    (acts : List Action) (st : PState) (hq : st.action i = acts) (hP : P st) :
    P (apply_queue g i acts st) ∧ (apply_queue g i acts st).action i = [] ∧
      (∀ k, k ≠ i → (apply_queue g i acts st).action k = st.action k ∧
        (apply_queue g i acts st).active k = st.active k) := by
  induction acts generalizing st with
  | nil => exact ⟨hP, hq, fun k _ => ⟨rfl, rfl⟩⟩
  | cons a rest ih =>
    have h1 := hstep st a rest hP hq
    have h2 : (apply_action g i a (popped st i rest)).action i = rest := by
      rw [apply_action_action]; simp [popped]
    obtain ⟨r1, r2, r3⟩ := ih (apply_action g i a (popped st i rest)) h2 h1
    refine ⟨r1, r2, ?_⟩
    intro k hk
    obtain ⟨r4, r5⟩ := r3 k hk
    constructor
    · rw [show apply_queue g i (a :: rest) st =
        apply_queue g i rest (apply_action g i a (popped st i rest)) from rfl, r4,
        apply_action_action]
      simp [popped, Function.update_noteq hk]
    · rw [show apply_queue g i (a :: rest) st =
        apply_queue g i rest (apply_action g i a (popped st i rest)) from rfl, r5,
        apply_action_active_ne _ _ _ hk]
      rfl

theorem apply_workers_spec {g : Graph} {thr : Nat} (P : PState → Prop)
    (hstep : ∀ i, i < thr → ∀ st a rest, P st → st.action i = a :: rest →
      P (apply_action g i a (popped st i rest)))
    (is : List Nat) (his : ∀ i ∈ is, i < thr) (hn : is.Nodup) (st : PState) (d : Nat)
    (hP : P st) :
    P (apply_workers g is (st, d)).1 ∧
      (∀ i ∈ is, (apply_workers g is (st, d)).1.action i = []) ∧
      (∀ k, k ∉ is → (apply_workers g is (st, d)).1.action k = st.action k ∧
        (apply_workers g is (st, d)).1.active k = st.active k) ∧
      (apply_workers g is (st, d)).2 ≤ d + is.length ∧
      ((apply_workers g is (st, d)).2 = d + is.length ↔
        ∀ i ∈ is, (apply_workers g is (st, d)).1.active i = none) := by
  induction is generalizing st d with
  | nil =>
    refine ⟨hP, by simp, fun k _ => ⟨rfl, rfl⟩, le_refl _, ?_⟩
    simp [apply_workers]
  | cons i is ih =>
    obtain ⟨hi_notin, hn2⟩ := List.nodup_cons.mp hn
    obtain ⟨q1, q2, q3⟩ := apply_queue_spec P (hstep i (his i (List.mem_cons_self _ _)))
      (st.action i) st rfl hP
    set st1 := apply_queue g i (st.action i) st with hst1
    have heq : apply_workers g (i :: is) (st, d) =
        apply_workers g is (st1, if st1.active i = none then d + 1 else d) := rfl
    rw [heq]
    generalize hd1 : (if st1.active i = none then d + 1 else d) = d1
    obtain ⟨r1, r2, r3, r4, r5⟩ := ih (fun j hj => his j (List.mem_cons_of_mem _ hj)) hn2 st1
      d1 q1
    have hge : ∀ (is : List Nat) (s : PState) (k : Nat), k ≤ (apply_workers g is (s, k)).2 := by
      intro is
      induction is with
      | nil => intro s k; exact le_refl _
      | cons j js ihj =>
        intro s k
        have : apply_workers g (j :: js) (s, k) =
            apply_workers g js (apply_queue g j (s.action j) s,
              if (apply_queue g j (s.action j) s).active j = none then k + 1 else k) := rfl
        rw [this]
        refine le_trans ?_ (ihj _ _)
        split <;> omega
    have hge1 := hge is st1 d1
    refine ⟨r1, ?_, ?_, ?_, ?_⟩
    · intro j hj
      rcases List.mem_cons.mp hj with rfl | hj
      · rw [(r3 j hi_notin).1]; exact q2
      · exact r2 j hj
    · intro k hk
      have hki : k ≠ i := fun h => hk (h ▸ List.mem_cons_self _ _)
      have hkis : k ∉ is := fun h => hk (List.mem_cons_of_mem _ h)
      obtain ⟨a1, a2⟩ := r3 k hkis
      obtain ⟨b1, b2⟩ := q3 k hki
      exact ⟨a1.trans b1, a2.trans b2⟩
    · simp only [List.length_cons]
      split at hd1 <;> omega
    · simp only [List.length_cons, List.mem_cons, forall_eq_or_imp]
      rw [(r3 i hi_notin).2]
      by_cases hc : st1.active i = none
      · rw [if_pos hc] at hd1
        constructor
        · intro h
          exact ⟨hc, r5.mp (by omega)⟩
        · rintro ⟨_, h⟩
          have := r5.mpr h
          omega
      · rw [if_neg hc] at hd1
        constructor
        · intro h; omega
        · rintro ⟨h, _⟩; exact absurd h hc

theorem partsInv_none_iff {thr : Nat} {next : Nat → Option Nat} {active : Nat → Option Nat}
    {mem : Nat → Prop} (h : PartsInv thr next active mem) :
    (∀ i, i < thr → active i = none) ↔ ∀ x, ¬ mem x := by
  obtain ⟨L, h1, _, h3⟩ := h
  constructor
  · intro ha x hx
    obtain ⟨i, hi, hxi⟩ := (h3 x).mpr hx
    have hl := (h1 i hi).1
    cases hL : L i with
    | nil => rw [hL] at hxi; simp at hxi
    | cons y l =>
      rw [hL] at hl
      exact absurd ((ha i hi).symm.trans hl.1) (by simp)
  · intro hno i hi
    have hl := (h1 i hi).1
    cases hL : L i with
    | nil => rw [hL] at hl; exact hl
    | cons y l =>
      exact absurd ((h3 y).mp ⟨i, hi, by rw [hL]; exact List.mem_cons_self _ _⟩) (hno y)

/-- The apply phase turns the state that the queued actions lead to into the
actual state, empties the queues, fills the partitions with the active nodes,
and sets `fin` exactly when no node is active. -/
theorem apply_phase_spec {g : Graph} {thr : Nat} {st : PState} (hA : ApplyInv g thr st)
    (hV : VirtInv g (vh st thr) (ve st thr) (vf st thr)) (hf : st.fin = false) :
    RoundInv g thr (apply_phase g thr st) ∧
      (apply_phase g thr st).h = vh st thr ∧ (apply_phase g thr st).e = ve st thr ∧
      (apply_phase g thr st).f = vf st thr ∧
      ((apply_phase g thr st).fin = true ↔ ∀ x, ¬ Active g (apply_phase g thr st).e x) := by
  let P : PState → Prop := fun s => ApplyInv g thr s ∧ vh s thr = vh st thr ∧
    ve s thr = ve st thr ∧ vf s thr = vf st thr ∧ s.fin = false
  have hstep : ∀ i, i < thr → ∀ s a rest, P s → s.action i = a :: rest →
      P (apply_action g i a (popped s i rest)) := by
    rintro i hi s a rest ⟨p1, p2, p3, p4, p5⟩ hq
    obtain ⟨v1, v2, v3⟩ := apply_action_virtual g hi hq
    refine ⟨applyInv_step hi hq p1, v1.trans p2, v2.trans p3, v3.trans p4, ?_⟩
    rw [apply_action_fin]; exact p5
  obtain ⟨⟨r1, r2, r3, r4, r5⟩, rq, _, rle, rcount⟩ := apply_workers_spec P hstep (List.range thr)
    (fun i hi => List.mem_range.mp hi) (List.nodup_range thr) st 0 ⟨hA, rfl, rfl, rfl, hf⟩
  set r := apply_workers g (List.range thr) (st, 0) with hr
  have hqe : ∀ i, i < thr → r.1.action i = [] := fun i hi => rq i (List.mem_range.mpr hi)
  have hh : r.1.h = vh st thr := by
    rw [← r2]; funext x; unfold vh; rw [qsum_empty _ _ _ hqe]; ring
  have he : r.1.e = ve st thr := by
    rw [← r3]; funext x; unfold ve; rw [qsum_empty _ _ _ hqe]; ring
  have hff : r.1.f = vf st thr := by
    rw [← r4]; funext x; unfold vf; rw [qsum_empty _ _ _ hqe]; ring
  have hparts : PartsInv thr r.1.next r.1.active (Active g r.1.e) := by
    refine partsInv_congr r1.parts ?_
    intro x
    unfold rcAll
    rw [qsum_empty _ _ _ hqe]
    simp
  have hcount : r.2 = thr ↔ ∀ x, ¬ Active g r.1.e x := by
    rw [← partsInv_none_iff hparts]
    simp only [List.length_range, zero_add, List.mem_range] at rcount
    exact rcount
  have hfields : (apply_phase g thr st).h = r.1.h ∧ (apply_phase g thr st).e = r.1.e ∧
      (apply_phase g thr st).f = r.1.f ∧ (apply_phase g thr st).next = r.1.next ∧
      (apply_phase g thr st).active = r.1.active ∧ (apply_phase g thr st).action = r.1.action ∧
      ((apply_phase g thr st).fin = true ↔ r.2 = thr) := by
    unfold apply_phase
    simp only
    rw [← hr]
    by_cases hc : r.2 = thr
    · rw [if_pos hc]; simp [hc]
    · rw [if_neg hc]; simp [hc, r5]
  obtain ⟨f1, f2, f3, f4, f5, f6, f7⟩ := hfields
  refine ⟨⟨?_, ?_, ?_⟩, f1.trans hh, f2.trans he, f3.trans hff, ?_⟩
  · rw [f1, f2, f3, hh, he, hff]; exact hV
  · rw [f4, f5, f2]; exact hparts
  · intro i hi; rw [f6]; exact hqe i hi
  · rw [f7, f2]; exact hcount

/-! ## lab3: the compute phase -/

theorem queue_action_h (st : PState) (a : Action) (i : Nat) : (queue_action st a i).h = st.h := rfl

theorem queue_action_e (st : PState) (a : Action) (i : Nat) : (queue_action st a i).e = st.e := rfl

theorem queue_action_f (st : PState) (a : Action) (i : Nat) : (queue_action st a i).f = st.f := rfl

theorem qsum_queue_action (F : Action → Int) (st : PState) (a : Action) {thr i : Nat}
    (hi : i < thr) : qsum F (queue_action st a i).action thr = F a + qsum F st.action thr := by
  unfold queue_action
  exact qsum_cons F st.action hi a

theorem work_scan_cons (g : Graph) (i u j : Nat) (adj : List Nat) (st : PState) :
    work_scan g i u (j :: adj) st =
      if st.e u > 0 then
        if st.h (other g u j) < st.h u ∧ 0 < available g st.f j (direction g u j) then
          work_scan g i u adj (scanPush g st i u j)
        else work_scan g i u adj st
      else st := rfl

theorem scanPush_vh (g : Graph) (st : PState) {thr i : Nat} (hi : i < thr) (u j : Nat) :
    vh (scanPush g st i u j) thr = vh st thr := by
  funext x
  unfold vh scanPush
  rw [qsum_queue_action _ _ _ hi]
  simp [relInd, queue_action]

theorem scanPush_rcAll (g : Graph) (st : PState) {thr i : Nat} (hi : i < thr) (u j x : Nat) :
    rcAll (scanPush g st i u j) thr x = rcAll st thr x := by
  unfold rcAll scanPush
  rw [qsum_queue_action _ _ _ hi]
  simp [relInd]

theorem scanPush_ve (g : Graph) (st : PState) {thr i : Nat} (hi : i < thr) {u j : Nat}
    (huv : u ≠ other g u j) :
    ve (scanPush g st i u j) thr =
      pushE (ve st thr) u (other g u j) (MIN (st.e u) (available g st.f j (direction g u j))) := by
  funext x
  rw [pushE_eq_add huv]
  unfold ve scanPush
  rw [qsum_queue_action _ _ _ hi]
  simp only [queue_action, inInd, true_and]
  by_cases h1 : x = u
  · subst h1
    rw [Function.update_same, if_neg huv.symm, if_neg huv, if_pos rfl]
    ring
  · rw [Function.update_noteq h1, if_neg h1]
    by_cases h2 : x = other g u j
    · rw [if_pos h2.symm, if_pos h2]; ring
    · rw [if_neg (Ne.symm h2), if_neg h2]; ring

theorem scanPush_edge (g : Graph) (st : PState) {thr i : Nat} (hi : i < thr) (u j k : Nat) :
    qsum (edgeInd k) (scanPush g st i u j).action thr =
      qsum (edgeInd k) st.action thr +
        if k = j then direction g u j * MIN (st.e u) (available g st.f j (direction g u j))
        else 0 := by
  unfold scanPush
  rw [qsum_queue_action _ _ _ hi]
  simp only [edgeInd, true_and]
  by_cases h : k = j
  · rw [if_pos h.symm, if_pos h]; ring
  · rw [if_neg (Ne.symm h), if_neg h]; ring

theorem scanPush_vf (g : Graph) (st : PState) {thr i : Nat} (hi : i < thr) (u j : Nat) :
    vf (scanPush g st i u j) thr =
      pushF g (vf st thr) u j (MIN (st.e u) (available g st.f j (direction g u j))) := by
  funext k
  unfold vf pushF
  rw [scanPush_edge g st hi]
  by_cases h : k = j
  · subst h
    rw [if_pos rfl, Function.update_same]
    simp only [scanPush, queue_action]
    ring
  · rw [if_neg h, Function.update_noteq h]
    simp only [scanPush, queue_action]
    ring

theorem ve_ge (g : Graph) {thr : Nat} {R st : PState} (hb : CompBase g thr R st) (x : Nat) :
    st.e x ≤ ve st thr x := by
  unfold ve
  have : 0 ≤ qsum (inInd x) st.action thr := by
    apply qsum_nonneg
    intro i hi a ha
    unfold inInd
    split
    · rename_i h; exact le_of_lt (hb.flo i hi a ha h.1)
    · exact le_refl _
  linarith

theorem vh_eq (st : PState) (thr x : Nat) : vh st thr x = st.h x + rcAll st thr x := rfl

theorem vh_ge (g : Graph) {thr : Nat} {R st : PState} (hb : CompBase g thr R st) (x : Nat) :
    R.h x ≤ vh st thr x := by
  rw [vh_eq, hb.h_eq]
  rcases hb.rc01 x with h | h <;> omega

theorem vh_le (g : Graph) {thr : Nat} {R st : PState} (hb : CompBase g thr R st) (x : Nat) :
    vh st thr x ≤ R.h x + 1 := by
  rw [vh_eq, hb.h_eq]
  rcases hb.rc01 x with h | h <;> omega

theorem available_congr (g : Graph) {f1 f2 : Nat → Int} {j : Nat} (h : f1 j = f2 j) (dir : Int) :
    available g f1 j dir = available g f2 j dir := by
  unfold available; rw [h]

theorem vf_eq_of_np {thr : Nat} {st : PState} {j : Nat}
    (h : qsum (edgeInd j) st.action thr = 0) : vf st thr j = st.f j := by
  unfold vf; rw [h]; ring

theorem MIN_pos {a b : Int} (ha : 0 < a) (hb : 0 < b) : 0 < MIN a b := by
  unfold MIN; split <;> assumption

theorem MIN_eq_right_of_lt {a b : Int} (h : MIN a b < a) : MIN a b = b := by
  unfold MIN at h ⊢
  split
  · rename_i h1; rw [if_pos h1] at h; exact absurd h (lt_irrefl _)
  · rfl

theorem endpoint_of_mem_adj {g : Graph} {u j : Nat} (h : j ∈ g.adj u) :
    j < g.m ∧ (u = g.eu j ∨ u = g.ev j) := by
  obtain ⟨h1, h2⟩ := (mem_adj g u j).mp h
  refine ⟨h1, ?_⟩
  rcases h2 with h | h
  · exact Or.inl h.symm
  · exact Or.inr h.symm

theorem other_other {g : Graph} {u j : Nat} (hne : g.eu j ≠ g.ev j)
    (hu : u = g.eu j ∨ u = g.ev j) : other g (other g u j) j = u := by
  rcases hu with rfl | rfl
  · rw [other_eu, other_ev hne]
  · rw [other_ev hne, other_eu]

theorem eq_other_of_endpoint {g : Graph} {u x j : Nat} (hne : g.eu j ≠ g.ev j)
    (hu : u = g.eu j ∨ u = g.ev j) (hx : x = g.eu j ∨ x = g.ev j) (hxu : x ≠ u) :
    x = other g u j := by
  rcases hu with rfl | rfl <;> rcases hx with rfl | rfl
  · exact absurd rfl hxu
  · rw [other_eu]
  · rw [other_ev hne]
  · exact absurd rfl hxu

theorem potV_scanPush (g : Graph) {thr i : Nat} (hi : i < thr) (R st : PState) {u j : Nat}
    (huv : u ≠ other g u j) (hu : u < g.n) (hv : other g u j < g.n) :
    potV g thr R (scanPush g st i u j) =
      potV g thr R st - MIN (st.e u) (available g st.f j (direction g u j)) *
        (R.h u - R.h (other g u j)) := by
  unfold potV
  rw [scanPush_ve g st hi huv]
  exact sum_pushE g.n R.h (ve st thr) huv hu hv _

/-- The edge scan queues a push: the invariant of the scan is kept. -/
theorem scanInv_push {g : Graph} (hw : PosWF g) {thr i : Nat} (hi : i < thr) {R st : PState}
    (hRc : ConsInv g R.e R.f) {Proc : Nat → Prop} {u j : Nat} {rest : List Nat}
    (hI : ScanInv g thr R st Proc u (j :: rest)) (hj : j ∈ g.adj u) (hjr : j ∉ rest)
    (he : 0 < st.e u)
    (hc : st.h (other g u j) < st.h u ∧ 0 < available g st.f j (direction g u j)) :
    ScanInv g thr R (scanPush g st i u j) Proc u rest := by
  obtain ⟨him, hend⟩ := endpoint_of_mem_adj hj
  have hne := eu_ne_ev hw.noLoops him
  have huv : u ≠ other g u j := (other_ne_self hne hend).symm
  have hun : u < g.n := active_lt hw.inRange hRc hI.uAct
  have hvn : other g u j < g.n := by
    rcases other_endpoint g j u with h | h
    · rw [h]; exact eu_lt hw.inRange him
    · rw [h]; exact ev_lt hw.inRange him
  have hdown : R.h (other g u j) < R.h u := by
    have := hc.1; rwa [hI.base.h_eq] at this
  have hnp : qsum (edgeInd j) st.action thr = 0 := hI.np_u j (List.mem_cons_self _ _) hdown
  have hav : available g (vf st thr) j (direction g u j) =
      available g st.f j (direction g u j) := available_congr g (vf_eq_of_np hnp) _
  set flo := MIN (st.e u) (available g st.f j (direction g u j)) with hflo
  have hfpos : 0 < flo := MIN_pos he hc.2
  have hfe : flo ≤ st.e u := MIN_le_left _ _
  have hfa : flo ≤ available g st.f j (direction g u j) := MIN_le_right _ _
  have he' : ∀ x, (scanPush g st i u j).e x = if x = u then st.e u - flo else st.e x := by
    intro x
    simp only [scanPush, queue_action, Function.update_apply]
  have hrc : ∀ x, rcAll (scanPush g st i u j) thr x = rcAll st thr x :=
    scanPush_rcAll g st hi u j
  have hpot : potV g thr R (scanPush g st i u j) < potV g thr R st := by
    rw [potV_scanPush g hi R st huv hun hvn]
    have : 0 < flo * (R.h u - R.h (other g u j)) := mul_pos hfpos (by linarith)
    linarith
  have hedge : ∀ k, k ≠ j → qsum (edgeInd k) (scanPush g st i u j).action thr =
      qsum (edgeInd k) st.action thr := by
    intro k hk
    rw [scanPush_edge g st hi, if_neg hk, add_zero]
  refine ⟨⟨hI.base.h_eq, hI.base.f_eq, hI.base.next_eq, hI.base.fin_eq, ?_, ?_, ?_, ?_, ?_, ?_,
    ?_, ?_⟩, ?_, ?_, ?_, ?_, ?_, ?_, ?_, ?_, ?_, hI.procAct, hI.uAct, hI.uNot⟩
  · intro x
    rw [he']
    split
    · linarith
    · exact hI.base.nonneg x
  · rw [scanPush_vf g st hi]
    exact capInv_pushF hI.base.cap him (le_of_lt hfpos) (by rw [hav]; exact hfa)
  · rw [scanPush_ve g st hi huv, scanPush_vf g st hi]
    exact consInv_push hne him hend (fun x hx _ => hI.base.cons x hx) (hI.base.cons u)
  · rw [scanPush_vh g st hi, scanPush_vf g st hi]
    apply valid_pushF hI.base.valid hne hend (le_of_lt hfpos)
    have h1 := vh_le g hI.base (other g u j)
    have h2 := vh_ge g hI.base u
    linarith
  · intro k hk a ha har
    simp only [scanPush, queue_action] at ha
    by_cases hki : k = i
    · subst hki
      rw [Function.update_same] at ha
      rcases List.mem_cons.mp ha with rfl | ha
      · exact hfpos
      · exact hI.base.flo k hk a ha har
    · rw [Function.update_noteq hki] at ha
      exact hI.base.flo k hk a ha har
  · rw [scanPush_vh g st hi]; exact hI.base.hbound
  · intro x; rw [hrc]; exact hI.base.rc01 x
  · exact le_trans (le_of_lt hpot) hI.base.pot
  · intro x hx hxu
    rw [he', if_neg hxu]
    exact hI.e_un x hx hxu
  · rw [he', if_pos rfl]
    have := hI.eu_le
    linarith
  · intro x hx hpos
    have hxu : x ≠ u := fun h => hI.uNot (h ▸ hx)
    rw [he', if_neg hxu] at hpos
    rw [hrc]
    exact hI.rc1 x hx hpos
  · intro x hx
    rw [hrc]
    rcases hx with hx | hx
    · exact hI.rc0 x (Or.inl hx)
    · by_cases hxu : x = u
      · exact hI.rc0 x (Or.inl (hxu ▸ hI.uNot))
      · rw [he', if_neg hxu] at hx
        exact hI.rc0 x (Or.inr hx)
  · intro x k hx hxu hk hd
    have hkj : k ≠ j := by
      rintro rfl
      obtain ⟨_, hxend⟩ := endpoint_of_mem_adj hk
      have hxo := eq_other_of_endpoint hne hend hxend hxu
      rw [hxo, other_other hne hend] at hd
      linarith
    rw [hedge k hkj]
    exact hI.np x k hx hxu hk hd
  · intro k hk hd
    have hkj : k ≠ j := fun h => hjr (h ▸ hk)
    rw [hedge k hkj]
    exact hI.np_u k (List.mem_cons_of_mem _ hk) hd
  · intro k hk hkr hd hpos
    rw [scanPush_vf g st hi]
    by_cases hkj : k = j
    · subst hkj
      rw [available_pushF_self, hav]
      rw [he', if_pos rfl] at hpos
      have : flo = available g st.f k (direction g u k) :=
        MIN_eq_right_of_lt (by linarith)
      linarith
    · rw [available_pushF_ne _ _ _ _ hkj]
      rw [he', if_pos rfl] at hpos
      apply hI.scanned k hk _ hd (by linarith)
      intro h
      rcases List.mem_cons.mp h with h | h
      · exact hkj h
      · exact hkr h
  · intro hP
    rcases hI.prog hP with ⟨x, hx⟩ | h
    · exact Or.inl ⟨x, by rw [hrc]; exact hx⟩
    · exact Or.inr (lt_trans hpot h)
  · intro _
    exact lt_of_lt_of_le hpot hI.base.pot

/-- The edge scan passes over an edge: the invariant of the scan is kept. -/
theorem scanInv_skip {g : Graph} {thr : Nat} {R st : PState} {Proc : Nat → Prop} {u j : Nat}
    {rest : List Nat} (hI : ScanInv g thr R st Proc u (j :: rest))
    (hc : ¬ (st.h (other g u j) < st.h u ∧ 0 < available g st.f j (direction g u j))) :
    ScanInv g thr R st Proc u rest := by
  refine ⟨hI.base, hI.e_un, hI.eu_le, hI.rc1, hI.rc0, hI.np, ?_, ?_, hI.prog, hI.prog_u,
    hI.procAct, hI.uAct, hI.uNot⟩
  · intro k hk hd
    exact hI.np_u k (List.mem_cons_of_mem _ hk) hd
  · intro k hk hkr hd hpos
    by_cases hkj : k = j
    · subst hkj
      have hnp := hI.np_u k (List.mem_cons_self _ _) hd
      rw [available_congr g (vf_eq_of_np hnp)]
      by_contra hcon
      apply hc
      refine ⟨by rw [hI.base.h_eq]; exact hd, by linarith⟩
    · apply hI.scanned k hk _ hd hpos
      intro h
      rcases List.mem_cons.mp h with h | h
      · exact hkj h
      · exact hkr h

theorem scanPush_active (g : Graph) (st : PState) (i u j : Nat) :
    (scanPush g st i u j).active = st.active := rfl

/-- The edge scan of one node keeps the invariant of the scan; when it ends
with excess left, the whole adjacency list was scanned. -/
theorem work_scan_spec {g : Graph} (hw : PosWF g) {thr i : Nat} (hi : i < thr) {R : PState}
    (hRc : ConsInv g R.e R.f) {Proc : Nat → Prop} {u : Nat} (rest : List Nat) (st : PState)
    (hsub : ∀ j ∈ rest, j ∈ g.adj u) (hn : rest.Nodup)
    (hI : ScanInv g thr R st Proc u rest) :
    ∃ rest2, ScanInv g thr R (work_scan g i u rest st) Proc u rest2 ∧
      (0 < (work_scan g i u rest st).e u → rest2 = []) ∧
      (work_scan g i u rest st).active = st.active := by
  induction rest generalizing st with
  | nil => exact ⟨[], hI, fun _ => rfl, rfl⟩
  | cons j rest ih =>
    obtain ⟨hjr, hn2⟩ := List.nodup_cons.mp hn
    have hsub2 : ∀ k ∈ rest, k ∈ g.adj u := fun k hk => hsub k (List.mem_cons_of_mem _ hk)
    rw [work_scan_cons]
    by_cases he : st.e u > 0
    · rw [if_pos he]
      by_cases hc : st.h (other g u j) < st.h u ∧ 0 < available g st.f j (direction g u j)
      · rw [if_pos hc]
        obtain ⟨r2, h1, h2, h3⟩ := ih (scanPush g st i u j) hsub2 hn2
          (scanInv_push hw hi hRc hI (hsub j (List.mem_cons_self _ _)) hjr he hc)
        exact ⟨r2, h1, h2, h3.trans (scanPush_active g st i u j)⟩
      · rw [if_neg hc]
        exact ih st hsub2 hn2 (scanInv_skip hI hc)
    · rw [if_neg he]
      exact ⟨j :: rest, hI, fun h => absurd h he, rfl⟩

theorem scanInv_start {g : Graph} {thr : Nat} {R st : PState} {Proc : Nat → Prop} {u : Nat}
    (hI : CompInv g thr R st Proc) (hu : ¬ Proc u) (hact : Active g R.e u) :
    ScanInv g thr R st Proc u (g.adj u) := by
  refine ⟨hI.base, fun x hx _ => hI.e_un x hx, le_of_eq (hI.e_un u hu), hI.rc1, hI.rc0,
    fun x j hx _ => hI.np x j hx, fun j hj hd => hI.np u j hu hj hd, ?_, hI.prog, ?_,
    hI.procAct, hact, hu⟩
  · intro j hj hjn; exact absurd hj hjn
  · intro h; rw [hI.e_un u hu] at h; exact absurd h (lt_irrefl _)

theorem work_node_eq (g : Graph) (i u : Nat) (st : PState) :
    work_node g i u st =
      if (work_scan g i u (g.adj u) st).e u > 0 then
        queue_action (work_scan g i u (g.adj u) st) (relabelAction u) i
      else work_scan g i u (g.adj u) st := rfl

theorem relabel_rcAll (st : PState) {thr i : Nat} (hi : i < thr) (u x : Nat) :
    rcAll (queue_action st (relabelAction u) i) thr x = rcAll st thr x + if x = u then 1 else 0 := by
  unfold rcAll
  rw [qsum_queue_action _ _ _ hi]
  simp only [relInd, relabelAction, true_and]
  by_cases h : x = u
  · rw [if_pos h.symm, if_pos h]; ring
  · rw [if_neg (Ne.symm h), if_neg h]; ring

theorem relabel_vh (st : PState) {thr i : Nat} (hi : i < thr) (u : Nat) :
    vh (queue_action st (relabelAction u) i) thr =
      Function.update (vh st thr) u (vh st thr u + 1) := by
  funext x
  rw [vh_eq, relabel_rcAll st hi, queue_action_h]
  by_cases h : x = u
  · subst h; rw [Function.update_same, if_pos rfl, vh_eq]; ring
  · rw [Function.update_noteq h, if_neg h, vh_eq]; ring

theorem relabel_ve (st : PState) {thr i : Nat} (hi : i < thr) (u : Nat) :
    ve (queue_action st (relabelAction u) i) thr = ve st thr := by
  funext x
  unfold ve
  rw [qsum_queue_action _ _ _ hi, queue_action_e]
  simp [inInd, relabelAction]

theorem relabel_edge (st : PState) {thr i : Nat} (hi : i < thr) (u k : Nat) :
    qsum (edgeInd k) (queue_action st (relabelAction u) i).action thr =
      qsum (edgeInd k) st.action thr := by
  rw [qsum_queue_action _ _ _ hi]
  simp [edgeInd, relabelAction]

theorem relabel_vf (st : PState) {thr i : Nat} (hi : i < thr) (u : Nat) :
    vf (queue_action st (relabelAction u) i) thr = vf st thr := by
  funext k
  unfold vf
  rw [relabel_edge st hi, queue_action_f]

/-- What `work` does with one active node keeps the compute-phase invariant,
the node now counting as processed. -/
theorem work_node_spec {g : Graph} (hw : PosWF g) {thr i : Nat} (hi : i < thr) {R st : PState}
    (hRc : ConsInv g R.e R.f) (hRs : R.h g.s = g.n) {Proc : Nat → Prop} {u : Nat}
    (hI : CompInv g thr R st Proc) (hu : ¬ Proc u) (hact : Active g R.e u) :
    CompInv g thr R (work_node g i u st) (fun x => Proc x ∨ x = u) ∧
      (work_node g i u st).active = st.active := by
  obtain ⟨rest2, hS, hdone, hactv⟩ := work_scan_spec hw hi hRc (g.adj u) st (fun j hj => hj)
    (nodup_adj hw.noLoops u) (scanInv_start hI hu hact)
  rw [work_node_eq]
  set st1 := work_scan g i u (g.adj u) st with hst1
  have hun : u < g.n := active_lt hw.inRange hRc hact
  have hprocAct : ∀ x, (Proc x ∨ x = u) → Active g R.e x := by
    rintro x (h | rfl)
    · exact hS.procAct x h
    · exact hact
  by_cases he : st1.e u > 0
  · rw [if_pos he]
    have hrest : rest2 = [] := hdone he
    have hrcu : rcAll st1 thr u = 0 := hS.rc0 u (Or.inl hu)
    have hvhu : vh st1 thr u = R.h u := by rw [vh_eq, hrcu, hS.base.h_eq]; ring
    have hrc := relabel_rcAll st1 hi u
    have hvalid : Valid g (Function.update (vh st1 thr) u (vh st1 thr u + 1)) (vf st1 thr) := by
      apply valid_relabel hS.base.valid hw.noLoops
      intro j hj hend hav
      have hmem : j ∈ g.adj u := by
        rw [mem_adj]
        refine ⟨hj, ?_⟩
        rcases hend with h | h
        · exact Or.inl h.symm
        · exact Or.inr h.symm
      rw [hvhu]
      by_cases hd : R.h (other g u j) < R.h u
      · have := hS.scanned j hmem (by rw [hrest]; simp) hd he
        linarith
      · exact le_trans (not_lt.mp hd) (vh_ge g hS.base _)
    have hsrc : Function.update (vh st1 thr) u (vh st1 thr u + 1) g.s = g.n := by
      rw [Function.update_noteq (Ne.symm hact.1), vh_eq, hS.rc0 g.s (Or.inl (fun h => (hS.procAct _ h).1 rfl)),
        hS.base.h_eq, hRs]
      ring
    have hnnv : NonNeg (ve st1 thr) := fun x => le_trans (hS.base.nonneg x) (ve_ge g hS.base x)
    have hb : vh st1 thr u + 1 ≤ 2 * (g.n : Int) - 1 := by
      have := height_bound hw.inRange hw.noLoops hw.caps.nonneg hS.base.cap hS.base.cons hnnv
        hvalid hsrc hun hact.1 (lt_of_lt_of_le he (ve_ge g hS.base u))
      rwa [Function.update_same] at this
    refine ⟨⟨⟨hS.base.h_eq, hS.base.f_eq, hS.base.next_eq, hS.base.fin_eq, hS.base.nonneg, ?_, ?_,
      ?_, ?_, ?_, ?_, ?_⟩, ?_, ?_, ?_, ?_, ?_, hprocAct⟩, hactv⟩
    · rw [relabel_vf st1 hi]; exact hS.base.cap
    · rw [relabel_vf st1 hi, relabel_ve st1 hi]; exact hS.base.cons
    · rw [relabel_vf st1 hi, relabel_vh st1 hi]; exact hvalid
    · intro k hk a ha har
      simp only [queue_action] at ha
      by_cases hki : k = i
      · subst hki
        rw [Function.update_same] at ha
        rcases List.mem_cons.mp ha with rfl | ha
        · simp [relabelAction] at har
        · exact hS.base.flo k hk a ha har
      · rw [Function.update_noteq hki] at ha
        exact hS.base.flo k hk a ha har
    · intro x
      rw [relabel_vh st1 hi]
      by_cases hx : x = u
      · subst hx; rw [Function.update_same]; exact hb
      · rw [Function.update_noteq hx]; exact hS.base.hbound x
    · intro x
      rw [hrc]
      by_cases hx : x = u
      · subst hx; rw [if_pos rfl, hrcu]; right; ring
      · rw [if_neg hx, add_zero]; exact hS.base.rc01 x
    · have : potV g thr R (queue_action st1 (relabelAction u) i) = potV g thr R st1 := by
        unfold potV; rw [relabel_ve st1 hi]
      rw [this]; exact hS.base.pot
    · intro x hx
      push_neg at hx
      exact hS.e_un x hx.1 hx.2
    · intro x hx hpos
      rw [hrc]
      rcases hx with hx | rfl
      · have hxu : x ≠ u := fun h => hu (h ▸ hx)
        rw [if_neg hxu, add_zero]
        exact hS.rc1 x hx hpos
      · rw [if_pos rfl, hrcu]; ring
    · intro x hx
      rw [hrc]
      have hxu : x ≠ u := by
        rintro rfl
        rcases hx with hx | hx
        · exact hx (Or.inr rfl)
        · exact absurd he (not_lt.mpr hx)
      rw [if_neg hxu, add_zero]
      rcases hx with hx | hx
      · exact hS.rc0 x (Or.inl (fun h => hx (Or.inl h)))
      · exact hS.rc0 x (Or.inr hx)
    · intro x j hx hj hd
      push_neg at hx
      rw [relabel_edge st1 hi]
      exact hS.np x j hx.1 hx.2 hj hd
    · intro _
      left
      exact ⟨u, by rw [hrc, if_pos rfl, hrcu]; ring⟩
  · rw [if_neg he]
    have he0 : st1.e u ≤ 0 := not_lt.mp he
    refine ⟨⟨hS.base, ?_, ?_, ?_, ?_, ?_, hprocAct⟩, hactv⟩
    · intro x hx
      push_neg at hx
      exact hS.e_un x hx.1 hx.2
    · intro x hx hpos
      rcases hx with hx | rfl
      · exact hS.rc1 x hx hpos
      · exact absurd hpos he
    · intro x hx
      rcases hx with hx | hx
      · exact hS.rc0 x (Or.inl (fun h => hx (Or.inl h)))
      · exact hS.rc0 x (Or.inr hx)
    · intro x j hx hj hd
      push_neg at hx
      exact hS.np x j hx.1 hx.2 hj hd
    · intro _
      right
      exact hS.prog_u (lt_of_le_of_lt he0 hact.2.2)

theorem compInv_congr {g : Graph} {thr : Nat} {R st : PState} {P Q : Nat → Prop}
    (hI : CompInv g thr R st P) (h : ∀ x, P x ↔ Q x) : CompInv g thr R st Q := by
  have : P = Q := funext fun x => propext (h x)
  rw [← this]; exact hI

theorem compInv_pop {g : Graph} {thr : Nat} {R st : PState} {P : Nat → Prop} (i : Nat)
    (a : Option Nat) (hI : CompInv g thr R st P) :
    CompInv g thr R { st with active := Function.update st.active i a } P :=
  ⟨⟨hI.base.h_eq, hI.base.f_eq, hI.base.next_eq, hI.base.fin_eq, hI.base.nonneg, hI.base.cap,
    hI.base.cons, hI.base.valid, hI.base.flo, hI.base.hbound, hI.base.rc01, hI.base.pot⟩,
    hI.e_un, hI.rc1, hI.rc0, hI.np, hI.prog, hI.procAct⟩

/-- The compute phase of worker `i` drains its partition `l` and keeps the
compute-phase invariant, the nodes of `l` now counting as processed. -/
theorem work_compute_spec {g : Graph} (hw : PosWF g) {thr i : Nat} (hi : i < thr) {R : PState}
    (hRc : ConsInv g R.e R.f) (hRs : R.h g.s = g.n) (l : List Nat) (fuel : Nat)
    (hfuel : l.length < fuel) (st : PState) (Proc : Nat → Prop)
    (hI : CompInv g thr R st Proc) (hl : IsList st.next (st.active i) l) (hn : l.Nodup)
    (hlp : ∀ x ∈ l, Active g R.e x ∧ ¬ Proc x) :
    ∃ st2, work_compute g i fuel st = some st2 ∧
      CompInv g thr R st2 (fun x => Proc x ∨ x ∈ l) ∧ st2.active i = none ∧
      ∀ k, k ≠ i → st2.active k = st.active k := by
  induction l generalizing fuel st Proc with
  | nil =>
    obtain ⟨k, rfl⟩ : ∃ k, fuel = k + 1 := ⟨fuel - 1, by simp at hfuel; omega⟩
    refine ⟨st, work_compute_idle g i k hl, compInv_congr hI (by simp), hl, fun _ _ => rfl⟩
  | cons u l ih =>
    obtain ⟨k, rfl⟩ : ∃ k, fuel = k + 1 := ⟨fuel - 1, by simp at hfuel; omega⟩
    obtain ⟨hul, hn2⟩ := List.nodup_cons.mp hn
    obtain ⟨hhead, htail⟩ := hl
    obtain ⟨huact, hunot⟩ := hlp u (List.mem_cons_self _ _)
    have hpop : pop_active st i =
        (some u, { st with active := Function.update st.active i (st.next u) }) := by
      unfold pop_active; rw [hhead]
    obtain ⟨hN, hNact⟩ := work_node_spec hw hi hRc hRs
      (compInv_pop i (st.next u) hI) hunot huact (i := i)
    set st1 := work_node g i u { st with active := Function.update st.active i (st.next u) }
      with hst1
    have hnext1 : st1.next = st.next := by
      rw [hN.base.next_eq, hI.base.next_eq]
    have hl1 : IsList st1.next (st1.active i) l := by
      rw [hnext1, hNact]
      simp only [Function.update_same]
      exact htail
    obtain ⟨st2, h1, h2, h3, h4⟩ := ih k (by simp at hfuel; omega) st1 _ hN hl1 hn2
      (by
        intro x hx
        refine ⟨(hlp x (List.mem_cons_of_mem _ hx)).1, ?_⟩
        rintro (h | rfl)
        · exact (hlp x (List.mem_cons_of_mem _ hx)).2 h
        · exact hul hx)
    refine ⟨st2, ?_, compInv_congr h2 ?_, h3, ?_⟩
    · rw [work_compute, hpop]
      exact h1
    · intro x
      simp only [List.mem_cons]
      tauto
    · intro j hj
      rw [h4 j hj, hNact]
      simp [Function.update_noteq hj]

theorem work_compute_mono {g : Graph} {i : Nat} {fuel : Nat} {st st2 : PState}
    (h : work_compute g i fuel st = some st2) : work_compute g i (fuel + 1) st = some st2 := by
  induction fuel generalizing st with
  | zero => simp [work_compute] at h
  | succ k ih =>
    rw [work_compute] at h ⊢
    cases hp : pop_active st i with
    | mk o st1 =>
      rw [hp] at h
      cases o with
      | none => exact h
      | some u => exact ih h

theorem nodup_length_le {l : List Nat} {n : Nat} (hn : l.Nodup) (h : ∀ x ∈ l, x < n) :
    l.length ≤ n := by
  have h1 : l.toFinset ⊆ Finset.range n := by
    intro x hx
    exact Finset.mem_range.mpr (h x (List.mem_toFinset.mp hx))
  have h2 := Finset.card_le_card h1
  rwa [List.toFinset_card_of_nodup hn, Finset.card_range] at h2

theorem compute_workers_spec {g : Graph} (hw : PosWF g) {thr : Nat} {R : PState}
    (hRc : ConsInv g R.e R.f) (hRs : R.h g.s = g.n) (L : Nat → List Nat)
    (hL : ∀ i, i < thr → IsList R.next (R.active i) (L i) ∧ (L i).Nodup)
    (hdisj : ∀ i j x, i < thr → j < thr → x ∈ L i → x ∈ L j → i = j)
    (hLact : ∀ i, i < thr → ∀ x ∈ L i, Active g R.e x) (fuel : Nat) (hfuel : g.n < fuel)
    (is : List Nat) (his : ∀ i ∈ is, i < thr) (hn : is.Nodup) (st : PState)
    (Proc : Nat → Prop) (hI : CompInv g thr R st Proc)
    (hact : ∀ i ∈ is, st.active i = R.active i) (hProc : ∀ i ∈ is, ∀ x ∈ L i, ¬ Proc x) :
    ∃ st2, compute_workers g fuel is st = some st2 ∧
      CompInv g thr R st2 (fun x => Proc x ∨ ∃ i ∈ is, x ∈ L i) ∧
      (∀ i ∈ is, st2.active i = none) ∧ ∀ k, k ∉ is → st2.active k = st.active k := by
  induction is generalizing st Proc with
  | nil => exact ⟨st, rfl, compInv_congr hI (by simp), by simp, fun _ _ => rfl⟩
  | cons i is ih =>
    obtain ⟨hi_notin, hn2⟩ := List.nodup_cons.mp hn
    have hi : i < thr := his i (List.mem_cons_self _ _)
    have hlen : (L i).length < fuel := by
      have := nodup_length_le (hL i hi).2
        (fun x hx => active_lt hw.inRange hRc (hLact i hi x hx))
      omega
    have hli : IsList st.next (st.active i) (L i) := by
      rw [hI.base.next_eq, hact i (List.mem_cons_self _ _)]
      exact (hL i hi).1
    obtain ⟨st1, h1, h2, h3, h4⟩ := work_compute_spec hw hi hRc hRs (L i) fuel hlen st Proc hI
      hli (hL i hi).2 (fun x hx => ⟨hLact i hi x hx, hProc i (List.mem_cons_self _ _) x hx⟩)
    obtain ⟨st2, k1, k2, k3, k4⟩ := ih (fun j hj => his j (List.mem_cons_of_mem _ hj)) hn2 st1
      _ h2
      (by
        intro j hj
        have hji : j ≠ i := fun h => hi_notin (h ▸ hj)
        rw [h4 j hji]
        exact hact j (List.mem_cons_of_mem _ hj))
      (by
        intro j hj x hx
        rintro (hp | hp)
        · exact hProc j (List.mem_cons_of_mem _ hj) x hx hp
        · have := hdisj j i x (his j (List.mem_cons_of_mem _ hj)) hi hx hp
          exact hi_notin (this ▸ hj))
    refine ⟨st2, ?_, compInv_congr k2 ?_, ?_, ?_⟩
    · rw [compute_workers, h1]
      exact k1
    · intro x
      simp only [List.mem_cons, exists_eq_or_imp]
      tauto
    · intro j hj
      rcases List.mem_cons.mp hj with rfl | hj
      · rw [k4 j hi_notin]; exact h3
      · exact k3 j hj
    · intro k hk
      have hki : k ≠ i := fun h => hk (h ▸ List.mem_cons_self _ _)
      have hkis : k ∉ is := fun h => hk (List.mem_cons_of_mem _ h)
      rw [k4 k hkis, h4 k hki]

theorem compute_workers_mono {g : Graph} {fuel : Nat} {is : List Nat} {st st2 : PState}
    (h : compute_workers g fuel is st = some st2) :
    compute_workers g (fuel + 1) is st = some st2 := by
  induction is generalizing st with
  | nil => exact h
  | cons i is ih =>
    rw [compute_workers] at h ⊢
    cases hc : work_compute g i fuel st with
    | none => rw [hc] at h; exact absurd h (by simp)
    | some st1 =>
      rw [hc] at h
      rw [work_compute_mono hc]
      exact ih h

theorem vfields_of_empty {thr : Nat} {st : PState} (hq : ∀ i, i < thr → st.action i = []) :
    vh st thr = st.h ∧ ve st thr = st.e ∧ vf st thr = st.f ∧ ∀ x, rcAll st thr x = 0 := by
  refine ⟨?_, ?_, ?_, ?_⟩
  · funext x; unfold vh; rw [qsum_empty _ _ _ hq]; ring
  · funext x; unfold ve; rw [qsum_empty _ _ _ hq]; ring
  · funext x; unfold vf; rw [qsum_empty _ _ _ hq]; ring
  · intro x; unfold rcAll; rw [qsum_empty _ _ _ hq]

theorem compInv_start {g : Graph} {thr : Nat} {R : PState} (hR : RoundInv g thr R) :
    CompInv g thr R R (fun _ => False) := by
  obtain ⟨v1, v2, v3, v4⟩ := vfields_of_empty hR.queues
  refine ⟨⟨rfl, rfl, rfl, rfl, hR.virt.nonneg, ?_, ?_, ?_, ?_, ?_, ?_, le_refl _⟩, fun _ _ => rfl,
    fun _ h => absurd h id, fun x _ => v4 x, ?_, fun ⟨_, h⟩ => absurd h id,
    fun _ h => absurd h id⟩
  · rw [v3]; exact hR.virt.cap
  · rw [v2, v3]; exact hR.virt.cons
  · rw [v1, v3]; exact hR.virt.valid
  · intro i hi a ha
    rw [hR.queues i hi] at ha
    simp at ha
  · rw [v1]; exact hR.virt.hbound
  · intro x; exact Or.inl (v4 x)
  · intro x j _ _ _
    exact qsum_empty _ _ _ hR.queues

/-- The compute phases of all workers, from a round boundary: they return,
leave every partition empty, and keep the compute-phase invariant with every
active node processed. -/
theorem compute_round_spec {g : Graph} (hw : PosWF g) {thr : Nat} {R : PState}
    (hR : RoundInv g thr R) (fuel : Nat) (hfuel : g.n < fuel) :
    ∃ st1, compute_workers g fuel (List.range thr) R = some st1 ∧
      CompInv g thr R st1 (Active g R.e) ∧ ∀ i, i < thr → st1.active i = none := by
  obtain ⟨L, hL, hdisj, hmem⟩ := hR.parts
  obtain ⟨st1, h1, h2, h3, _⟩ := compute_workers_spec hw hR.virt.cons hR.virt.hs L hL hdisj
    (fun i hi x hx => (hmem x).mp ⟨i, hi, hx⟩) fuel hfuel (List.range thr)
    (fun i hi => List.mem_range.mp hi) (List.nodup_range thr) R (fun _ => False)
    (compInv_start hR) (fun _ _ => rfl) (fun _ _ _ _ h => h)
  refine ⟨st1, h1, compInv_congr h2 ?_, fun i hi => h3 i (List.mem_range.mpr hi)⟩
  intro x
  rw [← hmem x]
  simp only [false_or, List.mem_range]

/-- At the end of the compute phase the state is ready for the apply phase. -/
theorem applyInv_of_compInv {g : Graph} {thr : Nat} {R st : PState}
    (hI : CompInv g thr R st (Active g R.e)) (hact : ∀ i, i < thr → st.active i = none) :
    ApplyInv g thr st := by
  have hproc : ∀ x, Active g st.e x → Active g R.e x := by
    intro x hx
    by_contra hn
    have hx2 := hx
    unfold Active at hx2
    rw [hI.e_un x hn] at hx2
    exact hn hx2
  refine ⟨?_, hI.base.rc01, ?_, hI.base.nonneg, hI.base.flo⟩
  · refine ⟨fun _ => [], fun i hi => ⟨hact i hi, List.nodup_nil⟩, ?_, ?_⟩
    · intro i j x _ _ hx; simp at hx
    · intro x
      constructor
      · rintro ⟨i, _, hx⟩; simp at hx
      · rintro ⟨hx, h0⟩
        have := hI.rc1 x (hproc x hx) hx.2.2
        rw [h0] at this
        exact absurd this (by decide)
  · intro x hx
    have hp : Active g R.e x ∧ 0 < st.e x := by
      by_contra hcon
      have : ¬ Active g R.e x ∨ st.e x ≤ 0 := by
        by_cases h : Active g R.e x
        · right; exact not_lt.mp (fun h2 => hcon ⟨h, h2⟩)
        · left; exact h
      rw [hI.rc0 x this] at hx
      exact absurd hx (by decide)
    exact ⟨hp.1.1, hp.1.2.1, hp.2⟩

theorem virtInv_of_compInv {g : Graph} {thr : Nat} {R st : PState} (hR : RoundInv g thr R)
    (hI : CompInv g thr R st (Active g R.e)) :
    VirtInv g (vh st thr) (ve st thr) (vf st thr) := by
  refine ⟨hI.base.cap, hI.base.cons, fun x => le_trans (hI.base.nonneg x) (ve_ge g hI.base x),
    hI.base.valid, ?_, ?_, ?_, hI.base.hbound⟩
  · rw [vh_eq, hI.rc0 g.s (Or.inl (fun h => h.1 rfl)), hI.base.h_eq, hR.virt.hs]; ring
  · rw [vh_eq, hI.rc0 g.t (Or.inl (fun h => h.2.1 rfl)), hI.base.h_eq, hR.virt.ht]; ring
  · intro x
    exact le_trans (hR.virt.hlow x) (vh_ge g hI.base x)

/-! ## lab3: rounds -/

theorem compute_workers_idle_on (g : Graph) (k : Nat) (is : List Nat) {st : PState}
    (h : ∀ i ∈ is, st.active i = none) : compute_workers g (k + 1) is st = some st := by
  induction is with
  | nil => rfl
  | cons i is ih =>
    unfold compute_workers
    rw [work_compute_idle g i k (h i (List.mem_cons_self _ _))]
    exact ih (fun j hj => h j (List.mem_cons_of_mem _ hj))

theorem compute_workers_mono_le {g : Graph} {fuel fuel2 : Nat} {is : List Nat}
    {st st2 : PState} (h : compute_workers g fuel is st = some st2) (hle : fuel ≤ fuel2) :
    compute_workers g fuel2 is st = some st2 := by
  induction hle with
  | refl => exact h
  | step _ ih => exact compute_workers_mono ih

theorem potH_lt_of_relabel (g : Graph) {h1 h2 : Nat → Int} (hge : ∀ x, h1 x ≤ h2 x)
    {x : Nat} (hx : x < g.n) (hlt : h1 x < h2 x) (hb : h2 x ≤ 2 * (g.n : Int) - 1) :
    potH g h2 < potH g h1 := by
  unfold potH
  apply Finset.sum_lt_sum
  · intro y _
    have := hge y
    omega
  · exact ⟨x, Finset.mem_range.mpr hx, by omega⟩

/-- One round from a round boundary at which `fin` is not set: the compute
phases return, the apply phase leads to a round boundary again, `fin` is set
exactly when no node is active any more, and if a node was active the
termination measure has decreased. -/
theorem round_spec {g : Graph} (hw : PosWF g) {thr : Nat} {R : PState} (hR : RoundInv g thr R)
    (hf : R.fin = false) (fuel : Nat) (hfuel : g.n < fuel) :
    ∃ st1, compute_workers g fuel (List.range thr) R = some st1 ∧
      RoundInv g thr (apply_phase g thr st1) ∧
      ((apply_phase g thr st1).fin = true ↔ ∀ x, ¬ Active g (apply_phase g thr st1).e x) ∧
      ((∀ x, ¬ Active g R.e x) → ∀ x, ¬ Active g (apply_phase g thr st1).e x) ∧
      ((∃ x, Active g R.e x) →
        (potH g (apply_phase g thr st1).h < potH g R.h ∨
          (potH g (apply_phase g thr st1).h = potH g R.h ∧
            potE g (apply_phase g thr st1).h (apply_phase g thr st1).e < potE g R.h R.e))) := by
  obtain ⟨st1, h1, hC, hnone⟩ := compute_round_spec hw hR fuel hfuel
  have hA := applyInv_of_compInv hC hnone
  have hV := virtInv_of_compInv hR hC
  obtain ⟨a1, a2, a3, _, a5⟩ := apply_phase_spec hA hV (hC.base.fin_eq.trans hf)
  obtain ⟨v1, v2, v3, v4⟩ := vfields_of_empty hR.queues
  refine ⟨st1, h1, a1, a5, ?_, ?_⟩
  · intro hno
    have hidle : ∀ i ∈ List.range thr, R.active i = none := by
      intro i hi
      exact (partsInv_none_iff hR.parts).mpr hno i (List.mem_range.mp hi)
    obtain ⟨k, rfl⟩ : ∃ k, fuel = k + 1 := ⟨fuel - 1, by omega⟩
    have := compute_workers_idle_on g k (List.range thr) hidle
    rw [h1] at this
    have hst : st1 = R := Option.some.inj this
    rw [a3, hst, v2]
    exact hno
  · intro hex
    rw [a2, a3]
    have hpotR : potV g thr R R = ∑ x ∈ Finset.range g.n, R.e x * R.h x := by
      unfold potV; rw [v2]
    rcases hC.prog hex with ⟨x, hx⟩ | hlt
    · left
      have hxact : Active g R.e x := by
        by_contra hn
        rw [hC.rc0 x (Or.inl hn)] at hx
        exact absurd hx (by decide)
      have hxn := active_lt hw.inRange hR.virt.cons hxact
      apply potH_lt_of_relabel g (vh_ge g hC.base) hxn _ (hC.base.hbound x)
      rw [vh_eq, hx, hC.base.h_eq]; omega
    · by_cases hrel : ∃ x, rcAll st1 thr x = 1
      · obtain ⟨x, hx⟩ := hrel
        left
        have hxact : Active g R.e x := by
          by_contra hn
          rw [hC.rc0 x (Or.inl hn)] at hx
          exact absurd hx (by decide)
        have hxn := active_lt hw.inRange hR.virt.cons hxact
        apply potH_lt_of_relabel g (vh_ge g hC.base) hxn _ (hC.base.hbound x)
        rw [vh_eq, hx, hC.base.h_eq]; omega
      · right
        push_neg at hrel
        have hvh : vh st1 thr = R.h := by
          funext x
          rw [vh_eq, hC.base.h_eq]
          rcases hC.base.rc01 x with h | h
          · rw [h]; ring
          · exact absurd h (hrel x)
        rw [hvh]
        refine ⟨rfl, ?_⟩
        unfold potE
        have h0 : 0 ≤ potV g thr R st1 := by
          unfold potV
          apply Finset.sum_nonneg
          intro x _
          exact mul_nonneg (hV.nonneg x) (hR.virt.hlow x)
        rw [hpotR] at hlt
        unfold potV at hlt h0
        omega

theorem rounds_succ (g : Graph) (thr fuel k : Nat) (st : PState) :
    rounds g thr fuel (k + 1) st =
      if st.fin then Outcome.returned st
      else
        match compute_workers g fuel (List.range thr) st with
        | none => Outcome.timeout
        | some st1 => rounds g thr fuel k (apply_phase g thr st1) := rfl

/-- From every round boundary the rounds end, at a round boundary without
active nodes. -/
theorem rounds_terminates {g : Graph} (hw : PosWF g) (thr fuel : Nat) (hfuel : g.n < fuel)
    (a b : Nat) :
    ∀ st, RoundInv g thr st → st.fin = false → potH g st.h = a → potE g st.h st.e = b →
      ∃ k st2, rounds g thr fuel k st = Outcome.returned st2 ∧ RoundInv g thr st2 ∧
        ∀ x, ¬ Active g st2.e x := by
  induction a using Nat.strong_induction_on generalizing b with
  | _ a iha =>
    induction b using Nat.strong_induction_on with
    | _ b ihb =>
      intro st hR hf ha hb
      obtain ⟨st1, h1, hR2, hfin, hidle, hdec⟩ := round_spec hw hR hf fuel hfuel
      by_cases hf2 : (apply_phase g thr st1).fin = true
      · refine ⟨2, apply_phase g thr st1, ?_, hR2, hfin.mp hf2⟩
        rw [rounds_succ, if_neg (by simp [hf]), h1]
        simp only
        rw [rounds_succ, if_pos hf2]
      · have hf2' : (apply_phase g thr st1).fin = false := by simpa using hf2
        have hex : ∃ x, Active g st.e x := by
          by_contra hno
          push_neg at hno
          exact hf2 (hfin.mpr (hidle hno))
        have hrec : ∃ k st2, rounds g thr fuel k (apply_phase g thr st1) = Outcome.returned st2 ∧
            RoundInv g thr st2 ∧ ∀ x, ¬ Active g st2.e x := by
          rcases hdec hex with hlt | ⟨heq, hlt⟩
          · exact iha _ (ha ▸ hlt) _ _ hR2 hf2' rfl rfl
          · exact ihb _ (hb ▸ hlt) _ hR2 hf2' (heq.trans ha) rfl
        obtain ⟨k, st2, hk, hI2, hno⟩ := hrec
        refine ⟨k + 1, st2, ?_, hI2, hno⟩
        rw [rounds_succ, if_neg (by simp [hf]), h1]
        exact hk

/-- A run of the rounds that returns ends at a round boundary without active
nodes, whatever the budgets. -/
theorem rounds_returned_inv {g : Graph} (hw : PosWF g) {thr fuel : Nat} (k : Nat) :
    ∀ st st2, rounds g thr fuel k st = Outcome.returned st2 → RoundInv g thr st →
      (st.fin = true → ∀ x, ¬ Active g st.e x) →
      RoundInv g thr st2 ∧ ∀ x, ¬ Active g st2.e x := by
  induction k with
  | zero => intro st st2 h; simp [rounds] at h
  | succ k ih =>
    intro st st2 h hR hfin
    rw [rounds_succ] at h
    by_cases hf : st.fin = true
    · rw [if_pos hf] at h
      simp only [Outcome.returned.injEq] at h
      subst h
      exact ⟨hR, hfin hf⟩
    · rw [if_neg hf] at h
      have hf' : st.fin = false := by simpa using hf
      cases hc : compute_workers g fuel (List.range thr) st with
      | none => rw [hc] at h; exact absurd h (by simp)
      | some st1 =>
        rw [hc] at h
        simp only at h
        obtain ⟨st1', h1, hR2, hfin2, _, _⟩ := round_spec hw hR hf' (max fuel (g.n + 1))
          (by omega)
        have := compute_workers_mono_le hc (le_max_left fuel (g.n + 1))
        rw [h1] at this
        have hst : st1' = st1 := Option.some.inj this
        subst hst
        exact ih _ _ h hR2 hfin2.mp

theorem rounds_mono_k {g : Graph} {thr fuel k : Nat} {st st2 : PState}
    (h : rounds g thr fuel k st = Outcome.returned st2) :
    rounds g thr fuel (k + 1) st = Outcome.returned st2 := by
  induction k generalizing st with
  | zero => simp [rounds] at h
  | succ k ih =>
    rw [rounds_succ] at h
    rw [rounds_succ]
    by_cases hf : st.fin = true
    · rw [if_pos hf] at h ⊢; exact h
    · rw [if_neg hf] at h ⊢
      cases hc : compute_workers g fuel (List.range thr) st with
      | none => rw [hc] at h; exact absurd h (by simp)
      | some st1 =>
        rw [hc] at h
        exact ih h

theorem rounds_mono_fuel {g : Graph} {thr fuel k : Nat} {st st2 : PState}
    (h : rounds g thr fuel k st = Outcome.returned st2) :
    rounds g thr (fuel + 1) k st = Outcome.returned st2 := by
  induction k generalizing st with
  | zero => simp [rounds] at h
  | succ k ih =>
    rw [rounds_succ] at h
    rw [rounds_succ]
    by_cases hf : st.fin = true
    · rw [if_pos hf] at h ⊢; exact h
    · rw [if_neg hf] at h ⊢
      cases hc : compute_workers g fuel (List.range thr) st with
      | none => rw [hc] at h; exact absurd h (by simp)
      | some st1 =>
        rw [hc] at h
        rw [compute_workers_mono hc]
        exact ih h

theorem rounds_mono {g : Graph} {thr fuel k : Nat} {st st2 : PState}
    (h : rounds g thr fuel k st = Outcome.returned st2) (d : Nat) :
    rounds g thr (fuel + d) (k + d) st = Outcome.returned st2 := by
  induction d with
  | zero => exact h
  | succ d ih => exact rounds_mono_fuel (rounds_mono_k ih)

/-! ## lab3: seeding -/

theorem noParallel_rel {g : Graph} (hp : NoParallel g) {j k : Nat} (hj : j < g.m)
    (hk : k < g.m) (hjk : j < k) :
    ¬ ((g.eu j = g.eu k ∧ g.ev j = g.ev k) ∨ (g.eu j = g.ev k ∧ g.ev j = g.eu k)) := by
  unfold NoParallel at hp
  rw [List.pairwise_iff_getElem] at hp
  have := hp j k hj hk hjk
  unfold Graph.eu Graph.ev
  rw [List.getD_eq_getElem _ _ hj, List.getD_eq_getElem _ _ hk]
  exact this

theorem other_ne_of_noParallel {g : Graph} (hp : NoParallel g) (hl : NoSelfLoops g)
    {j k u : Nat} (hj : j < g.m) (hk : k < g.m) (hjk : j ≠ k)
    (huj : u = g.eu j ∨ u = g.ev j) (huk : u = g.eu k ∨ u = g.ev k) :
    other g u j ≠ other g u k := by
  have hnej := eu_ne_ev hl hj
  have hnek := eu_ne_ev hl hk
  intro heq
  rcases Nat.lt_or_gt_of_ne hjk with h | h
  · apply noParallel_rel hp hj hk h
    rcases huj with rfl | rfl <;> rcases huk with h2 | h2
    · rw [other_eu, h2, other_eu] at heq
      exact Or.inl ⟨h2, heq⟩
    · rw [other_eu, h2, other_ev hnek] at heq
      exact Or.inr ⟨h2, heq⟩
    · rw [other_ev hnej, h2, other_eu] at heq
      exact Or.inr ⟨heq, h2⟩
    · rw [other_ev hnej, h2, other_ev hnek] at heq
      exact Or.inl ⟨heq, h2⟩
  · apply noParallel_rel hp hk hj h
    rcases huj with rfl | rfl <;> rcases huk with h2 | h2
    · rw [other_eu, h2, other_eu] at heq
      exact Or.inl ⟨h2.symm, heq.symm⟩
    · rw [other_eu, h2, other_ev hnek] at heq
      exact Or.inr ⟨heq.symm, h2.symm⟩
    · rw [other_ev hnej, h2, other_eu] at heq
      exact Or.inr ⟨h2.symm, heq.symm⟩
    · rw [other_ev hnej, h2, other_ev hnek] at heq
      exact Or.inl ⟨heq.symm, h2.symm⟩

theorem seed3_cons (g : Graph) (thr : Nat) (j : Nat) (adj : List Nat) (i : Nat) (st : PState) :
    seed3 g thr (j :: adj) i st =
      seed3 g thr adj (if (i : Int) = (thr : Int) - 1 then 0 else i + 1) (seed3_step g st j i) :=
  rfl

theorem seed3Inv_step {g : Graph} (hw : PosWF g) (hp : NoParallel g) {thr i : Nat}
    (hi : i < thr) {st : PState} {j : Nat} {rest : List Nat} (hj : j ∈ g.adj g.s)
    (hjr : j ∉ rest) (hsub : ∀ k ∈ rest, k ∈ g.adj g.s)
    (hI : Seed3Inv g thr st (j :: rest)) : Seed3Inv g thr (seed3_step g st j i) rest := by
  obtain ⟨him, hend⟩ := endpoint_of_mem_adj hj
  have hne := eu_ne_ev hw.noLoops him
  have hcp := cap_pos hw.caps him
  have hsv : g.s ≠ other g g.s j := (other_ne_self hne hend).symm
  have hfj : st.f j = 0 := hI.todo j (List.mem_cons_self _ _)
  have hev : st.e (other g g.s j) = 0 := hI.fresh j (List.mem_cons_self _ _)
  have hf' : (seed3_step g st j i).f = pushF g st.f g.s j (g.cap j) := by
    unfold seed3_step; rw [add_active_f]; rfl
  have he' : (seed3_step g st j i).e =
      Function.update st.e (other g g.s j) (st.e (other g g.s j) + g.cap j) := by
    unfold seed3_step; rw [add_active_e]
  have hav : available g st.f j (direction g g.s j) = g.cap j := by
    unfold available; rw [hfj]; ring
  refine ⟨?_, ?_, ?_, ?_, ?_, ?_, ?_, ?_, ?_, ?_⟩
  · unfold seed3_step; rw [add_active_h]; exact hI.h_eq
  · rw [hf']
    exact capInv_pushF hI.cap him (le_of_lt hcp) (by rw [hav])
  · rw [hf', he']
    have := consInv_push (d := g.cap j) hne him hend (fun x hx _ => hI.cons x hx) (hI.cons g.s)
    intro x hx
    rw [← this x hx, pushE_apply hsv]
    by_cases hxv : x = other g g.s j
    · subst hxv; rw [Function.update_same, if_pos rfl]
    · rw [Function.update_noteq hxv, if_neg hxv, if_neg hx]
  · intro x
    rw [he']
    by_cases hxv : x = other g g.s j
    · subst hxv; rw [Function.update_same]; have := hI.nonneg (other g g.s j); linarith
    · rw [Function.update_noteq hxv]; exact hI.nonneg x
  · unfold seed3_step
    have hpp : PartsInv thr
        ({ st with f := Function.update st.f j (st.f j + direction g g.s j * g.cap j),
                   e := Function.update st.e (other g g.s j)
                     (st.e (other g g.s j) + g.cap j) } : PState).next
        ({ st with f := Function.update st.f j (st.f j + direction g g.s j * g.cap j),
                   e := Function.update st.e (other g g.s j)
                     (st.e (other g g.s j) + g.cap j) } : PState).active
        (Active g st.e) := hI.parts
    have hx : ¬ Active g st.e (other g g.s j) := by
      rintro ⟨_, _, h⟩; rw [hev] at h; exact lt_irrefl _ h
    refine partsInv_congr (partsInv_add g hpp hx hi) ?_
    intro y
    rw [add_active_e]
    unfold Active
    simp only
    by_cases hy : y = other g g.s j
    · subst hy
      rw [Function.update_same, hev]
      constructor
      · rintro (⟨_, _, h⟩ | ⟨_, h1, h2⟩)
        · exact absurd h (lt_irrefl _)
        · exact ⟨h2, h1, by linarith⟩
      · rintro ⟨h1, h2, _⟩
        exact Or.inr ⟨rfl, h2, h1⟩
    · rw [Function.update_noteq hy]
      constructor
      · rintro (h | ⟨h, _⟩)
        · exact h
        · exact absurd h hy
      · exact Or.inl
  · intro k
    unfold seed3_step; rw [add_active_action]; exact hI.queues k
  · unfold seed3_step; rw [add_active_fin]; exact hI.fin
  · intro k hk hendk hkr
    rw [hf']
    by_cases hkj : k = j
    · subst hkj
      rw [available_pushF_self, hav]; ring
    · rw [available_pushF_ne _ _ _ _ hkj]
      apply hI.done k hk hendk
      intro h
      rcases List.mem_cons.mp h with h | h
      · exact hkj h
      · exact hkr h
  · intro k hk
    rw [hf']
    have hkj : k ≠ j := fun h => hjr (h ▸ hk)
    unfold pushF
    rw [Function.update_noteq hkj]
    exact hI.todo k (List.mem_cons_of_mem _ hk)
  · intro k hk
    rw [he']
    have hkj : k ≠ j := fun h => hjr (h ▸ hk)
    obtain ⟨hkm, hendk⟩ := endpoint_of_mem_adj (hsub k hk)
    have := other_ne_of_noParallel hp hw.noLoops hkm him hkj hendk hend
    rw [Function.update_noteq this]
    exact hI.fresh k (List.mem_cons_of_mem _ hk)

theorem seed3_inv {g : Graph} (hw : PosWF g) (hp : NoParallel g) {thr : Nat}
    (rest : List Nat) (hsub : ∀ k ∈ rest, k ∈ g.adj g.s) (hn : rest.Nodup) (i : Nat)
    (hi : i < thr) (st : PState) (hI : Seed3Inv g thr st rest) :
    Seed3Inv g thr (seed3 g thr rest i st) [] := by
  induction rest generalizing i st with
  | nil => exact hI
  | cons j rest ih =>
    obtain ⟨hjr, hn2⟩ := List.nodup_cons.mp hn
    rw [seed3_cons]
    apply ih (fun k hk => hsub k (List.mem_cons_of_mem _ hk)) hn2
    · split
      · omega
      · rename_i h
        have : (i : Int) + 1 ≠ thr := fun h2 => h (by omega)
        omega
    · exact seed3Inv_step hw hp hi (hsub j (List.mem_cons_self _ _)) hjr
        (fun k hk => hsub k (List.mem_cons_of_mem _ hk)) hI

/-- After lab3's seeding the state is a round boundary with `fin` not set. -/
theorem seeded3_roundInv {g : Graph} (hw : PosWF g) (hp : NoParallel g) {thr : Nat}
    (ht : 1 ≤ thr) :
    RoundInv g thr (seeded3 g thr initPState) ∧ (seeded3 g thr initPState).fin = false := by
  have h0 : Seed3Inv g thr
      { initPState with h := Function.update initPState.h g.s (g.n : Int) } (g.adj g.s) := by
    refine ⟨rfl, ?_, ?_, ?_, ?_, fun _ => rfl, rfl, ?_, fun _ _ => rfl, fun _ _ => rfl⟩
    · intro j hj
      simpa [initPState] using cap_nonneg hw.caps.nonneg hj
    · intro x _
      simp [initPState, netIn]
    · intro x; simp [initPState]
    · refine ⟨fun _ => [], fun _ _ => ⟨rfl, List.nodup_nil⟩, ?_, ?_⟩
      · intro i j x _ _ hx; simp at hx
      · intro x
        simp [Active, initPState]
    · intro j hj hend hnot
      exfalso; apply hnot
      rw [mem_adj]
      refine ⟨hj, ?_⟩
      rcases hend with h | h
      · exact Or.inl h.symm
      · exact Or.inr h.symm
  have hI := seed3_inv hw hp (g.adj g.s) (fun k hk => hk) (nodup_adj hw.noLoops _) 0
    (by omega) _ h0
  have hh : ∀ x, (seeded3 g thr initPState).h x = if x = g.s then (g.n : Int) else 0 := by
    intro x
    unfold seeded3
    rw [hI.h_eq]
    simp [Function.update_apply]
  have hn2 := hw.n2
  refine ⟨⟨⟨hI.cap, hI.cons, hI.nonneg, ?_, ?_, ?_, ?_, ?_⟩, hI.parts, fun i _ => hI.queues i⟩,
    hI.fin⟩
  · intro j hj x hx hav
    rw [hh x, hh (other g x j)]
    by_cases hxs : x = g.s
    · subst hxs
      have := hI.done j hj hx (by simp)
      unfold seeded3 at hav
      rw [this] at hav
      exact absurd hav (lt_irrefl _)
    · rw [if_neg hxs]
      split <;> omega
  · rw [hh]; simp
  · rw [hh, if_neg hw.s_ne_t.symm]
  · intro x; rw [hh]; split <;> omega
  · intro x; rw [hh]; split <;> omega

/-! ## lab3: results -/

theorem rounds_mono_le {g : Graph} {thr fuel k fuel2 k2 : Nat} {st st2 : PState}
    (h : rounds g thr fuel k st = Outcome.returned st2) (hf : fuel ≤ fuel2) (hk : k ≤ k2) :
    rounds g thr fuel2 k2 st = Outcome.returned st2 := by
  have h1 : rounds g thr fuel2 k st = Outcome.returned st2 := by
    induction hf with
    | refl => exact h
    | step _ ih => exact rounds_mono_fuel ih
  induction hk with
  | refl => exact h1
  | step _ ih => exact rounds_mono_k ih

/-- Two runs of the rounds that both return agree, whatever their budgets. -/
theorem rounds_det {g : Graph} {thr f1 f2 k1 k2 : Nat} {st a b : PState}
    (h1 : rounds g thr f1 k1 st = Outcome.returned a)
    (h2 : rounds g thr f2 k2 st = Outcome.returned b) : a = b := by
  have e1 := rounds_mono_le h1 (le_max_left f1 f2) (le_max_left k1 k2)
  have e2 := rounds_mono_le h2 (le_max_right f1 f2) (le_max_right k1 k2)
  rw [e1] at e2
  exact Outcome.returned.inj e2

theorem loop_mono_le {g : Graph} {k k2 : Nat} {st st2 : State}
    (h : loop g k st = Outcome.returned st2) (hk : k ≤ k2) :
    loop g k2 st = Outcome.returned st2 := by
  induction hk with
  | refl => exact h
  | step _ ih => exact loop_mono ih

theorem preflow3_returned_iff {g : Graph} {thr : Nat} {st0 : PState} {fuel : Nat} {val : Int} :
    preflow3 g thr st0 fuel = Outcome.returned val ↔
      ∃ st, preflow3_state g thr st0 fuel = Outcome.returned st ∧ st.e g.t = val := by
  unfold preflow3
  cases h : preflow3_state g thr st0 fuel with
  | returned st => simp
  | aborted => simp
  | timeout => simp

theorem preflow3_mono {g : Graph} {thr : Nat} {st0 : PState} {fuel fuel2 : Nat} {val : Int}
    (h : preflow3 g thr st0 fuel = Outcome.returned val) (hle : fuel ≤ fuel2) :
    preflow3 g thr st0 fuel2 = Outcome.returned val := by
  obtain ⟨st, h1, h2⟩ := preflow3_returned_iff.mp h
  exact preflow3_returned_iff.mpr ⟨st, rounds_mono_le h1 hle hle, h2⟩

theorem preflow_mono {g : Graph} {st0 : State} {fuel fuel2 : Nat} {val : Int}
    (h : preflow g st0 fuel = Outcome.returned val) (hle : fuel ≤ fuel2) :
    preflow g st0 fuel2 = Outcome.returned val := by
  obtain ⟨st, h1, h2⟩ := preflow_returned_iff.mp h
  refine preflow_returned_iff.mpr ⟨st, ?_, h2⟩
  unfold preflow_state at h1 ⊢
  cases hs : seed g (g.adj g.s) (seedStart g st0) with
  | none => rw [hs] at h1; exact absurd h1 (by simp)
  | some st1 =>
    rw [hs] at h1
    exact loop_mono_le h1 hle

theorem preflow3_det {g : Graph} {thr : Nat} {st0 : PState} {f1 f2 : Nat} {a b : Int}
    (h1 : preflow3 g thr st0 f1 = Outcome.returned a)
    (h2 : preflow3 g thr st0 f2 = Outcome.returned b) : a = b := by
  have e1 := preflow3_mono h1 (le_max_left f1 f2)
  have e2 := preflow3_mono h2 (le_max_right f1 f2)
  rw [e1] at e2
  exact Outcome.returned.inj e2

theorem preflow_det {g : Graph} {st0 : State} {f1 f2 : Nat} {a b : Int}
    (h1 : preflow g st0 f1 = Outcome.returned a)
    (h2 : preflow g st0 f2 = Outcome.returned b) : a = b := by
  have e1 := preflow_mono h1 (le_max_left f1 f2)
  have e2 := preflow_mono h2 (le_max_right f1 f2)
  rw [e1] at e2
  exact Outcome.returned.inj e2

/-- For valid inputs lab3's `preflow` returns, at a round boundary without
active nodes. -/
theorem preflow3_state_returns {g : Graph} (hw : PosWF g) (hp : NoParallel g) {thr : Nat}
    (ht : 1 ≤ thr) :
    ∃ fuel st, preflow3_state g thr initPState fuel = Outcome.returned st ∧
      RoundInv g thr st ∧ ∀ x, ¬ Active g st.e x := by
  obtain ⟨hR, hf⟩ := seeded3_roundInv hw hp ht
  obtain ⟨k, st2, h1, h2, h3⟩ := rounds_terminates hw thr (g.n + 1) (by omega) _ _ _ hR hf rfl rfl
  refine ⟨g.n + 1 + k, st2, ?_, h2, h3⟩
  unfold preflow3_state
  exact rounds_mono_le h1 (by omega) (by omega)

/-- For valid inputs lab3's `preflow` returns the value of a maximum flow. -/
theorem preflow3_returns_maxflow {g : Graph} (hw : PosWF g) (hp : NoParallel g) {thr : Nat}
    (ht : 1 ≤ thr) :
    ∃ fuel val, preflow3 g thr initPState fuel = Outcome.returned val ∧ IsMaxFlowValue g val := by
  obtain ⟨fuel, st, h1, h2, h3⟩ := preflow3_state_returns hw hp ht
  refine ⟨fuel, st.e g.t, preflow3_returned_iff.mpr ⟨st, h1, rfl⟩, ?_⟩
  exact maxflow_of_final hw h2.virt.cap h2.virt.cons h2.virt.nonneg h2.virt.valid h2.virt.hs
    h2.virt.ht h3

theorem edges_nil_of_small {g : Graph} (hn : g.n < 2) (hr : InRange g) (hl : NoSelfLoops g) :
    g.edges = [] := by
  cases he : g.edges with
  | nil => rfl
  | cons e es =>
    have hmem : e ∈ g.edges := by rw [he]; exact List.mem_cons_self _ _
    have h1 := hr e hmem
    have h2 := hl e hmem
    omega

theorem preflow_no_edges (n : Nat) : preflow ⟨n, []⟩ initState 1 = Outcome.returned 0 := rfl

theorem preflow3_no_edges (n thr : Nat) :
    preflow3 ⟨n, []⟩ thr initPState 2 = Outcome.returned 0 := by
  have hs : seeded3 ⟨n, []⟩ thr initPState =
      { initPState with h := Function.update initPState.h (Graph.s ⟨n, []⟩) (n : Int) } := rfl
  unfold preflow3 preflow3_state
  rw [rounds_idle ⟨n, []⟩ thr 1 0 (by rw [hs]; rfl) (by rw [hs]; intro i; rfl)
    (by rw [hs]; intro i; rfl)]
  rw [hs]
  rfl

/-- For every graph with endpoints in range, positive capacities and no
self-loops or parallel edges, and every worker count `thr ≥ 1`, lab3's
`preflow` and the `preflow` of sequential.c both return, with the same value. -/
theorem preflow3_eq_sequential {g : Graph} {thr : Nat} (ht : 1 ≤ thr) (hr : InRange g)
    (hc : PositiveCaps g) (hl : NoSelfLoops g) (hp : NoParallel g) :
    ∃ fuel val, preflow3 g thr initPState fuel = Outcome.returned val ∧
      preflow g initState fuel = Outcome.returned val := by
  by_cases hn : 2 ≤ g.n
  · have hw : PosWF g := ⟨hn, hr, hl, hc⟩
    obtain ⟨f3, v3, h3, m3⟩ := preflow3_returns_maxflow hw hp ht
    obtain ⟨f1, v1, h1⟩ := preflow_returns hw
    have m1 := preflow_maxflow hw h1
    have hv : v1 = v3 := isMaxFlowValue_unique m1 m3
    refine ⟨max f3 f1, v3, preflow3_mono h3 (le_max_left _ _), ?_⟩
    rw [← hv]
    exact preflow_mono h1 (le_max_right _ _)
  · have he := edges_nil_of_small (not_le.mp hn) hr hl
    have hg : g = ⟨g.n, []⟩ := by
      cases g with
      | mk n edges => simp only at he; rw [he]
    rw [hg]
    exact ⟨2, 0, preflow3_no_edges g.n thr, preflow_mono (preflow_no_edges g.n) (by omega)⟩

/-! ## sequential.c: members of the excess list -/

theorem listMem_cases {next : Nat → Option Nat} {hd : Option Nat} {x : Nat}
    (h : ListMem next hd x) : hd = some x ∨ ∃ y, next y = some x := by
  induction h with
  | head => exact Or.inl rfl
  | tail _ ih =>
    rcases ih with h | h
    · exact Or.inr ⟨_, h⟩
    · exact Or.inr h

theorem noTerminal_not_mem {g : Graph} {st : State} (h : NoTerminal g st) :
    ¬ ListMem st.next st.excess g.s ∧ ¬ ListMem st.next st.excess g.t := by
  constructor
  · intro hm
    rcases listMem_cases hm with h1 | ⟨y, h1⟩
    · exact h.1.1 h1
    · exact (h.2 y).1 h1
  · intro hm
    rcases listMem_cases hm with h1 | ⟨y, h1⟩
    · exact h.1.2 h1
    · exact (h.2 y).2 h1

theorem enter_excess_terminal (g : Graph) (st : State) {v : Nat} (h : v = g.s ∨ v = g.t) :
    enter_excess g st v = st := by
  unfold enter_excess
  rw [if_neg]
  rintro ⟨h1, h2⟩
  rcases h with h | h
  · exact h2 h
  · exact h1 h

theorem enter_excess_inner (g : Graph) (st : State) {v : Nat} (hs : v ≠ g.s) (ht : v ≠ g.t) :
    enter_excess g st v =
      { st with next := Function.update st.next v st.excess, excess := some v } := by
  unfold enter_excess
  rw [if_pos ⟨ht, hs⟩]

theorem noTerminal_enter {g : Graph} {st : State} (h : NoTerminal g st) (v : Nat) :
    NoTerminal g (enter_excess g st v) := by
  by_cases hv : v = g.s ∨ v = g.t
  · rw [enter_excess_terminal g st hv]; exact h
  · push_neg at hv
    rw [enter_excess_inner g st hv.1 hv.2]
    refine ⟨⟨?_, ?_⟩, ?_⟩
    · intro h1; exact hv.1 (Option.some.inj h1)
    · intro h1; exact hv.2 (Option.some.inj h1)
    · intro y
      simp only
      by_cases hy : y = v
      · subst hy; rw [Function.update_same]; exact h.1
      · rw [Function.update_noteq hy]; exact h.2 y

theorem noTerminal_of_list_eq {g : Graph} {st st2 : State} (h : NoTerminal g st)
    (h1 : st2.next = st.next) (h2 : st2.excess = st.excess) : NoTerminal g st2 := by
  unfold NoTerminal
  rw [h1, h2]
  exact h

theorem noTerminal_enterIf {g : Graph} {st : State} (h : NoTerminal g st) (c : Prop)
    [Decidable c] (v : Nat) : NoTerminal g (if c then enter_excess g st v else st) := by
  split
  · exact noTerminal_enter h v
  · exact h

theorem noTerminal_push {g : Graph} {st st2 : State} {u v i : Nat} (h : NoTerminal g st)
    (hp : push g st u v i = some st2) : NoTerminal g st2 := by
  unfold push at hp
  simp only at hp
  by_cases ha : push_asserts g st u v i
  · rw [if_pos ha] at hp
    have hp := Option.some.inj hp
    subst hp
    have h0 : NoTerminal g (push_update g st u v i) :=
      noTerminal_of_list_eq h (push_update_next g st u v i) (push_update_excess g st u v i)
    exact noTerminal_enterIf (noTerminal_enterIf h0 _ u) _ v
  · rw [if_neg ha] at hp
    exact absurd hp (by simp)

theorem noTerminal_pop {g : Graph} {st : State} (h : NoTerminal g st) (u : Nat) :
    NoTerminal g { st with excess := st.next u } :=
  ⟨h.2 u, h.2⟩

theorem seedReach_noTerminal {g : Graph} {p : List Nat} {st : State}
    (h : SeedReach g initState p st) : NoTerminal g st := by
  induction h with
  | start =>
    refine ⟨⟨?_, ?_⟩, fun y => ⟨?_, ?_⟩⟩ <;> simp [seedStart, initState]
  | push _ hp ih =>
    exact noTerminal_push
      (noTerminal_of_list_eq ih (show (seedPre g _ _).next = _ from rfl)
        (show (seedPre g _ _).excess = _ from rfl)) hp

theorem loopReach_noTerminal {g : Graph} {st : State} (h : LoopReach g initState st) :
    NoTerminal g st := by
  induction h with
  | seeded hs => exact seedReach_noTerminal (seed_conn SeedReach.start hs)
  | @step st st2 _ hit ih =>
    obtain ⟨u, _, hcase⟩ := iter_cont_cases hit
    rcases hcase with ⟨v, i, _, hp⟩ | ⟨_, h2⟩
    · exact noTerminal_push (noTerminal_pop ih u) hp
    · rw [h2]
      unfold relabel
      have h0 : NoTerminal g
          { ({ st with excess := st.next u } : State) with
            h := Function.update st.h u (st.h u + 1) } :=
        noTerminal_of_list_eq (noTerminal_pop ih u) rfl rfl
      exact noTerminal_enter h0 u

theorem add_active_terminal (g : Graph) (st : PState) {v : Nat} (i : Nat)
    (h : v = g.s ∨ v = g.t) : add_active g st v i = st := by
  unfold add_active
  rw [if_neg]
  rintro ⟨h1, h2⟩
  rcases h with h | h
  · exact h2 h
  · exact h1 h

/-! ## sequential.c: runs on graphs without edges -/

theorem loopReach_no_edges {n : Nat} {st : State}
    (h : LoopReach ⟨n, []⟩ initState st) : st = seedStart ⟨n, []⟩ initState := by
  induction h with
  | seeded hs =>
    have : seed ⟨n, []⟩ (Graph.adj ⟨n, []⟩ (Graph.s ⟨n, []⟩)) (seedStart ⟨n, []⟩ initState) =
        some (seedStart ⟨n, []⟩ initState) := rfl
    rw [this] at hs
    exact (Option.some.inj hs).symm
  | step _ hit ih =>
    rw [ih] at hit
    have : iter ⟨n, []⟩ (seedStart ⟨n, []⟩ initState) =
        Step.halt (seedStart ⟨n, []⟩ initState) := rfl
    rw [this] at hit
    exact absurd hit (by simp)

theorem graph_eq_no_edges {g : Graph} (hn : g.n < 2) (hr : InRange g) (hl : NoSelfLoops g) :
    g = ⟨g.n, []⟩ := by
  have he := edges_nil_of_small hn hr hl
  cases g with
  | mk n edges => simp only at he; rw [he]

/-! ## lab3: the states of a run -/

theorem roundReach_inv {g : Graph} (hw : PosWF g) (hp : NoParallel g) {thr fuel : Nat}
    (ht : 1 ≤ thr) {st : PState} (h : RoundReach g thr fuel st) : RoundInv g thr st := by
  induction h with
  | seeded => exact (seeded3_roundInv hw hp ht).1
  | @round st st1 _ hf hc ih =>
    obtain ⟨st1', h1, hR2, _⟩ := round_spec hw ih hf (max fuel (g.n + 1)) (by omega)
    have := compute_workers_mono_le hc (le_max_left fuel (g.n + 1))
    rw [h1] at this
    have hst : st1' = st1 := Option.some.inj this
    subst hst
    exact hR2

/-! ## lab3: runs on graphs without edges -/

theorem seeded3_no_edges (n thr : Nat) : Idle3 (seeded3 ⟨n, []⟩ thr initPState) :=
  ⟨fun _ => rfl, fun _ => rfl, fun _ => rfl⟩

theorem idle3_round {g : Graph} {thr fuel : Nat} (ht : 1 ≤ thr) {st st1 : PState}
    (h : Idle3 st) (hc : compute_workers g fuel (List.range thr) st = some st1) :
    st1 = st ∧ apply_phase g thr st1 = { st with fin := true } ∧
      Idle3 (apply_phase g thr st1) := by
  cases fuel with
  | zero =>
    obtain ⟨k, rfl⟩ : ∃ k, thr = k + 1 := ⟨thr - 1, by omega⟩
    rw [List.range_succ_eq_map] at hc
    simp [compute_workers, work_compute] at hc
  | succ k =>
    rw [compute_workers_idle g k _ h.1] at hc
    have h1 : st1 = st := (Option.some.inj hc).symm
    subst h1
    have h2 := apply_phase_idle g thr h.1 h.2.1
    refine ⟨rfl, h2, ?_⟩
    rw [h2]
    exact h

theorem idle3_parts (g : Graph) (thr : Nat) {st : PState} (h : Idle3 st) :
    PartsInv thr st.next st.active (Active g st.e) := by
  refine ⟨fun _ => [], fun i _ => ⟨h.1 i, List.nodup_nil⟩, ?_, ?_⟩
  · intro i j x _ _ hx; simp at hx
  · intro x
    simp [Active, h.2.2 x]

theorem idle3_rounds {g : Graph} {thr fuel : Nat} (ht : 1 ≤ thr) (k : Nat) :
    ∀ st st2, Idle3 st → rounds g thr fuel k st = Outcome.returned st2 → Idle3 st2 := by
  induction k with
  | zero => intro st st2 _ h; simp [rounds] at h
  | succ k ih =>
    intro st st2 hI h
    rw [rounds_succ] at h
    by_cases hf : st.fin = true
    · rw [if_pos hf] at h
      simp only [Outcome.returned.injEq] at h
      subst h
      exact hI
    · rw [if_neg hf] at h
      cases hc : compute_workers g fuel (List.range thr) st with
      | none => rw [hc] at h; exact absurd h (by simp)
      | some st1 =>
        rw [hc] at h
        simp only at h
        exact ih _ _ (idle3_round ht hI hc).2.2 h

/-! ## lab3: the seeding loop, capacities of any sign -/

theorem partsAt_add (g : Graph) {thr : Nat} {st : PState} {M : Nat → Nat → Prop} {x i : Nat}
    (h : PartsAt thr st.next st.active M) (hx : ∀ p, p < thr → ¬ M p x) :
    PartsAt thr (add_active g st x i).next (add_active g st x i).active
      (fun p y => M p y ∨ (p = i ∧ y = x ∧ x ≠ g.t ∧ x ≠ g.s)) := by
  intro p hp
  obtain ⟨l, h1, h2, h3⟩ := h p hp
  have hxl : x ∉ l := fun hm => hx p hp ((h3 x).mp hm)
  unfold add_active
  split
  · rename_i hc
    by_cases hpi : p = i
    · subst hpi
      refine ⟨x :: l, ⟨?_, ?_⟩, List.nodup_cons.mpr ⟨hxl, h2⟩, ?_⟩
      · simp only [Function.update_same]
      · simp only [Function.update_same]
        exact isList_update _ hxl h1
      · intro y
        rw [List.mem_cons, h3]
        constructor
        · rintro (rfl | hm)
          · exact Or.inr ⟨rfl, rfl, hc⟩
          · exact Or.inl hm
        · rintro (hm | ⟨_, rfl, _⟩)
          · exact Or.inr hm
          · exact Or.inl rfl
    · refine ⟨l, ?_, h2, ?_⟩
      · simp only [Function.update_noteq hpi]
        exact isList_update _ hxl h1
      · intro y
        rw [h3]
        constructor
        · exact Or.inl
        · rintro (hm | ⟨hpi2, _⟩)
          · exact hm
          · exact absurd hpi2 hpi
  · rename_i hc
    refine ⟨l, h1, h2, ?_⟩
    intro y
    rw [h3]
    constructor
    · exact Or.inl
    · rintro (hm | ⟨_, _, hc2⟩)
      · exact hm
      · exact absurd hc2 hc

theorem partsAt_congr {thr : Nat} {next : Nat → Option Nat} {active : Nat → Option Nat}
    {M M2 : Nat → Nat → Prop} (h : PartsAt thr next active M)
    (hiff : ∀ p x, p < thr → (M p x ↔ M2 p x)) : PartsAt thr next active M2 := by
  intro p hp
  obtain ⟨l, h1, h2, h3⟩ := h p hp
  exact ⟨l, h1, h2, fun x => (h3 x).trans (hiff p x hp)⟩

/-- The round-robin counter of the seeding loop after one more edge. -/
theorem seed3_counter {thr c : Nat} (ht : 1 ≤ thr) :
    (if ((c % thr : Nat) : Int) = (thr : Int) - 1 then 0 else c % thr + 1) = (c + 1) % thr := by
  have hlt : c % thr < thr := Nat.mod_lt _ (by omega)
  have hmod : (c + 1) % thr = (c % thr + 1) % thr := by
    rw [Nat.add_mod]
    by_cases h1 : thr = 1
    · subst h1; simp
    · rw [Nat.mod_eq_of_lt (show 1 < thr by omega)]
  split
  · rename_i h
    have : c % thr + 1 = thr := by omega
    rw [hmod, this, Nat.mod_self]
  · rename_i h
    have : c % thr + 1 < thr := by omega
    rw [hmod, Nat.mod_eq_of_lt this]

theorem list_drop_cons {α : Type} {A : List α} {c : Nat} {j : α} {rest : List α}
    (h : A.drop c = j :: rest) : A[c]? = some j ∧ A.drop (c + 1) = rest := by
  constructor
  · have := List.getElem?_drop A c 0
    rw [h] at this
    simpa using this.symm
  · have : A.drop (c + 1) = (A.drop c).drop 1 := by
      rw [List.drop_drop]
    rw [this, h]
    rfl

theorem mem_of_index {α : Type} {A : List α} {k : Nat} {j : α} (h : A[k]? = some j) : j ∈ A := by
  obtain ⟨hk, e⟩ := List.getElem?_eq_some_iff.mp h
  rw [← e]
  exact List.getElem_mem hk

theorem adj_index_inj {g : Graph} (hl : NoSelfLoops g) {x k1 k2 j : Nat}
    (h1 : (g.adj x)[k1]? = some j) (h2 : (g.adj x)[k2]? = some j) : k1 = k2 := by
  have hn := nodup_adj hl x
  obtain ⟨hk1, e1⟩ := List.getElem?_eq_some_iff.mp h1
  obtain ⟨hk2, e2⟩ := List.getElem?_eq_some_iff.mp h2
  exact (List.Nodup.getElem_inj_iff hn).mp (e1.trans e2.symm)

theorem seed3_parts {g : Graph} {thr : Nat} (ht : 1 ≤ thr) (hl : NoSelfLoops g)
    (hp : NoParallel g) :
    ∀ (rest : List Nat) (c : Nat) (st : PState), (g.adj g.s).drop c = rest →
      PartsAt thr st.next st.active (SeedAt g thr c) →
      PartsAt thr (seed3 g thr rest (c % thr) st).next (seed3 g thr rest (c % thr) st).active
        (SeedAt g thr (g.adj g.s).length) := by
  intro rest
  induction rest with
  | nil =>
    intro c st hd hP
    have hlen : (g.adj g.s).length ≤ c := List.drop_eq_nil_iff.mp hd
    apply partsAt_congr hP
    intro p x _
    constructor
    · rintro ⟨k, j, _, h2, h3⟩
      exact ⟨k, j, (List.getElem?_eq_some_iff.mp h2).1, h2, h3⟩
    · rintro ⟨k, j, h1, h2, h3⟩
      exact ⟨k, j, by omega, h2, h3⟩
  | cons j rest ih =>
    intro c st hd hP
    obtain ⟨hj, hd2⟩ := list_drop_cons hd
    rw [seed3_cons, seed3_counter ht]
    apply ih (c + 1) _ hd2
    have hjm : j ∈ g.adj g.s := mem_of_index hj
    obtain ⟨hjlt, hjend⟩ := endpoint_of_mem_adj hjm
    have hfresh : ∀ p, p < thr → ¬ SeedAt g thr c p (other g g.s j) := by
      rintro p _ ⟨k, j2, hk, hj2, _, heq, _⟩
      have hj2m : j2 ∈ g.adj g.s := mem_of_index hj2
      obtain ⟨hj2lt, hj2end⟩ := endpoint_of_mem_adj hj2m
      by_cases hjj : j = j2
      · subst hjj
        have := adj_index_inj hl hj hj2
        omega
      · exact other_ne_of_noParallel hp hl hjlt hj2lt hjj hjend hj2end heq
    have hP2 : PartsAt thr (seed3_step g st j (c % thr)).next
        (seed3_step g st j (c % thr)).active
        (fun p y => SeedAt g thr c p y ∨
          (p = c % thr ∧ y = other g g.s j ∧ other g g.s j ≠ g.t ∧ other g g.s j ≠ g.s)) :=
      partsAt_add g hP hfresh
    apply partsAt_congr hP2
    intro p x _
    constructor
    · rintro (⟨k, j2, h1, h2⟩ | ⟨h1, h2, h3⟩)
      · exact ⟨k, j2, by omega, h2⟩
      · rw [← h2] at h3
        exact ⟨c, j, by omega, hj, h1.symm, h2, h3⟩
    · rintro ⟨k, j2, h1, h2, h3, h4, h5⟩
      by_cases hkc : k = c
      · subst hkc
        rw [hj] at h2
        have := Option.some.inj h2
        subst this
        rw [h4] at h5
        exact Or.inr ⟨h3.symm, h4, h5⟩
      · exact Or.inl ⟨k, j2, by omega, h2, h3, h4, h5⟩

theorem seed3_fields {g : Graph} (thr : Nat) (hl : NoSelfLoops g) (hp : NoParallel g) :
    ∀ (rest : List Nat) (i : Nat) (st : PState), (∀ k ∈ rest, k ∈ g.adj g.s) → rest.Nodup →
      (seed3 g thr rest i st).h = st.h ∧ (seed3 g thr rest i st).action = st.action ∧
      (seed3 g thr rest i st).fin = st.fin ∧
      (∀ j, (seed3 g thr rest i st).f j =
        if j ∈ rest then st.f j + direction g g.s j * g.cap j else st.f j) ∧
      (∀ j, j ∈ rest →
        (seed3 g thr rest i st).e (other g g.s j) = st.e (other g g.s j) + g.cap j) ∧
      (∀ x, (∀ j, j ∈ rest → x ≠ other g g.s j) → (seed3 g thr rest i st).e x = st.e x) := by
  intro rest
  induction rest with
  | nil =>
    intro i st _ _
    refine ⟨rfl, rfl, rfl, fun j => by simp [seed3], fun j hj => by simp at hj, fun x _ => rfl⟩
  | cons j rest ih =>
    intro i st hsub hn
    obtain ⟨hjr, hn2⟩ := List.nodup_cons.mp hn
    have hsub2 : ∀ k ∈ rest, k ∈ g.adj g.s := fun k hk => hsub k (List.mem_cons_of_mem _ hk)
    obtain ⟨hjlt, hjend⟩ := endpoint_of_mem_adj (hsub j (List.mem_cons_self _ _))
    rw [seed3_cons]
    obtain ⟨a1, a2, a3, a4, a5, a6⟩ := ih (if (i : Int) = (thr : Int) - 1 then 0 else i + 1)
      (seed3_step g st j i) hsub2 hn2
    have s1 : (seed3_step g st j i).h = st.h := by unfold seed3_step; rw [add_active_h]
    have s2 : (seed3_step g st j i).action = st.action := by
      unfold seed3_step; rw [add_active_action]
    have s3 : (seed3_step g st j i).fin = st.fin := by unfold seed3_step; rw [add_active_fin]
    have s4 : (seed3_step g st j i).f =
        Function.update st.f j (st.f j + direction g g.s j * g.cap j) := by
      unfold seed3_step; rw [add_active_f]
    have s5 : (seed3_step g st j i).e =
        Function.update st.e (other g g.s j) (st.e (other g g.s j) + g.cap j) := by
      unfold seed3_step; rw [add_active_e]
    have hdiff : ∀ k, k ∈ rest → other g g.s k ≠ other g g.s j := by
      intro k hk
      obtain ⟨hklt, hkend⟩ := endpoint_of_mem_adj (hsub2 k hk)
      have hkj : k ≠ j := fun h => hjr (h ▸ hk)
      exact other_ne_of_noParallel hp hl hklt hjlt hkj hkend hjend
    refine ⟨a1.trans s1, a2.trans s2, a3.trans s3, ?_, ?_, ?_⟩
    · intro k
      rw [a4, s4]
      by_cases hkj : k = j
      · subst hkj
        simp [hjr]
      · by_cases hkr : k ∈ rest
        · simp [hkr, Function.update_noteq hkj]
        · simp [hkr, hkj, Function.update_noteq hkj]
    · intro k hk
      rcases List.mem_cons.mp hk with rfl | hk
      · rw [a6 _ (fun k2 hk2 => (hdiff k2 hk2).symm), s5, Function.update_same]
      · rw [a5 k hk, s5, Function.update_noteq (hdiff k hk)]
    · intro x hx
      rw [a6 x (fun k hk => hx k (List.mem_cons_of_mem _ hk)), s5,
        Function.update_noteq (hx j (List.mem_cons_self _ _))]

/-! ## lab3: what one compute phase changes -/

theorem scanPush_frame (g : Graph) (st : PState) (i u j : Nat) :
    (scanPush g st i u j).h = st.h ∧ (scanPush g st i u j).f = st.f ∧
    (scanPush g st i u j).next = st.next ∧ (scanPush g st i u j).fin = st.fin ∧
    (scanPush g st i u j).active = st.active ∧
    (∀ x, x ≠ u → (scanPush g st i u j).e x = st.e x) ∧
    (scanPush g st i u j).e u =
      st.e u - MIN (st.e u) (available g st.f j (direction g u j)) ∧
    (∀ k, k ≠ i → (scanPush g st i u j).action k = st.action k) ∧
    (scanPush g st i u j).action i =
      ⟨other g u j, false, MIN (st.e u) (available g st.f j (direction g u j)),
        direction g u j, j⟩ :: st.action i := by
  refine ⟨rfl, rfl, rfl, rfl, rfl, ?_, ?_, ?_, ?_⟩
  · intro x hx
    simp [scanPush, queue_action, Function.update_noteq hx]
  · simp [scanPush, queue_action]
  · intro k hk
    simp [scanPush, queue_action, Function.update_noteq hk]
  · simp [scanPush, queue_action]

theorem work_scan_frame (g : Graph) (i u : Nat) :
    ∀ (adj : List Nat) (st : PState), ∃ P : List Action,
      (work_scan g i u adj st).h = st.h ∧ (work_scan g i u adj st).f = st.f ∧
      (work_scan g i u adj st).next = st.next ∧ (work_scan g i u adj st).fin = st.fin ∧
      (work_scan g i u adj st).active = st.active ∧
      (∀ x, x ≠ u → (work_scan g i u adj st).e x = st.e x) ∧
      (∀ k, k ≠ i → (work_scan g i u adj st).action k = st.action k) ∧
      (work_scan g i u adj st).action i = P ++ st.action i ∧
      (work_scan g i u adj st).e u = st.e u - (P.map Action.flo).sum ∧
      ScanActs g st.h st.f u adj P := by
  intro adj
  induction adj with
  | nil =>
    intro st
    refine ⟨[], rfl, rfl, rfl, rfl, rfl, fun _ _ => rfl, fun _ _ => rfl, rfl, ?_, ?_⟩
    · simp [work_scan]
    · intro a ha; simp at ha
  | cons j adj ih =>
    intro st
    rw [work_scan_cons]
    by_cases he : st.e u > 0
    · rw [if_pos he]
      by_cases hc : st.h (other g u j) < st.h u ∧ 0 < available g st.f j (direction g u j)
      · rw [if_pos hc]
        obtain ⟨P, a1, a2, a3, a4, a5, a6, a7, a8, a9, a10⟩ := ih (scanPush g st i u j)
        obtain ⟨b1, b2, b3, b4, b5, b6, b7, b8, b9⟩ := scanPush_frame g st i u j
        refine ⟨P ++ [⟨other g u j, false, MIN (st.e u) (available g st.f j (direction g u j)),
          direction g u j, j⟩], a1.trans b1, a2.trans b2, a3.trans b3, a4.trans b4,
          a5.trans b5, fun x hx => (a6 x hx).trans (b6 x hx),
          fun k hk => (a7 k hk).trans (b8 k hk), ?_, ?_, ?_⟩
        · rw [a8, b9]; simp
        · rw [a9, b7]
          simp only [List.map_append, List.sum_append, List.map_cons, List.map_nil,
            List.sum_cons, List.sum_nil]
          ring
        · intro a ha
          rcases List.mem_append.mp ha with ha | ha
          · obtain ⟨c1, c2, c3, c4, c5, c6, c7⟩ := a10 a ha
            rw [b1, b2] at *
            exact ⟨c1, c2, c3, List.mem_cons_of_mem _ c4, c5, c6, c7⟩
          · have ha2 : a = ⟨other g u j, false,
                MIN (st.e u) (available g st.f j (direction g u j)), direction g u j, j⟩ := by
              simpa using ha
            subst ha2
            exact ⟨rfl, MIN_pos he hc.2, MIN_le_right _ _, List.mem_cons_self _ _, rfl, rfl,
              hc.1⟩
      · rw [if_neg hc]
        obtain ⟨P, a1, a2, a3, a4, a5, a6, a7, a8, a9, a10⟩ := ih st
        refine ⟨P, a1, a2, a3, a4, a5, a6, a7, a8, a9, ?_⟩
        intro a ha
        obtain ⟨c1, c2, c3, c4, c5, c6, c7⟩ := a10 a ha
        exact ⟨c1, c2, c3, List.mem_cons_of_mem _ c4, c5, c6, c7⟩
    · rw [if_neg he]
      refine ⟨[], rfl, rfl, rfl, rfl, rfl, fun _ _ => rfl, fun _ _ => rfl, rfl, ?_, ?_⟩
      · simp
      · intro a ha; simp at ha

/-- What processing one node `u` does: the push actions `P` go on the queue,
with the relabel action on top of them when excess is left. -/
theorem work_node_frame (g : Graph) (i u : Nat) (st : PState) :
    ∃ P : List Action,
      ComputeFrame i [u] st (work_node g i u st) ∧
      (work_node g i u st).active = st.active ∧
      (work_node g i u st).action i =
        (if 0 < (work_node g i u st).e u then [relabelAction u] else []) ++ P ++ st.action i ∧
      (work_node g i u st).e u = st.e u - (P.map Action.flo).sum ∧
      ScanActs g st.h st.f u (g.adj u) P := by
  obtain ⟨P, a1, a2, a3, a4, a5, a6, a7, a8, a9, a10⟩ := work_scan_frame g i u (g.adj u) st
  refine ⟨P, ?_, ?_, ?_, ?_, a10⟩
  · rw [work_node_eq]
    split
    · exact ⟨a1, a2, a3, a4, fun x hx => a6 x (by simpa using hx),
        fun j hj => by rw [← a5]; rfl,
        fun j hj => by
          simp only [queue_action, Function.update_noteq hj]
          exact a7 j hj⟩
    · exact ⟨a1, a2, a3, a4, fun x hx => a6 x (by simpa using hx),
        fun j hj => by rw [← a5], a7⟩
  · rw [work_node_eq]
    split
    · exact a5
    · exact a5
  · rw [work_node_eq]
    by_cases hpos : (work_scan g i u (g.adj u) st).e u > 0
    · rw [if_pos hpos]
      have : (queue_action (work_scan g i u (g.adj u) st) (relabelAction u) i).e u =
          (work_scan g i u (g.adj u) st).e u := rfl
      rw [this, if_pos hpos]
      simp [queue_action, a8]
    · rw [if_neg hpos, if_neg hpos, a8]
      simp
  · rw [work_node_eq]
    split
    · exact a9
    · exact a9

theorem work_compute_succ (g : Graph) (i k : Nat) (st : PState) :
    work_compute g i (k + 1) st =
      match st.active i with
      | none => some st
      | some u => work_compute g i k
          (work_node g i u { st with active := Function.update st.active i (st.next u) }) := by
  rw [work_compute]
  unfold pop_active
  cases st.active i <;> rfl

/-- The compute phase of worker `i` on a partition that is the list `l`
without repetition. -/
theorem work_compute_frame (g : Graph) (i : Nat) :
    ∀ (l : List Nat) (st : PState) (fuel : Nat), IsList st.next (st.active i) l → l.Nodup →
      l.length < fuel →
      ∃ (st2 : PState) (P : Nat → List Action),
        work_compute g i fuel st = some st2 ∧ ComputeFrame i l st st2 ∧
        st2.active i = none ∧
        st2.action i =
          (l.reverse.map (fun x =>
            (if 0 < st2.e x then [relabelAction x] else []) ++ P x)).flatten ++ st.action i ∧
        ∀ x, x ∈ l → st2.e x = st.e x - ((P x).map Action.flo).sum ∧
          ScanActs g st.h st.f x (g.adj x) (P x) := by
  intro l
  induction l with
  | nil =>
    intro st fuel hl _ hf
    obtain ⟨k, rfl⟩ : ∃ k, fuel = k + 1 := ⟨fuel - 1, by simp at hf; omega⟩
    have hnone : st.active i = none := hl
    refine ⟨st, fun _ => [], ?_, ⟨rfl, rfl, rfl, rfl, fun _ _ => rfl, fun _ _ => rfl,
      fun _ _ => rfl⟩, hnone, by simp, fun x hx => by simp at hx⟩
    rw [work_compute_succ, hnone]
  | cons u l ih =>
    intro st fuel hl hn hf
    obtain ⟨k, rfl⟩ : ∃ k, fuel = k + 1 := ⟨fuel - 1, by simp at hf; omega⟩
    obtain ⟨hu, hl2⟩ := hl
    obtain ⟨hul, hn2⟩ := List.nodup_cons.mp hn
    obtain ⟨Pu, n1, n2, n3, n4, n5⟩ :=
      work_node_frame g i u { st with active := Function.update st.active i (st.next u) }
    have hl3 : IsList (work_node g i u
          { st with active := Function.update st.active i (st.next u) }).next
        ((work_node g i u
          { st with active := Function.update st.active i (st.next u) }).active i) l := by
      rw [n1.next_eq, n2]
      simp only [Function.update_same]
      exact hl2
    obtain ⟨st2, P, c1, c2, c3, c4, c5⟩ := ih _ k hl3 hn2 (by simp at hf; omega)
    have heu : st2.e u = (work_node g i u
        { st with active := Function.update st.active i (st.next u) }).e u := c2.e_other u hul
    refine ⟨st2, Function.update P u Pu, ?_, ?_, c3, ?_, ?_⟩
    · rw [work_compute_succ, hu]
      exact c1
    · refine ⟨c2.h_eq.trans n1.h_eq, c2.f_eq.trans n1.f_eq, c2.next_eq.trans n1.next_eq,
        c2.fin_eq.trans n1.fin_eq, ?_, ?_, ?_⟩
      · intro x hx
        have hxu : x ≠ u := fun h => hx (h ▸ List.mem_cons_self _ _)
        have hxl : x ∉ l := fun h => hx (List.mem_cons_of_mem _ h)
        rw [c2.e_other x hxl, n1.e_other x (by simpa using hxu)]
      · intro j hj
        rw [c2.active_other j hj, n2]
        simp only [Function.update_noteq hj]
      · intro j hj
        rw [c2.action_other j hj, n1.action_other j hj]
    · rw [c4, n3, ← heu]
      simp only [List.reverse_cons, List.map_append, List.flatten_append, List.map_cons,
        List.map_nil, List.flatten_cons, List.flatten_nil, List.append_nil,
        Function.update_same, List.append_assoc]
      congr 2
      apply List.map_congr_left
      intro x hx
      have hxu : x ≠ u := fun h => hul (h ▸ List.mem_reverse.mp hx)
      rw [Function.update_noteq hxu]
    · intro x hx
      rcases List.mem_cons.mp hx with rfl | hx
      · rw [Function.update_same, heu, n4]
        exact ⟨rfl, n5⟩
      · have hxu : x ≠ u := fun h => hul (h ▸ hx)
        obtain ⟨d1, d2⟩ := c5 x hx
        rw [Function.update_noteq hxu, d1, n1.e_other x (by simpa using hxu)]
        rw [n1.h_eq, n1.f_eq] at d2
        exact ⟨rfl, d2⟩

/-! ## lab3: the capacity bound between two actions of the apply phase -/

theorem cntInd_nonneg (j : Nat) (a : Action) : 0 ≤ cntInd j a := by
  unfold cntInd; split <;> simp

theorem qsum_mem_le (F : Action → Int) (q : Nat → List Action) {thr i : Nat} (hi : i < thr)
    (hF : ∀ k, k < thr → ∀ b ∈ q k, 0 ≤ F b) {a : Action} (ha : a ∈ q i) :
    F a ≤ qsum F q thr := by
  unfold qsum
  have h1 : ((q i).map F).sum ≤ ∑ k ∈ Finset.range thr, ((q k).map F).sum := by
    apply Finset.single_le_sum (f := fun k => ((q k).map F).sum)
    · intro k hk
      apply List.sum_nonneg
      intro y hy
      obtain ⟨b, hb, rfl⟩ := List.mem_map.mp hy
      exact hF k (Finset.mem_range.mp hk) b hb
    · exact Finset.mem_range.mpr hi
  have h2 : F a ≤ ((q i).map F).sum := by
    apply List.single_le_sum
    · intro y hy
      obtain ⟨b, hb, rfl⟩ := List.mem_map.mp hy
      exact hF i hi b hb
    · exact List.mem_map.mpr ⟨a, ha, rfl⟩
  exact le_trans h2 h1

/-- One action popped and applied keeps the flow part of the apply-phase
invariant. -/
theorem applyCap_step {g : Graph} {thr i : Nat} (hi : i < thr) {a : Action}
    {rest : List Action} {st : PState} (hq : st.action i = a :: rest)
    (hI : ApplyCap g thr st) : ApplyCap g thr (apply_action g i a (popped st i rest)) := by
  have hcnt : ∀ j, qsum (cntInd j) (apply_action g i a (popped st i rest)).action thr =
      qsum (cntInd j) st.action thr - cntInd j a := by
    intro j
    rw [apply_action_action, qsum_pop (cntInd j) st.action hi hq]
    simp only [popped]; ring
  have hmem : ∀ k, k < thr → ∀ b ∈ (apply_action g i a (popped st i rest)).action k,
      b ∈ st.action k := by
    intro k _ b hb
    rw [apply_action_action] at hb
    simp only [popped] at hb
    by_cases hki : k = i
    · subst hki
      rw [Function.update_same] at hb
      rw [hq]
      exact List.mem_cons_of_mem _ hb
    · rw [Function.update_noteq hki] at hb
      exact hb
  have hf : (apply_action g i a (popped st i rest)).f = fun j => st.f j + edgeInd j a := by
    rw [apply_action_f]; rfl
  have honce : ∀ j, qsum (cntInd j) (apply_action g i a (popped st i rest)).action thr ≤ 1 := by
    intro j
    rw [hcnt]
    have := hI.once j
    have := cntInd_nonneg j a
    omega
  by_cases hr : a.relabel = true
  · have hf2 : (apply_action g i a (popped st i rest)).f = st.f := by
      rw [hf]; funext j; unfold edgeInd; simp [hr]
    refine ⟨by rw [hf2]; exact hI.cap, ?_, honce⟩
    intro k hk b hb hbr
    rw [hf2]
    exact hI.pend k hk b (hmem k hk b hb) hbr
  · have hr2 : a.relabel = false := by simpa using hr
    obtain ⟨hjm, hdir, hpos, hle⟩ := hI.pend i hi a (hq ▸ List.mem_cons_self _ _) hr2
    have hfj : (apply_action g i a (popped st i rest)).f a.edge = st.f a.edge + a.flo * a.dir := by
      rw [hf]; unfold edgeInd; simp [hr2]
    have hfo : ∀ j, j ≠ a.edge → (apply_action g i a (popped st i rest)).f j = st.f j := by
      intro j hj
      rw [hf]; unfold edgeInd
      simp [hr2, Ne.symm hj]
    have hc0 := abs_le.mp (hI.cap a.edge hjm)
    refine ⟨?_, ?_, honce⟩
    · intro j hj
      by_cases hja : j = a.edge
      · subst hja
        rw [hfj, abs_le]
        unfold available at hle
        rcases hdir with hd | hd
        · rw [hd] at hle ⊢
          constructor <;> linarith [hc0.1, hc0.2]
        · rw [hd] at hle ⊢
          constructor <;> linarith [hc0.1, hc0.2]
      · rw [hfo j hja]; exact hI.cap j hj
    · intro k hk b hb hbr
      have hb0 := hI.pend k hk b (hmem k hk b hb) hbr
      have hne : b.edge ≠ a.edge := by
        intro heq
        have h1 : cntInd a.edge a = 1 := by unfold cntInd; simp [hr2]
        have h2 : cntInd a.edge b = 1 := by unfold cntInd; simp [hbr, heq]
        have h3 := qsum_mem_le (cntInd a.edge) (apply_action g i a (popped st i rest)).action hk
          (fun _ _ c _ => cntInd_nonneg _ c) hb
        rw [hcnt, h1, h2] at h3
        have := hI.once a.edge
        omega
      refine ⟨hb0.1, hb0.2.1, hb0.2.2.1, ?_⟩
      rw [available_congr g (hfo b.edge hne)]
      exact hb0.2.2.2

/-! ## lab3: the compute phase, capacities of any sign -/

theorem scanPush_cnt (g : Graph) (st : PState) {thr i : Nat} (hi : i < thr) (u j k : Nat) :
    qsum (cntInd k) (scanPush g st i u j).action thr =
      qsum (cntInd k) st.action thr + if k = j then 1 else 0 := by
  unfold scanPush
  rw [qsum_queue_action _ _ _ hi]
  simp only [cntInd, true_and]
  by_cases h : k = j
  · rw [if_pos h.symm, if_pos h]; ring
  · rw [if_neg (Ne.symm h), if_neg h]; ring

theorem relabel_cnt (st : PState) {thr i : Nat} (hi : i < thr) (u k : Nat) :
    qsum (cntInd k) (queue_action st (relabelAction u) i).action thr =
      qsum (cntInd k) st.action thr := by
  rw [qsum_queue_action _ _ _ hi]
  simp [cntInd, relabelAction]

theorem direction_cases (g : Graph) (u j : Nat) : direction g u j = 1 ∨ direction g u j = -1 := by
  unfold direction; split <;> simp

/-- The edge scan queues a push. -/
theorem safeScan_push {g : Graph} (hl : NoSelfLoops g) {thr i : Nat} (hi : i < thr)
    {R st : PState} {Proc : Nat → Prop} {u j : Nat} {rest : List Nat}
    (hI : SafeScan g thr R st Proc u (j :: rest)) (hj : j ∈ g.adj u) (hjr : j ∉ rest)
    (he : 0 < st.e u)
    (hc : st.h (other g u j) < st.h u ∧ 0 < available g st.f j (direction g u j)) :
    SafeScan g thr R (scanPush g st i u j) Proc u rest := by
  obtain ⟨him, hend⟩ := endpoint_of_mem_adj hj
  have hne := eu_ne_ev hl him
  have hdown : R.h (other g u j) < R.h u := by
    have := hc.1; rwa [hI.h_eq] at this
  have hfpos : 0 < MIN (st.e u) (available g st.f j (direction g u j)) := MIN_pos he hc.2
  have hfe : MIN (st.e u) (available g st.f j (direction g u j)) ≤ st.e u := MIN_le_left _ _
  have hfa : MIN (st.e u) (available g st.f j (direction g u j)) ≤
      available g st.f j (direction g u j) := MIN_le_right _ _
  have he' : ∀ x, (scanPush g st i u j).e x =
      if x = u then st.e u - MIN (st.e u) (available g st.f j (direction g u j))
      else st.e x := by
    intro x
    simp only [scanPush, queue_action, Function.update_apply]
  have hrc : ∀ x, rcAll (scanPush g st i u j) thr x = rcAll st thr x :=
    scanPush_rcAll g st hi u j
  have hcnt : ∀ k, k ≠ j → qsum (cntInd k) (scanPush g st i u j).action thr =
      qsum (cntInd k) st.action thr := by
    intro k hk
    rw [scanPush_cnt g st hi, if_neg hk, add_zero]
  refine ⟨hI.h_eq, hI.f_eq, hI.next_eq, hI.fin_eq, ?_, ?_, ?_, ?_, ?_, ?_, ?_, ?_, ?_, hI.uNot⟩
  · intro x
    rw [he']
    split
    · linarith
    · exact hI.nonneg x
  · intro k hk a ha har
    simp only [scanPush, queue_action] at ha
    by_cases hki : k = i
    · subst hki
      rw [Function.update_same] at ha
      rcases List.mem_cons.mp ha with rfl | ha
      · refine ⟨him, direction_cases g u j, hfpos, ?_⟩
        rw [← hI.f_eq]
        exact hfa
      · exact hI.pend k hk a ha har
    · rw [Function.update_noteq hki] at ha
      exact hI.pend k hk a ha har
  · intro k
    rw [scanPush_cnt g st hi]
    by_cases hkj : k = j
    · subst hkj
      rw [if_pos rfl, hI.np_u k (List.mem_cons_self _ _) hdown]
      simp
    · rw [if_neg hkj, add_zero]; exact hI.once k
  · intro x; rw [hrc]; exact hI.rc01 x
  · intro x hx hxu
    rw [he', if_neg hxu]
    exact hI.e_un x hx hxu
  · intro x hx hpos
    have hxu : x ≠ u := fun h => hI.uNot (h ▸ hx)
    rw [he', if_neg hxu] at hpos
    rw [hrc]
    exact hI.rc1 x hx hpos
  · intro x hx
    rw [hrc]
    rcases hx with hx | hx
    · exact hI.rc0 x (Or.inl hx)
    · by_cases hxu : x = u
      · exact hI.rc0 x (Or.inl (hxu ▸ hI.uNot))
      · rw [he', if_neg hxu] at hx
        exact hI.rc0 x (Or.inr hx)
  · intro x k hx hxu hk hd
    have hkj : k ≠ j := by
      rintro rfl
      obtain ⟨_, hxend⟩ := endpoint_of_mem_adj hk
      have hxo := eq_other_of_endpoint hne hend hxend hxu
      rw [hxo, other_other hne hend] at hd
      linarith
    rw [hcnt k hkj]
    exact hI.np x k hx hxu hk hd
  · intro k hk hd
    have hkj : k ≠ j := fun h => hjr (h ▸ hk)
    rw [hcnt k hkj]
    exact hI.np_u k (List.mem_cons_of_mem _ hk) hd

/-- The edge scan passes over an edge. -/
theorem safeScan_skip {g : Graph} {thr : Nat} {R st : PState} {Proc : Nat → Prop} {u j : Nat}
    {rest : List Nat} (hI : SafeScan g thr R st Proc u (j :: rest)) :
    SafeScan g thr R st Proc u rest :=
  ⟨hI.h_eq, hI.f_eq, hI.next_eq, hI.fin_eq, hI.nonneg, hI.pend, hI.once, hI.rc01, hI.e_un,
    hI.rc1, hI.rc0, hI.np, fun k hk hd => hI.np_u k (List.mem_cons_of_mem _ hk) hd, hI.uNot⟩

theorem safeScan_nil {g : Graph} {thr : Nat} {R st : PState} {Proc : Nat → Prop} {u : Nat}
    {rest : List Nat} (hI : SafeScan g thr R st Proc u rest) :
    SafeScan g thr R st Proc u [] :=
  ⟨hI.h_eq, hI.f_eq, hI.next_eq, hI.fin_eq, hI.nonneg, hI.pend, hI.once, hI.rc01, hI.e_un,
    hI.rc1, hI.rc0, hI.np, fun k hk _ => absurd hk (by simp), hI.uNot⟩

theorem work_scan_safe {g : Graph} (hl : NoSelfLoops g) {thr i : Nat} (hi : i < thr)
    {R : PState} {Proc : Nat → Prop} {u : Nat} (rest : List Nat) (st : PState)
    (hsub : ∀ j ∈ rest, j ∈ g.adj u) (hn : rest.Nodup)
    (hI : SafeScan g thr R st Proc u rest) :
    SafeScan g thr R (work_scan g i u rest st) Proc u [] ∧
      (work_scan g i u rest st).active = st.active := by
  induction rest generalizing st with
  | nil => exact ⟨hI, rfl⟩
  | cons j rest ih =>
    obtain ⟨hjr, hn2⟩ := List.nodup_cons.mp hn
    have hsub2 : ∀ k ∈ rest, k ∈ g.adj u := fun k hk => hsub k (List.mem_cons_of_mem _ hk)
    rw [work_scan_cons]
    by_cases he : st.e u > 0
    · rw [if_pos he]
      by_cases hc : st.h (other g u j) < st.h u ∧ 0 < available g st.f j (direction g u j)
      · rw [if_pos hc]
        obtain ⟨h1, h3⟩ := ih (scanPush g st i u j) hsub2 hn2
          (safeScan_push hl hi hI (hsub j (List.mem_cons_self _ _)) hjr he hc)
        exact ⟨h1, h3.trans (scanPush_active g st i u j)⟩
      · rw [if_neg hc]
        exact ih st hsub2 hn2 (safeScan_skip hI)
    · rw [if_neg he]
      exact ⟨safeScan_nil hI, rfl⟩

theorem work_node_safe {g : Graph} (hl : NoSelfLoops g) {thr i : Nat} (hi : i < thr)
    {R st : PState} {Proc : Nat → Prop} {u : Nat}
    (hI : SafeComp g thr R st Proc) (hu : ¬ Proc u) :
    SafeComp g thr R (work_node g i u st) (fun x => Proc x ∨ x = u) ∧
      (work_node g i u st).active = st.active := by
  have hstart : SafeScan g thr R st Proc u (g.adj u) :=
    ⟨hI.h_eq, hI.f_eq, hI.next_eq, hI.fin_eq, hI.nonneg, hI.pend, hI.once, hI.rc01,
      fun x hx _ => hI.e_un x hx, hI.rc1, hI.rc0, fun x j hx _ => hI.np x j hx,
      fun j hj hd => hI.np u j hu hj hd, hu⟩
  obtain ⟨hS, hactv⟩ := work_scan_safe hl hi (g.adj u) st (fun j hj => hj) (nodup_adj hl u) hstart
  rw [work_node_eq]
  by_cases he : (work_scan g i u (g.adj u) st).e u > 0
  · rw [if_pos he]
    have hrcu : rcAll (work_scan g i u (g.adj u) st) thr u = 0 := hS.rc0 u (Or.inl hu)
    have hrc := relabel_rcAll (work_scan g i u (g.adj u) st) hi u
    refine ⟨⟨hS.h_eq, hS.f_eq, hS.next_eq, hS.fin_eq, hS.nonneg, ?_, ?_, ?_, ?_, ?_, ?_, ?_⟩,
      hactv⟩
    · intro k hk a ha har
      simp only [queue_action] at ha
      by_cases hki : k = i
      · subst hki
        rw [Function.update_same] at ha
        rcases List.mem_cons.mp ha with rfl | ha
        · simp [relabelAction] at har
        · exact hS.pend k hk a ha har
      · rw [Function.update_noteq hki] at ha
        exact hS.pend k hk a ha har
    · intro j
      rw [relabel_cnt _ hi]; exact hS.once j
    · intro x
      rw [hrc]
      by_cases hx : x = u
      · subst hx; rw [if_pos rfl, hrcu]; right; ring
      · rw [if_neg hx, add_zero]; exact hS.rc01 x
    · intro x hx
      push_neg at hx
      exact hS.e_un x hx.1 hx.2
    · intro x hx hpos
      rw [hrc]
      rcases hx with hx | rfl
      · have hxu : x ≠ u := fun h => hu (h ▸ hx)
        rw [if_neg hxu, add_zero]
        exact hS.rc1 x hx hpos
      · rw [if_pos rfl, hrcu]; ring
    · intro x hx
      rw [hrc]
      have hxu : x ≠ u := by
        rintro rfl
        rcases hx with hx | hx
        · exact hx (Or.inr rfl)
        · exact absurd he (not_lt.mpr hx)
      rw [if_neg hxu, add_zero]
      rcases hx with hx | hx
      · exact hS.rc0 x (Or.inl (fun h => hx (Or.inl h)))
      · exact hS.rc0 x (Or.inr hx)
    · intro x j hx hj hd
      push_neg at hx
      rw [relabel_cnt _ hi]
      exact hS.np x j hx.1 hx.2 hj hd
  · rw [if_neg he]
    refine ⟨⟨hS.h_eq, hS.f_eq, hS.next_eq, hS.fin_eq, hS.nonneg, hS.pend, hS.once, hS.rc01,
      ?_, ?_, ?_, ?_⟩, hactv⟩
    · intro x hx
      push_neg at hx
      exact hS.e_un x hx.1 hx.2
    · intro x hx hpos
      rcases hx with hx | rfl
      · exact hS.rc1 x hx hpos
      · exact absurd hpos he
    · intro x hx
      rcases hx with hx | hx
      · exact hS.rc0 x (Or.inl (fun h => hx (Or.inl h)))
      · exact hS.rc0 x (Or.inr hx)
    · intro x j hx hj hd
      push_neg at hx
      exact hS.np x j hx.1 hx.2 hj hd

theorem safeComp_congr {g : Graph} {thr : Nat} {R st : PState} {P Q : Nat → Prop}
    (hI : SafeComp g thr R st P) (h : ∀ x, P x ↔ Q x) : SafeComp g thr R st Q := by
  have : P = Q := funext fun x => propext (h x)
  rw [← this]; exact hI

theorem safeComp_pop {g : Graph} {thr : Nat} {R st : PState} {P : Nat → Prop} (i : Nat)
    (a : Option Nat) (hI : SafeComp g thr R st P) :
    SafeComp g thr R { st with active := Function.update st.active i a } P :=
  ⟨hI.h_eq, hI.f_eq, hI.next_eq, hI.fin_eq, hI.nonneg, hI.pend, hI.once, hI.rc01, hI.e_un,
    hI.rc1, hI.rc0, hI.np⟩

theorem work_compute_safe {g : Graph} (hl : NoSelfLoops g) {thr i : Nat} (hi : i < thr)
    {R : PState} (l : List Nat) (fuel : Nat) (hfuel : l.length < fuel) (st : PState)
    (Proc : Nat → Prop) (hI : SafeComp g thr R st Proc)
    (hli : IsList st.next (st.active i) l) (hn : l.Nodup) (hlp : ∀ x ∈ l, ¬ Proc x) :
    ∃ st2, work_compute g i fuel st = some st2 ∧
      SafeComp g thr R st2 (fun x => Proc x ∨ x ∈ l) ∧ st2.active i = none ∧
      ∀ k, k ≠ i → st2.active k = st.active k := by
  induction l generalizing fuel st Proc with
  | nil =>
    obtain ⟨k, rfl⟩ : ∃ k, fuel = k + 1 := ⟨fuel - 1, by simp at hfuel; omega⟩
    refine ⟨st, work_compute_idle g i k hli, safeComp_congr hI (by simp), hli, fun _ _ => rfl⟩
  | cons u l ih =>
    obtain ⟨k, rfl⟩ : ∃ k, fuel = k + 1 := ⟨fuel - 1, by simp at hfuel; omega⟩
    obtain ⟨hul, hn2⟩ := List.nodup_cons.mp hn
    obtain ⟨hhead, htail⟩ := hli
    have hunot := hlp u (List.mem_cons_self _ _)
    have hpop : pop_active st i =
        (some u, { st with active := Function.update st.active i (st.next u) }) := by
      unfold pop_active; rw [hhead]
    obtain ⟨hN, hNact⟩ := work_node_safe hl hi (i := i)
      (safeComp_pop i (st.next u) hI) hunot
    have hnext1 : (work_node g i u
        { st with active := Function.update st.active i (st.next u) }).next = st.next := by
      rw [hN.next_eq, hI.next_eq]
    have hl1 : IsList (work_node g i u
          { st with active := Function.update st.active i (st.next u) }).next
        ((work_node g i u
          { st with active := Function.update st.active i (st.next u) }).active i) l := by
      rw [hnext1, hNact]
      simp only [Function.update_same]
      exact htail
    obtain ⟨st2, h1, h2, h3, h4⟩ := ih k (by simp at hfuel; omega) _ _ hN hl1 hn2
      (by
        intro x hx
        rintro (h | rfl)
        · exact hlp x (List.mem_cons_of_mem _ hx) h
        · exact hul hx)
    refine ⟨st2, ?_, safeComp_congr h2 ?_, h3, ?_⟩
    · rw [work_compute, hpop]
      exact h1
    · intro x
      simp only [List.mem_cons]
      tauto
    · intro j hj
      rw [h4 j hj, hNact]
      simp [Function.update_noteq hj]

theorem compute_workers_safe {g : Graph} (hl : NoSelfLoops g) {thr : Nat} {R : PState}
    (L : Nat → List Nat)
    (hL : ∀ i, i < thr → IsList R.next (R.active i) (L i) ∧ (L i).Nodup)
    (hdisj : ∀ i j x, i < thr → j < thr → x ∈ L i → x ∈ L j → i = j)
    (fuel : Nat) (hfuel : ∀ i, i < thr → (L i).length < fuel)
    (is : List Nat) (his : ∀ i ∈ is, i < thr) (hn : is.Nodup) (st : PState)
    (Proc : Nat → Prop) (hI : SafeComp g thr R st Proc)
    (hact : ∀ i ∈ is, st.active i = R.active i) (hProc : ∀ i ∈ is, ∀ x ∈ L i, ¬ Proc x) :
    ∃ st2, compute_workers g fuel is st = some st2 ∧
      SafeComp g thr R st2 (fun x => Proc x ∨ ∃ i ∈ is, x ∈ L i) ∧
      (∀ i ∈ is, st2.active i = none) ∧ ∀ k, k ∉ is → st2.active k = st.active k := by
  induction is generalizing st Proc with
  | nil => exact ⟨st, rfl, safeComp_congr hI (by simp), by simp, fun _ _ => rfl⟩
  | cons i is ih =>
    obtain ⟨hi_notin, hn2⟩ := List.nodup_cons.mp hn
    have hi : i < thr := his i (List.mem_cons_self _ _)
    have hli : IsList st.next (st.active i) (L i) := by
      rw [hI.next_eq, hact i (List.mem_cons_self _ _)]
      exact (hL i hi).1
    obtain ⟨st1, h1, h2, h3, h4⟩ := work_compute_safe hl hi (L i) fuel (hfuel i hi) st Proc hI
      hli (hL i hi).2 (fun x hx => hProc i (List.mem_cons_self _ _) x hx)
    obtain ⟨st2, k1, k2, k3, k4⟩ := ih (fun j hj => his j (List.mem_cons_of_mem _ hj)) hn2 st1
      _ h2
      (by
        intro j hj
        have hji : j ≠ i := fun h => hi_notin (h ▸ hj)
        rw [h4 j hji]
        exact hact j (List.mem_cons_of_mem _ hj))
      (by
        intro j hj x hx
        rintro (hp | hp)
        · exact hProc j (List.mem_cons_of_mem _ hj) x hx hp
        · have := hdisj j i x (his j (List.mem_cons_of_mem _ hj)) hi hx hp
          exact hi_notin (this ▸ hj))
    refine ⟨st2, ?_, safeComp_congr k2 ?_, ?_, ?_⟩
    · rw [compute_workers, h1]
      exact k1
    · intro x
      simp only [List.mem_cons, exists_eq_or_imp]
      tauto
    · intro j hj
      rcases List.mem_cons.mp hj with rfl | hj
      · rw [k4 j hi_notin]; exact h3
      · exact k3 j hj
    · intro k hk
      have hki : k ≠ i := fun h => hk (h ▸ List.mem_cons_self _ _)
      have hkis : k ∉ is := fun h => hk (List.mem_cons_of_mem _ h)
      rw [k4 k hkis, h4 k hki]

/-! ## lab3: rounds on graphs with capacities `≥ 0` -/

theorem safeApply_step {g : Graph} {thr i : Nat} (hi : i < thr) {a : Action}
    {rest : List Action} {st : PState} (hq : st.action i = a :: rest)
    (hI : SafeApply g thr st) : SafeApply g thr (apply_action g i a (popped st i rest)) :=
  ⟨applyInv_step hi hq hI.1, applyCap_step hi hq hI.2⟩

theorem safeComp_start {g : Graph} {thr : Nat} {R : PState} (hR : SafeRound g thr R) :
    SafeComp g thr R R (fun _ => False) := by
  have hrc : ∀ x, rcAll R thr x = 0 := fun x => qsum_empty _ _ _ hR.queues
  refine ⟨rfl, rfl, rfl, rfl, hR.nonneg, ?_, ?_, fun x => Or.inl (hrc x), fun _ _ => rfl,
    fun _ h => absurd h id, fun x _ => hrc x, fun _ _ _ _ _ => qsum_empty _ _ _ hR.queues⟩
  · intro i hi a ha
    rw [hR.queues i hi] at ha
    simp at ha
  · intro j
    rw [qsum_empty _ _ _ hR.queues]
    decide

/-- The compute phases of all workers from a round boundary leave a state
ready for the apply phase. -/
theorem compute_safe_spec {g : Graph} (hl : NoSelfLoops g) {thr : Nat} {R st1 : PState}
    (hR : SafeRound g thr R) {fuel : Nat}
    (hc : compute_workers g fuel (List.range thr) R = some st1) :
    SafeApply g thr st1 ∧ st1.fin = R.fin := by
  obtain ⟨mem, ⟨L, hL, hdisj, hmem⟩, hact, hterm⟩ := hR.parts
  have hlen : ∀ i, i < thr →
      (L i).length < fuel + (∑ k ∈ Finset.range thr, (L k).length) + 1 := by
    intro i hi
    have := Finset.single_le_sum (f := fun k => (L k).length) (fun _ _ => Nat.zero_le _)
      (Finset.mem_range.mpr hi)
    simp only at this
    omega
  obtain ⟨st2, h1, h2, h3, _⟩ := compute_workers_safe hl L hL hdisj _ hlen (List.range thr)
    (fun i hi => List.mem_range.mp hi) (List.nodup_range thr) R (fun _ => False)
    (safeComp_start hR) (fun _ _ => rfl) (fun _ _ _ _ h => h)
  have hst : st2 = st1 := by
    have := compute_workers_mono_le hc
      (show fuel ≤ fuel + (∑ k ∈ Finset.range thr, (L k).length) + 1 by omega)
    rw [h1] at this
    exact Option.some.inj this
  subst hst
  have hproc : ∀ x, (False ∨ ∃ i ∈ List.range thr, x ∈ L i) ↔ mem x := by
    intro x
    rw [← hmem x]
    simp only [false_or, List.mem_range]
  have hI := safeComp_congr h2 hproc
  have hnone : ∀ i, i < thr → st2.active i = none := fun i hi => h3 i (List.mem_range.mpr hi)
  refine ⟨⟨⟨?_, hI.rc01, ?_, hI.nonneg, ?_⟩, ⟨?_, ?_, hI.once⟩⟩, hI.fin_eq⟩
  · refine ⟨fun _ => [], fun i hi => ⟨hnone i hi, List.nodup_nil⟩, ?_, ?_⟩
    · intro i j x _ _ hx; simp at hx
    · intro x
      constructor
      · rintro ⟨i, _, hx⟩; simp at hx
      · rintro ⟨hx, hrc⟩
        exfalso
        by_cases hp : mem x
        · have := hI.rc1 x hp hx.2.2
          rw [hrc] at this
          exact absurd this (by decide)
        · have he := hI.e_un x hp
          apply hp
          apply hact
          exact ⟨hx.1, hx.2.1, by rw [← he]; exact hx.2.2⟩
  · intro x hrc
    have hp : mem x ∧ 0 < st2.e x := by
      by_contra hcon
      have : ¬ mem x ∨ st2.e x ≤ 0 := by
        by_cases hm : mem x
        · right
          by_contra hpos
          exact hcon ⟨hm, not_le.mp hpos⟩
        · exact Or.inl hm
      rw [hI.rc0 x this] at hrc
      exact absurd hrc (by decide)
    exact ⟨(hterm x hp.1).1, (hterm x hp.1).2, hp.2⟩
  · intro i hi a ha har
    exact (hI.pend i hi a ha har).2.2.1
  · rw [hI.f_eq]; exact hR.cap
  · intro i hi a ha har
    rw [hI.f_eq]
    exact hI.pend i hi a ha har

theorem lock_in_order_free {w : LState} {u v : Nat} (hh : w.held = []) (huv : u ≠ v) :
    ∃ w1, lock_in_order w u v = some w1 ∧ w1.st = w.st ∧
      (w1.held = [v, u] ∨ w1.held = [u, v]) := by
  by_cases h : u < v
  · refine ⟨⟨w.st, [v, u]⟩, ?_, rfl, Or.inl rfl⟩
    unfold lock_in_order pthread_mutex_lock
    rw [if_pos h]
    simp [hh, Ne.symm huv]
  · refine ⟨⟨w.st, [u, v]⟩, ?_, rfl, Or.inr rfl⟩
    unfold lock_in_order pthread_mutex_lock
    rw [if_neg h]
    simp [hh, huv]

theorem unlock_pair {w1 : LState} {u v : Nat} (huv : u ≠ v)
    (hh : w1.held = [v, u] ∨ w1.held = [u, v]) :
    ∃ w2, pthread_mutex_unlock w1 u = some w2 ∧ w2.st = w1.st ∧ w2.held = [v] := by
  unfold pthread_mutex_unlock
  rcases hh with hh | hh
  · rw [hh, if_pos (by simp)]
    refine ⟨_, rfl, rfl, ?_⟩
    simp [List.erase_cons, huv, Ne.symm huv]
  · rw [hh, if_pos (by simp)]
    refine ⟨_, rfl, rfl, ?_⟩
    simp

theorem unlock_single {w1 : LState} {v : Nat} (hh : w1.held = [v]) :
    ∃ w2, pthread_mutex_unlock w1 v = some w2 ∧ w2.st = w1.st ∧ w2.held = [] := by
  unfold pthread_mutex_unlock
  rw [hh, if_pos (by simp)]
  refine ⟨_, rfl, rfl, ?_⟩
  simp

theorem lstate_ext {w1 w2 : LState} (h1 : w1.st = w2.st) (h2 : w1.held = w2.held) : w1 = w2 := by
  cases w1; cases w2
  simp only at h1 h2
  rw [h1, h2]

theorem scan_congr (g : Graph) (st1 st2 : State) (hh : st1.h = st2.h) (hf : st1.f = st2.f)
    (u : Nat) (p : List Nat) : scan g st1 u p = scan g st2 u p := by
  induction p with
  | nil => rfl
  | cons a p ih => rw [scan_cons, scan_cons, hh, hf, ih]

/-- The inner loop of `work` finds what the scan of sequential.c finds, and
leaves it holding the mutexes of both nodes, or none when nothing is found. -/
theorem work_scan2_spec (g : Graph) (u : Nat) :
    ∀ (adj : List Nat) (w : LState), w.held = [] → (∀ j, j ∈ adj → other g u j ≠ u) →
      (scan g w.st u adj = none ∧ work_scan2 g u adj w = some (none, w)) ∨
      (∃ v i w1, scan g w.st u adj = some (v, i) ∧
        work_scan2 g u adj w =
          some (some ⟨v, i, direction g u i, available g w.st.f i (direction g u i)⟩, w1) ∧
        w1.st = w.st ∧ (w1.held = [v, u] ∨ w1.held = [u, v])) := by
  intro adj
  induction adj with
  | nil => intro w _ _; exact Or.inl ⟨rfl, rfl⟩
  | cons j adj ih =>
    intro w hh hl
    have hne : u ≠ other g u j := (hl j (List.mem_cons_self _ _)).symm
    obtain ⟨w1, k1, k2, k3⟩ := lock_in_order_free hh hne
    rw [scan_cons]
    unfold work_scan2
    simp only [k1, k2]
    by_cases hc : w.st.h (other g u j) < w.st.h u ∧ 0 < available g w.st.f j (direction g u j)
    · right
      rw [if_pos hc, if_pos ⟨hc.1, hc.2⟩]
      exact ⟨other g u j, j, w1, rfl, rfl, k2, k3⟩
    · rw [if_neg hc, if_neg (fun h => hc ⟨h.1, h.2⟩)]
      obtain ⟨w2, m1, m2, m3⟩ := unlock_pair hne k3
      obtain ⟨w3, n1, n2, n3⟩ := unlock_single m3
      simp only [m1, n1]
      have hw3 : w3 = w := lstate_ext (n2.trans (m2.trans k2)) (n3.trans hh.symm)
      rw [hw3]
      exact ih w hh (fun k hk => hl k (List.mem_cons_of_mem _ hk))

/-! ## lab2: seeding, through the seeding loop of lab3 with one partition -/

theorem seed2_cons (g : Graph) (j : Nat) (adj : List Nat) (st : State) :
    seed2 g (j :: adj) st =
      seed2 g adj (enter_excess g
        { st with f := Function.update st.f j (st.f j + direction g g.s j * g.cap j),
                  e := Function.update st.e (other g g.s j)
                    (st.e (other g g.s j) + g.cap j) }
        (other g g.s j)) := rfl

theorem seed2_eq (g : Graph) : ∀ (adj : List Nat) (p : PState),
    seed2 g adj (toState p) = toState (seed3 g 1 adj 0 p) := by
  intro adj
  induction adj with
  | nil => intro p; rfl
  | cons j adj ih =>
    intro p
    rw [seed3_cons]
    have hc : (if ((0 : Nat) : Int) = ((1 : Nat) : Int) - 1 then 0 else 0 + 1) = 0 := by simp
    rw [hc, ← ih, seed2_cons]
    congr 1
    unfold seed3_step enter_excess add_active toState
    split <;> simp

theorem seeded2_eq (g : Graph) : seeded2 g initState = toState (seeded3 g 1 initPState) := by
  unfold seeded2 seeded3
  rw [← seed2_eq]
  rfl

theorem excessInv_of_parts {g : Graph} {p : PState}
    (h : PartsInv 1 p.next p.active (Active g p.e)) : ExcessInv g (toState p) none := by
  obtain ⟨L, h1, _, h3⟩ := h
  refine ⟨L 0, (h1 0 (by decide)).1, (h1 0 (by decide)).2, ?_⟩
  intro x
  have := h3 x
  constructor
  · intro hx
    exact ⟨this.mp ⟨0, by decide, hx⟩, by simp⟩
  · rintro ⟨hx, _⟩
    obtain ⟨i, hi, hxi⟩ := this.mpr hx
    have : i = 0 := by omega
    subst this
    exact hxi

/-! ## lab2: one worker keeps the invariants of the data model -/

theorem adj_ne_nil_of_active {g : Graph} {e f : Nat → Int} (hcons : ConsInv g e f) {u : Nat}
    (ha : Active g e u) : g.adj u ≠ [] := by
  intro hnil
  have hno : ∀ j, j < g.m → g.eu j ≠ u ∧ g.ev j ≠ u := by
    intro j hj
    have : j ∉ g.adj u := by rw [hnil]; simp
    rw [mem_adj] at this
    push_neg at this
    constructor
    · intro h; exact (this hj).1 h
    · intro h; exact (this hj).2 h
  have h0 : netIn g f u = 0 := by
    unfold netIn
    rw [Finset.sum_eq_zero, Finset.sum_eq_zero]
    · simp
    · intro j hj
      rw [if_neg (hno j (Finset.mem_range.mp hj)).1]
    · intro j hj
      rw [if_neg (hno j (Finset.mem_range.mp hj)).2]
  have := hcons u ha.1
  have := ha.2.2
  omega

theorem work_push_fields (g : Graph) (u v i : Nat) (st : State) :
    (work_push g u ⟨v, i, direction g u i, available g st.f i (direction g u i)⟩ st).h = st.h ∧
    (work_push g u ⟨v, i, direction g u i, available g st.f i (direction g u i)⟩ st).e =
      pushE st.e u v (push_d g st u i) ∧
    (work_push g u ⟨v, i, direction g u i, available g st.f i (direction g u i)⟩ st).f =
      pushF g st.f u i (push_d g st u i) := by
  unfold work_push
  simp only [← push_d_eq]
  refine ⟨?_, ?_, ?_⟩
  · split
    · rw [enter_excess_h]
    · rfl
  · split
    · rw [enter_excess_e]; rfl
    · rfl
  · split
    · rw [enter_excess_f]
      unfold pushF
      simp only
    · unfold pushF
      simp only

theorem work_push_list (g : Graph) (u v i : Nat) (st : State) :
    (work_push g u ⟨v, i, direction g u i, available g st.f i (direction g u i)⟩ st).next =
      (if pushE st.e u v (push_d g st u i) v = push_d g st u i then enter_excess g st v
        else st).next ∧
    (work_push g u ⟨v, i, direction g u i, available g st.f i (direction g u i)⟩ st).excess =
      (if pushE st.e u v (push_d g st u i) v = push_d g st u i then enter_excess g st v
        else st).excess := by
  unfold work_push
  simp only [← push_d_eq]
  have hc : (Function.update (Function.update st.e u (st.e u - push_d g st u i)) v
      (Function.update st.e u (st.e u - push_d g st u i) v + push_d g st u i) v =
        push_d g st u i) ↔ (pushE st.e u v (push_d g st u i) v = push_d g st u i) := Iff.rfl
  by_cases h : pushE st.e u v (push_d g st u i) v = push_d g st u i
  · rw [if_pos (hc.mpr h), if_pos h]
    unfold enter_excess
    split <;> exact ⟨rfl, rfl⟩
  · rw [if_neg (fun h2 => h (hc.mp h2)), if_neg h]
    exact ⟨rfl, rfl⟩

/-- The list after the push branch of `work`: the node pushed to joins it
when it had no excess before. -/
theorem work_push_excessInv {g : Graph} {st : State} {u v i : Nat} (huv : u ≠ v)
    (hd : 0 < push_d g st u i) (hnn : NonNeg st.e) (hinv : ExcessInv g st (some u)) :
    ExcessInv g
      (work_push g u ⟨v, i, direction g u i, available g st.f i (direction g u i)⟩ st)
      (some u) := by
  obtain ⟨l, hl, hn, hmem⟩ := hinv
  obtain ⟨_, he, _⟩ := work_push_fields g u v i st
  obtain ⟨hnx, hex⟩ := work_push_list g u v i st
  have hev : pushE st.e u v (push_d g st u i) v = st.e v + push_d g st u i := by
    rw [pushE_apply huv, if_pos rfl]
  have hact : ∀ x, x ≠ v → (Active g (pushE st.e u v (push_d g st u i)) x ∧ some x ≠ some u ↔
      Active g st.e x ∧ some x ≠ some u) := by
    intro x hxv
    by_cases hxu : x = u
    · subst hxu; simp
    · unfold Active
      rw [pushE_apply huv, if_neg hxv, if_neg hxu]
  have hvu : (some v : Option Nat) ≠ some u := fun h => huv (Option.some.inj h).symm
  unfold ExcessInv
  rw [hnx, hex, he]
  by_cases hc : pushE st.e u v (push_d g st u i) v = push_d g st u i
  · rw [if_pos hc]
    have hv0 : st.e v = 0 := by rw [hev] at hc; linarith
    have hvl : v ∉ l := by
      intro h
      have := ((hmem v).mp h).1.2.2
      rw [hv0] at this
      exact lt_irrefl _ this
    obtain ⟨l2, h1, h2, h3⟩ := enter_excess_list (g := g) hl hn hvl
    refine ⟨l2, h1, h2, ?_⟩
    intro x
    rw [h3]
    by_cases hxv : x = v
    · subst hxv
      constructor
      · rintro (h | ⟨_, h1, h2⟩)
        · exact absurd h hvl
        · exact ⟨⟨h2, h1, by rw [hev]; linarith⟩, hvu⟩
      · rintro ⟨⟨h1, h2, _⟩, _⟩
        exact Or.inr ⟨rfl, h2, h1⟩
    · rw [hact x hxv, hmem x]
      constructor
      · rintro (h | ⟨h, _⟩)
        · exact h
        · exact absurd h hxv
      · exact Or.inl
  · rw [if_neg hc]
    refine ⟨l, hl, hn, ?_⟩
    intro x
    by_cases hxv : x = v
    · subst hxv
      have hpos : 0 < st.e x := by
        have h0 := hnn x
        have : st.e x ≠ 0 := fun h => hc (by rw [hev, h]; ring)
        omega
      rw [hmem x]
      unfold Active
      rw [hev]
      constructor
      · rintro ⟨⟨h1, h2, _⟩, h3⟩
        exact ⟨⟨h1, h2, by linarith⟩, h3⟩
      · rintro ⟨⟨h1, h2, _⟩, h3⟩
        exact ⟨⟨h1, h2, hpos⟩, h3⟩
    · rw [hact x hxv, hmem x]

/-- The end of a pass of the outer loop of `work`. -/
theorem work_tail_spec {g : Graph} {u : Nat} {w : LState} (hh : w.held = [u])
    (hnn : NonNeg w.st.e) (hinv : ExcessInv g w.st (some u)) (hu : u ≠ g.s ∧ u ≠ g.t) :
    ∃ cur w2, work_tail u w = some (cur, w2) ∧ w2.held = [] ∧ w2.st.h = w.st.h ∧
      w2.st.e = w.st.e ∧ w2.st.f = w.st.f ∧ ExcessInv g w2.st cur ∧
      (∀ x, cur = some x → Active g w.st.e x) ∧ (cur = none → w2.st.excess = none) := by
  obtain ⟨w1, k1, k2, k3⟩ := unlock_single hh
  unfold work_tail
  simp only [k1]
  rw [k2]
  by_cases he : w.st.e u = 0
  · rw [if_pos he]
    have hnone : ExcessInv g w.st none := by
      obtain ⟨l, hl, hn, hmem⟩ := hinv
      refine ⟨l, hl, hn, fun x => ?_⟩
      rw [hmem x]
      constructor
      · rintro ⟨h, _⟩; exact ⟨h, by simp⟩
      · rintro ⟨h, _⟩
        refine ⟨h, ?_⟩
        intro hx
        have := Option.some.inj hx
        subst this
        have := h.2.2
        rw [he] at this
        exact lt_irrefl _ this
    cases hex : w.st.excess with
    | none =>
      have hle : leave_excess w.st = (none, w.st) := by unfold leave_excess; rw [hex]
      rw [hle]
      exact ⟨none, _, rfl, k3, rfl, rfl, rfl, hnone, fun x h => absurd h (by simp),
        fun _ => hex⟩
    | some x =>
      have hle : leave_excess w.st = (some x, { w.st with excess := w.st.next x }) := by
        unfold leave_excess; rw [hex]
      rw [hle]
      obtain ⟨ha, hl2⟩ := excessInv_pop hex hnone
      refine ⟨some x, _, rfl, k3, rfl, rfl, rfl, hl2, ?_, fun h => absurd h (by simp)⟩
      intro y hy
      have := Option.some.inj hy
      subst this
      exact ha
  · rw [if_neg he]
    refine ⟨some u, w1, rfl, k3, by rw [k2], by rw [k2], by rw [k2], by rw [k2]; exact hinv, ?_,
      fun h => absurd h (by simp)⟩
    intro y hy
    have := Option.some.inj hy
    subst this
    have h0 := hnn u
    exact ⟨hu.1, hu.2, by omega⟩

/-- One pass of the outer loop of `work` from a state with the invariant:
it does not fail, keeps the invariant, and decreases the measure of
sequential.c lexicographically. The node and edge fields change as in one
iteration of the main loop of sequential.c from the same fields. -/
theorem work_step_spec {g : Graph} (hw : PosWF g) {u : Nat} {w : LState}
    (hI : WInv g (some u) w) :
    ∃ cur w2, work_step g u w = some (cur, w2) ∧ WInv g cur w2 ∧
      (potH g w2.st.h < potH g w.st.h ∨
        (potH g w2.st.h = potH g w.st.h ∧
          potE g w2.st.h w2.st.e < potE g w.st.h w.st.e)) := by
  have hact := hI.act u rfl
  have hadj := adj_ne_nil_of_active hI.virt.cons hact
  have hloops : ∀ j, j ∈ g.adj u → other g u j ≠ u := by
    intro j hj
    obtain ⟨hjm, hend⟩ := endpoint_of_mem_adj hj
    exact other_ne_self (eu_ne_ev hw.noLoops hjm) hend
  -- the same fields with `u` at the head of the list, as sequential.c has them
  have hfull : FullInv g (withHead w.st u) := by
    refine ⟨⟨hI.virt.cap, hI.virt.cons, hI.virt.nonneg⟩, hI.virt.valid, hI.virt.hs, hI.virt.ht,
      hI.virt.hlow, hI.virt.hbound, ?_⟩
    obtain ⟨l, hl, hn, hmem⟩ := hI.list
    have hul : u ∉ l := fun h => ((hmem u).mp h).2 rfl
    refine ⟨u :: l, ⟨rfl, ?_⟩, List.nodup_cons.mpr ⟨hul, hn⟩, ?_⟩
    · show IsList (Function.update w.st.next u w.st.excess)
        (Function.update w.st.next u w.st.excess u) l
      rw [Function.update_same]
      exact isList_update _ hul hl
    · intro x
      show x ∈ u :: l ↔ Active g w.st.e x ∧ some x ≠ none
      rw [List.mem_cons, hmem x]
      constructor
      · rintro (rfl | ⟨h, _⟩)
        · exact ⟨hact, by simp⟩
        · exact ⟨h, by simp⟩
      · rintro ⟨h, _⟩
        by_cases hxu : x = u
        · exact Or.inl hxu
        · exact Or.inr ⟨h, fun h2 => hxu (Option.some.inj h2)⟩
  rcases iter_full hw hfull with ⟨hex, _⟩ | ⟨st2, hit, hI2, hdec⟩
  · exact absurd (show some u = none from hex) (by simp)
  obtain ⟨u2, hu2, hcase⟩ := iter_cont_cases hit
  have hu2u : u2 = u := (Option.some.inj hu2).symm
  subst hu2u
  have hgen : ∀ (s1 : State) (r : Option (Nat × Nat)), scan g s1 u2 (g.adj u2) = r →
      s1.h = w.st.h → s1.f = w.st.f → scan g w.st u2 (g.adj u2) = r :=
    fun s1 r hr a b => (scan_congr g s1 w.st a b u2 _).symm.trans hr
  have hdec2 : potH g st2.h < potH g w.st.h ∨
      (potH g st2.h = potH g w.st.h ∧ potE g st2.h st2.e < potE g w.st.h w.st.e) := hdec
  unfold work_step
  rw [if_neg hadj]
  rcases hcase with ⟨v, i, hsc, hp⟩ | ⟨hsc, hst2⟩
  · -- push
    have hsc := hgen _ _ hsc rfl rfl
    obtain ⟨hi, hv, hlt, hav⟩ := scan_some hsc
    have huv : u2 ≠ v := by rw [hv]; exact (hloops i hi).symm
    rcases work_scan2_spec g u2 (g.adj u2) w hI.held hloops with ⟨h1, _⟩ | ⟨v', i', w1, h1, h2, h3, h4⟩
    · rw [hsc] at h1; exact absurd h1 (by simp)
    rw [hsc] at h1
    simp only [Option.some.injEq, Prod.mk.injEq] at h1
    obtain ⟨hv', hi'⟩ := h1
    subst hv' hi'
    simp only [h2, h3]
    obtain ⟨f1, f2, f3⟩ := work_push_fields g u2 v i w.st
    obtain ⟨p1, p2, p3⟩ := push_fields hp
    have hd : 0 < push_d g w.st u2 i := by
      rw [push_d_eq]; exact MIN_pos hact.2.2 hav
    have hlist := work_push_excessInv (i := i) huv hd hI.virt.nonneg hI.list
    have hkey : ∀ S : State, ∃ wa, pthread_mutex_unlock ⟨S, w1.held⟩ v = some wa ∧
        wa.st = S ∧ wa.held = [u2] := fun S => unlock_pair huv.symm (Or.symm h4)
    obtain ⟨wa, a1, a2, a3⟩ := hkey (work_push g u2
      ⟨v, i, direction g u2 i, available g w.st.f i (direction g u2 i)⟩ w.st)
    simp only [a1]
    have hnn2 : NonNeg wa.st.e := by
      rw [a2]
      show NonNeg (work_push g u2
        ⟨v, i, direction g u2 i, available g w.st.f i (direction g u2 i)⟩ w.st).e
      rw [f2]
      have := hI2.core.nonneg
      rw [p2] at this
      exact this
    obtain ⟨cur, w2, t1, t2, t3, t4, t5, t6, t7, t8⟩ := work_tail_spec (g := g) a3 hnn2
      (by rw [a2]; exact hlist) ⟨hact.1, hact.2.1⟩
    have e1 : w2.st.h = st2.h := by rw [t3, a2]; exact f1.trans p1.symm
    have e2 : w2.st.e = st2.e := by rw [t4, a2]; exact f2.trans p2.symm
    have e3 : w2.st.f = st2.f := by rw [t5, a2]; exact f3.trans p3.symm
    refine ⟨cur, w2, t1, ⟨t2, ?_, t6, ?_, t8⟩, ?_⟩
    · rw [e1, e2, e3]
      exact ⟨hI2.core.cap, hI2.core.cons, hI2.core.nonneg, hI2.valid, hI2.hs, hI2.ht, hI2.hlow,
        hI2.hbound⟩
    · intro x hx
      rw [t4]
      exact t7 x hx
    · rw [e1, e2]
      exact hdec2
  · -- relabel
    have hsc := hgen _ _ hsc rfl rfl
    rcases work_scan2_spec g u2 (g.adj u2) w hI.held hloops with ⟨_, h2⟩ | ⟨v', i', w1, h1, _⟩
    swap
    · rw [hsc] at h1; exact absurd h1 (by simp)
    simp only [h2]
    have hrel : work_relabel u2 w = some ⟨{ w.st with
        h := Function.update w.st.h u2 (w.st.h u2 + 1) }, [u2]⟩ := by
      unfold work_relabel pthread_mutex_lock
      rw [if_neg (by rw [hI.held]; simp)]
      simp only [hI.held]
    simp only [hrel]
    have hlist : ExcessInv g ({ w.st with
        h := Function.update w.st.h u2 (w.st.h u2 + 1) } : State) (some u2) := hI.list
    obtain ⟨cur, w2, t1, t2, t3, t4, t5, t6, t7, t8⟩ := work_tail_spec (g := g)
      (w := ⟨{ w.st with h := Function.update w.st.h u2 (w.st.h u2 + 1) }, [u2]⟩) rfl
      hI.virt.nonneg hlist ⟨hact.1, hact.2.1⟩
    have e1 : w2.st.h = st2.h := by rw [t3, hst2, relabel_h]; rfl
    have e2 : w2.st.e = st2.e := by rw [t4, hst2, relabel_e]; rfl
    have e3 : w2.st.f = st2.f := by rw [t5, hst2, relabel_f]; rfl
    refine ⟨cur, w2, t1, ⟨t2, ?_, t6, ?_, t8⟩, ?_⟩
    · rw [e1, e2, e3]
      exact ⟨hI2.core.cap, hI2.core.cons, hI2.core.nonneg, hI2.valid, hI2.hs, hI2.ht, hI2.hlow,
        hI2.hbound⟩
    · intro x hx
      rw [t4]
      exact t7 x hx
    · rw [e1, e2]
      exact hdec2

theorem work2_succ_some (g : Graph) (k u : Nat) (w : LState) :
    work2 g (k + 1) (some u) w =
      match work_step g u w with
      | none => Outcome.aborted
      | some (cur, w1) => work2 g k cur w1 := rfl

/-- The outer loop of `work` ends from every state with the invariant, in a
state with the invariant and with no active node left. -/
theorem work2_terminates {g : Graph} (hw : PosWF g) (a b : Nat) :
    ∀ cur w, WInv g cur w → potH g w.st.h = a → potE g w.st.h w.st.e = b →
      ∃ fuel w2, work2 g fuel cur w = Outcome.returned w2 ∧ WInv g none w2 := by
  induction a using Nat.strong_induction_on generalizing b with
  | _ a iha =>
    induction b using Nat.strong_induction_on with
    | _ b ihb =>
      intro cur w hI ha hb
      cases cur with
      | none => exact ⟨1, w, rfl, hI⟩
      | some u =>
        obtain ⟨cur2, w2, hs, hI2, hdec⟩ := work_step_spec hw hI
        have hrec : ∃ fuel w3, work2 g fuel cur2 w2 = Outcome.returned w3 ∧ WInv g none w3 := by
          rcases hdec with hlt | ⟨heq, hlt⟩
          · exact iha _ (ha ▸ hlt) _ cur2 w2 hI2 rfl rfl
          · exact ihb _ (hb ▸ hlt) cur2 w2 hI2 (heq.trans ha) rfl
        obtain ⟨fuel, w3, h3, hI3⟩ := hrec
        refine ⟨fuel + 1, w3, ?_, hI3⟩
        rw [work2_succ_some, hs]
        exact h3

theorem work2_mono {g : Graph} {k : Nat} {cur : Option Nat} {w w2 : LState}
    (h : work2 g k cur w = Outcome.returned w2) :
    work2 g (k + 1) cur w = Outcome.returned w2 := by
  induction k generalizing cur w with
  | zero => simp [work2] at h
  | succ k ih =>
    cases cur with
    | none => exact h
    | some u =>
      rw [work2_succ_some] at h ⊢
      cases hs : work_step g u w with
      | none => rw [hs] at h; exact absurd h (by simp)
      | some r =>
        obtain ⟨cur2, w1⟩ := r
        rw [hs] at h
        exact ih h

theorem work2_mono_le {g : Graph} {k k2 : Nat} {cur : Option Nat} {w w2 : LState}
    (h : work2 g k cur w = Outcome.returned w2) (hle : k ≤ k2) :
    work2 g k2 cur w = Outcome.returned w2 := by
  induction hle with
  | refl => exact h
  | step _ ih => exact work2_mono ih

/-- A run of the outer loop of `work` that returns from a state with the
invariant ends with the invariant and no node in the local `excess`. -/
theorem work2_returned_inv {g : Graph} (hw : PosWF g) (k : Nat) :
    ∀ cur w w2, WInv g cur w → work2 g k cur w = Outcome.returned w2 → WInv g none w2 := by
  induction k with
  | zero => intro cur w w2 _ h; simp [work2] at h
  | succ k ih =>
    intro cur w w2 hI h
    cases cur with
    | none =>
      have : w = w2 := Outcome.returned.inj h
      rw [← this]; exact hI
    | some u =>
      rw [work2_succ_some] at h
      obtain ⟨cur2, w1, hs, hI2, _⟩ := work_step_spec hw hI
      rw [hs] at h
      exact ih cur2 w1 w2 hI2 h

/-- State of lab2 when the worker starts `work`, after its first
`leave_excess`. -/
theorem seeded2_winv {g : Graph} (hw : PosWF g) (hp : NoParallel g) :
    WInv g (leave_excess (seeded2 g initState)).1 ⟨(leave_excess (seeded2 g initState)).2, []⟩ := by
  obtain ⟨hR, _⟩ := seeded3_roundInv hw hp (le_refl 1)
  have hnone : ExcessInv g (seeded2 g initState) none := by
    rw [seeded2_eq]; exact excessInv_of_parts hR.parts
  have hv : VirtInv g (seeded2 g initState).h (seeded2 g initState).e (seeded2 g initState).f := by
    rw [seeded2_eq]; exact hR.virt
  cases hex : (seeded2 g initState).excess with
  | none =>
    have hle : leave_excess (seeded2 g initState) = (none, seeded2 g initState) := by
      unfold leave_excess; rw [hex]
    rw [hle]
    exact ⟨rfl, hv, hnone, fun u h => absurd h (by simp), fun _ => hex⟩
  | some x =>
    have hle : leave_excess (seeded2 g initState) =
        (some x, { seeded2 g initState with excess := (seeded2 g initState).next x }) := by
      unfold leave_excess; rw [hex]
    rw [hle]
    obtain ⟨ha, hl2⟩ := excessInv_pop hex hnone
    refine ⟨rfl, hv, hl2, ?_, fun h => absurd h (by simp)⟩
    intro y hy
    have := Option.some.inj hy
    subst this
    exact ha

theorem preflow2_returned_iff {g : Graph} {st0 : State} {fuel : Nat} {val : Int} :
    preflow2 g st0 fuel = Outcome.returned val ↔
      ∃ w, preflow2_state g st0 fuel = Outcome.returned w ∧ w.st.e g.t = val := by
  unfold preflow2
  cases h : preflow2_state g st0 fuel with
  | returned w => simp
  | aborted => simp
  | timeout => simp

theorem winv_none_maxflow {g : Graph} (hw : PosWF g) {w : LState} (hI : WInv g none w) :
    IsMaxFlowValue g (w.st.e g.t) :=
  maxflow_of_final hw hI.virt.cap hI.virt.cons hI.virt.nonneg hI.virt.valid hI.virt.hs
    hI.virt.ht (excessInv_empty (hI.fin rfl) hI.list)

/-- For valid inputs lab2's `preflow` with one worker returns, and what it
returns is the value of a maximum flow. -/
theorem preflow2_maxflow {g : Graph} (hw : PosWF g) (hp : NoParallel g) :
    (∃ fuel val, preflow2 g initState fuel = Outcome.returned val) ∧
      ∀ fuel val, preflow2 g initState fuel = Outcome.returned val → IsMaxFlowValue g val := by
  have h0 := seeded2_winv hw hp
  constructor
  · obtain ⟨fuel, w2, h1, _⟩ := work2_terminates hw _ _ _ _ h0 rfl rfl
    exact ⟨fuel, w2.st.e g.t, preflow2_returned_iff.mpr ⟨w2, h1, rfl⟩⟩
  · intro fuel val h
    obtain ⟨w, h1, h2⟩ := preflow2_returned_iff.mp h
    rw [← h2]
    exact winv_none_maxflow hw (work2_returned_inv hw fuel _ _ _ h0 h1)

theorem preflow2_mono_le {g : Graph} {st0 : State} {k k2 : Nat} {val : Int}
    (h : preflow2 g st0 k = Outcome.returned val) (hle : k ≤ k2) :
    preflow2 g st0 k2 = Outcome.returned val := by
  obtain ⟨w, h1, h2⟩ := preflow2_returned_iff.mp h
  exact preflow2_returned_iff.mpr ⟨w, work2_mono_le h1 hle, h2⟩

/-! ## lab2: results for one worker -/

theorem preflow2_no_edges (n : Nat) : preflow2 ⟨n, []⟩ initState 1 = Outcome.returned 0 := rfl

theorem preflow2_det {g : Graph} {st0 : State} {f1 f2 : Nat} {a b : Int}
    (h1 : preflow2 g st0 f1 = Outcome.returned a)
    (h2 : preflow2 g st0 f2 = Outcome.returned b) : a = b := by
  have e1 := preflow2_mono_le h1 (le_max_left f1 f2)
  have e2 := preflow2_mono_le h2 (le_max_right f1 f2)
  rw [e1] at e2
  exact Outcome.returned.inj e2

/-- For every graph with endpoints in range, positive capacities and no
self-loops or parallel edges, lab2's `preflow` with one worker and the
`preflow` of sequential.c both return, with the same value. -/
theorem preflow2_eq_sequential {g : Graph} (hr : InRange g) (hc : PositiveCaps g)
    (hl : NoSelfLoops g) (hp : NoParallel g) :
    ∃ fuel val, preflow2 g initState fuel = Outcome.returned val ∧
      preflow g initState fuel = Outcome.returned val := by
  by_cases hn : 2 ≤ g.n
  · have hw : PosWF g := ⟨hn, hr, hl, hc⟩
    obtain ⟨⟨f2, v2, h2⟩, hm⟩ := preflow2_maxflow hw hp
    have m2 := hm f2 v2 h2
    obtain ⟨f1, v1, h1⟩ := preflow_returns hw
    have m1 := preflow_maxflow hw h1
    have hv : v1 = v2 := isMaxFlowValue_unique m1 m2
    refine ⟨max f2 f1, v2, preflow2_mono_le h2 (le_max_left _ _), ?_⟩
    rw [← hv]
    exact preflow_mono h1 (le_max_right _ _)
  · have hg := graph_eq_no_edges (not_le.mp hn) hr hl
    rw [hg]
    exact ⟨2, 0, preflow2_mono_le (preflow2_no_edges g.n) (by omega),
      preflow_mono (preflow_no_edges g.n) (by omega)⟩

theorem adj_other_ne_nil {g : Graph} {u j : Nat} (hj : j ∈ g.adj u) :
    g.adj (other g u j) ≠ [] := by
  have hm : j ∈ g.adj (other g u j) := by
    rw [mem_adj]
    refine ⟨(endpoint_of_mem_adj hj).1, ?_⟩
    rcases other_endpoint g j u with h | h
    · exact Or.inl h.symm
    · exact Or.inr h.symm
  intro hnil
  rw [hnil] at hm
  simp at hm

theorem hasEdge_enter {g : Graph} {st : State} (h : HasEdge g st) {v : Nat}
    (hv : g.adj v ≠ []) : HasEdge g (enter_excess g st v) := by
  unfold enter_excess
  split
  · refine ⟨?_, ?_⟩
    · intro x hx
      have : v = x := Option.some.inj hx
      rw [← this]; exact hv
    · intro y x hyx
      simp only at hyx
      by_cases hy : y = v
      · rw [hy, Function.update_same] at hyx
        exact h.1 x hyx
      · rw [Function.update_noteq hy] at hyx
        exact h.2 y x hyx
  · exact h

theorem hasEdge_leave {g : Graph} {st : State} (h : HasEdge g st) :
    HasEdge g (leave_excess st).2 ∧ ∀ u, (leave_excess st).1 = some u → g.adj u ≠ [] := by
  unfold leave_excess
  cases hex : st.excess with
  | none =>
    refine ⟨h, ?_⟩
    intro u hu
    exact absurd hu (by simp)
  | some x =>
    refine ⟨⟨fun y hy => h.2 x y hy, h.2⟩, ?_⟩
    intro u hu
    have : x = u := Option.some.inj hu
    rw [← this]
    exact h.1 x hex

theorem seed2_hasEdge (g : Graph) :
    ∀ (rest : List Nat) (st : State), (∀ j, j ∈ rest → j ∈ g.adj g.s) → HasEdge g st →
      HasEdge g (seed2 g rest st) := by
  intro rest
  induction rest with
  | nil => intro st _ h; exact h
  | cons j rest ih =>
    intro st hsub h
    rw [seed2_cons]
    apply ih _ (fun k hk => hsub k (List.mem_cons_of_mem _ hk))
    have h2 : HasEdge g
        { st with f := Function.update st.f j (st.f j + direction g g.s j * g.cap j),
                  e := Function.update st.e (other g g.s j)
                    (st.e (other g g.s j) + g.cap j) } := h
    exact hasEdge_enter h2 (adj_other_ne_nil (hsub j (List.mem_cons_self _ _)))

theorem work_push_hasEdge {g : Graph} {st : State} (h : HasEdge g st) (u : Nat) {r : Found}
    (hv : g.adj r.nei ≠ []) : HasEdge g (work_push g u r st) := by
  have h3 : HasEdge g
      { st with
        e := Function.update (Function.update st.e u (st.e u - MIN (st.e u) r.ava)) r.nei
          (Function.update st.e u (st.e u - MIN (st.e u) r.ava) r.nei + MIN (st.e u) r.ava),
        f := Function.update st.f r.edg (st.f r.edg + r.dir * MIN (st.e u) r.ava) } := h
  unfold work_push
  simp only
  split
  · exact hasEdge_enter h3 hv
  · exact h3

theorem noSelfLoops_other {g : Graph} (hl : NoSelfLoops g) (u : Nat) :
    ∀ j, j ∈ g.adj u → other g u j ≠ u := by
  intro j hj
  obtain ⟨hjm, hend⟩ := endpoint_of_mem_adj hj
  exact other_ne_self (eu_ne_ev hl hjm) hend

/-- One pass of the outer loop of `work` on a graph without self-loops, from
a state in which the worker holds no mutex: every mutex operation succeeds;
either the inner loop is left by `break` with exactly the mutexes of `u` and
of `nei` held, the push update runs, `nei` is unlocked and exactly the mutex
of `u` is held; or the inner loop ends with no mutex held and the relabel
branch runs holding exactly the mutex of `u`; then `u` is unlocked, and the
test `excess->e == 0` with the call of `leave_excess` runs with no mutex
held. -/
theorem work_step_locks {g : Graph} (hl : NoSelfLoops g) {u : Nat} {w : LState}
    (hI : LockInv g (some u) w) :
    (∃ r w1 w2 w3, work_scan2 g u (g.adj u) w = some (some r, w1) ∧ w1.st = w.st ∧
        r.edg ∈ g.adj u ∧ r.nei = other g u r.edg ∧ r.nei ≠ u ∧
        (w1.held = [r.nei, u] ∨ w1.held = [u, r.nei]) ∧
        pthread_mutex_unlock ⟨work_push g u r w1.st, w1.held⟩ r.nei = some w2 ∧
        w2.st = work_push g u r w1.st ∧ w2.held = [u] ∧
        pthread_mutex_unlock w2 u = some w3 ∧ w3.st = w2.st ∧ w3.held = [] ∧
        work_step g u w = some (if w3.st.e u = 0 then
            ((leave_excess w3.st).1, { w3 with st := (leave_excess w3.st).2 })
          else (some u, w3))) ∨
    (∃ w2 w3, work_scan2 g u (g.adj u) w = some (none, w) ∧
        work_relabel u w = some w2 ∧
        w2.st = { w.st with h := Function.update w.st.h u (w.st.h u + 1) } ∧ w2.held = [u] ∧
        pthread_mutex_unlock w2 u = some w3 ∧ w3.st = w2.st ∧ w3.held = [] ∧
        work_step g u w = some (if w3.st.e u = 0 then
            ((leave_excess w3.st).1, { w3 with st := (leave_excess w3.st).2 })
          else (some u, w3))) := by
  have hadj := hI.cur_edge u rfl
  have hloops := noSelfLoops_other hl u
  rcases work_scan2_spec g u (g.adj u) w hI.held hloops with ⟨_, h2⟩ | ⟨v, i, w1, hsc, h2, h3, h4⟩
  · right
    have hrel : work_relabel u w = some ⟨{ w.st with
        h := Function.update w.st.h u (w.st.h u + 1) }, [u]⟩ := by
      unfold work_relabel pthread_mutex_lock
      rw [if_neg (by rw [hI.held]; simp)]
      simp only [hI.held]
    obtain ⟨w3, b1, b2, b3⟩ := unlock_single
      (show (⟨{ w.st with h := Function.update w.st.h u (w.st.h u + 1) }, [u]⟩ : LState).held =
        [u] from rfl)
    refine ⟨_, w3, h2, hrel, rfl, rfl, b1, b2, b3, ?_⟩
    unfold work_step
    rw [if_neg hadj]
    simp only [h2, hrel]
    unfold work_tail
    simp only [b1]
    split <;> rfl
  · left
    obtain ⟨hi, hv, _, _⟩ := scan_some hsc
    have hvu : v ≠ u := by rw [hv]; exact hloops i hi
    have hkey : ∀ S : State, ∃ wa, pthread_mutex_unlock ⟨S, w1.held⟩ v = some wa ∧
        wa.st = S ∧ wa.held = [u] := fun S => unlock_pair hvu (Or.symm h4)
    obtain ⟨w2, a1, a2, a3⟩ := hkey (work_push g u
      ⟨v, i, direction g u i, available g w.st.f i (direction g u i)⟩ w1.st)
    obtain ⟨w3, b1, b2, b3⟩ := unlock_single a3
    refine ⟨⟨v, i, direction g u i, available g w.st.f i (direction g u i)⟩, w1, w2, w3, h2, h3,
      hi, hv, hvu, h4, a1, a2, a3, b1, b2, b3, ?_⟩
    unfold work_step
    rw [if_neg hadj]
    simp only [h2]
    have a1' : pthread_mutex_unlock
        { w1 with st := (work_push g u
            ⟨v, i, direction g u i, available g w.st.f i (direction g u i)⟩ w1.st) } v =
        some w2 := a1
    simp only [a1']
    unfold work_tail
    simp only [b1]
    split <;> rfl

/-- One pass of the outer loop of `work` keeps the mutex part of the state. -/
theorem work_step_lockInv {g : Graph} (hl : NoSelfLoops g) {u : Nat} {w : LState}
    (hI : LockInv g (some u) w) :
    ∃ cur w2, work_step g u w = some (cur, w2) ∧ LockInv g cur w2 := by
  have htail : ∀ w3 : LState, w3.held = [] → HasEdge g w3.st →
      LockInv g (if w3.st.e u = 0 then
            ((leave_excess w3.st).1, ({ w3 with st := (leave_excess w3.st).2 } : LState))
          else (some u, w3)).1
        (if w3.st.e u = 0 then
            ((leave_excess w3.st).1, ({ w3 with st := (leave_excess w3.st).2 } : LState))
          else (some u, w3)).2 := by
    intro w3 hh he
    split
    · exact ⟨hh, (hasEdge_leave he).1, (hasEdge_leave he).2⟩
    · refine ⟨hh, he, ?_⟩
      intro x hx
      have : u = x := Option.some.inj hx
      rw [← this]
      exact hI.cur_edge u rfl
  rcases work_step_locks hl hI with
    ⟨r, w1, w2, w3, _, c2, c3, c4, _, _, _, c8, _, _, c11, c12, c13⟩ |
    ⟨w2, w3, _, _, d3, _, _, d6, d7, d8⟩
  · refine ⟨_, _, c13, htail w3 c12 ?_⟩
    rw [c11, c8, c2]
    apply work_push_hasEdge hI.edges
    rw [c4]
    exact adj_other_ne_nil c3
  · refine ⟨_, _, d8, htail w3 d7 ?_⟩
    rw [d6, d3]
    exact hI.edges

theorem seeded2_lockInv (g : Graph) :
    LockInv g (leave_excess (seeded2 g initState)).1
      ⟨(leave_excess (seeded2 g initState)).2, []⟩ := by
  have h0 : HasEdge g (seedStart g initState) := by
    refine ⟨?_, ?_⟩
    · intro x hx; exact absurd hx (by simp [seedStart, initState])
    · intro y x hx; exact absurd hx (by simp [seedStart, initState])
  have h1 : HasEdge g (seeded2 g initState) := seed2_hasEdge g _ _ (fun _ hj => hj) h0
  exact ⟨rfl, (hasEdge_leave h1).1, (hasEdge_leave h1).2⟩

theorem workReach_lockInv {g : Graph} (hl : NoSelfLoops g) {cur : Option Nat} {w : LState}
    (h : WorkReach g cur w) : LockInv g cur w := by
  induction h with
  | start => exact seeded2_lockInv g
  | step _ hs ih =>
    obtain ⟨cur2, w3, h1, h2⟩ := work_step_lockInv hl ih
    rw [hs] at h1
    simp only [Option.some.injEq, Prod.mk.injEq] at h1
    obtain ⟨rfl, rfl⟩ := h1
    exact h2

/-- From a state in which the worker holds no mutex the outer loop of `work`
never stops on a mutex operation, and when it returns no mutex is held. -/
theorem work2_locks {g : Graph} (hl : NoSelfLoops g) (k : Nat) :
    ∀ cur w, LockInv g cur w →
      work2 g k cur w ≠ Outcome.aborted ∧
        ∀ w2, work2 g k cur w = Outcome.returned w2 → w2.held = [] := by
  induction k with
  | zero =>
    intro cur w _
    refine ⟨by simp [work2], fun w2 h => ?_⟩
    simp [work2] at h
  | succ k ih =>
    intro cur w hI
    cases cur with
    | none =>
      refine ⟨by simp [work2], fun w2 h => ?_⟩
      have : w = w2 := Outcome.returned.inj h
      rw [← this]
      exact hI.held
    | some u =>
      obtain ⟨cur2, w3, h1, h2⟩ := work_step_lockInv hl hI
      rw [work2_succ_some, h1]
      exact ih cur2 w3 h2

/-! ## 32-bit arithmetic: values in range are stored unchanged -/

theorem int32_eq {x : Int} (h1 : -2147483648 ≤ x) (h2 : x ≤ 2147483647) : int32 x = x := by
  unfold int32; omega

theorem capSum_nonneg {g : Graph} (hc : NonnegCaps g) : 0 ≤ capSum g := by
  unfold capSum
  apply List.sum_nonneg
  intro x hx
  obtain ⟨e, he, rfl⟩ := List.mem_map.mp hx
  exact hc e he

theorem cap_le_capSum {g : Graph} (hc : NonnegCaps g) {i : Nat} (hi : i < g.m) :
    g.cap i ≤ capSum g := by
  unfold capSum Graph.cap
  apply List.single_le_sum
  · intro x hx
    obtain ⟨e, he, rfl⟩ := List.mem_map.mp hx
    exact hc e he
  · exact List.mem_map.mpr ⟨_, getD_mem_edges g hi, rfl⟩

theorem sum_getD_range (l : List Edge) :
    (l.map Edge.c).sum = ∑ j ∈ Finset.range l.length, (l.getD j ⟨0, 0, 0⟩).c := by
  induction l with
  | nil => simp
  | cons a l ih =>
    rw [List.map_cons, List.sum_cons, List.length_cons, Finset.sum_range_succ', ih]
    simp [add_comm]

theorem capSum_eq_sum (g : Graph) : capSum g = ∑ j ∈ Finset.range g.m, g.cap j := by
  unfold capSum Graph.m Graph.cap
  exact sum_getD_range g.edges

/-- The capacities of distinct edges add up to at most the sum of all
capacities. -/
theorem sum_caps_le {g : Graph} (hc : NonnegCaps g) {l : List Nat} (hn : l.Nodup)
    (hm : ∀ j ∈ l, j < g.m) : (l.map g.cap).sum ≤ capSum g := by
  rw [capSum_eq_sum, ← List.sum_toFinset _ hn]
  apply Finset.sum_le_sum_of_subset_of_nonneg
  · intro j hj
    exact Finset.mem_range.mpr (hm j (List.mem_toFinset.mp hj))
  · intro j hj _
    exact cap_nonneg hc (Finset.mem_range.mp hj)

/-! ## The total excess -/

theorem totInv_le {g : Graph} {e : Nat → Int} {B : Int} (hn : NonNeg e) (h : TotInv g e B)
    (x : Nat) : e x ≤ B := by
  have h0 : 0 ≤ ∑ x ∈ Finset.range g.n, e x := Finset.sum_nonneg (fun y _ => hn y)
  by_cases hx : x < g.n
  · have := Finset.single_le_sum (f := e) (fun y _ => hn y) (Finset.mem_range.mpr hx)
    linarith [h.sum]
  · rw [h.out x (not_lt.mp hx)]
    linarith [h.sum]

theorem totInv_mono {g : Graph} {e : Nat → Int} {B C : Int} (h : TotInv g e B) (hBC : B ≤ C) :
    TotInv g e C :=
  ⟨le_trans h.sum hBC, h.out⟩

theorem totInv_pushE {g : Graph} {e : Nat → Int} {B : Int} {u v : Nat} (huv : u ≠ v)
    (hu : u < g.n) (hv : v < g.n) (h : TotInv g e B) (d : Int) :
    TotInv g (pushE e u v d) B := by
  refine ⟨?_, ?_⟩
  · have := sum_pushE g.n (fun _ => 1) e huv hu hv d
    simp only [mul_one, sub_self, mul_zero, sub_zero] at this
    rw [this]
    exact h.sum
  · intro x hx
    rw [pushE_apply huv, if_neg (by omega), if_neg (by omega)]
    exact h.out x hx

theorem totInv_add {g : Graph} {e : Nat → Int} {B : Int} {x : Nat} (hx : x < g.n)
    (h : TotInv g e B) (c : Int) : TotInv g (Function.update e x (e x + c)) (B + c) := by
  refine ⟨?_, ?_⟩
  · rw [Finset.sum_update_of_mem (Finset.mem_range.mpr hx)]
    have := Finset.add_sum_erase (Finset.range g.n) e (Finset.mem_range.mpr hx)
    have h2 : ∑ y ∈ Finset.range g.n \ {x}, e y = ∑ y ∈ (Finset.range g.n).erase x, e y := by
      rw [Finset.sdiff_singleton_eq_erase]
    linarith [h.sum]
  · intro y hy
    rw [Function.update_noteq (by omega)]
    exact h.out y hy

/-! ## sequential.c: 32-bit arithmetic agrees with exact arithmetic on small states -/

theorem small_of_core {g : Graph} {st : State} (hI : CoreInv g st)
    (hT : TotInv g st.e (capSum g)) : Small g st :=
  ⟨hI.cap, hI.nonneg, totInv_le hI.nonneg hT⟩

theorem push_d32_eq {g : Graph} (hc : NonnegCaps g) (hF : CapsFit g) {st : State}
    (hS : Small g st) (u : Nat) {i : Nat} (hi : i < g.m) :
    push_d32 g st u i = push_d g st u i := by
  have h1 := abs_le.mp (hS.cap i hi)
  have h2 := cap_le_capSum hc hi
  unfold CapsFit at hF
  unfold push_d32 push_d
  rw [int32_eq (x := g.cap i - st.f i) (by omega) (by omega),
    int32_eq (x := g.cap i + st.f i) (by omega) (by omega)]

theorem push_update32_eq {g : Graph} (hc : NonnegCaps g) (hF : CapsFit g) {st : State}
    (hS : Small g st) (u v : Nat) {i : Nat} (hi : i < g.m) :
    push_update32 g st u v i = push_update g st u v i := by
  have hd := push_d32_eq hc hF hS u hi
  obtain ⟨hd0, hdu, hda⟩ := push_d_bounds hS.cap hi (hS.nonneg u) (u := u)
  have h1 := abs_le.mp (hS.cap i hi)
  have h2 := cap_le_capSum hc hi
  have h3 := hS.le u
  have h4 := hS.le v
  have h5 := hS.nonneg v
  have h6 := hS.nonneg u
  unfold CapsFit at hF
  unfold available direction at hda
  unfold push_update32 push_update
  simp only [hd]
  have e2 : int32 (st.e u - push_d g st u i) = st.e u - push_d g st u i :=
    int32_eq (by omega) (by omega)
  have e3 : int32 (Function.update st.e u (st.e u - push_d g st u i) v + push_d g st u i) =
      Function.update st.e u (st.e u - push_d g st u i) v + push_d g st u i := by
    apply int32_eq
    · by_cases hvu : v = u
      · subst hvu; rw [Function.update_same]; omega
      · rw [Function.update_noteq hvu]; omega
    · by_cases hvu : v = u
      · subst hvu; rw [Function.update_same]; omega
      · rw [Function.update_noteq hvu]; omega
  by_cases hu : u = g.eu i
  · rw [if_pos hu] at hda
    have e1 : int32 (st.f i + push_d g st u i) = st.f i + push_d g st u i :=
      int32_eq (by omega) (by omega)
    simp only [if_pos hu, e1, e2, e3]
  · rw [if_neg hu] at hda
    have e1 : int32 (st.f i - push_d g st u i) = st.f i - push_d g st u i :=
      int32_eq (by omega) (by omega)
    simp only [if_neg hu, e1, e2, e3]

theorem push32_eq {g : Graph} (hc : NonnegCaps g) (hF : CapsFit g) {st : State}
    (hS : Small g st) (u v : Nat) {i : Nat} (hi : i < g.m) :
    push32 g st u v i = push g st u v i := by
  have hd := push_d32_eq hc hF hS u hi
  have hu := push_update32_eq hc hF hS u v hi
  have hcap : CapInv g (push_update g st u v i).f := by
    rw [push_update_f]
    obtain ⟨hd0, _, hda⟩ := push_d_bounds hS.cap hi (hS.nonneg u) (u := u)
    exact capInv_pushF hS.cap hi hd0 hda
  have h1 := abs_le.mp (hcap i hi)
  have h2 := cap_le_capSum hc hi
  have h3 := abs_nonneg ((push_update g st u v i).f i)
  have h4 := hcap i hi
  unfold CapsFit at hF
  have ha : push_asserts32 g st u v i ↔ push_asserts g st u v i := by
    unfold push_asserts32 push_asserts
    rw [hd, hu, int32_eq (x := |(push_update g st u v i).f i|) (by omega) (by omega)]
  unfold push32 push
  simp only [hd, hu, ha]

theorem scan32_eq {g : Graph} (hc : NonnegCaps g) (hF : CapsFit g) {st : State}
    (hcap : CapInv g st.f) (u : Nat) {p : List Nat} (hp : ∀ i ∈ p, i < g.m) :
    scan32 g st u p = scan g st u p := by
  induction p with
  | nil => rfl
  | cons i p ih =>
    have hi := hp i (List.mem_cons_self _ _)
    have h1 := abs_le.mp (hcap i hi)
    have h2 := cap_le_capSum hc hi
    unfold CapsFit at hF
    unfold scan32 scan
    rw [ih (fun j hj => hp j (List.mem_cons_of_mem _ hj))]
    have e1 : int32 ((if u = g.eu i then (1 : Int) else -1) * st.f i) =
        (if u = g.eu i then (1 : Int) else -1) * st.f i := by
      apply int32_eq <;> split <;> omega
    simp only [e1]

theorem relabel32_e (g : Graph) (st : State) (u : Nat) : (relabel32 g st u).e = st.e := by
  unfold relabel32; rw [enter_excess_e]

theorem relabel32_f (g : Graph) (st : State) (u : Nat) : (relabel32 g st u).f = st.f := by
  unfold relabel32; rw [enter_excess_f]

theorem relabel32_eq (g : Graph) (st : State) (u : Nat) (h1 : -2147483649 ≤ st.h u)
    (h2 : st.h u ≤ 2147483646) : relabel32 g st u = relabel g st u := by
  unfold relabel32 relabel
  rw [int32_eq (x := st.h u + 1) (by omega) (by omega)]

theorem seedPre32_eq {g : Graph} (hc : NonnegCaps g) (hF : CapsFit g) {st : State} {i : Nat}
    (hi : i < g.m) (h0 : 0 ≤ st.e g.s) (h1 : st.e g.s + g.cap i ≤ capSum g) :
    seedPre32 g st i = seedPre g st i := by
  have h2 := cap_nonneg hc hi
  unfold CapsFit at hF
  unfold seedPre32 seedPre
  rw [int32_eq (x := st.e g.s + g.cap i) (by omega) (by omega)]

theorem other_lt {g : Graph} (hr : InRange g) {i : Nat} (hi : i < g.m) (u : Nat) :
    other g u i < g.n := by
  rcases other_endpoint g i u with h | h <;> rw [h]
  · exact eu_lt hr hi
  · exact ev_lt hr hi

theorem endpoint_lt {g : Graph} (hr : InRange g) {i u : Nat} (hi : i ∈ g.adj u) : u < g.n := by
  obtain ⟨him, hend⟩ := (mem_adj g u i).mp hi
  rcases hend with h | h <;> rw [← h]
  · exact eu_lt hr him
  · exact ev_lt hr him

/-- A push keeps the total excess. -/
theorem push_tot {g : Graph} (hw : SeqWF g) {st st2 : State} {u i : Nat} {B : Int}
    (hi : i ∈ g.adj u) (hT : TotInv g st.e B)
    (hp : push g st u (other g u i) i = some st2) : TotInv g st2.e B := by
  obtain ⟨him, hend⟩ := endpoint_of_mem_adj hi
  obtain ⟨_, h2, _⟩ := push_fields hp
  rw [h2]
  exact totInv_pushE (other_ne_self (eu_ne_ev hw.noLoops him) hend).symm
    (endpoint_lt hw.inRange hi) (other_lt hw.inRange him u) hT _

theorem totInv_seedPre {g : Graph} (hw : SeqWF g) {st : State} {i : Nat} {B : Int}
    (hi : i ∈ g.adj g.s) (hT : TotInv g st.e B) :
    TotInv g (seedPre g st i).e (B + g.cap i) :=
  totInv_add (endpoint_lt hw.inRange hi) hT _

theorem totInv_seedStart {g : Graph} (hw : SeqWF g) :
    TotInv g (seedStart g initState).e (capSum g - ((g.adj g.s).map g.cap).sum) := by
  have := sum_caps_le hw.caps (nodup_adj hw.noLoops g.s)
    (fun j hj => ((mem_adj g g.s j).mp hj).1)
  refine ⟨?_, fun x _ => rfl⟩
  simp only [seedStart, initState, Finset.sum_const_zero]
  linarith

theorem sum_map_cap_nonneg {g : Graph} (hw : SeqWF g) {p : List Nat}
    (hp : ∀ i ∈ p, i ∈ g.adj g.s) : 0 ≤ (p.map g.cap).sum := by
  apply List.sum_nonneg
  intro x hx
  obtain ⟨j, hj, rfl⟩ := List.mem_map.mp hx
  exact cap_nonneg hw.caps ((mem_adj g g.s j).mp (hp j hj)).1

/-- One pass of the seeding loop in 32-bit arithmetic, from a state with the
invariants: it is the pass of exact arithmetic. -/
theorem seed32_step {g : Graph} (hw : SeqWF g) (hF : CapsFit g) {st : State} {i : Nat}
    {p : List Nat} (hp : ∀ j ∈ i :: p, j ∈ g.adj g.s) (hI : CoreInv g st)
    (hT : TotInv g st.e (capSum g - ((i :: p).map g.cap).sum)) :
    push32 g (seedPre32 g st i) g.s (other g g.s i) i =
        push g (seedPre g st i) g.s (other g g.s i) i ∧
      ∃ st2, push g (seedPre g st i) g.s (other g g.s i) i = some st2 ∧ CoreInv g st2 ∧
        TotInv g st2.e (capSum g - (p.map g.cap).sum) := by
  have hi := hp i (List.mem_cons_self _ _)
  obtain ⟨him, _⟩ := endpoint_of_mem_adj hi
  have hsum := sum_map_cap_nonneg hw (fun j hj => hp j (List.mem_cons_of_mem _ hj))
  rw [List.map_cons, List.sum_cons] at hT
  have hes := totInv_le hI.nonneg hT g.s
  have hT1 : TotInv g (seedPre g st i).e (capSum g - (p.map g.cap).sum) :=
    totInv_mono (totInv_seedPre hw hi hT) (by linarith)
  have hI1 := coreInv_seedPre hI (cap_nonneg hw.caps him) (i := i)
  have hS : Small g (seedPre g st i) :=
    ⟨hI1.cap, hI1.nonneg, fun x => le_trans (totInv_le hI1.nonneg hT1 x) (by linarith)⟩
  obtain ⟨_, st2, h2, hI2⟩ := seed_step_core hw hi hI
  refine ⟨?_, st2, h2, hI2, push_tot hw hi hT1 h2⟩
  rw [seedPre32_eq hw.caps hF him (hI.nonneg g.s) (by linarith)]
  exact push32_eq hw.caps hF hS _ _ him

/-- The seeding loop in 32-bit arithmetic is the seeding loop of exact
arithmetic, and it ends with total excess at most the sum of the capacities. -/
theorem seed32_spec {g : Graph} (hw : SeqWF g) (hF : CapsFit g) (p : List Nat)
    (hp : ∀ i ∈ p, i ∈ g.adj g.s) {st : State} (hI : CoreInv g st)
    (hT : TotInv g st.e (capSum g - (p.map g.cap).sum)) :
    seed32 g p st = seed g p st ∧
      ∃ st2, seed g p st = some st2 ∧ CoreInv g st2 ∧ TotInv g st2.e (capSum g) := by
  induction p generalizing st with
  | nil =>
    refine ⟨rfl, st, rfl, hI, ?_⟩
    simpa using hT
  | cons i p ih =>
    obtain ⟨h1, st2, h2, hI2, hT2⟩ := seed32_step hw hF hp hI hT
    obtain ⟨h3, st3, h4, hI3, hT3⟩ := ih (fun j hj => hp j (List.mem_cons_of_mem _ hj)) hI2 hT2
    have e1 : seed g (i :: p) st = seed g p st2 := by
      change (match push g (seedPre g st i) g.s (other g g.s i) i with
        | none => none
        | some st2 => seed g p st2) = _
      rw [h2]
    have e2 : seed32 g (i :: p) st = seed32 g p st2 := by
      change (match push32 g (seedPre32 g st i) g.s (other g g.s i) i with
        | none => none
        | some st2 => seed32 g p st2) = _
      rw [h1, h2]
    exact ⟨by rw [e1, e2, h3], st3, by rw [e1, h4], hI3, hT3⟩

theorem seeded32_spec {g : Graph} (hw : SeqWF g) (hF : CapsFit g) :
    seed32 g (g.adj g.s) (seedStart g initState) = seed g (g.adj g.s) (seedStart g initState) ∧
      ∃ st, seed g (g.adj g.s) (seedStart g initState) = some st ∧ CoreInv g st ∧
        TotInv g st.e (capSum g) :=
  seed32_spec hw hF _ (fun _ hi => hi) (coreInv_seedStart hw.caps) (totInv_seedStart hw)

/-- The states of the seeding loop in 32-bit arithmetic are those of exact
arithmetic. -/
theorem seedReach32_spec {g : Graph} (hw : SeqWF g) (hF : CapsFit g) {p : List Nat}
    {st : State} (h : SeedReach32 g initState p st) :
    SeedReach g initState p st ∧ TotInv g st.e (capSum g - (p.map g.cap).sum) := by
  induction h with
  | start => exact ⟨SeedReach.start, totInv_seedStart hw⟩
  | push hr hp ih =>
    obtain ⟨h1, hT⟩ := ih
    obtain ⟨e1, st3, h3, _, hT3⟩ := seed32_step hw hF (seedReach_sub h1) (seedReach_core hw h1) hT
    rw [e1] at hp
    rw [hp] at h3
    exact ⟨SeedReach.push h1 hp, (Option.some.inj h3) ▸ hT3⟩

/-- One iteration of the main loop keeps the total excess. -/
theorem iter_tot {g : Graph} (hw : SeqWF g) {st st2 : State} {B : Int}
    (hT : TotInv g st.e B) (h : iter g st = Step.cont st2) : TotInv g st2.e B := by
  obtain ⟨u, _, ⟨v, i, hsc, hp⟩ | ⟨_, h2⟩⟩ := iter_cont_cases h
  · obtain ⟨hi, hv, _, _⟩ := scan_some hsc
    subst hv
    have hT1 : TotInv g ({ st with excess := st.next u } : State).e B := hT
    exact push_tot hw hi hT1 hp
  · rw [h2, relabel_e]
    exact hT

/-- One iteration of the main loop in 32-bit arithmetic, from a state within
the bounds: it is the iteration of exact arithmetic, except that the height
written by a relabel is stored in 32 bits. -/
theorem iter32_sim {g : Graph} (hw : SeqWF g) (hF : CapsFit g) {st : State}
    (hS : Small g st) :
    iter32 g st = iter g st ∨
      ∃ u, st.excess = some u ∧
        iter g st = Step.cont (relabel g { st with excess := st.next u } u) ∧
        iter32 g st = Step.cont (relabel32 g { st with excess := st.next u } u) := by
  unfold iter32 iter leave_excess
  cases hex : st.excess with
  | none => left; rfl
  | some u =>
    simp only
    have hS1 : Small g { st with excess := st.next u } := ⟨hS.cap, hS.nonneg, hS.le⟩
    rw [scan32_eq hw.caps hF hS1.cap u (fun i hi => ((mem_adj g u i).mp hi).1)]
    cases hsc : scan g { st with excess := st.next u } u (g.adj u) with
    | none => right; exact ⟨u, rfl, rfl, rfl⟩
    | some r =>
      obtain ⟨v, i⟩ := r
      left
      simp only
      rw [push32_eq hw.caps hF hS1 u v ((mem_adj g u i).mp (scan_some hsc).1).1]

/-- One iteration of the main loop in 32-bit arithmetic when the heights
leave room for a relabel. -/
theorem iter32_eq {g : Graph} (hw : SeqWF g) (hF : CapsFit g) {st : State}
    (hS : Small g st) (hh : ∀ x, -2147483649 ≤ st.h x ∧ st.h x ≤ 2147483646) :
    iter32 g st = iter g st := by
  rcases iter32_sim hw hF hS with h | ⟨u, _, h1, h2⟩
  · exact h
  · rw [h1, h2, relabel32_eq g { st with excess := st.next u } u (hh u).1 (hh u).2]

/-- Capacity, conservation, nonnegative excess and the bound on the total
excess are kept by every iteration of the main loop in 32-bit arithmetic. -/
theorem iter32_core {g : Graph} (hw : SeqWF g) (hF : CapsFit g) {st : State}
    (hI : CoreInv g st) (hT : TotInv g st.e (capSum g)) :
    iter32 g st ≠ Step.abort ∧
      ∀ st2, iter32 g st = Step.cont st2 → CoreInv g st2 ∧ TotInv g st2.e (capSum g) := by
  rcases iter32_sim hw hF (small_of_core hI hT) with h | ⟨u, _, _, h2⟩
  · rw [h]
    exact ⟨(iter_core hw hI).1, fun st2 h2 => ⟨(iter_core hw hI).2.1 st2 h2, iter_tot hw hT h2⟩⟩
  · rw [h2]
    refine ⟨by simp, fun st2 h3 => ?_⟩
    simp only [Step.cont.injEq] at h3
    subst h3
    refine ⟨⟨?_, ?_, ?_⟩, ?_⟩
    · rw [relabel32_f]; exact hI.cap
    · rw [relabel32_e, relabel32_f]; exact hI.cons
    · rw [relabel32_e]; exact hI.nonneg
    · rw [relabel32_e]; exact hT

theorem loopReach32_core {g : Graph} (hw : SeqWF g) (hF : CapsFit g) {st : State}
    (h : LoopReach32 g initState st) : CoreInv g st ∧ TotInv g st.e (capSum g) := by
  induction h with
  | seeded hs =>
    obtain ⟨e1, st2, h2, hI, hT⟩ := seeded32_spec hw hF
    rw [e1, h2] at hs
    exact (Option.some.inj hs) ▸ ⟨hI, hT⟩
  | step _ hit ih => exact (iter32_core hw hF ih.1 ih.2).2 _ hit

/-- Capacity, conservation and nonnegative excess at every state of a run in
32-bit arithmetic, for capacities whose doubled sum fits. -/
theorem reachable32_core {g : Graph} (hw : SeqWF g) (hF : CapsFit g) {st : State}
    (h : Reachable32 g st) : CoreInv g st := by
  rcases h with ⟨p, hp⟩ | hl
  · exact seedReach_core hw (seedReach32_spec hw hF hp).1
  · exact (loopReach32_core hw hF hl).1

/-- The seeding loop of exact arithmetic ends with total excess at most the
sum of the capacities. -/
theorem seed_tot {g : Graph} (hw : SeqWF g) (p : List Nat) (hp : ∀ i ∈ p, i ∈ g.adj g.s)
    {st st2 : State} {B : Int} (hI : CoreInv g st) (hT : TotInv g st.e B)
    (h : seed g p st = some st2) : TotInv g st2.e (B + (p.map g.cap).sum) := by
  induction p generalizing st B with
  | nil =>
    simp only [seed, Option.some.injEq] at h
    subst h
    simpa using hT
  | cons i p ih =>
    have hi := hp i (List.mem_cons_self _ _)
    obtain ⟨_, st3, h3, hI3⟩ := seed_step_core hw hi hI
    have e1 : seed g (i :: p) st = seed g p st3 := by
      change (match push g (seedPre g st i) g.s (other g g.s i) i with
        | none => none
        | some st2 => seed g p st2) = _
      rw [h3]
    rw [e1] at h
    have := ih (fun j hj => hp j (List.mem_cons_of_mem _ hj)) hI3
      (push_tot hw hi (totInv_seedPre hw hi hT) h3) h
    rw [List.map_cons, List.sum_cons]
    exact totInv_mono this (by linarith)

theorem loopReach_tot {g : Graph} (hw : SeqWF g) {st : State}
    (h : LoopReach g initState st) : TotInv g st.e (capSum g) := by
  induction h with
  | seeded hs =>
    have := seed_tot hw _ (fun _ hi => hi) (coreInv_seedStart hw.caps) (totInv_seedStart hw) hs
    exact totInv_mono this (by linarith)
  | step _ hit ih => exact iter_tot hw ih hit

/-! ## sequential.c: the run in 32-bit arithmetic on inputs that fit -/

theorem fullInv_heights {g : Graph} (hF : FitsInt g) {st : State} (hI : FullInv g st) (x : Nat) :
    -2147483649 ≤ st.h x ∧ st.h x ≤ 2147483646 := by
  have h1 := hI.hlow x
  have h2 := hI.hbound x
  have h3 := hF.1
  omega

theorem iter32_exact {g : Graph} (hw : PosWF g) (hF : FitsInt g) {st : State}
    (hI : FullInv g st) (hT : TotInv g st.e (capSum g)) : iter32 g st = iter g st :=
  iter32_eq hw.seqWF hF.2 (small_of_core hI.core hT) (fullInv_heights hF hI)

/-- On inputs that fit, the states at the head of the main loop in 32-bit
arithmetic are those of exact arithmetic. -/
theorem loopReach32_exact {g : Graph} (hw : PosWF g) (hF : FitsInt g) {st : State}
    (h : LoopReach32 g initState st) : LoopReach g initState st := by
  induction h with
  | seeded hs =>
    rw [(seeded32_spec hw.seqWF hF.2).1] at hs
    exact LoopReach.seeded hs
  | step _ hit ih =>
    rw [iter32_exact hw hF (loopReach_full hw ih) (loopReach_tot hw.seqWF ih)] at hit
    exact LoopReach.step ih hit

theorem loop32_eq {g : Graph} (hw : PosWF g) (hF : FitsInt g) (k : Nat) {st : State}
    (hI : FullInv g st) (hT : TotInv g st.e (capSum g)) : loop32 g k st = loop g k st := by
  induction k generalizing st with
  | zero => rfl
  | succ k ih =>
    unfold loop32 loop
    rw [iter32_exact hw hF hI hT]
    cases hit : iter g st with
    | halt st1 => rfl
    | abort => rfl
    | cont st1 =>
      simp only
      rcases iter_full hw hI with ⟨_, h1, _⟩ | ⟨st3, h1, hI3, _⟩
      · rw [hit] at h1; exact absurd h1 (by simp)
      · rw [hit] at h1
        simp only [Step.cont.injEq] at h1
        subst h1
        exact ih hI3 (iter_tot hw.seqWF hT hit)

/-- On inputs that fit, `preflow` of sequential.c computes in 32-bit
arithmetic what it computes in exact arithmetic. -/
theorem preflow32_state_eq {g : Graph} (hw : PosWF g) (hF : FitsInt g) (fuel : Nat) :
    preflow32_state g initState fuel = preflow_state g initState fuel := by
  unfold preflow32_state preflow_state
  obtain ⟨e1, st, h1, _, hT⟩ := seeded32_spec hw.seqWF hF.2
  obtain ⟨st2, h2, hI⟩ := seed_full hw
  rw [e1, h2]
  rw [h2] at h1
  have := Option.some.inj h1
  subst this
  exact loop32_eq hw hF fuel hI hT

theorem preflow32_eq {g : Graph} (hw : PosWF g) (hF : FitsInt g) (fuel : Nat) :
    preflow32 g initState fuel = preflow g initState fuel := by
  unfold preflow32 preflow
  rw [preflow32_state_eq hw hF]

/-! ## sequential.c in 32-bit arithmetic: runs that stop in an assertion -/

theorem loop32_aborted_mono {g : Graph} {k : Nat} {st : State}
    (h : loop32 g k st = Outcome.aborted) (j : Nat) : loop32 g (k + j) st = Outcome.aborted := by
  induction k generalizing st with
  | zero => simp [loop32] at h
  | succ k ih =>
    rw [Nat.succ_add]
    unfold loop32 at h ⊢
    cases hit : iter32 g st with
    | halt st1 => rw [hit] at h; simp at h
    | abort => rfl
    | cont st1 =>
      rw [hit] at h
      exact ih h

theorem loop32_aborted_never {g : Graph} {k : Nat} {st : State}
    (h : loop32 g k st = Outcome.aborted) (fuel : Nat) (st2 : State) :
    loop32 g fuel st ≠ Outcome.returned st2 := by
  induction k generalizing st fuel with
  | zero => simp [loop32] at h
  | succ k ih =>
    cases fuel with
    | zero => simp [loop32]
    | succ n =>
      unfold loop32 at h ⊢
      cases hit : iter32 g st with
      | halt st1 => rw [hit] at h; simp at h
      | abort => simp
      | cont st1 =>
        rw [hit] at h
        exact ih h n

/-- A run of `preflow` in 32-bit arithmetic that stops in an assertion with
some budget returns with no budget. -/
theorem preflow32_aborted_never {g : Graph} {k : Nat}
    (h : preflow32 g initState k = Outcome.aborted) (fuel : Nat) (val : Int) :
    preflow32 g initState fuel ≠ Outcome.returned val := by
  unfold preflow32 preflow32_state at h ⊢
  cases hs : seed32 g (g.adj g.s) (seedStart g initState) with
  | none => simp
  | some st1 =>
    rw [hs] at h
    simp only at h ⊢
    cases hk : loop32 g k st1 with
    | returned a => rw [hk] at h; simp at h
    | timeout => rw [hk] at h; simp at h
    | aborted =>
      cases hl : loop32 g fuel st1 with
      | returned a => exact absurd hl (loop32_aborted_never hk fuel a)
      | timeout => simp
      | aborted => simp

/-- The states reached by iterations that each end in a push or a relabel
are states at the head of the main loop. -/
theorem loopReach32_iters {g : Graph} {st0 : State} (k : Nat) {st st2 : State}
    (h : LoopReach32 g st0 st) (hk : iters32 g k st = some st2) : LoopReach32 g st0 st2 := by
  induction k generalizing st with
  | zero =>
    simp only [iters32, Option.some.injEq] at hk
    exact hk ▸ h
  | succ k ih =>
    unfold iters32 at hk
    cases hit : iter32 g st with
    | halt st1 => rw [hit] at hk; simp at hk
    | abort => rw [hit] at hk; simp at hk
    | cont st1 =>
      rw [hit] at hk
      exact ih (LoopReach32.step h hit) hk

/-! ## sequential.c in 32-bit arithmetic: the excess list -/

theorem relabel32_list (g : Graph) (st : State) (u : Nat) :
    (relabel32 g st u).next = (relabel g st u).next ∧
      (relabel32 g st u).excess = (relabel g st u).excess := by
  unfold relabel32 relabel enter_excess
  split <;> exact ⟨rfl, rfl⟩

/-- One iteration of the main loop keeps the shape of the excess list,
whatever the heights are. -/
theorem iter_list {g : Graph} (hw : SeqWF g) {st st2 : State} (hI : CoreInv g st)
    (hL : ExcessInv g st none) (h : iter g st = Step.cont st2) : ExcessInv g st2 none := by
  obtain ⟨u, hex, ⟨v, i, hsc, hp⟩ | ⟨_, h2⟩⟩ := iter_cont_cases h
  · obtain ⟨hact, hlist⟩ := excessInv_pop hex hL
    obtain ⟨hi, hv, _, h4⟩ := scan_some hsc
    obtain ⟨him, hend⟩ := endpoint_of_mem_adj hi
    subst hv
    have hd : 0 < push_d g { st with excess := st.next u } u i := by
      rw [push_d_eq]
      exact lt_of_lt_of_le (lt_min hact.2.2 h4) (by unfold MIN; split <;> simp [*])
    exact push_excessInv hp (other_ne_self (eu_ne_ev hw.noLoops him) hend).symm hd
      (hI.nonneg _) hlist
  · obtain ⟨hact, hlist⟩ := excessInv_pop hex hL
    rw [h2]
    exact relabel_excessInv hact hlist

theorem iter32_list {g : Graph} (hw : SeqWF g) (hF : CapsFit g) {st st2 : State}
    (hI : CoreInv g st) (hT : TotInv g st.e (capSum g)) (hL : ExcessInv g st none)
    (h : iter32 g st = Step.cont st2) : ExcessInv g st2 none := by
  rcases iter32_sim hw hF (small_of_core hI hT) with h1 | ⟨u, _, h1, h2⟩
  · rw [h1] at h
    exact iter_list hw hI hL h
  · have h3 := iter_list hw hI hL h1
    rw [h2] at h
    simp only [Step.cont.injEq] at h
    subst h
    obtain ⟨l, hl, hn, hmem⟩ := h3
    refine ⟨l, ?_, hn, ?_⟩
    · rw [(relabel32_list g _ u).1, (relabel32_list g _ u).2]
      exact hl
    · intro x
      rw [hmem, relabel32_e, relabel_e]

/-- On graphs with positive capacities whose doubled sum fits, the excess
list holds exactly the active nodes at every head of the main loop in 32-bit
arithmetic. -/
theorem loopReach32_list {g : Graph} (hw : PosWF g) (hF : CapsFit g) {st : State}
    (h : LoopReach32 g initState st) : ExcessInv g st none := by
  induction h with
  | seeded hs =>
    obtain ⟨st2, h2, hI⟩ := seed_full hw
    rw [(seeded32_spec hw.seqWF hF).1, h2] at hs
    exact (Option.some.inj hs) ▸ hI.list
  | step hr hit ih =>
    obtain ⟨hI, hT⟩ := loopReach32_core hw.seqWF hF hr
    exact iter32_list hw.seqWF hF hI hT ih hit

theorem loopReach32_no_edges {n : Nat} {st : State}
    (h : LoopReach32 ⟨n, []⟩ initState st) : st = seedStart ⟨n, []⟩ initState := by
  induction h with
  | seeded hs =>
    have : seed32 ⟨n, []⟩ (Graph.adj ⟨n, []⟩ (Graph.s ⟨n, []⟩)) (seedStart ⟨n, []⟩ initState) =
        some (seedStart ⟨n, []⟩ initState) := rfl
    rw [this] at hs
    exact (Option.some.inj hs).symm
  | step _ hit ih =>
    rw [ih] at hit
    exact absurd hit (by simp [iter32, leave_excess, seedStart, initState])

/-! ## lab2 in 32-bit arithmetic on inputs that fit -/

theorem available32_eq {g : Graph} (hc : NonnegCaps g) (hF : CapsFit g) {f : Nat → Int}
    (hcap : CapInv g f) {i : Nat} (hi : i < g.m) {dir : Int} (hd : dir = 1 ∨ dir = -1) :
    available32 g f i dir = available g f i dir := by
  have h1 := abs_le.mp (hcap i hi)
  have h2 := cap_le_capSum hc hi
  unfold CapsFit at hF
  unfold available32 available
  rcases hd with rfl | rfl
  · rw [int32_eq (x := 1 * f i) (by omega) (by omega),
      int32_eq (x := g.cap i - 1 * f i) (by omega) (by omega)]
  · rw [int32_eq (x := -1 * f i) (by omega) (by omega),
      int32_eq (x := g.cap i - -1 * f i) (by omega) (by omega)]

theorem pthread_mutex_lock_st {a b : LState} {x : Nat} (h : pthread_mutex_lock a x = some b) :
    b.st = a.st := by
  unfold pthread_mutex_lock at h
  split at h
  · exact absurd h (by simp)
  · rw [← Option.some.inj h]

theorem pthread_mutex_unlock_st {a b : LState} {x : Nat}
    (h : pthread_mutex_unlock a x = some b) : b.st = a.st := by
  unfold pthread_mutex_unlock at h
  split at h
  · rw [← Option.some.inj h]
  · exact absurd h (by simp)

theorem lock_in_order_st {a b : LState} {x y : Nat} (h : lock_in_order a x y = some b) :
    b.st = a.st := by
  unfold lock_in_order at h
  split at h
  · cases h1 : pthread_mutex_lock a x with
    | none => rw [h1] at h; exact absurd h (by simp)
    | some c =>
      rw [h1] at h
      rw [pthread_mutex_lock_st h, pthread_mutex_lock_st h1]
  · cases h1 : pthread_mutex_lock a y with
    | none => rw [h1] at h; exact absurd h (by simp)
    | some c =>
      rw [h1] at h
      rw [pthread_mutex_lock_st h, pthread_mutex_lock_st h1]

theorem work_scan2_32_eq {g : Graph} (hc : NonnegCaps g) (hF : CapsFit g) (u : Nat) :
    ∀ (adj : List Nat) (w : LState), (∀ j ∈ adj, j < g.m) → CapInv g w.st.f →
      work_scan2_32 g u adj w = work_scan2 g u adj w := by
  intro adj
  induction adj with
  | nil => intro w _ _; rfl
  | cons j adj ih =>
    intro w hm hcap
    unfold work_scan2_32 work_scan2
    simp only
    cases h1 : lock_in_order w u (other g u j) with
    | none => rfl
    | some w1 =>
      simp only
      have e1 := lock_in_order_st h1
      rw [available32_eq hc hF (by rw [e1]; exact hcap) (hm j (List.mem_cons_self _ _))
        (direction_cases g u j)]
      split
      · rfl
      · cases h2 : pthread_mutex_unlock w1 u with
        | none => rfl
        | some w2 =>
          simp only
          cases h3 : pthread_mutex_unlock w2 (other g u j) with
          | none => rfl
          | some w3 =>
            simp only
            apply ih w3 (fun k hk => hm k (List.mem_cons_of_mem _ hk))
            rw [pthread_mutex_unlock_st h3, pthread_mutex_unlock_st h2, e1]
            exact hcap

theorem work_push_32_eq {g : Graph} (hc : NonnegCaps g) (hF : CapsFit g) {st : State}
    (hS : Small g st) (u v : Nat) {i : Nat} (hi : i < g.m) :
    work_push_32 g u ⟨v, i, direction g u i, available g st.f i (direction g u i)⟩ st =
      work_push g u ⟨v, i, direction g u i, available g st.f i (direction g u i)⟩ st := by
  obtain ⟨hd0, hdu, hda⟩ := push_d_bounds hS.cap hi (hS.nonneg u) (u := u)
  rw [push_d_eq] at hd0 hdu hda
  have h1 := abs_le.mp (hS.cap i hi)
  have h2 := cap_le_capSum hc hi
  have h3 := hS.le u
  have h4 := hS.le v
  have h5 := hS.nonneg v
  have h6 := hS.nonneg u
  unfold CapsFit at hF
  unfold work_push_32 work_push
  simp only
  generalize hflo : MIN (st.e u) (available g st.f i (direction g u i)) = flo at hd0 hdu hda
  unfold available at hda
  have e1 : int32 (st.e u - flo) = st.e u - flo := int32_eq (by omega) (by omega)
  have e2 : int32 (Function.update st.e u (st.e u - flo) v + flo) =
      Function.update st.e u (st.e u - flo) v + flo := by
    apply int32_eq
    · by_cases hvu : v = u
      · subst hvu; rw [Function.update_same]; omega
      · rw [Function.update_noteq hvu]; omega
    · by_cases hvu : v = u
      · subst hvu; rw [Function.update_same]; omega
      · rw [Function.update_noteq hvu]; omega
  have e3 : int32 (direction g u i * flo) = direction g u i * flo := by
    rcases direction_cases g u i with h | h <;> rw [h] <;> apply int32_eq <;> omega
  have e4 : int32 (st.f i + direction g u i * flo) = st.f i + direction g u i * flo := by
    rcases direction_cases g u i with h | h <;> rw [h] at hda ⊢ <;> apply int32_eq <;> omega
  simp only [e1, e2, e3, e4]

theorem work_relabel_32_eq (u : Nat) (w : LState) (h1 : -2147483649 ≤ w.st.h u)
    (h2 : w.st.h u ≤ 2147483646) : work_relabel_32 u w = work_relabel u w := by
  unfold work_relabel_32 work_relabel
  cases hl : pthread_mutex_lock w u with
  | none => rfl
  | some w1 =>
    simp only
    have e1 := pthread_mutex_lock_st hl
    rw [int32_eq (x := w1.st.h u + 1) (by rw [e1]; omega) (by rw [e1]; omega)]

/-- One pass of the outer loop of `work` in 32-bit arithmetic, from a state
within the bounds that holds no mutex: it is the pass of exact arithmetic. -/
theorem work_step_32_eq {g : Graph} (hw : SeqWF g) (hF : CapsFit g) {u : Nat} {w : LState}
    (hS : Small g w.st) (hh : w.held = []) (h1 : -2147483649 ≤ w.st.h u)
    (h2 : w.st.h u ≤ 2147483646) : work_step_32 g u w = work_step g u w := by
  unfold work_step_32 work_step
  rw [work_scan2_32_eq hw.caps hF u (g.adj u) w (fun j hj => (endpoint_of_mem_adj hj).1) hS.cap]
  by_cases hadj : g.adj u = []
  · rw [if_pos hadj, if_pos hadj]
  · rw [if_neg hadj, if_neg hadj]
    rcases work_scan2_spec g u (g.adj u) w hh (noSelfLoops_other hw.noLoops u) with
      ⟨_, k2⟩ | ⟨v, i, w1, hsc, k2, k3, _⟩
    · simp only [k2]
      rw [work_relabel_32_eq u w h1 h2]
    · simp only [k2, k3]
      rw [work_push_32_eq hw.caps hF hS u v (endpoint_of_mem_adj (scan_some hsc).1).1]

theorem work_tail_e {u : Nat} {w w2 : LState} {cur : Option Nat}
    (h : work_tail u w = some (cur, w2)) : w2.st.e = w.st.e := by
  unfold work_tail at h
  cases h1 : pthread_mutex_unlock w u with
  | none => rw [h1] at h; exact absurd h (by simp)
  | some w1 =>
    rw [h1] at h
    simp only at h
    have e1 := pthread_mutex_unlock_st h1
    split at h
    · simp only [Option.some.injEq, Prod.mk.injEq] at h
      rw [← h.2, ← e1]
      unfold leave_excess
      cases w1.st.excess <;> rfl
    · simp only [Option.some.injEq, Prod.mk.injEq] at h
      rw [← h.2, e1]

/-- One pass of the outer loop of `work` keeps the total excess. -/
theorem work_step_tot {g : Graph} (hw : SeqWF g) {u : Nat} {w w2 : LState} {cur : Option Nat}
    {B : Int} (hh : w.held = []) (hs : work_step g u w = some (cur, w2))
    (hT : TotInv g w.st.e B) : TotInv g w2.st.e B := by
  unfold work_step at hs
  by_cases hadj : g.adj u = []
  · rw [if_pos hadj] at hs; exact absurd hs (by simp)
  · rw [if_neg hadj] at hs
    rcases work_scan2_spec g u (g.adj u) w hh (noSelfLoops_other hw.noLoops u) with
      ⟨_, k2⟩ | ⟨v, i, w1, hsc, k2, k3, _⟩
    · simp only [k2] at hs
      cases hr : work_relabel u w with
      | none => rw [hr] at hs; exact absurd hs (by simp)
      | some w3 =>
        rw [hr] at hs
        simp only at hs
        rw [work_tail_e hs]
        unfold work_relabel at hr
        cases hl : pthread_mutex_lock w u with
        | none => rw [hl] at hr; exact absurd hr (by simp)
        | some w4 =>
          rw [hl] at hr
          simp only [Option.some.injEq] at hr
          rw [← hr]
          simp only
          rw [pthread_mutex_lock_st hl]
          exact hT
    · simp only [k2, k3] at hs
      obtain ⟨hi, hv, _, _⟩ := scan_some hsc
      obtain ⟨him, hend⟩ := endpoint_of_mem_adj hi
      cases hu : pthread_mutex_unlock
          ⟨work_push g u ⟨v, i, direction g u i, available g w.st.f i (direction g u i)⟩ w.st,
            w1.held⟩ v with
      | none => rw [hu] at hs; exact absurd hs (by simp)
      | some w3 =>
        rw [hu] at hs
        simp only at hs
        rw [work_tail_e hs, pthread_mutex_unlock_st hu]
        simp only
        rw [(work_push_fields g u v i w.st).2.1, hv]
        exact totInv_pushE (other_ne_self (eu_ne_ev hw.noLoops him) hend).symm
          (endpoint_lt hw.inRange hi) (other_lt hw.inRange him u) hT _

/-- The outer loop of `work` in 32-bit arithmetic, from a state with the
invariant on an input that fits: it is the loop of exact arithmetic. -/
theorem work2_32_eq {g : Graph} (hw : PosWF g) (hF : FitsInt g) (k : Nat) :
    ∀ cur w, WInv g cur w → TotInv g w.st.e (capSum g) →
      work2_32 g k cur w = work2 g k cur w := by
  induction k with
  | zero => intro cur w _ _; rfl
  | succ k ih =>
    intro cur w hI hT
    cases cur with
    | none => rfl
    | some u =>
      have hS : Small g w.st := ⟨hI.virt.cap, hI.virt.nonneg, totInv_le hI.virt.nonneg hT⟩
      have h1 := hI.virt.hlow u
      have h2 := hI.virt.hbound u
      have h3 := hF.1
      have e1 : work2_32 g (k + 1) (some u) w =
          match work_step_32 g u w with
          | none => Outcome.aborted
          | some (cur, w1) => work2_32 g k cur w1 := rfl
      rw [e1, work2_succ_some, work_step_32_eq hw.seqWF hF.2 hS hI.held (by omega) (by omega)]
      obtain ⟨cur2, w2, hs, hI2, _⟩ := work_step_spec hw hI
      rw [hs]
      exact ih cur2 w2 hI2 (work_step_tot hw.seqWF hI.held hs hT)

/-! ## Seeding of lab2 and lab3 in 32-bit arithmetic -/

theorem seedOk_start {g : Graph} (hw : SeqWF g) :
    SeedOk g (fun _ => 0) (fun _ => 0) (g.adj g.s) := by
  refine ⟨?_, fun _ _ => rfl, fun _ => le_refl _, ?_⟩
  · intro j hj
    simpa using cap_nonneg hw.caps hj
  · exact totInv_seedStart hw

/-- One pass of the seeding loop of lab2 and lab3: the two assignments store
exact values, and the state of the loop is kept. -/
theorem seedOk_step {g : Graph} (hw : SeqWF g) (hF : CapsFit g) {e f : Nat → Int} {j : Nat}
    {rest : List Nat} (hj : j ∈ g.adj g.s) (hjr : j ∉ rest) (hrest : ∀ k ∈ rest, k ∈ g.adj g.s)
    (h : SeedOk g e f (j :: rest)) :
    int32 (f j + int32 (direction g g.s j * g.cap j)) = f j + direction g g.s j * g.cap j ∧
    int32 (e (other g g.s j) + g.cap j) = e (other g g.s j) + g.cap j ∧
    SeedOk g (Function.update e (other g g.s j) (e (other g g.s j) + g.cap j))
      (Function.update f j (f j + direction g g.s j * g.cap j)) rest := by
  obtain ⟨hjm, _⟩ := endpoint_of_mem_adj hj
  have hc0 := cap_nonneg hw.caps hjm
  have hc1 := cap_le_capSum hw.caps hjm
  have hsum := sum_map_cap_nonneg hw hrest
  have hfj := h.todo j (List.mem_cons_self _ _)
  have htot := h.tot
  rw [List.map_cons, List.sum_cons] at htot
  have he := totInv_le h.nonneg htot (other g g.s j)
  have he0 := h.nonneg (other g g.s j)
  unfold CapsFit at hF
  refine ⟨?_, int32_eq (by omega) (by omega), ?_, ?_, ?_, ?_⟩
  · rw [hfj]
    rcases direction_cases g g.s j with hd | hd <;> rw [hd] <;>
      rw [int32_eq (x := _ * g.cap j) (by omega) (by omega)] <;>
      exact int32_eq (by omega) (by omega)
  · intro k hk
    by_cases hkj : k = j
    · subst hkj
      rw [Function.update_same, hfj]
      rcases direction_cases g g.s k with hd | hd <;> rw [hd] <;> simp [abs_of_nonneg hc0]
    · rw [Function.update_noteq hkj]
      exact h.cap k hk
  · intro k hk
    have hkj : k ≠ j := fun hkj => hjr (hkj ▸ hk)
    rw [Function.update_noteq hkj]
    exact h.todo k (List.mem_cons_of_mem _ hk)
  · intro x
    by_cases hx : x = other g g.s j
    · subst hx; rw [Function.update_same]; omega
    · rw [Function.update_noteq hx]; exact h.nonneg x
  · exact totInv_mono (totInv_add (other_lt hw.inRange hjm g.s) htot (g.cap j)) (by linarith)

theorem seed2_32_cons (g : Graph) (j : Nat) (adj : List Nat) (st : State) :
    seed2_32 g (j :: adj) st =
      seed2_32 g adj (enter_excess g
        { st with f := Function.update st.f j
                    (int32 (st.f j + int32 (direction g g.s j * g.cap j))),
                  e := Function.update st.e (other g g.s j)
                    (int32 (st.e (other g g.s j) + g.cap j)) }
        (other g g.s j)) := rfl

/-- The seeding loop of lab2 in 32-bit arithmetic is the loop of exact
arithmetic, and it ends with total excess at most the sum of the capacities. -/
theorem seed2_32_spec {g : Graph} (hw : SeqWF g) (hF : CapsFit g) :
    ∀ (rest : List Nat) (st : State), (∀ k ∈ rest, k ∈ g.adj g.s) → rest.Nodup →
      SeedOk g st.e st.f rest →
      seed2_32 g rest st = seed2 g rest st ∧ SeedOk g (seed2 g rest st).e (seed2 g rest st).f [] := by
  intro rest
  induction rest with
  | nil => intro st _ _ h; exact ⟨rfl, h⟩
  | cons j rest ih =>
    intro st hrest hn h
    obtain ⟨hjr, hn2⟩ := List.nodup_cons.mp hn
    have hrest2 : ∀ k ∈ rest, k ∈ g.adj g.s := fun k hk => hrest k (List.mem_cons_of_mem _ hk)
    obtain ⟨e1, e2, h2⟩ := seedOk_step hw hF (hrest j (List.mem_cons_self _ _)) hjr hrest2 h
    rw [seed2_32_cons, seed2_cons, e1, e2]
    apply ih _ hrest2 hn2
    rw [enter_excess_e, enter_excess_f]
    exact h2

theorem seeded2_32_spec {g : Graph} (hw : SeqWF g) (hF : CapsFit g) :
    seeded2_32 g initState = seeded2 g initState ∧
      TotInv g (seeded2 g initState).e (capSum g) := by
  obtain ⟨h1, h2⟩ := seed2_32_spec hw hF (g.adj g.s) (seedStart g initState) (fun _ hk => hk)
    (nodup_adj hw.noLoops _) (seedOk_start hw)
  refine ⟨h1, ?_⟩
  have := h2.tot
  simpa using this

/-- On inputs that fit, lab2's `preflow` with one worker computes in 32-bit
arithmetic what it computes in exact arithmetic. -/
theorem preflow2_32_eq {g : Graph} (hr : InRange g) (hc : PositiveCaps g) (hl : NoSelfLoops g)
    (hp : NoParallel g) (hF : FitsInt g) (fuel : Nat) :
    preflow2_32 g initState fuel = preflow2 g initState fuel := by
  by_cases hn : 2 ≤ g.n
  · have hw : PosWF g := ⟨hn, hr, hl, hc⟩
    obtain ⟨h1, hT⟩ := seeded2_32_spec hw.seqWF hF.2
    have h0 := seeded2_winv hw hp
    unfold preflow2_32 preflow2 preflow2_state_32 preflow2_state
    rw [h1, work2_32_eq hw hF fuel _ _ h0]
    unfold leave_excess
    cases (seeded2 g initState).excess <;> exact hT
  · have hg := graph_eq_no_edges (not_le.mp hn) hr hl
    rw [hg]
    cases fuel <;> rfl

/-! ## lab3 in 32-bit arithmetic: the compute phase -/

theorem work_scan_32_cons (g : Graph) (i u j : Nat) (adj : List Nat) (st : PState) :
    work_scan_32 g i u (j :: adj) st =
      if st.e u > 0 then
        if st.h (other g u j) < st.h u ∧ 0 < available32 g st.f j (direction g u j) then
          work_scan_32 g i u adj
            (queue_action
              { st with e := (Function.update st.e u
                  (int32 (st.e u - MIN (st.e u) (available32 g st.f j (direction g u j))))) }
              ⟨other g u j, false, MIN (st.e u) (available32 g st.f j (direction g u j)),
                direction g u j, j⟩ i)
        else work_scan_32 g i u adj st
      else st := rfl

theorem compOk_scanPush {g : Graph} (hw : SeqWF g) {thr i : Nat} (hi : i < thr) {st : PState}
    {u j : Nat} (hj : j ∈ g.adj u) (h0 : 0 < st.e u)
    (hav : 0 < available g st.f j (direction g u j)) (hI : CompOk g thr st) :
    CompOk g thr (scanPush g st i u j) := by
  obtain ⟨hjm, hend⟩ := endpoint_of_mem_adj hj
  have huv : u ≠ other g u j := (other_ne_self (eu_ne_ev hw.noLoops hjm) hend).symm
  have h1 := MIN_pos h0 hav
  have h2 := MIN_le_left (st.e u) (available g st.f j (direction g u j))
  refine ⟨hI.cap, ?_, ?_, ?_⟩
  · intro x
    show 0 ≤ Function.update st.e u (st.e u - MIN (st.e u) _) x
    by_cases hx : x = u
    · subst hx; rw [Function.update_same]; omega
    · rw [Function.update_noteq hx]; exact hI.nonneg x
  · intro x
    show Function.update st.e u (st.e u - MIN (st.e u) _) x ≤ capSum g
    by_cases hx : x = u
    · subst hx; rw [Function.update_same]; have := hI.le x; omega
    · rw [Function.update_noteq hx]; exact hI.le x
  · rw [scanPush_ve g st hi huv]
    exact totInv_pushE huv (endpoint_lt hw.inRange hj) (other_lt hw.inRange hjm u) hI.tot _

/-- The edge scan in 32-bit arithmetic is the edge scan of exact arithmetic,
and keeps the bounds. -/
theorem work_scan_32_spec {g : Graph} (hw : SeqWF g) (hF : CapsFit g) {thr i : Nat}
    (hi : i < thr) (u : Nat) :
    ∀ (rest : List Nat) (st : PState), (∀ j ∈ rest, j ∈ g.adj u) → CompOk g thr st →
      work_scan_32 g i u rest st = work_scan g i u rest st ∧
        CompOk g thr (work_scan g i u rest st) := by
  intro rest
  induction rest with
  | nil => intro st _ hI; exact ⟨rfl, hI⟩
  | cons j rest ih =>
    intro st hrest hI
    have hj := hrest j (List.mem_cons_self _ _)
    have hrest2 : ∀ k ∈ rest, k ∈ g.adj u := fun k hk => hrest k (List.mem_cons_of_mem _ hk)
    obtain ⟨hjm, _⟩ := endpoint_of_mem_adj hj
    rw [work_scan_32_cons, work_scan_cons,
      available32_eq hw.caps hF hI.cap hjm (direction_cases g u j)]
    by_cases h0 : st.e u > 0
    · rw [if_pos h0, if_pos h0]
      by_cases hc : st.h (other g u j) < st.h u ∧ 0 < available g st.f j (direction g u j)
      · rw [if_pos hc, if_pos hc]
        have h1 := MIN_pos h0 hc.2
        have h2 := MIN_le_left (st.e u) (available g st.f j (direction g u j))
        have h3 := hI.le u
        have hS := capSum_nonneg hw.caps
        unfold CapsFit at hF
        rw [int32_eq (x := st.e u - MIN (st.e u) (available g st.f j (direction g u j)))
          (by omega) (by omega)]
        exact ih (scanPush g st i u j) hrest2 (compOk_scanPush hw hi hj h0 hc.2 hI)
      · rw [if_neg hc, if_neg hc]
        exact ih st hrest2 hI
    · rw [if_neg h0, if_neg h0]
      exact ⟨rfl, hI⟩

theorem compOk_congr {g : Graph} {thr : Nat} (st st2 : PState) (he : st2.e = st.e)
    (hf : st2.f = st.f) (ha : st2.action = st.action) (hI : CompOk g thr st) :
    CompOk g thr st2 := by
  refine ⟨by rw [hf]; exact hI.cap, by rw [he]; exact hI.nonneg, by rw [he]; exact hI.le, ?_⟩
  have : ve st2 thr = ve st thr := by unfold ve; rw [he, ha]
  rw [this]
  exact hI.tot

theorem work_node_32_spec {g : Graph} (hw : SeqWF g) (hF : CapsFit g) {thr i : Nat}
    (hi : i < thr) (u : Nat) {st : PState} (hI : CompOk g thr st) :
    work_node_32 g i u st = work_node g i u st ∧ CompOk g thr (work_node g i u st) := by
  obtain ⟨h1, h2⟩ := work_scan_32_spec hw hF hi u (g.adj u) st (fun _ hj => hj) hI
  refine ⟨?_, ?_⟩
  · unfold work_node_32 work_node
    rw [h1]
  · rw [work_node_eq]
    split
    · refine ⟨h2.cap, h2.nonneg, h2.le, ?_⟩
      rw [relabel_ve _ hi]
      exact h2.tot
    · exact h2

theorem work_compute_32_spec {g : Graph} (hw : SeqWF g) (hF : CapsFit g) {thr i : Nat}
    (hi : i < thr) :
    ∀ (k : Nat) (st : PState), CompOk g thr st →
      work_compute_32 g i k st = work_compute g i k st ∧
        ∀ st2, work_compute g i k st = some st2 → CompOk g thr st2 := by
  intro k
  induction k with
  | zero =>
    intro st _
    refine ⟨rfl, fun st2 h => ?_⟩
    simp [work_compute] at h
  | succ k ih =>
    intro st hI
    unfold work_compute_32 work_compute pop_active
    cases hact : st.active i with
    | none =>
      simp only
      refine ⟨trivial, fun st2 h => ?_⟩
      rw [← Option.some.inj h]
      exact hI
    | some u =>
      simp only
      have hI1 : CompOk g thr { st with active := Function.update st.active i (st.next u) } :=
        compOk_congr st _ rfl rfl rfl hI
      obtain ⟨h1, h2⟩ := work_node_32_spec hw hF hi u hI1
      rw [h1]
      exact ih _ h2

theorem compute_workers_32_spec {g : Graph} (hw : SeqWF g) (hF : CapsFit g) {thr : Nat}
    (fuel : Nat) :
    ∀ (is : List Nat) (st : PState), (∀ i ∈ is, i < thr) → CompOk g thr st →
      compute_workers_32 g fuel is st = compute_workers g fuel is st ∧
        ∀ st2, compute_workers g fuel is st = some st2 → CompOk g thr st2 := by
  intro is
  induction is with
  | nil =>
    intro st _ hI
    refine ⟨rfl, fun st2 h => ?_⟩
    simp only [compute_workers, Option.some.injEq] at h
    exact h ▸ hI
  | cons i is ih =>
    intro st his hI
    obtain ⟨h1, h2⟩ := work_compute_32_spec hw hF (his i (List.mem_cons_self _ _)) fuel st hI
    unfold compute_workers_32 compute_workers
    rw [h1]
    cases hc : work_compute g i fuel st with
    | none =>
      refine ⟨rfl, fun st2 h => ?_⟩
      simp at h
    | some st1 =>
      simp only
      exact ih st1 (fun k hk => his k (List.mem_cons_of_mem _ hk)) (h2 st1 hc)

/-! ## lab3 in 32-bit arithmetic: the apply phase -/

theorem apply_action_32_eq (g : Graph) (i : Nat) (a : Action) (st : PState)
    (hrel : a.relabel = true → -2147483649 ≤ st.h a.node ∧ st.h a.node ≤ 2147483646)
    (hpush : a.relabel = false →
      (-2147483648 ≤ st.e a.node + a.flo ∧ st.e a.node + a.flo ≤ 2147483647) ∧
      (-2147483648 ≤ a.flo * a.dir ∧ a.flo * a.dir ≤ 2147483647) ∧
      (-2147483648 ≤ st.f a.edge + a.flo * a.dir ∧ st.f a.edge + a.flo * a.dir ≤ 2147483647)) :
    apply_action_32 g i a st = apply_action g i a st := by
  unfold apply_action_32 apply_action
  by_cases hr : a.relabel = true
  · obtain ⟨h1, h2⟩ := hrel hr
    rw [if_pos hr, if_pos hr, int32_eq (x := st.h a.node + 1) (by omega) (by omega)]
  · obtain ⟨⟨h1, h2⟩, ⟨h3, h4⟩, h5, h6⟩ := hpush (by simpa using hr)
    rw [if_neg hr, if_neg hr]
    simp only
    rw [int32_eq h1 h2, int32_eq h3 h4, int32_eq h5 h6]

theorem apply_queue_32_eq {g : Graph} {i : Nat} (P : PState → Prop)
    (hstep : ∀ st a rest, P st → st.action i = a :: rest →
      P (apply_action g i a (popped st i rest)))
    (hb : ∀ st a rest, P st → st.action i = a :: rest →
      apply_action_32 g i a (popped st i rest) = apply_action g i a (popped st i rest))
    (acts : List Action) (st : PState) (hq : st.action i = acts) (hP : P st) :
    apply_queue_32 g i acts st = apply_queue g i acts st := by
  induction acts generalizing st with
  | nil => rfl
  | cons a rest ih =>
    have e1 : apply_queue_32 g i (a :: rest) st =
        apply_queue_32 g i rest (apply_action_32 g i a (popped st i rest)) := rfl
    have e2 : apply_queue g i (a :: rest) st =
        apply_queue g i rest (apply_action g i a (popped st i rest)) := rfl
    rw [e1, e2, hb st a rest hP hq]
    apply ih
    · rw [apply_action_action]; simp [popped]
    · exact hstep st a rest hP hq

theorem apply_workers_32_eq {g : Graph} {thr : Nat} (P : PState → Prop)
    (hstep : ∀ i, i < thr → ∀ st a rest, P st → st.action i = a :: rest →
      P (apply_action g i a (popped st i rest)))
    (hb : ∀ i, i < thr → ∀ st a rest, P st → st.action i = a :: rest →
      apply_action_32 g i a (popped st i rest) = apply_action g i a (popped st i rest))
    (is : List Nat) (his : ∀ i ∈ is, i < thr) (st : PState) (d : Nat) (hP : P st) :
    apply_workers_32 g is (st, d) = apply_workers g is (st, d) := by
  induction is generalizing st d with
  | nil => rfl
  | cons i is ih =>
    have hi := his i (List.mem_cons_self _ _)
    have e1 : apply_workers_32 g (i :: is) (st, d) =
        apply_workers_32 g is (apply_queue_32 g i (st.action i) st,
          if (apply_queue_32 g i (st.action i) st).active i = none then d + 1 else d) := rfl
    have e2 : apply_workers g (i :: is) (st, d) =
        apply_workers g is (apply_queue g i (st.action i) st,
          if (apply_queue g i (st.action i) st).active i = none then d + 1 else d) := rfl
    rw [e1, e2, apply_queue_32_eq P (hstep i hi) (hb i hi) (st.action i) st rfl hP]
    exact ih (fun k hk => his k (List.mem_cons_of_mem _ hk)) _ _
      (apply_queue_spec P (hstep i hi) (st.action i) st rfl hP).1

theorem apply_phase_32_eq {g : Graph} {thr : Nat} (P : PState → Prop)
    (hstep : ∀ i, i < thr → ∀ st a rest, P st → st.action i = a :: rest →
      P (apply_action g i a (popped st i rest)))
    (hb : ∀ i, i < thr → ∀ st a rest, P st → st.action i = a :: rest →
      apply_action_32 g i a (popped st i rest) = apply_action g i a (popped st i rest))
    (st : PState) (hP : P st) : apply_phase_32 g thr st = apply_phase g thr st := by
  unfold apply_phase_32 apply_phase
  rw [apply_workers_32_eq P hstep hb (List.range thr) (fun i hi => List.mem_range.mp hi) st 0 hP]

theorem inInd_nonneg {thr : Nat} {st : PState}
    (hflo : ∀ i, i < thr → ∀ a ∈ st.action i, a.relabel = false → 0 < a.flo) (x : Nat) :
    ∀ k, k < thr → ∀ b ∈ st.action k, 0 ≤ inInd x b := by
  intro k hk b hb
  unfold inInd
  split
  · rename_i h
    exact le_of_lt (hflo k hk b hb h.1)
  · exact le_refl _

theorem relInd_nonneg (x : Nat) (a : Action) : 0 ≤ relInd x a := by
  unfold relInd; split <;> simp

theorem applyOk_step {g : Graph} {thr i : Nat} (hi : i < thr) {a : Action}
    {rest : List Action} {st : PState} (hq : st.action i = a :: rest)
    (hI : ApplyOk g thr st) : ApplyOk g thr (apply_action g i a (popped st i rest)) := by
  obtain ⟨v1, v2, _⟩ := apply_action_virtual g hi hq
  refine ⟨safeApply_step hi hq hI.safe, ?_, ?_, ?_⟩
  · rw [v2]; exact hI.tot
  · rw [v1]; exact hI.hlow
  · rw [v1]; exact hI.hbound

/-- One action of the apply phase in 32-bit arithmetic, on an input that
fits: it is the action of exact arithmetic. -/
theorem applyOk_action {g : Graph} (hc : NonnegCaps g) (hF : FitsInt g) {thr i : Nat}
    (hi : i < thr) {a : Action} {rest : List Action} {st : PState}
    (hq : st.action i = a :: rest) (hI : ApplyOk g thr st) :
    apply_action_32 g i a (popped st i rest) = apply_action g i a (popped st i rest) := by
  have ha : a ∈ st.action i := hq ▸ List.mem_cons_self _ _
  have hn := hF.1
  have hcf := hF.2
  unfold CapsFit at hcf
  apply apply_action_32_eq
  · intro hr
    show -2147483649 ≤ st.h a.node ∧ st.h a.node ≤ 2147483646
    have h1 := hI.hlow a.node
    have h2 := hI.hbound a.node
    rw [vh_eq] at h1 h2
    rcases hI.safe.1.rc01 a.node with h | h <;> rw [h] at h1 h2 <;> constructor <;> omega
  · intro hr
    show (-2147483648 ≤ st.e a.node + a.flo ∧ st.e a.node + a.flo ≤ 2147483647) ∧
      (-2147483648 ≤ a.flo * a.dir ∧ a.flo * a.dir ≤ 2147483647) ∧
      (-2147483648 ≤ st.f a.edge + a.flo * a.dir ∧ st.f a.edge + a.flo * a.dir ≤ 2147483647)
    obtain ⟨hjm, hdir, hpos, hle⟩ := hI.safe.2.pend i hi a ha hr
    have hnn : NonNeg (ve st thr) := by
      intro x
      unfold ve
      have := qsum_nonneg (inInd x) st.action thr (inInd_nonneg hI.safe.1.flo x)
      have := hI.safe.1.nonneg x
      omega
    have hve := totInv_le hnn hI.tot a.node
    have hq2 := qsum_mem_le (inInd a.node) st.action hi (inInd_nonneg hI.safe.1.flo a.node) ha
    have hin : inInd a.node a = a.flo := by unfold inInd; simp [hr]
    rw [hin] at hq2
    unfold ve at hve
    have he0 := hI.safe.1.nonneg a.node
    have hc0 := abs_le.mp (hI.safe.2.cap a.edge hjm)
    have hc1 := cap_le_capSum hc hjm
    unfold available at hle
    rcases hdir with hd | hd <;> rw [hd] at hle ⊢ <;> refine ⟨⟨?_, ?_⟩, ⟨?_, ?_⟩, ?_, ?_⟩ <;> omega

/-! ## lab3 in 32-bit arithmetic: rounds on inputs that fit -/

theorem safeRound_of_roundInv {g : Graph} {thr : Nat} {R : PState} (hR : RoundInv g thr R) :
    SafeRound g thr R :=
  ⟨hR.virt.cap, hR.virt.nonneg,
    ⟨Active g R.e, hR.parts, fun _ h => h, fun _ h => ⟨h.1, h.2.1⟩⟩, hR.queues⟩

theorem seqWF_of_no_edges {g : Graph} (h : g.edges = []) : SeqWF g ∧ capSum g = 0 ∧ g.m = 0 := by
  refine ⟨⟨?_, ?_, ?_⟩, ?_, ?_⟩
  · intro e he; rw [h] at he; simp at he
  · intro e he; rw [h] at he; simp at he
  · intro e he; rw [h] at he; simp at he
  · unfold capSum; rw [h]; rfl
  · unfold Graph.m; rw [h]; rfl

theorem compOk_of_roundOk {g : Graph} {thr : Nat} {st : PState} (hO : RoundOk g thr st) :
    SeqWF g ∧ CompOk g thr st := by
  rcases hO with ⟨hw, hR, hT⟩ | ⟨he, hI⟩
  · refine ⟨hw.seqWF, hR.virt.cap, hR.virt.nonneg, totInv_le hR.virt.nonneg hT, ?_⟩
    rw [(vfields_of_empty hR.queues).2.1]
    exact hT
  · obtain ⟨hw, hS, hm⟩ := seqWF_of_no_edges he
    have hve : ve st thr = fun _ => 0 := by
      funext x
      unfold ve
      rw [qsum_empty _ _ _ (fun i _ => hI.2.1 i), hI.2.2 x]
      rfl
    refine ⟨hw, ?_, ?_, ?_, ?_, ?_⟩
    · intro j hj; rw [hm] at hj; exact absurd hj (Nat.not_lt_zero _)
    · intro x; rw [hI.2.2 x]
    · intro x; rw [hI.2.2 x, hS]
    · rw [hve, hS]; simp
    · intro x _; rw [hve]

/-- One round in 32-bit arithmetic from a round boundary of exact arithmetic,
on an input that fits: both phases are those of exact arithmetic. -/
theorem round_32_ok {g : Graph} (hF : FitsInt g) {thr : Nat} (ht : 1 ≤ thr) {R : PState}
    (hO : RoundOk g thr R) (hf : R.fin = false) (fuel : Nat) :
    compute_workers_32 g fuel (List.range thr) R = compute_workers g fuel (List.range thr) R ∧
      ∀ st1, compute_workers g fuel (List.range thr) R = some st1 →
        apply_phase_32 g thr st1 = apply_phase g thr st1 ∧
          RoundOk g thr (apply_phase g thr st1) := by
  obtain ⟨hs, hC⟩ := compOk_of_roundOk hO
  obtain ⟨h1, h2⟩ := compute_workers_32_spec hs hF.2 fuel (List.range thr) R
    (fun i hi => List.mem_range.mp hi) hC
  refine ⟨h1, fun st1 hcw => ?_⟩
  rcases hO with ⟨hw, hR, hT⟩ | ⟨he, hI⟩
  · obtain ⟨st1', k1, hCI, hnone⟩ := compute_round_spec hw hR (max fuel (g.n + 1)) (by omega)
    have := compute_workers_mono_le hcw (le_max_left fuel (g.n + 1))
    rw [k1] at this
    have hst : st1' = st1 := Option.some.inj this
    subst hst
    have hA := applyInv_of_compInv hCI hnone
    have hV := virtInv_of_compInv hR hCI
    have hOk : ApplyOk g thr st1' :=
      ⟨(compute_safe_spec hw.noLoops (safeRound_of_roundInv hR) hcw).1, (h2 st1' hcw).tot,
        hV.hlow, hV.hbound⟩
    obtain ⟨a1, _, a3, _, _⟩ := apply_phase_spec hA hV (hCI.base.fin_eq.trans hf)
    refine ⟨?_, Or.inl ⟨hw, a1, ?_⟩⟩
    · exact apply_phase_32_eq (ApplyOk g thr)
        (fun i hi s a rest hs hq => applyOk_step hi hq hs)
        (fun i hi s a rest hs hq => applyOk_action hw.caps.nonneg hF hi hq hs) st1' hOk
    · rw [a3]; exact (h2 st1' hcw).tot
  · obtain ⟨k1, _, k3⟩ := idle3_round ht hI hcw
    subst k1
    refine ⟨?_, Or.inr ⟨he, k3⟩⟩
    exact apply_phase_32_eq (fun s => ∀ i, s.action i = [])
      (fun i _ s a rest hs hq => absurd (hs i) (by rw [hq]; simp))
      (fun i _ s a rest hs hq => absurd (hs i) (by rw [hq]; simp)) st1 hI.2.1

theorem rounds_32_succ (g : Graph) (thr fuel k : Nat) (st : PState) :
    rounds_32 g thr fuel (k + 1) st =
      if st.fin = true then Outcome.returned st
      else
        match compute_workers_32 g fuel (List.range thr) st with
        | none => Outcome.timeout
        | some st1 => rounds_32 g thr fuel k (apply_phase_32 g thr st1) := rfl

theorem rounds_32_eq {g : Graph} (hF : FitsInt g) {thr : Nat} (ht : 1 ≤ thr) (fuel k : Nat) :
    ∀ st, RoundOk g thr st → rounds_32 g thr fuel k st = rounds g thr fuel k st := by
  induction k with
  | zero => intro st _; rfl
  | succ k ih =>
    intro st hO
    rw [rounds_32_succ, rounds_succ]
    by_cases hf : st.fin = true
    · rw [if_pos hf, if_pos hf]
    · rw [if_neg hf, if_neg hf]
      obtain ⟨h1, h2⟩ := round_32_ok hF ht hO (by simpa using hf) fuel
      rw [h1]
      cases hc : compute_workers g fuel (List.range thr) st with
      | none => rfl
      | some st1 =>
        simp only
        obtain ⟨h3, h4⟩ := h2 st1 hc
        rw [h3]
        exact ih _ h4

theorem seed3_32_cons (g : Graph) (thr : Nat) (j : Nat) (adj : List Nat) (i : Nat)
    (st : PState) :
    seed3_32 g thr (j :: adj) i st =
      seed3_32 g thr adj (if (i : Int) = (thr : Int) - 1 then 0 else i + 1)
        (add_active g
          { st with f := (Function.update st.f j
                      (int32 (st.f j + int32 (direction g g.s j * g.cap j)))),
                    e := (Function.update st.e (other g g.s j)
                      (int32 (st.e (other g g.s j) + g.cap j))) }
          (other g g.s j) i) := rfl

/-- The seeding loop of lab3 in 32-bit arithmetic is the loop of exact
arithmetic, and it ends with total excess at most the sum of the capacities. -/
theorem seed3_32_spec {g : Graph} (hw : SeqWF g) (hF : CapsFit g) (thr : Nat) :
    ∀ (rest : List Nat) (i : Nat) (st : PState), (∀ k ∈ rest, k ∈ g.adj g.s) → rest.Nodup →
      SeedOk g st.e st.f rest →
      seed3_32 g thr rest i st = seed3 g thr rest i st ∧
        SeedOk g (seed3 g thr rest i st).e (seed3 g thr rest i st).f [] := by
  intro rest
  induction rest with
  | nil => intro i st _ _ h; exact ⟨rfl, h⟩
  | cons j rest ih =>
    intro i st hrest hn h
    obtain ⟨hjr, hn2⟩ := List.nodup_cons.mp hn
    have hrest2 : ∀ k ∈ rest, k ∈ g.adj g.s := fun k hk => hrest k (List.mem_cons_of_mem _ hk)
    obtain ⟨e1, e2, h2⟩ := seedOk_step hw hF (hrest j (List.mem_cons_self _ _)) hjr hrest2 h
    rw [seed3_32_cons, seed3_cons, e1, e2]
    apply ih _ _ hrest2 hn2
    rw [add_active_e, add_active_f]
    exact h2

theorem seeded3_32_spec {g : Graph} (hw : SeqWF g) (hF : CapsFit g) (thr : Nat) :
    seeded3_32 g thr initPState = seeded3 g thr initPState ∧
      TotInv g (seeded3 g thr initPState).e (capSum g) := by
  obtain ⟨h1, h2⟩ := seed3_32_spec hw hF thr (g.adj g.s) 0
    { initPState with h := Function.update initPState.h g.s (g.n : Int) } (fun _ hk => hk)
    (nodup_adj hw.noLoops _) (seedOk_start hw)
  refine ⟨h1, ?_⟩
  have := h2.tot
  simpa using this

theorem seeded3_ok {g : Graph} {thr : Nat} (ht : 1 ≤ thr) (hr : InRange g)
    (hc : PositiveCaps g) (hl : NoSelfLoops g) (hp : NoParallel g) (hF : FitsInt g) :
    RoundOk g thr (seeded3 g thr initPState) := by
  by_cases hn : 2 ≤ g.n
  · have hw : PosWF g := ⟨hn, hr, hl, hc⟩
    exact Or.inl ⟨hw, (seeded3_roundInv hw hp ht).1, (seeded3_32_spec hw.seqWF hF.2 thr).2⟩
  · have he := edges_nil_of_small (not_le.mp hn) hr hl
    have hg := graph_eq_no_edges (not_le.mp hn) hr hl
    refine Or.inr ⟨he, ?_⟩
    rw [hg]
    exact seeded3_no_edges _ _

theorem roundReach_ok {g : Graph} {thr fuel : Nat} (ht : 1 ≤ thr) (hr : InRange g)
    (hc : PositiveCaps g) (hl : NoSelfLoops g) (hp : NoParallel g) (hF : FitsInt g)
    {st : PState} (h : RoundReach g thr fuel st) : RoundOk g thr st := by
  induction h with
  | seeded => exact seeded3_ok ht hr hc hl hp hF
  | round _ hf hcw ih => exact ((round_32_ok hF ht ih hf fuel).2 _ hcw).2

/-- On inputs that fit, the round boundaries of lab3 in 32-bit arithmetic are
those of exact arithmetic. -/
theorem roundReach_32_exact {g : Graph} {thr fuel : Nat} (ht : 1 ≤ thr) (hr : InRange g)
    (hc : PositiveCaps g) (hl : NoSelfLoops g) (hp : NoParallel g) (hF : FitsInt g)
    {st : PState} (h : RoundReach_32 g thr fuel st) : RoundReach g thr fuel st := by
  induction h with
  | seeded =>
    rw [(seeded3_32_spec ⟨hr, hl, hc.nonneg⟩ hF.2 thr).1]
    exact RoundReach.seeded
  | round _ hf hcw ih =>
    obtain ⟨h1, h2⟩ := round_32_ok hF ht (roundReach_ok ht hr hc hl hp hF ih) hf fuel
    rw [h1] at hcw
    rw [(h2 _ hcw).1]
    exact RoundReach.round ih hf hcw

/-- On inputs that fit, lab3's `preflow` computes in 32-bit arithmetic what
it computes in exact arithmetic. -/
theorem preflow3_state_32_eq {g : Graph} {thr : Nat} (ht : 1 ≤ thr) (hr : InRange g)
    (hc : PositiveCaps g) (hl : NoSelfLoops g) (hp : NoParallel g) (hF : FitsInt g)
    (fuel : Nat) :
    preflow3_state_32 g thr initPState fuel = preflow3_state g thr initPState fuel := by
  unfold preflow3_state_32 preflow3_state
  rw [(seeded3_32_spec ⟨hr, hl, hc.nonneg⟩ hF.2 thr).1]
  exact rounds_32_eq hF ht fuel fuel _ (seeded3_ok ht hr hc hl hp hF)

theorem preflow3_32_eq {g : Graph} {thr : Nat} (ht : 1 ≤ thr) (hr : InRange g)
    (hc : PositiveCaps g) (hl : NoSelfLoops g) (hp : NoParallel g) (hF : FitsInt g)
    (fuel : Nat) :
    preflow3_32 g thr initPState fuel = preflow3 g thr initPState fuel := by
  unfold preflow3_32 preflow3
  rw [preflow3_state_32_eq ht hr hc hl hp hF]

/-! ## Runs in 32-bit arithmetic, round by round -/

theorem roundReach_32_roundsN {g : Graph} {thr fuel : Nat} (k : Nat) {st st2 : PState}
    (h : RoundReach_32 g thr fuel st) (hk : roundsN_32 g thr fuel k st = some st2) :
    RoundReach_32 g thr fuel st2 := by
  induction k generalizing st with
  | zero =>
    simp only [roundsN_32, Option.some.injEq] at hk
    exact hk ▸ h
  | succ k ih =>
    unfold roundsN_32 at hk
    by_cases hf : st.fin = true
    · rw [if_pos hf] at hk; exact absurd hk (by simp)
    · rw [if_neg hf] at hk
      cases hc : compute_workers_32 g fuel (List.range thr) st with
      | none => rw [hc] at hk; exact absurd hk (by simp)
      | some st1 =>
        rw [hc] at hk
        exact ih (RoundReach_32.round h (by simpa using hf) hc) hk

theorem preflow32_eq_all {g : Graph} (hr : InRange g) (hc : PositiveCaps g) (hl : NoSelfLoops g)
    (hF : FitsInt g) (fuel : Nat) : preflow32 g initState fuel = preflow g initState fuel := by
  by_cases hn : 2 ≤ g.n
  · exact preflow32_eq ⟨hn, hr, hl, hc⟩ hF fuel
  · have hg := graph_eq_no_edges (not_le.mp hn) hr hl
    rw [hg]
    cases fuel <;> rfl

/-! ## lab3: the partitions at round boundaries -/

theorem roundReach_parts {g : Graph} {thr fuel : Nat} (ht : 1 ≤ thr) (hr : InRange g)
    (hc : PositiveCaps g) (hl : NoSelfLoops g) (hp : NoParallel g) {st : PState}
    (h : RoundReach g thr fuel st) :
    PartsInv thr st.next st.active (Active g st.e) ∧ (∀ x, 0 ≤ st.e x) ∧
      (st.fin = true → ∀ x, ¬ Active g st.e x) := by
  by_cases hn : 2 ≤ g.n
  · have hw : PosWF g := ⟨hn, hr, hl, hc⟩
    refine ⟨(roundReach_inv hw hp ht h).parts, (roundReach_inv hw hp ht h).virt.nonneg, ?_⟩
    cases h with
    | seeded =>
      intro hf
      rw [(seeded3_roundInv hw hp ht).2] at hf
      exact absurd hf (by simp)
    | @round st0 st1 h0 hf hcw =>
      intro hfin
      obtain ⟨st1', h1, _, hiff, _⟩ := round_spec hw (roundReach_inv hw hp ht h0) hf
        (max fuel (g.n + 1)) (by omega)
      have := compute_workers_mono_le hcw (le_max_left fuel (g.n + 1))
      rw [h1] at this
      have hst : st1' = st1 := Option.some.inj this
      subst hst
      exact hiff.mp hfin
  · have hg := graph_eq_no_edges (not_le.mp hn) hr hl
    have hI : Idle3 st := by
      induction h with
      | seeded => rw [hg]; exact seeded3_no_edges _ _
      | round _ _ hcw ih => exact (idle3_round ht ih hcw).2.2
    refine ⟨idle3_parts g thr hI, fun x => by rw [hI.2.2 x], fun _ x hx => ?_⟩
    have := hx.2.2
    rw [hI.2.2 x] at this
    exact absurd this (by simp)

theorem roundReach_fin_iff {g : Graph} {thr fuel : Nat} (ht : 1 ≤ thr) (hr : InRange g)
    (hc : PositiveCaps g) (hl : NoSelfLoops g) (hp : NoParallel g) {st st1 : PState}
    (h : RoundReach g thr fuel st) (hf : st.fin = false)
    (hcw : compute_workers g fuel (List.range thr) st = some st1) :
    (apply_phase g thr st1).fin = true ↔ ∀ x, ¬ Active g (apply_phase g thr st1).e x := by
  by_cases hn : 2 ≤ g.n
  · have hw : PosWF g := ⟨hn, hr, hl, hc⟩
    obtain ⟨st1', h1, _, hiff, _⟩ := round_spec hw (roundReach_inv hw hp ht h) hf
      (max fuel (g.n + 1)) (by omega)
    have := compute_workers_mono_le hcw (le_max_left fuel (g.n + 1))
    rw [h1] at this
    have hst : st1' = st1 := Option.some.inj this
    subst hst
    exact hiff
  · have hg := graph_eq_no_edges (not_le.mp hn) hr hl
    have hI : Idle3 st := by
      clear hcw hf
      induction h with
      | seeded => rw [hg]; exact seeded3_no_edges _ _
      | round _ _ hcw ih => exact (idle3_round ht ih hcw).2.2
    obtain ⟨_, h2, h3⟩ := idle3_round ht hI hcw
    constructor
    · intro _ x hx
      have := hx.2.2
      rw [h3.2.2 x] at this
      exact absurd this (by simp)
    · intro _
      rw [h2]

theorem preflow3_state_final {g : Graph} {thr : Nat} (ht : 1 ≤ thr) (hr : InRange g)
    (hc : PositiveCaps g) (hl : NoSelfLoops g) (hp : NoParallel g) :
    (∃ fuel st, preflow3_state g thr initPState fuel = Outcome.returned st) ∧
      ∀ fuel st, preflow3_state g thr initPState fuel = Outcome.returned st →
        ∀ x, x ≠ g.s → x ≠ g.t → st.e x = 0 := by
  by_cases hn : 2 ≤ g.n
  · have hw : PosWF g := ⟨hn, hr, hl, hc⟩
    obtain ⟨fuel, st, h1, _⟩ := preflow3_state_returns hw hp ht
    refine ⟨⟨fuel, st, h1⟩, ?_⟩
    intro fuel2 st2 h2 x hxs hxt
    obtain ⟨hR, hf⟩ := seeded3_roundInv hw hp ht
    obtain ⟨hR2, hno⟩ := rounds_returned_inv hw fuel2 _ _ h2 hR
      (fun h => absurd h (by rw [hf]; simp))
    have h0 := hR2.virt.nonneg x
    have h3 : ¬ 0 < st2.e x := fun h => hno x ⟨hxs, hxt, h⟩
    omega
  · have hg := graph_eq_no_edges (not_le.mp hn) hr hl
    have hI : Idle3 (seeded3 g thr initPState) := by rw [hg]; exact seeded3_no_edges _ _
    have hfin : (seeded3 g thr initPState).fin = false := by rw [hg]; rfl
    refine ⟨⟨2, { seeded3 g thr initPState with fin := true }, ?_⟩, ?_⟩
    · unfold preflow3_state
      exact rounds_idle g thr 1 0 hfin hI.1 hI.2.1
    · intro fuel st h x _ _
      exact (idle3_rounds ht fuel _ _ hI h).2.2 x

/-! ## lab3 on `gOv` in 32-bit arithmetic: the rounds never end -/

theorem ovStuck_seeded : OvStuck (seeded3_32 gOv 1 initPState) :=
  ⟨by decide, by decide, by decide, by decide, by decide, Or.inl ⟨by decide, by decide⟩⟩

/-- On `gOv` the residual capacity of the source edge seen from node `1`
wraps to a negative number once the edge is saturated. -/
theorem gOv_available_back (f : Nat → Int) (h : f 0 = 2000000000) :
    available32 gOv f 0 (-1) = -294967296 := by
  have hcap : gOv.cap 0 = 2000000000 := by decide
  unfold available32
  rw [h, hcap]
  decide

theorem gOv_available_fwd (f : Nat → Int) :
    available32 gOv f 1 1 = int32 (1 - int32 (f 1)) := by
  have hcap : gOv.cap 1 = 1 := by decide
  unfold available32
  rw [hcap, one_mul]

/-- Node `1` of `gOv` only relabels when it cannot push to the sink. -/
theorem ov_node_relabel {S : PState} (hf0 : S.f 0 = 2000000000) (he : S.e 1 > 0)
    (hno : ¬ (S.h 1 > S.h 2 ∧ int32 (1 - int32 (S.f 1)) > 0)) :
    work_node_32 gOv 0 1 S = queue_action S ⟨1, true, 0, 0, 0⟩ 0 := by
  have hadj : gOv.adj 1 = [1, 0] := by decide
  have ho1 : other gOv 1 1 = 2 := by decide
  have ho0 : other gOv 1 0 = 0 := by decide
  have hd1 : direction gOv 1 1 = 1 := by decide
  have hd0 : direction gOv 1 0 = -1 := by decide
  have hb := gOv_available_back S.f hf0
  have hfw := gOv_available_fwd S.f
  unfold work_node_32
  rw [hadj]
  simp only [work_scan_32, he, if_true, ho1, ho0, hd1, hd0, hfw, hb, hno, if_false]
  have : ¬ (S.h 1 > S.h 0 ∧ (-294967296 : Int) > 0) := fun h => absurd h.2 (by decide)
  simp only [this, if_false, he, if_true]

/-- Node `1` of `gOv` pushes one unit to the sink and then relabels. -/
theorem ov_node_push {S : PState} (hf0 : S.f 0 = 2000000000) (hf1 : S.f 1 = 0)
    (he : S.e 1 = 2000000000) (hh : S.h 1 > S.h 2) :
    work_node_32 gOv 0 1 S =
      queue_action
        (queue_action { S with e := Function.update S.e 1 1999999999 } ⟨2, false, 1, 1, 1⟩ 0)
        ⟨1, true, 0, 0, 0⟩ 0 := by
  have hadj : gOv.adj 1 = [1, 0] := by decide
  have ho1 : other gOv 1 1 = 2 := by decide
  have ho0 : other gOv 1 0 = 0 := by decide
  have hd : direction gOv 1 1 = 1 := by decide
  have hd0 : direction gOv 1 0 = -1 := by decide
  have hb := gOv_available_back S.f hf0
  have hfw := gOv_available_fwd S.f
  have he0 : S.e 1 > 0 := by rw [he]; decide
  have hav : int32 (1 - int32 (S.f 1)) = 1 := by rw [hf1]; decide
  have hmin : MIN (S.e 1) 1 = 1 := by rw [he]; decide
  have hsub : int32 (S.e 1 - 1) = 1999999999 := by rw [he]; decide
  unfold work_node_32
  rw [hadj]
  have hp1 : (1 : Int) > 0 := by decide
  have hp2 : (1999999999 : Int) > 0 := by decide
  have hn : ¬ (S.h 1 > S.h 0 ∧ (-294967296 : Int) > 0) := fun h => absurd h.2 (by decide)
  simp only [work_scan_32, he0, if_true, ho1, ho0, hfw, hav, hh, true_and, hmin, hsub,
    queue_action, Function.update_same, hb, hd, hd0, hp1, hp2, hn, if_false]

theorem ov_compute {R T : PState} (k : Nat) (h1 : R.active 0 = some 1) (h2 : R.next 1 = none)
    (hT : work_node_32 gOv 0 1 { R with active := Function.update R.active 0 none } = T)
    (hTa : T.active 0 = none) :
    compute_workers_32 gOv (k + 2) (List.range 1) R = some T := by
  have hr : List.range 1 = [0] := by decide
  rw [hr]
  simp only [compute_workers_32, work_compute_32, pop_active, h1, h2, hT, hTa]

/-- The apply phase after node `1` of `gOv` only relabelled. -/
theorem ov_apply_relabel {S : PState} (ha : S.active 0 = none) (hq : S.action 0 = []) :
    apply_phase_32 gOv 1 (queue_action S ⟨1, true, 0, 0, 0⟩ 0) =
      { S with h := Function.update S.h 1 (int32 (S.h 1 + 1)),
               next := Function.update S.next 1 none,
               active := Function.update S.active 0 (some 1),
               action := Function.update (Function.update S.action 0 [⟨1, true, 0, 0, 0⟩]) 0 [] } := by
  have hr : List.range 1 = [0] := by decide
  have hst : ((1 : Nat) ≠ gOv.t ∧ (1 : Nat) ≠ gOv.s) := by decide
  unfold apply_phase_32
  rw [hr]
  simp only [apply_workers_32, queue_action, Function.update_same, hq, apply_queue_32,
    apply_action_32, if_true, add_active, if_pos hst, ha]
  simp

/-- The apply phase after node `1` of `gOv` pushed to the sink and
relabelled. -/
theorem ov_apply_push {S : PState} (ha : S.active 0 = none) (hq : S.action 0 = [])
    (hf1 : S.f 1 = 0) :
    apply_phase_32 gOv 1
        (queue_action (queue_action S ⟨2, false, 1, 1, 1⟩ 0) ⟨1, true, 0, 0, 0⟩ 0) =
      { S with h := Function.update S.h 1 (int32 (S.h 1 + 1)),
               e := Function.update S.e 2 (int32 (S.e 2 + 1)),
               f := Function.update S.f 1 1,
               next := Function.update S.next 1 none,
               active := Function.update S.active 0 (some 1),
               action := Function.update S.action 0 [] } := by
  have hr : List.range 1 = [0] := by decide
  have hst : ((1 : Nat) ≠ gOv.t ∧ (1 : Nat) ≠ gOv.s) := by decide
  have hst2 : ¬ ((2 : Nat) ≠ gOv.t ∧ (2 : Nat) ≠ gOv.s) := by decide
  have h11 : int32 (0 + int32 (1 * 1)) = 1 := by decide
  unfold apply_phase_32
  rw [hr]
  simp only [apply_workers_32, queue_action, Function.update_same, hq, apply_queue_32,
    apply_action_32, if_true, add_active, if_pos hst, if_neg hst2, ha, ite_self, hf1, h11]
  simp

theorem ovStuck_of_eq {X Y : PState} (e : X = Y) (h : OvStuck Y) : OvStuck X := e ▸ h

/-- One round of lab3 on `gOv` in 32-bit arithmetic keeps node `1` stuck. -/
theorem ovStuck_round {R : PState} (k : Nat) (h : OvStuck R) :
    ∃ st1, compute_workers_32 gOv (k + 2) (List.range 1) R = some st1 ∧
      OvStuck (apply_phase_32 gOv 1 st1) := by
  obtain ⟨h1, h2, h3, h4, h5, h6⟩ := h
  have hrel : ∀ (_ : R.e 1 > 0) (_ : ¬ (R.h 1 > R.h 2 ∧ int32 (1 - int32 (R.f 1)) > 0)),
      ∃ st1, compute_workers_32 gOv (k + 2) (List.range 1) R = some st1 ∧
        OvStuck (apply_phase_32 gOv 1 st1) := by
    intro he hno
    refine ⟨_, ov_compute k h1 h2
      (ov_node_relabel (S := { R with active := Function.update R.active 0 none }) h5 he hno)
      (by simp [queue_action]), ?_⟩
    exact ovStuck_of_eq
      (ov_apply_relabel (S := { R with active := Function.update R.active 0 none })
        (by simp) h3)
      ⟨by simp, by simp, by simp, h4, h5, h6⟩
  rcases h6 with ⟨hf, he⟩ | ⟨hf, he⟩
  · by_cases hh : R.h 1 > R.h 2
    · refine ⟨_, ov_compute k h1 h2
        (ov_node_push (S := { R with active := Function.update R.active 0 none }) h5 hf he hh)
        (by simp [queue_action]), ?_⟩
      exact ovStuck_of_eq
        (ov_apply_push (S := { R with active := Function.update R.active 0 none,
                                      e := Function.update R.e 1 1999999999 })
          (by simp) h3 hf)
        ⟨by simp, by simp, by simp, h4, by simpa using h5, Or.inr ⟨by simp, by simp⟩⟩
    · exact hrel (by rw [he]; decide) (fun hx => hh hx.1)
  · refine hrel (by rw [he]; decide) (fun hx => ?_)
    rw [hf] at hx
    exact absurd hx.2 (by decide)

/-- The rounds of lab3 on `gOv` in 32-bit arithmetic never end, whatever the
bounds on the number of rounds and on the worker's loop. -/
theorem ov_rounds_never (fuel : Nat) :
    ∀ (k : Nat) (R : PState), OvStuck R → ∀ st, rounds_32 gOv 1 fuel k R ≠ Outcome.returned st
  | 0, _, _, _ => by simp [rounds_32]
  | k + 1, R, h, st => by
    have h4 := h.fin
    have hr : List.range 1 = [0] := by decide
    unfold rounds_32
    rw [h4]
    simp only [Bool.false_eq_true, if_false]
    match fuel with
    | 0 => simp [hr, compute_workers_32, work_compute_32]
    | 1 => simp [hr, compute_workers_32, work_compute_32, pop_active, h.act]
    | f + 2 =>
      obtain ⟨st1, hc, hs⟩ := ovStuck_round f h
      rw [hc]
      exact ov_rounds_never (f + 2) k _ hs st

theorem preflow3_32_gOv_never (fuel : Nat) (val : Int) :
    preflow3_32 gOv 1 initPState fuel ≠ Outcome.returned val := by
  unfold preflow3_32 preflow3_state_32
  have h := ov_rounds_never fuel fuel _ ovStuck_seeded
  cases hx : rounds_32 gOv 1 fuel fuel (seeded3_32 gOv 1 initPState) with
  | returned st => exact absurd hx (h st)
  | aborted => simp
  | timeout => simp

/-! ## lab2 on `gOv` in 32-bit arithmetic: the worker never leaves its loop -/

theorem ovStuck2_seeded :
    (leave_excess (seeded2_32 gOv initState)).1 = some 1 ∧
      OvStuck2 (leave_excess (seeded2_32 gOv initState)).2 :=
  ⟨by decide, by decide, Or.inl ⟨by decide, by decide⟩⟩

/-- The inner loop of `work` of lab2 for node `1` of `gOv` when it cannot
push to the sink. -/
theorem ov_scan2_none {st : State} (hf0 : st.f 0 = 2000000000)
    (hno : ¬ (st.h 1 > st.h 2 ∧ int32 (1 - int32 (st.f 1)) > 0)) :
    work_scan2_32 gOv 1 [1, 0] ⟨st, []⟩ = some (none, ⟨st, []⟩) := by
  have ho1 : other gOv 1 1 = 2 := by decide
  have ho0 : other gOv 1 0 = 0 := by decide
  have hd1 : direction gOv 1 1 = 1 := by decide
  have hd0 : direction gOv 1 0 = -1 := by decide
  have hb := gOv_available_back st.f hf0
  have hfw := gOv_available_fwd st.f
  have hn : ¬ (st.h 1 > st.h 0 ∧ (-294967296 : Int) > 0) := fun h => absurd h.2 (by decide)
  simp only [work_scan2_32, ho1, ho0, hd1, hd0, lock_in_order, pthread_mutex_lock,
    pthread_mutex_unlock]
  simp [hfw, hb, hno, hn]

/-- The inner loop of `work` of lab2 for node `1` of `gOv` when it can push
to the sink. -/
theorem ov_scan2_found {st : State} (hf1 : st.f 1 = 0) (hh : st.h 1 > st.h 2) :
    work_scan2_32 gOv 1 [1, 0] ⟨st, []⟩ = some (some ⟨2, 1, 1, 1⟩, ⟨st, [2, 1]⟩) := by
  have ho1 : other gOv 1 1 = 2 := by decide
  have hd1 : direction gOv 1 1 = 1 := by decide
  have hfw := gOv_available_fwd st.f
  have hav : int32 (1 - int32 (st.f 1)) = 1 := by rw [hf1]; decide
  simp only [work_scan2_32, ho1, hd1, lock_in_order, pthread_mutex_lock]
  simp [hfw, hav, hh]

/-- One pass of the outer loop of `work` of lab2 on `gOv` in 32-bit
arithmetic keeps node `1` as the node of the worker. -/
theorem ovStuck2_step {st : State} (h : OvStuck2 st) :
    ∃ st1, work_step_32 gOv 1 ⟨st, []⟩ = some (some 1, ⟨st1, []⟩) ∧ OvStuck2 st1 := by
  obtain ⟨h5, h6⟩ := h
  have hadj : gOv.adj 1 = [1, 0] := by decide
  have hrel : ∀ (_ : st.e 1 > 0) (_ : ¬ (st.h 1 > st.h 2 ∧ int32 (1 - int32 (st.f 1)) > 0)),
      ∃ st1, work_step_32 gOv 1 ⟨st, []⟩ = some (some 1, ⟨st1, []⟩) ∧ OvStuck2 st1 := by
    intro he hno
    refine ⟨{ st with h := Function.update st.h 1 (int32 (st.h 1 + 1)) }, ?_, ⟨h5, h6⟩⟩
    unfold work_step_32
    rw [hadj, ov_scan2_none h5 hno]
    simp [work_relabel_32, pthread_mutex_lock, work_tail, pthread_mutex_unlock, ne_of_gt he]
  rcases h6 with ⟨hf, he⟩ | ⟨hf, he⟩
  · by_cases hh : st.h 1 > st.h 2
    · refine ⟨{ st with e := Function.update (Function.update st.e 1 1999999999) 2
                            (int32 (st.e 2 + 1)),
                        f := Function.update st.f 1 1 }, ?_, ⟨by simpa using h5, Or.inr ⟨by simp, by simp⟩⟩⟩
      have hst2 : ¬ ((2 : Nat) ≠ gOv.t ∧ (2 : Nat) ≠ gOv.s) := by decide
      have hmin : MIN (st.e 1) 1 = 1 := by rw [he]; decide
      have hsub : int32 (st.e 1 - 1) = 1999999999 := by rw [he]; decide
      have h11 : int32 (0 + int32 (1 * 1)) = 1 := by decide
      unfold work_step_32
      rw [hadj, ov_scan2_found hf hh]
      simp only [work_push_32, hmin, hsub, enter_excess, if_neg hst2, ite_self, hf, h11]
      simp [pthread_mutex_unlock, work_tail]
    · exact hrel (by rw [he]; decide) (fun hx => hh hx.1)
  · refine hrel (by rw [he]; decide) (fun hx => ?_)
    rw [hf] at hx
    exact absurd hx.2 (by decide)

/-- The outer loop of `work` of lab2 on `gOv` in 32-bit arithmetic never
ends, whatever the bound on the number of passes. -/
theorem ov_work2_never :
    ∀ (k : Nat) (st : State), OvStuck2 st → ∀ w,
      work2_32 gOv k (some 1) ⟨st, []⟩ ≠ Outcome.returned w
  | 0, _, _, _ => by simp [work2_32]
  | k + 1, st, h, w => by
    obtain ⟨st1, hs, h1⟩ := ovStuck2_step h
    unfold work2_32
    rw [hs]
    exact ov_work2_never k st1 h1 w

theorem preflow2_32_gOv_never (fuel : Nat) (val : Int) :
    preflow2_32 gOv initState fuel ≠ Outcome.returned val := by
  unfold preflow2_32 preflow2_state_32
  have h := ov_work2_never fuel _ ovStuck2_seeded.2
  rw [ovStuck2_seeded.1]
  cases hx : work2_32 gOv fuel (some 1) ⟨(leave_excess (seeded2_32 gOv initState)).2, []⟩ with
  | returned st => exact absurd hx (h st)
  | aborted => simp
  | timeout => simp

/-! ## Claims about sequential.c -/

theorem zeroCap_seed : ∃ st, seed gZeroCap (gZeroCap.adj gZeroCap.s)
    (seedStart gZeroCap initState) = some st ∧ ZeroCapLoop st := by
  refine ⟨_, rfl, ?_, ?_, ?_⟩ <;> decide

theorem zeroCap_iter {st : State} (h : ZeroCapLoop st) :
    ∃ st2, iter gZeroCap st = Step.cont st2 ∧ ZeroCapLoop st2 := by
  obtain ⟨h1, h2, h3⟩ := h
  have hadj : gZeroCap.adj 1 = [0] := by decide
  have hsc : scan gZeroCap { st with excess := st.next 1 } 1 [0] = none := by
    rw [scan_cons]
    have : available gZeroCap st.f 0 (direction gZeroCap 1 0) = 0 := by
      unfold available
      rw [h3]
      decide
    rw [if_neg (by rw [this]; simp)]
    rfl
  refine ⟨relabel gZeroCap { st with excess := st.next 1 } 1, ?_, ?_, ?_, ?_⟩
  · unfold iter leave_excess
    rw [h1]
    simp only [hadj, hsc]
  · unfold relabel enter_excess
    rw [if_pos (by decide)]
  · unfold relabel enter_excess
    rw [if_pos (by decide)]
    simp [h2]
  · rw [relabel_f]; exact h3

theorem zeroCap_loop (fuel : Nat) {st : State} (h : ZeroCapLoop st) :
    loop gZeroCap fuel st = Outcome.timeout := by
  induction fuel generalizing st with
  | zero => rfl
  | succ k ih =>
    obtain ⟨st2, h1, h2⟩ := zeroCap_iter h
    rw [loop, h1]
    exact ih h2

theorem reachable_core {g : Graph} (hw : SeqWF g) {st : State} (h : Reachable g st) :
    CoreInv g st := by
  rcases h with ⟨p, hp⟩ | hl
  · exact seedReach_core hw hp
  · exact loopReach_core hw hl

theorem pushCall_asserts {g : Graph} (hw : SeqWF g) {st : State} {u v i : Nat}
    (h : PushCall g st u v i) : push_asserts g st u v i := by
  cases h with
  | seeding hr =>
    exact (seed_step_core hw (seedReach_sub hr _ (List.mem_cons_self _ _))
      (seedReach_core hw hr)).1
  | main hr hex hsc => exact (iter_core hw (loopReach_core hw hr)).2.2 u v i hex hsc

/-- C1: for every graph with at least two nodes, endpoints in range, no
self-loops and positive capacities, `preflow` of sequential.c returns, and
whenever it returns, the returned value `g->t->e` is the value of a maximum
flow from node `0` to node `n - 1` in the network in which each stored edge
`(u, v, c)` carries a signed flow `f` with `|f| ≤ c`. -/
theorem C1_sequential_returns_max_flow (g : Graph) (hn : 2 ≤ g.n) (hr : InRange g)
    (hl : NoSelfLoops g) (hc : PositiveCaps g) :
    (∃ fuel val, preflow g initState fuel = Outcome.returned val) ∧
      ∀ fuel val, preflow g initState fuel = Outcome.returned val → IsMaxFlowValue g val :=
  ⟨preflow_returns ⟨hn, hr, hl, hc⟩, fun _ _ h => preflow_maxflow ⟨hn, hr, hl, hc⟩ h⟩

/-- C1, witness: on the scenario graph with four nodes the run returns `4`,
and `4` is the maximum flow value. -/
theorem C1_witness_four_nodes :
    (2 ≤ g4.n ∧ InRange g4 ∧ NoSelfLoops g4 ∧ PositiveCaps g4) ∧
      preflow g4 initState 40 = Outcome.returned 4 ∧ IsMaxFlowValue g4 4 :=
  ⟨by decide, by decide, (C1_sequential_returns_max_flow g4 (by decide) (by decide) (by decide)
    (by decide)).2 40 4 (by decide)⟩

/-- C2, at the failing input: capacities `≥ 0` are valid inputs, but on three
nodes with the single edge `(0, 1, 0)` the seeding push moves `d = 0` and the
test `v->e == d` enters node `1` into the excess list with excess `0`; the
main loop then relabels node `1` for ever: whatever the number of iterations
granted, `preflow` of sequential.c does not return. -/
theorem C2_zero_capacity_never_returns :
    (2 ≤ gZeroCap.n ∧ InRange gZeroCap ∧ NonnegCaps gZeroCap ∧ NoSelfLoops gZeroCap) ∧
      ∀ fuel, preflow gZeroCap initState fuel = Outcome.timeout := by
  refine ⟨by decide, ?_⟩
  intro fuel
  obtain ⟨st, h1, h2⟩ := zeroCap_seed
  unfold preflow preflow_state
  rw [h1]
  simp only [zeroCap_loop fuel h2]

/-- C5: in every run of `preflow` of sequential.c on a graph with endpoints
in range, no self-loops and capacities `≥ 0`, the three assertions of `push`
hold at every call of `push` (so the run never aborts), and every edge
satisfies `|f| ≤ c` after every push of the seeding loop and after every push
or relabel of the main loop. -/
theorem C5_push_assertions_and_capacity (g : Graph) (hr : InRange g) (hl : NoSelfLoops g)
    (hc : NonnegCaps g) :
    (∀ st u v i, PushCall g st u v i → push_asserts g st u v i) ∧
      (∀ fuel, preflow g initState fuel ≠ Outcome.aborted) ∧
      (∀ st, Reachable g st → ∀ j, j < g.m → |st.f j| ≤ g.cap j) :=
  ⟨fun _ _ _ _ h => pushCall_asserts ⟨hr, hl, hc⟩ h,
    fun fuel => preflow_not_aborted ⟨hr, hl, hc⟩ fuel,
    fun _ h => (reachable_core ⟨hr, hl, hc⟩ h).cap⟩

/-- C5, witness: the scenario graph with four nodes. -/
theorem C5_witness_four_nodes :
    (InRange g4 ∧ NoSelfLoops g4 ∧ NonnegCaps g4) ∧
      (∀ st u v i, PushCall g4 st u v i → push_asserts g4 st u v i) ∧
      (∀ fuel, preflow g4 initState fuel ≠ Outcome.aborted) ∧
      (∀ st, Reachable g4 st → ∀ j, j < g4.m → |st.f j| ≤ g4.cap j) :=
  ⟨by decide, C5_push_assertions_and_capacity g4 (by decide) (by decide) (by decide)⟩

/-- C8: in every run of `preflow` of sequential.c on a graph with at least
two nodes, endpoints in range, no self-loops and positive capacities, at
every reachable state every node has height at most `2n - 1`, the source has
height `n` and the sink height `0`. -/
theorem C8_height_bound (g : Graph) (hn : 2 ≤ g.n) (hr : InRange g) (hl : NoSelfLoops g)
    (hc : PositiveCaps g) :
    ∀ st, Reachable g st →
      (∀ v, st.h v ≤ 2 * (g.n : Int) - 1) ∧ st.h g.s = g.n ∧ st.h g.t = 0 := by
  have hw : PosWF g := ⟨hn, hr, hl, hc⟩
  intro st h
  rcases h with ⟨p, hp⟩ | hl
  · have hI := (seedReach_inv hw hp).1
    have hh : ∀ x, st.h x = if x = g.s then (g.n : Int) else 0 := by
      intro x; rw [hI.h_eq]; simp [Function.update_apply]
    refine ⟨?_, ?_, ?_⟩
    · intro v; rw [hh]; split <;> omega
    · rw [hh]; simp
    · rw [hh, if_neg hw.s_ne_t.symm]
  · have hI := loopReach_full hw hl
    exact ⟨hI.hbound, hI.hs, hI.ht⟩

/-- C8, witness: the scenario graph with four nodes. -/
theorem C8_witness_four_nodes :
    (2 ≤ g4.n ∧ InRange g4 ∧ NoSelfLoops g4 ∧ PositiveCaps g4) ∧
      ∀ st, Reachable g4 st →
        (∀ v, st.h v ≤ 2 * (g4.n : Int) - 1) ∧ st.h g4.s = g4.n ∧ st.h g4.t = 0 :=
  ⟨by decide, C8_height_bound g4 (by decide) (by decide) (by decide) (by decide)⟩

/-! ## Claims about lab3/preflow.c -/

/-- C10: for every capacity `c ≥ 0` and every worker count `thr ≥ 1`, on the
graph with two nodes and the single edge `(0, 1, c)` every partition
`g->active[i]` is empty right after seeding, the compute phase of the first
round leaves the state as it is (no action is queued, every queue stays
empty), the coordinator sets `fin` in its first apply phase, and lab3's
`preflow` returns `c`. -/
theorem C10_single_edge_returns_capacity (c : Int) (thr : Nat) (_hc : 0 ≤ c) (_ht : 1 ≤ thr) :
    (∀ i, (seeded3 (gSingle c) thr initPState).active i = none) ∧
      (∀ fuel, compute_workers (gSingle c) (fuel + 1) (List.range thr)
        (seeded3 (gSingle c) thr initPState) = some (seeded3 (gSingle c) thr initPState)) ∧
      (∀ i, (seeded3 (gSingle c) thr initPState).action i = []) ∧
      (∀ i, (apply_phase (gSingle c) thr (seeded3 (gSingle c) thr initPState)).action i = []) ∧
      (apply_phase (gSingle c) thr (seeded3 (gSingle c) thr initPState)).fin = true ∧
      ∀ fuel, 2 ≤ fuel → preflow3 (gSingle c) thr initPState fuel = Outcome.returned c := by
  obtain ⟨h1, h2, h3, h4⟩ := gSingle_seeded c thr
  refine ⟨h1, fun fuel => compute_workers_idle _ fuel _ h1, h2, ?_, ?_, ?_⟩
  · intro i
    rw [apply_phase_idle _ thr h1 h2]
    exact h2 i
  · rw [apply_phase_idle _ thr h1 h2]
  · intro fuel hf
    obtain ⟨k, rfl⟩ : ∃ k, fuel = k + 2 := ⟨fuel - 2, by omega⟩
    unfold preflow3 preflow3_state
    rw [show k + 2 = (k + 1) + 1 from rfl, rounds_idle (gSingle c) thr (k + 1) k h3 h1 h2]
    simp only [h4]

/-- C10, witness: capacity `5` with two workers returns `5`. -/
theorem C10_witness_capacity_five :
    ((0 : Int) ≤ 5 ∧ 1 ≤ 2) ∧ preflow3 (gSingle 5) 2 initPState 2 = Outcome.returned 5 ∧
      (apply_phase (gSingle 5) 2 (seeded3 (gSingle 5) 2 initPState)).fin = true :=
  ⟨by decide, (C10_single_edge_returns_capacity 5 2 (by decide) (by decide)).2.2.2.2.2 2
    (le_refl 2), (C10_single_edge_returns_capacity 5 2 (by decide) (by decide)).2.2.2.2.1⟩

/-! ## Claims about lab3/preflow.c -/

/-- C11: `enter_excess(g, v)` of sequential.c changes nothing when `v` is the
source or the sink; otherwise it makes `v` the head of `g->excess` with
`v->next` the previous head and touches no other field, so that
`leave_excess` right after returns `v` and puts the previous head back (and,
for a list `l` that does not yet hold `v`, the list is `v :: l` and then `l`
again). In every run of `preflow`, after every push of the seeding loop and
at and after every step of the main loop, neither the source nor the sink is
met when `g->excess` is followed along the `next` pointers. -/
theorem C11_terminals_never_in_excess_list (g : Graph) :
    (∀ (st : State) (v : Nat), v = g.s ∨ v = g.t → enter_excess g st v = st) ∧
    (∀ (st : State) (v : Nat), v ≠ g.s → v ≠ g.t →
      (enter_excess g st v).excess = some v ∧
      (enter_excess g st v).next v = st.excess ∧
      (∀ y, y ≠ v → (enter_excess g st v).next y = st.next y) ∧
      (enter_excess g st v).h = st.h ∧ (enter_excess g st v).e = st.e ∧
      (enter_excess g st v).f = st.f ∧
      (leave_excess (enter_excess g st v)).1 = some v ∧
      (leave_excess (enter_excess g st v)).2.excess = st.excess ∧
      (∀ l, IsList st.next st.excess l → v ∉ l →
        IsList (enter_excess g st v).next (enter_excess g st v).excess (v :: l) ∧
        IsList (leave_excess (enter_excess g st v)).2.next
          (leave_excess (enter_excess g st v)).2.excess l)) ∧
    (∀ st, Reachable g st →
      ¬ ListMem st.next st.excess g.s ∧ ¬ ListMem st.next st.excess g.t) ∧
    (∀ st u, LoopReach g initState st → st.excess = some u →
      ¬ ListMem (leave_excess st).2.next (leave_excess st).2.excess g.s ∧
      ¬ ListMem (leave_excess st).2.next (leave_excess st).2.excess g.t) := by
  refine ⟨fun st v h => enter_excess_terminal g st h, ?_, ?_, ?_⟩
  · intro st v hs ht
    rw [enter_excess_inner g st hs ht]
    refine ⟨rfl, ?_, ?_, rfl, rfl, rfl, ?_, ?_, ?_⟩
    · simp only [Function.update_same]
    · intro y hy
      simp only [Function.update_noteq hy]
    · simp only [leave_excess]
    · simp only [leave_excess, Function.update_same]
    · intro l hl hv
      refine ⟨⟨rfl, ?_⟩, ?_⟩
      · simp only [Function.update_same]
        exact isList_update _ hv hl
      · simp only [leave_excess, Function.update_same]
        exact isList_update _ hv hl
  · intro st h
    rcases h with ⟨p, hp⟩ | hl
    · exact noTerminal_not_mem (seedReach_noTerminal hp)
    · exact noTerminal_not_mem (loopReach_noTerminal hl)
  · intro st u hl hu
    have h := noTerminal_not_mem (noTerminal_pop (loopReach_noTerminal hl) u)
    simp only [leave_excess, hu]
    exact h

/-- C15: in every run of `preflow` of sequential.c on a graph with endpoints
in range, no self-loops and positive capacities, whenever the main loop
calls `push(g, u, v, e)` (its scan of `u` stopped at edge `e` with other end
`v`), the residual capacity from `u` to `v` is positive and
`h(u) = h(v) + 1`. -/
theorem C15_main_loop_pushes_admissible (g : Graph) (hr : InRange g) (hl : NoSelfLoops g)
    (hc : PositiveCaps g) :
    ∀ st u v i, LoopReach g initState st → st.excess = some u →
      scan g { st with excess := st.next u } u (g.adj u) = some (v, i) →
      v = other g u i ∧ 0 < g.cap i - direction g u i * st.f i ∧ st.h u = st.h v + 1 := by
  intro st u v i hreach _ hscan
  obtain ⟨h1, h2, h3, h4⟩ := scan_some hscan
  obtain ⟨hi, hu⟩ := endpoint_of_mem_adj h1
  have hn : 2 ≤ g.n := by
    by_contra hn
    have he := edges_nil_of_small (not_le.mp hn) hr hl
    unfold Graph.m at hi
    rw [he] at hi
    exact absurd hi (by simp)
  have hI := loopReach_full ⟨hn, hr, hl, hc⟩ hreach
  have hval := hI.valid i hi u hu h4
  rw [← h2] at hval
  simp only at h3
  refine ⟨h2, h4, ?_⟩
  omega

/-- C15, witness: the scenario graph with four nodes. -/
theorem C15_witness_four_nodes :
    (InRange g4 ∧ NoSelfLoops g4 ∧ PositiveCaps g4) ∧
      ∀ st u v i, LoopReach g4 initState st → st.excess = some u →
        scan g4 { st with excess := st.next u } u (g4.adj u) = some (v, i) →
        v = other g4 u i ∧ 0 < g4.cap i - direction g4 u i * st.f i ∧ st.h u = st.h v + 1 :=
  ⟨by decide, C15_main_loop_pushes_admissible g4 (by decide) (by decide) (by decide)⟩

/-! ## Claims about the seeding loop of lab3/preflow.c -/

/-- C13: state of lab3's `preflow` when its loop `Initial push from source`
ends, for every `thr ≥ 1` and every graph with endpoints in range, capacities
`≥ 0` and no self-loops or parallel edges: `h(source) = n` and every other
height is `0`; every edge incident to the source has
`f = direction(source, e) * c` and every other edge `f = 0`; the node at the
other end of a source edge has `e` equal to that edge's capacity and every
other node (the source too) has `e = 0`; partition `g->active[i]`, `i < thr`,
is a list without repetition that holds exactly the nodes other than the
sink at the other end of the `k`-th edges of the source's adjacency list
(counted from 0) with `k mod thr = i`. -/
theorem C13_seeding_postcondition (g : Graph) (thr : Nat) (ht : 1 ≤ thr) (_hr : InRange g)
    (_hc : NonnegCaps g) (hl : NoSelfLoops g) (hp : NoParallel g) :
    (seeded3 g thr initPState).h g.s = g.n ∧
    (∀ x, x ≠ g.s → (seeded3 g thr initPState).h x = 0) ∧
    (∀ j, j < g.m → (g.s = g.eu j ∨ g.s = g.ev j) →
      (seeded3 g thr initPState).f j = direction g g.s j * g.cap j) ∧
    (∀ j, j < g.m → ¬ (g.s = g.eu j ∨ g.s = g.ev j) → (seeded3 g thr initPState).f j = 0) ∧
    (∀ j, j < g.m → (g.s = g.eu j ∨ g.s = g.ev j) →
      (seeded3 g thr initPState).e (other g g.s j) = g.cap j) ∧
    (∀ x, (∀ j, j < g.m → (g.s = g.eu j ∨ g.s = g.ev j) → x ≠ other g g.s j) →
      (seeded3 g thr initPState).e x = 0) ∧
    (∀ i, i < thr → ∃ l,
      IsList (seeded3 g thr initPState).next ((seeded3 g thr initPState).active i) l ∧
      l.Nodup ∧
      ∀ x, x ∈ l ↔ ∃ k j, (g.adj g.s)[k]? = some j ∧ k % thr = i ∧ x = other g g.s j ∧
        x ≠ g.t) := by
  have hadj : ∀ j, j ∈ g.adj g.s ↔ (j < g.m ∧ (g.s = g.eu j ∨ g.s = g.ev j)) := by
    intro j
    rw [mem_adj]
    constructor
    · rintro ⟨h1, h2 | h2⟩
      · exact ⟨h1, Or.inl h2.symm⟩
      · exact ⟨h1, Or.inr h2.symm⟩
    · rintro ⟨h1, h2 | h2⟩
      · exact ⟨h1, Or.inl h2.symm⟩
      · exact ⟨h1, Or.inr h2.symm⟩
  obtain ⟨a1, _, _, a4, a5, a6⟩ := seed3_fields thr hl hp (g.adj g.s) 0
    { initPState with h := Function.update initPState.h g.s (g.n : Int) }
    (fun _ hk => hk) (nodup_adj hl _)
  have hparts := seed3_parts ht hl hp (g.adj g.s) 0
    { initPState with h := Function.update initPState.h g.s (g.n : Int) } rfl
    (by
      intro i _
      refine ⟨[], rfl, List.nodup_nil, fun x => ?_⟩
      constructor
      · intro h; simp at h
      · rintro ⟨k, _, hk, _⟩; omega)
  rw [Nat.zero_mod] at hparts
  unfold seeded3
  refine ⟨?_, ?_, ?_, ?_, ?_, ?_, ?_⟩
  · rw [a1]; simp
  · intro x hx
    rw [a1]
    simp [Function.update_noteq hx, initPState]
  · intro j hj hend
    rw [a4, if_pos ((hadj j).mpr ⟨hj, hend⟩)]
    simp [initPState]
  · intro j hj hend
    rw [a4, if_neg (fun h => hend ((hadj j).mp h).2)]
    rfl
  · intro j hj hend
    rw [a5 j ((hadj j).mpr ⟨hj, hend⟩)]
    simp [initPState]
  · intro x hx
    rw [a6 x (fun j hj => hx j ((hadj j).mp hj).1 ((hadj j).mp hj).2)]
    rfl
  · intro i hi
    obtain ⟨l, h1, h2, h3⟩ := hparts i hi
    refine ⟨l, h1, h2, fun x => ?_⟩
    rw [h3]
    constructor
    · rintro ⟨k, j, _, b2, b3, b4, b5, _⟩
      exact ⟨k, j, b2, b3, b4, b5⟩
    · rintro ⟨k, j, b2, b3, b4, b5⟩
      refine ⟨k, j, (List.getElem?_eq_some_iff.mp b2).1, b2, b3, b4, b5, ?_⟩
      obtain ⟨hjlt, hjend⟩ := endpoint_of_mem_adj (mem_of_index b2)
      rw [b4]
      exact other_ne_self (eu_ne_ev hl hjlt) hjend

/-- C13, witness: the scenario graph with four nodes and two workers; the
source has height `4`, and node `2`, on edge number `0` of the source's
adjacency list, got excess `2`. -/
theorem C13_witness_four_nodes_two_workers :
    (1 ≤ 2 ∧ InRange g4 ∧ NonnegCaps g4 ∧ NoSelfLoops g4 ∧ NoParallel g4) ∧
      (seeded3 g4 2 initPState).h g4.s = 4 ∧
      (seeded3 g4 2 initPState).e (other g4 g4.s 2) = g4.cap 2 :=
  ⟨by decide,
    (C13_seeding_postcondition g4 2 (by decide) (by decide) (by decide) (by decide)
      (by decide)).1,
    (C13_seeding_postcondition g4 2 (by decide) (by decide) (by decide) (by decide)
      (by decide)).2.2.2.2.1 2 (by decide) (by decide)⟩

/-! ## Claims about the compute phase of lab3/preflow.c -/

/-- C17: the compute phase of worker `i` of lab3 (`work` from `pop_active`
up to the first barrier), started in any state in which its partition
`g->active[i]` is a list `l` without repetition, ends (given a budget of more
than `length l` pops) with its partition empty and with every height, every
flow, every `next` pointer, `fin`, the excess of every node outside `l`, and
the partition and the queue of every other worker unchanged (capacities are
not part of the mutable state). Its own queue gets, on top of what it held,
for each node `x` of `l` in turn the push actions `P x` queued for `x` and
then the relabel action of `x` exactly when the excess of `x` is still
`> 0`; the excess of `x` went down by the sum of the `flo` of `P x`, and each
action of `P x` is a push along an edge of `x` towards its other end, which is
lower than `x`, with `0 < flo ≤ c - dir * f` for the flow `f` at the start. -/
theorem C17_compute_phase_frame (g : Graph) (i : Nat) (st : PState) (l : List Nat)
    (fuel : Nat) (hl : IsList st.next (st.active i) l) (hn : l.Nodup)
    (hf : l.length < fuel) :
    ∃ (st2 : PState) (P : Nat → List Action),
      work_compute g i fuel st = some st2 ∧
      st2.h = st.h ∧ st2.f = st.f ∧ st2.next = st.next ∧ st2.fin = st.fin ∧
      (∀ x, x ∉ l → st2.e x = st.e x) ∧
      (∀ j, j ≠ i → st2.active j = st.active j ∧ st2.action j = st.action j) ∧
      st2.active i = none ∧
      st2.action i =
        (l.reverse.map (fun x =>
          (if 0 < st2.e x then [relabelAction x] else []) ++ P x)).flatten ++ st.action i ∧
      ∀ x, x ∈ l →
        st2.e x = st.e x - ((P x).map Action.flo).sum ∧
        ∀ a, a ∈ P x →
          a.relabel = false ∧ 0 < a.flo ∧ a.flo ≤ g.cap a.edge - a.dir * st.f a.edge ∧
          a.edge ∈ g.adj x ∧ a.node = other g x a.edge ∧ a.dir = direction g x a.edge ∧
          st.h a.node < st.h x := by
  obtain ⟨st2, P, h1, h2, h3, h4, h5⟩ := work_compute_frame g i l st fuel hl hn hf
  exact ⟨st2, P, h1, h2.h_eq, h2.f_eq, h2.next_eq, h2.fin_eq, h2.e_other,
    fun j hj => ⟨h2.active_other j hj, h2.action_other j hj⟩, h3, h4,
    fun x hx => ⟨(h5 x hx).1, fun a ha => (h5 x hx).2 a ha⟩⟩

/-- C17, witness: worker `0` of two on the scenario graph with four nodes,
right after seeding; its partition holds node `2` alone. -/
theorem C17_witness_four_nodes_worker_zero :
    (IsList (seeded3 g4 2 initPState).next ((seeded3 g4 2 initPState).active 0) [2] ∧
      [2].Nodup ∧ [2].length < 3) ∧
    ∃ st2, work_compute g4 0 3 (seeded3 g4 2 initPState) = some st2 ∧
      st2.h = (seeded3 g4 2 initPState).h ∧ st2.f = (seeded3 g4 2 initPState).f ∧
      st2.e 1 = (seeded3 g4 2 initPState).e 1 ∧
      st2.action 1 = (seeded3 g4 2 initPState).action 1 := by
  have hl : IsList (seeded3 g4 2 initPState).next ((seeded3 g4 2 initPState).active 0) [2] :=
    ⟨by decide, show (seeded3 g4 2 initPState).next 2 = none by decide⟩
  obtain ⟨st2, _, h1, h2, h3, _, _, h6, h7, _⟩ :=
    C17_compute_phase_frame g4 0 (seeded3 g4 2 initPState) [2] 3 hl (by decide) (by decide)
  exact ⟨⟨hl, by decide, by decide⟩, st2, h1, h2, h3, h6 1 (by decide), (h7 1 (by decide)).2⟩

/-! ## Claims about the capacity bound in lab3/preflow.c -/

/-- C21: lock discipline of lab2's `work` run by one worker (`preflow` with
`nthread = 1`) on a graph without self-loops, with the set of node mutexes
the worker holds tracked in the state. No mutex operation ever fails (the
model stops only when the worker locks a mutex it holds or unlocks one it
does not hold, or reads `nei` for a node without edges), and the worker
holds no mutex when `work` returns, nor at any head of the outer loop. In
every pass of the outer loop, for the node `u` in `excess`: either the inner
loop is left by `break` holding exactly the mutexes of `u` and of `nei`
(two different nodes), the push update of `excess->e`, `nei->e` and `edg->f`
runs in that state, `nei` is unlocked and exactly the mutex of `u` is held;
or the inner loop ends holding none, the mutex of `u` is locked and
`excess->h` is incremented holding exactly that one. Then `u` is unlocked,
and `leave_excess` (when `excess->e == 0`) and the next pass start with no
mutex held. -/
theorem C21_lock_discipline (g : Graph) (hl : NoSelfLoops g) :
    (∀ fuel, preflow2_state g initState fuel ≠ Outcome.aborted) ∧
    (∀ fuel w, preflow2_state g initState fuel = Outcome.returned w → w.held = []) ∧
    (∀ cur w, WorkReach g cur w → w.held = []) ∧
    (∀ u w, WorkReach g (some u) w →
      (∃ r w1 w2 w3, work_scan2 g u (g.adj u) w = some (some r, w1) ∧ w1.st = w.st ∧
          r.edg ∈ g.adj u ∧ r.nei = other g u r.edg ∧ r.nei ≠ u ∧
          (w1.held = [r.nei, u] ∨ w1.held = [u, r.nei]) ∧
          pthread_mutex_unlock ⟨work_push g u r w1.st, w1.held⟩ r.nei = some w2 ∧
          w2.st = work_push g u r w1.st ∧ w2.held = [u] ∧
          pthread_mutex_unlock w2 u = some w3 ∧ w3.st = w2.st ∧ w3.held = [] ∧
          work_step g u w = some (if w3.st.e u = 0 then
              ((leave_excess w3.st).1, { w3 with st := (leave_excess w3.st).2 })
            else (some u, w3))) ∨
      (∃ w2 w3, work_scan2 g u (g.adj u) w = some (none, w) ∧
          work_relabel u w = some w2 ∧
          w2.st = { w.st with h := Function.update w.st.h u (w.st.h u + 1) } ∧
          w2.held = [u] ∧
          pthread_mutex_unlock w2 u = some w3 ∧ w3.st = w2.st ∧ w3.held = [] ∧
          work_step g u w = some (if w3.st.e u = 0 then
              ((leave_excess w3.st).1, { w3 with st := (leave_excess w3.st).2 })
            else (some u, w3)))) := by
  refine ⟨?_, ?_, ?_, ?_⟩
  · intro fuel
    exact (work2_locks hl fuel _ _ (seeded2_lockInv g)).1
  · intro fuel w h
    exact (work2_locks hl fuel _ _ (seeded2_lockInv g)).2 w h
  · intro cur w h
    exact (workReach_lockInv hl h).held
  · intro u w h
    exact work_step_locks hl (workReach_lockInv hl h)

/-- C21, witness: the scenario graph with four nodes; the run returns with
no mutex held. -/
theorem C21_witness_four_nodes :
    NoSelfLoops g4 ∧
      (∀ fuel, preflow2_state g4 initState fuel ≠ Outcome.aborted) ∧
      (∀ fuel w, preflow2_state g4 initState fuel = Outcome.returned w → w.held = []) ∧
      (∀ cur w, WorkReach g4 cur w → w.held = []) ∧
      preflow2 g4 initState 40 = Outcome.returned 4 :=
  ⟨by decide, (C21_lock_discipline g4 (by decide)).1, (C21_lock_discipline g4 (by decide)).2.1,
    (C21_lock_discipline g4 (by decide)).2.2.1, by decide⟩

/-! ## Claims about sequential.c in 32-bit arithmetic -/

theorem wideLoop4_reach : LoopReach32 gWide initState wideLoop4 := by
  have h0 : seed32 gWide (gWide.adj gWide.s) (seedStart gWide initState) = some wideSeeded := rfl
  have h4 : iters32 gWide 4 wideSeeded = some wideLoop4 := rfl
  exact loopReach32_iters 4 (LoopReach32.seeded h0) h4

/-- C6 as stated fails in 32-bit arithmetic: on `gWide` (capacities
`2000000000`) node `2` holds excess `2000000000` when node `3` pushes another
`2000000000` back to it, and `v->e += d` stores `-294967296`; the assertions
of `push` hold, and the run goes on with a negative excess at a node that is
neither source nor sink. -/
theorem C6_counterexample_excess_wraps :
    (InRange gWide ∧ NoSelfLoops gWide ∧ NonnegCaps gWide) ∧
      ∃ st, Reachable32 gWide st ∧ 2 ≠ gWide.s ∧ 2 ≠ gWide.t ∧ st.e 2 = -294967296 ∧
        ¬ (0 ≤ st.e 2 ∧
          st.e 2 = (∑ j ∈ Finset.range gWide.m, if gWide.ev j = 2 then st.f j else 0) -
            (∑ j ∈ Finset.range gWide.m, if gWide.eu j = 2 then st.f j else 0)) :=
  ⟨by decide, wideLoop4, Or.inr wideLoop4_reach, by decide, by decide, by decide,
    fun h => absurd h.1 (by decide)⟩

/-- C6, amended: in every run of `preflow` of sequential.c in 32-bit
arithmetic on a graph with endpoints in range, no self-loops and capacities
`≥ 0` whose sum, doubled, is at most `INT_MAX`, after every call of push or
relabel each node `x` other than source and sink has `e(x) ≥ 0` and `e(x)`
equal to the sum of `f` over the edges with `e->v = x` minus the sum of `f`
over the edges with `e->u = x`. -/
theorem C6_conservation (g : Graph) (hr : InRange g) (hl : NoSelfLoops g) (hc : NonnegCaps g)
    (hF : 2 * capSum g ≤ 2147483647) :
    ∀ st, Reachable32 g st → ∀ x, x ≠ g.s → x ≠ g.t →
      0 ≤ st.e x ∧
        st.e x = (∑ j ∈ Finset.range g.m, if g.ev j = x then st.f j else 0) -
          (∑ j ∈ Finset.range g.m, if g.eu j = x then st.f j else 0) :=
  fun _ h x hxs _ =>
    ⟨(reachable32_core ⟨hr, hl, hc⟩ hF h).nonneg x, (reachable32_core ⟨hr, hl, hc⟩ hF h).cons x hxs⟩

/-- C6, witness: the scenario graph with four nodes. -/
theorem C6_witness_four_nodes :
    (InRange g4 ∧ NoSelfLoops g4 ∧ NonnegCaps g4 ∧ 2 * capSum g4 ≤ 2147483647) ∧
      ∀ st, Reachable32 g4 st → ∀ x, x ≠ g4.s → x ≠ g4.t →
        0 ≤ st.e x ∧
          st.e x = (∑ j ∈ Finset.range g4.m, if g4.ev j = x then st.f j else 0) -
            (∑ j ∈ Finset.range g4.m, if g4.eu j = x then st.f j else 0) :=
  ⟨by decide, C6_conservation g4 (by decide) (by decide) (by decide) (by decide)⟩

theorem gBig_not_conn : ¬ Conn gBig gBig.s gBig.t := by
  intro h
  have key : ∀ x, Conn gBig gBig.s x → x = 0 ∨ x = 1 := by
    intro x hx
    induction hx with
    | refl => left; rfl
    | tail _ hadj ih =>
      obtain ⟨e, he, h1⟩ := hadj
      simp only [gBig, List.mem_singleton] at he
      subst he
      rcases h1 with ⟨_, h2⟩ | ⟨h2, _⟩
      · right; exact h2.symm
      · left; exact h2.symm
  rcases key _ h with h | h <;> exact absurd h (by decide)

/-- C9 as stated fails, for two reasons. The edges are stored undirected, with
capacity `c` in both directions: on two nodes with the single edge stated
from node `1` to node `0`, the sink cannot be reached from the source along
stated directions, yet `preflow` returns `5` (in exact and in 32-bit
arithmetic). And in 32-bit arithmetic a large capacity overflows: on `gBig`
the sink is in no edge at all, node `1` is relabelled up to height `4` and
pushes back to the source, `e->c + e->f` is stored as `-294967296`, and the
run stops in `assert(d >= 0)` instead of returning `0`. -/
theorem C9_counterexample_reversed_edge :
    ((InRange gRev ∧ PositiveCaps gRev ∧ NoSelfLoops gRev) ∧
      ¬ DirReach gRev gRev.s gRev.t ∧
      preflow gRev initState 5 = Outcome.returned 5 ∧
      preflow32 gRev initState 5 = Outcome.returned 5) ∧
    ((InRange gBig ∧ PositiveCaps gBig ∧ NoSelfLoops gBig) ∧
      ¬ DirReach gBig gBig.s gBig.t ∧ ¬ Conn gBig gBig.s gBig.t ∧
      preflow32 gBig initState 5 = Outcome.aborted ∧
      ∀ fuel val, preflow32 gBig initState fuel ≠ Outcome.returned val) := by
  refine ⟨⟨by decide, ?_, by decide, by decide⟩, by decide, ?_, gBig_not_conn, by decide,
    preflow32_aborted_never (k := 5) (by decide)⟩
  · intro h
    rcases Relation.ReflTransGen.cases_head h with h0 | ⟨c, ⟨e, he, h1, _⟩, _⟩
    · exact absurd h0 (by decide)
    · simp only [gRev, List.mem_singleton] at he
      subst he
      exact absurd h1 (by decide)
  · intro h
    have key : ∀ x, DirReach gBig gBig.s x → x = 0 ∨ x = 1 := by
      intro x hx
      induction hx with
      | refl => left; rfl
      | tail _ hadj ih =>
        obtain ⟨e, he, _, h2⟩ := hadj
        simp only [gBig, List.mem_singleton] at he
        subst he
        right; exact h2.symm
    rcases key _ h with h | h <;> exact absurd h (by decide)

/-- In exact arithmetic: when the sink cannot be reached from the source
along edges taken in either orientation, `preflow` of sequential.c returns
`0`. -/
theorem disconnected_returns_zero {g : Graph} (hw : PosWF g) (hcon : ¬ Conn g g.s g.t) :
    (∃ fuel, preflow g initState fuel = Outcome.returned 0) ∧
      ∀ fuel val, preflow g initState fuel = Outcome.returned val → val = 0 := by
  have key : ∀ fuel val, preflow g initState fuel = Outcome.returned val → val = 0 := by
    intro fuel val h
    obtain ⟨st, h1, h2⟩ := preflow_returned_iff.mp h
    unfold preflow_state at h1
    obtain ⟨st1, hs1, _⟩ := seed_full hw
    rw [hs1] at h1
    have hreach := (loop_returned_reach h1 (LoopReach.seeded hs1)).1
    have hconn := loopReach_conn hw.seqWF hreach
    by_contra hne
    exact hcon (hconn g.t (h2 ▸ hne))
  obtain ⟨fuel, val, h⟩ := preflow_returns hw
  exact ⟨⟨fuel, (key fuel val h) ▸ h⟩, key⟩

/-- C9, amended: for every graph with endpoints in range, positive capacities
and no self-loops, with twice the number of nodes and twice the sum of the
capacities at most `INT_MAX`, in which the sink cannot be reached from the
source along edges taken in either orientation, `preflow` of sequential.c in
32-bit arithmetic returns `0`. -/
theorem C9_disconnected_returns_zero (g : Graph) (hr : InRange g) (hc : PositiveCaps g)
    (hl : NoSelfLoops g) (hn : 2 * (g.n : Int) ≤ 2147483647)
    (hF : 2 * capSum g ≤ 2147483647) (hcon : ¬ Conn g g.s g.t) :
    (∃ fuel, preflow32 g initState fuel = Outcome.returned 0) ∧
      ∀ fuel val, preflow32 g initState fuel = Outcome.returned val → val = 0 := by
  have hst : g.s ≠ g.t := fun h => hcon (h ▸ Relation.ReflTransGen.refl)
  have hn2 : 2 ≤ g.n := by
    unfold Graph.s Graph.t at hst; omega
  have hw : PosWF g := ⟨hn2, hr, hl, hc⟩
  obtain ⟨⟨fuel, h1⟩, h2⟩ := disconnected_returns_zero hw hcon
  refine ⟨⟨fuel, ?_⟩, fun fuel val h => ?_⟩
  · rw [preflow32_eq hw ⟨hn, hF⟩]; exact h1
  · rw [preflow32_eq hw ⟨hn, hF⟩] at h; exact h2 fuel val h

theorem gSplit_not_conn : ¬ Conn gSplit gSplit.s gSplit.t := by
  intro h
  have key : ∀ x, Conn gSplit gSplit.s x → x = 0 ∨ x = 1 := by
    intro x hx
    induction hx with
    | refl => left; rfl
    | tail _ hadj ih =>
      obtain ⟨e, he, h1⟩ := hadj
      simp only [gSplit, List.mem_cons, List.mem_singleton, List.not_mem_nil, or_false] at he
      rcases he with rfl | rfl
      · rcases h1 with ⟨_, h2⟩ | ⟨h2, _⟩
        · right; exact h2.symm
        · left; exact h2.symm
      · rcases h1 with ⟨h2, _⟩ | ⟨_, h2⟩
        · rcases ih with h | h <;> rw [h] at h2 <;> exact absurd h2 (by decide)
        · rcases ih with h | h <;> rw [h] at h2 <;> exact absurd h2 (by decide)
  rcases key _ h with h | h <;> exact absurd h (by decide)

/-- C9, witness: on a graph in two components the run returns `0`. -/
theorem C9_witness_two_components :
    (InRange gSplit ∧ PositiveCaps gSplit ∧ NoSelfLoops gSplit ∧
      2 * (gSplit.n : Int) ≤ 2147483647 ∧ 2 * capSum gSplit ≤ 2147483647 ∧
      ¬ Conn gSplit gSplit.s gSplit.t) ∧
      preflow32 gSplit initState 20 = Outcome.returned 0 ∧
      (∃ fuel, preflow32 gSplit initState fuel = Outcome.returned 0) ∧
      ∀ fuel val, preflow32 gSplit initState fuel = Outcome.returned val → val = 0 :=
  ⟨⟨by decide, by decide, by decide, by decide, by decide, gSplit_not_conn⟩, by decide,
    C9_disconnected_returns_zero gSplit (by decide) (by decide) (by decide) (by decide)
      (by decide) gSplit_not_conn⟩

/-- C16 as stated fails in 32-bit arithmetic: on `gWide`, at the head of the
main loop after four iterations, node `2` is the first member of `g->excess`
and its excess is `-294967296`, so the members of the list are not the nodes
with `e > 0`. -/
theorem C16_counterexample_listed_node_negative :
    (InRange gWide ∧ NoSelfLoops gWide ∧ PositiveCaps gWide) ∧
      ∃ st, LoopReach32 gWide initState st ∧ st.excess = some 2 ∧ st.e 2 = -294967296 ∧
        ¬ ∃ l, IsList st.next st.excess l ∧ l.Nodup ∧
          ∀ x, x ∈ l ↔ (x ≠ gWide.s ∧ x ≠ gWide.t ∧ 0 < st.e x) := by
  refine ⟨by decide, wideLoop4, wideLoop4_reach, rfl, by decide, ?_⟩
  rintro ⟨l, hl, _, hmem⟩
  cases l with
  | nil => exact absurd hl (show wideLoop4.excess ≠ none by decide)
  | cons a l =>
    have ha : a = 2 := Option.some.inj (hl.1.symm.trans (show wideLoop4.excess = some 2 from rfl))
    have := ((hmem 2).mp (ha ▸ List.mem_cons_self a l)).2.2
    exact absurd this (by decide)

/-- C16, amended: in every run of `preflow` of sequential.c in 32-bit
arithmetic on a graph with endpoints in range, no self-loops and positive
capacities whose sum, doubled, is at most `INT_MAX`, at every head of the
main loop (where `leave_excess` is called next) `g->excess` is a finite list
without repetition (so without a cycle) whose members are exactly the nodes
other than source and sink with `e > 0`. -/
theorem C16_excess_list_invariant (g : Graph) (hr : InRange g) (hl : NoSelfLoops g)
    (hc : PositiveCaps g) (hF : 2 * capSum g ≤ 2147483647) :
    ∀ st, LoopReach32 g initState st →
      ∃ l, IsList st.next st.excess l ∧ l.Nodup ∧
        ∀ x, x ∈ l ↔ (x ≠ g.s ∧ x ≠ g.t ∧ 0 < st.e x) := by
  intro st hreach
  by_cases hn : 2 ≤ g.n
  · obtain ⟨l, h1, h2, h3⟩ := loopReach32_list ⟨hn, hr, hl, hc⟩ hF hreach
    refine ⟨l, h1, h2, fun x => ?_⟩
    rw [h3]
    unfold Active
    simp
  · have hg := graph_eq_no_edges (not_le.mp hn) hr hl
    rw [hg] at hreach
    have hst := loopReach32_no_edges hreach
    refine ⟨[], ?_, List.nodup_nil, fun x => ?_⟩
    · rw [hst]; rfl
    · rw [hst]
      simp [seedStart, initState]

/-- C16, witness: the scenario graph with four nodes. -/
theorem C16_witness_four_nodes :
    (InRange g4 ∧ NoSelfLoops g4 ∧ PositiveCaps g4 ∧ 2 * capSum g4 ≤ 2147483647) ∧
      ∀ st, LoopReach32 g4 initState st →
        ∃ l, IsList st.next st.excess l ∧ l.Nodup ∧
          ∀ x, x ∈ l ↔ (x ≠ g4.s ∧ x ≠ g4.t ∧ 0 < st.e x) :=
  ⟨by decide, C16_excess_list_invariant g4 (by decide) (by decide) (by decide) (by decide)⟩

/-! ## Claims about lab2 and lab3 in 32-bit arithmetic -/

/-- C3 as stated fails in 32-bit arithmetic. On `gOv` (three nodes in a line,
capacities `2000000000` and `1`) exact arithmetic makes both programs return
`1`. In 32-bit arithmetic node `1` keeps excess `1999999999` that has to go
back to the source, and the residual capacity `c + f = 4000000000` of the first
edge does not fit: sequential.c computes `d = -294967296` and stops in
`assert(d >= 0)`, so it returns no value with any budget, and lab3, whose
`available` is negative there, relabels node `1` in every round: it has not
returned after `40` rounds, and returns no value with any budget. -/
theorem C3_counterexample_large_capacity :
    (1 ≤ 1 ∧ InRange gOv ∧ PositiveCaps gOv ∧ NoSelfLoops gOv ∧ NoParallel gOv) ∧
      preflow3 gOv 1 initPState 40 = Outcome.returned 1 ∧
      preflow gOv initState 40 = Outcome.returned 1 ∧
      preflow32 gOv initState 6 = Outcome.aborted ∧
      (∀ fuel val, preflow32 gOv initState fuel ≠ Outcome.returned val) ∧
      preflow3_32 gOv 1 initPState 40 = Outcome.timeout ∧
      (∀ fuel val, preflow3_32 gOv 1 initPState fuel ≠ Outcome.returned val) :=
  ⟨by decide, by decide, by decide, by decide, preflow32_aborted_never (k := 6) (by decide),
    by decide, preflow3_32_gOv_never⟩

/-- C3, amended: in the round model of the Phase-Barrier program in 32-bit
arithmetic, for every worker count `thr ≥ 1` and every graph with endpoints in
range, positive capacities and no self-loops or parallel edges, with twice the
number of nodes and twice the sum of the capacities at most `INT_MAX`, lab3's
`preflow` terminates and returns the same value as the `preflow` of
sequential.c: some budget makes both return one value, and any two returning
runs agree. -/
theorem C3_phase_barrier_equals_sequential (g : Graph) (thr : Nat) (ht : 1 ≤ thr)
    (hr : InRange g) (hc : PositiveCaps g) (hl : NoSelfLoops g) (hp : NoParallel g)
    (hn : 2 * (g.n : Int) ≤ 2147483647) (hF : 2 * capSum g ≤ 2147483647) :
    (∃ fuel val, preflow3_32 g thr initPState fuel = Outcome.returned val ∧
      preflow32 g initState fuel = Outcome.returned val) ∧
    ∀ f3 f1 v3 v1, preflow3_32 g thr initPState f3 = Outcome.returned v3 →
      preflow32 g initState f1 = Outcome.returned v1 → v3 = v1 := by
  have e3 := preflow3_32_eq ht hr hc hl hp ⟨hn, hF⟩
  have e1 := preflow32_eq_all hr hc hl ⟨hn, hF⟩
  obtain ⟨fuel, val, h3, h1⟩ := preflow3_eq_sequential ht hr hc hl hp
  refine ⟨⟨fuel, val, by rw [e3]; exact h3, by rw [e1]; exact h1⟩, ?_⟩
  intro f3 f1 v3 v1 k3 k1
  rw [e3] at k3
  rw [e1] at k1
  rw [preflow3_det k3 h3, preflow_det k1 h1]

/-- C3, witness: the scenario graph with four nodes and two workers; both
programs return `4` in 32-bit arithmetic. -/
theorem C3_witness_four_nodes_two_workers :
    (1 ≤ 2 ∧ InRange g4 ∧ PositiveCaps g4 ∧ NoSelfLoops g4 ∧ NoParallel g4 ∧
      2 * (g4.n : Int) ≤ 2147483647 ∧ 2 * capSum g4 ≤ 2147483647) ∧
      preflow3_32 g4 2 initPState 40 = Outcome.returned 4 ∧
      preflow32 g4 initState 40 = Outcome.returned 4 ∧
      ∀ f3 f1 v3 v1, preflow3_32 g4 2 initPState f3 = Outcome.returned v3 →
        preflow32 g4 initState f1 = Outcome.returned v1 → v3 = v1 :=
  ⟨by decide, by decide, by decide,
    (C3_phase_barrier_equals_sequential g4 2 (by decide) (by decide) (by decide) (by decide)
      (by decide) (by decide) (by decide)).2⟩

/-- C14 as stated fails in 32-bit arithmetic. On `gOv` exact arithmetic makes
both programs return `1`. In 32-bit arithmetic sequential.c stops in
`assert(d >= 0)` when node `1` pushes back to the source (`c + f` is
`4000000000`), so it returns no value with any budget; lab2's `available` is
negative on that edge, and its one worker relabels node `1` in every pass: it
has not left `work` after `40` passes, and lab2 returns no value with any
budget. -/
theorem C14_counterexample_large_capacity :
    (InRange gOv ∧ PositiveCaps gOv ∧ NoSelfLoops gOv ∧ NoParallel gOv) ∧
      preflow2 gOv initState 40 = Outcome.returned 1 ∧
      preflow gOv initState 40 = Outcome.returned 1 ∧
      preflow32 gOv initState 6 = Outcome.aborted ∧
      (∀ fuel val, preflow32 gOv initState fuel ≠ Outcome.returned val) ∧
      preflow2_32 gOv initState 40 = Outcome.timeout ∧
      (∀ fuel val, preflow2_32 gOv initState fuel ≠ Outcome.returned val) :=
  ⟨by decide, by decide, by decide, by decide, preflow32_aborted_never (k := 6) (by decide),
    by decide, preflow2_32_gOv_never⟩

/-- C14, amended: with one worker, in 32-bit arithmetic, for every graph with
endpoints in range, positive capacities and no self-loops or parallel edges,
with twice the number of nodes and twice the sum of the capacities at most
`INT_MAX`, lab2's `preflow` terminates and returns the same value as the
`preflow` of sequential.c: some budget makes both return one value, and any
two returning runs agree. -/
theorem C14_lock_ordered_single_worker_equals_sequential (g : Graph) (hr : InRange g)
    (hc : PositiveCaps g) (hl : NoSelfLoops g) (hp : NoParallel g)
    (hn : 2 * (g.n : Int) ≤ 2147483647) (hF : 2 * capSum g ≤ 2147483647) :
    (∃ fuel val, preflow2_32 g initState fuel = Outcome.returned val ∧
      preflow32 g initState fuel = Outcome.returned val) ∧
    ∀ f2 f1 v2 v1, preflow2_32 g initState f2 = Outcome.returned v2 →
      preflow32 g initState f1 = Outcome.returned v1 → v2 = v1 := by
  have e2 := preflow2_32_eq hr hc hl hp ⟨hn, hF⟩
  have e1 := preflow32_eq_all hr hc hl ⟨hn, hF⟩
  obtain ⟨fuel, val, h2, h1⟩ := preflow2_eq_sequential hr hc hl hp
  refine ⟨⟨fuel, val, by rw [e2]; exact h2, by rw [e1]; exact h1⟩, ?_⟩
  intro f2 f1 v2 v1 k2 k1
  rw [e2] at k2
  rw [e1] at k1
  rw [preflow2_det k2 h2, preflow_det k1 h1]

/-- C14, witness: the scenario graph with four nodes; both programs return
`4` in 32-bit arithmetic. -/
theorem C14_witness_four_nodes :
    (InRange g4 ∧ PositiveCaps g4 ∧ NoSelfLoops g4 ∧ NoParallel g4 ∧
      2 * (g4.n : Int) ≤ 2147483647 ∧ 2 * capSum g4 ≤ 2147483647) ∧
      preflow2_32 g4 initState 40 = Outcome.returned 4 ∧
      preflow32 g4 initState 40 = Outcome.returned 4 ∧
      ∀ f2 f1 v2 v1, preflow2_32 g4 initState f2 = Outcome.returned v2 →
        preflow32 g4 initState f1 = Outcome.returned v1 → v2 = v1 :=
  ⟨by decide, by decide, by decide,
    (C14_lock_ordered_single_worker_equals_sequential g4 (by decide) (by decide) (by decide)
      (by decide) (by decide) (by decide)).2⟩

theorem wideRound2_reach : RoundReach_32 gWide 1 10 wideRound2 :=
  roundReach_32_roundsN 2 RoundReach_32.seeded rfl

/-- C19 as stated fails in 32-bit arithmetic. On `gWide` with one worker the
second apply phase adds `2000000000` twice to the excess of node `3`, which
stores `-294967296`; node `3` is then the member of partition `0` although
its excess is not positive, and after the third round `fin` is set and
`preflow` returns with that excess left at node `3`. -/
theorem C19_counterexample_excess_wraps :
    (1 ≤ 1 ∧ InRange gWide ∧ PositiveCaps gWide ∧ NoSelfLoops gWide ∧ NoParallel gWide) ∧
    (∃ st, RoundReach_32 gWide 1 10 st ∧ st.active 0 = some 3 ∧ st.e 3 = -294967296 ∧
      ¬ ∃ L : Nat → List Nat,
        (∀ i, i < 1 → IsList st.next (st.active i) (L i) ∧ (L i).Nodup) ∧
        (∀ i j x, i < 1 → j < 1 → x ∈ L i → x ∈ L j → i = j) ∧
        (∀ x, (∃ i, i < 1 ∧ x ∈ L i) ↔ (x ≠ gWide.s ∧ x ≠ gWide.t ∧ 0 < st.e x))) ∧
    (∃ st, preflow3_state_32 gWide 1 initPState 10 = Outcome.returned st ∧
      3 ≠ gWide.s ∧ 3 ≠ gWide.t ∧ st.e 3 = -294967296) := by
  refine ⟨by decide, ⟨wideRound2, wideRound2_reach, rfl, by decide, ?_⟩,
    ⟨wideRound3, rfl, by decide, by decide, by decide⟩⟩
  rintro ⟨L, hL, _, hmem⟩
  have hl := (hL 0 (by decide)).1
  cases hL0 : L 0 with
  | nil =>
    rw [hL0] at hl
    exact absurd hl (show wideRound2.active 0 ≠ none by decide)
  | cons a l =>
    rw [hL0] at hl
    have ha : a = 3 :=
      Option.some.inj (hl.1.symm.trans (show wideRound2.active 0 = some 3 from rfl))
    have := ((hmem 3).mp ⟨0, by decide, by rw [hL0, ha]; exact List.mem_cons_self _ _⟩).2.2
    exact absurd this (by decide)

/-- C19, amended: in the round model of lab3 in 32-bit arithmetic, for every
`thr ≥ 1` and every graph with endpoints in range, positive capacities and no
self-loops or parallel edges, with twice the number of nodes and twice the sum
of the capacities at most `INT_MAX`: after seeding and after every apply phase
each partition `g->active[i]`, `i < thr`, is a finite list without repetition
(so without a cycle), no node is in two partitions, and the nodes in the
partitions are exactly the nodes other than source and sink with `e > 0`; the
coordinator leaves an apply phase with `fin` set exactly when no node other
than source and sink has `e > 0`; `preflow` returns, and when it does every
node other than source and sink has `e = 0`. -/
theorem C19_partitions_hold_active_nodes (g : Graph) (thr : Nat) (ht : 1 ≤ thr)
    (hr : InRange g) (hc : PositiveCaps g) (hl : NoSelfLoops g) (hp : NoParallel g)
    (hn : 2 * (g.n : Int) ≤ 2147483647) (hF : 2 * capSum g ≤ 2147483647) :
    (∀ fuel st, RoundReach_32 g thr fuel st →
      ∃ L : Nat → List Nat,
        (∀ i, i < thr → IsList st.next (st.active i) (L i) ∧ (L i).Nodup) ∧
        (∀ i j x, i < thr → j < thr → x ∈ L i → x ∈ L j → i = j) ∧
        (∀ x, (∃ i, i < thr ∧ x ∈ L i) ↔ (x ≠ g.s ∧ x ≠ g.t ∧ 0 < st.e x))) ∧
    (∀ fuel st st1, RoundReach_32 g thr fuel st → st.fin = false →
      compute_workers_32 g fuel (List.range thr) st = some st1 →
      ((apply_phase_32 g thr st1).fin = true ↔
        ∀ x, x ≠ g.s → x ≠ g.t → ¬ 0 < (apply_phase_32 g thr st1).e x)) ∧
    (∃ fuel st, preflow3_state_32 g thr initPState fuel = Outcome.returned st) ∧
    (∀ fuel st, preflow3_state_32 g thr initPState fuel = Outcome.returned st →
      ∀ x, x ≠ g.s → x ≠ g.t → st.e x = 0) := by
  have hFI : FitsInt g := ⟨hn, hF⟩
  have e3 := preflow3_state_32_eq ht hr hc hl hp hFI
  obtain ⟨⟨fuel0, st0, h0⟩, hfinal⟩ := preflow3_state_final ht hr hc hl hp
  refine ⟨?_, ?_, ⟨fuel0, st0, by rw [e3]; exact h0⟩, ?_⟩
  · intro fuel st h
    exact (roundReach_parts ht hr hc hl hp (roundReach_32_exact ht hr hc hl hp hFI h)).1
  · intro fuel st st1 h hf hcw
    have hreach := roundReach_32_exact ht hr hc hl hp hFI h
    obtain ⟨k1, k2⟩ := round_32_ok hFI ht (roundReach_ok ht hr hc hl hp hFI hreach) hf fuel
    rw [k1] at hcw
    rw [(k2 st1 hcw).1, roundReach_fin_iff ht hr hc hl hp hreach hf hcw]
    unfold Active
    constructor
    · intro h1 x hxs hxt hpos; exact h1 x ⟨hxs, hxt, hpos⟩
    · intro h1 x hx; exact h1 x hx.1 hx.2.1 hx.2.2
  · intro fuel st h
    rw [e3] at h
    exact hfinal fuel st h

/-- C19, witness: the scenario graph with four nodes and two workers. -/
theorem C19_witness_four_nodes_two_workers :
    (1 ≤ 2 ∧ InRange g4 ∧ PositiveCaps g4 ∧ NoSelfLoops g4 ∧ NoParallel g4 ∧
      2 * (g4.n : Int) ≤ 2147483647 ∧ 2 * capSum g4 ≤ 2147483647) ∧
    (∀ fuel st, RoundReach_32 g4 2 fuel st →
      ∃ L : Nat → List Nat,
        (∀ i, i < 2 → IsList st.next (st.active i) (L i) ∧ (L i).Nodup) ∧
        (∀ i j x, i < 2 → j < 2 → x ∈ L i → x ∈ L j → i = j) ∧
        (∀ x, (∃ i, i < 2 ∧ x ∈ L i) ↔ (x ≠ g4.s ∧ x ≠ g4.t ∧ 0 < st.e x))) ∧
    (∃ fuel st, preflow3_state_32 g4 2 initPState fuel = Outcome.returned st) :=
  ⟨by decide,
    (C19_partitions_hold_active_nodes g4 2 (by decide) (by decide) (by decide) (by decide)
      (by decide) (by decide) (by decide)).1,
    (C19_partitions_hold_active_nodes g4 2 (by decide) (by decide) (by decide) (by decide)
      (by decide) (by decide) (by decide)).2.2.1⟩

end Preflow
